import Mathlib

/-!
# cat: hashmap, 64-bit digest, deque, priority queue, string search and array

A shallow embedding of `src/src/cat_hashmap.c` and of the parts of `src/src/cat_deque.c`,
`src/src/cat_pqueue.c`, `src/src/cat_string.c` and `src/src/cat_array.c` that the properties
below are about.

Conventions of the embedding.

* `size_t` and `uint64_t` are 64 bits wide (the code itself shifts a `size_t` by 32 in
  `roundup_pow2`); values are natural numbers and every wrapping operation is written with an
  explicit `% 2 ^ 64`.
* A byte buffer is a list of natural numbers, one per byte.  A pointer `s + k` into a buffer is
  the list `s.drop k`.  Multi-byte loads are little-endian.
* A chain of entries linked through `next` is a list, head first.  The bucket array is a list of
  chains.  The `NULL` bucket array that only exists inside `_hashmap_init` is the empty list.
* A key argument is `Option Bytes`: `none` is the `NULL` pointer.
* The allocator (either the stored `alloc_fn` or `malloc`) is an oracle given to every call that
  allocates: `alloc n = true` when a request for `n` bytes is granted in that call.
* A `double` is IEEE binary64 with round to nearest, ties to even; the only doubles that occur
  are converted `size_t` values and their quotient in the load test.
-/

namespace Cat

/-- A byte buffer. -/
abbrev Bytes := List Nat

/-! ## Machine arithmetic -/

/-- The largest `size_t`. -/
def SIZE_MAX : Nat := 2 ^ 64 - 1

/-- Truncation to 64 bits. -/
def u64 (x : Nat) : Nat := x % 2 ^ 64

/-- Truncation to 32 bits. -/
def u32 (x : Nat) : Nat := x % 2 ^ 32

/-- Wrapping 64-bit subtraction `a - b`. -/
def sub64 (a b : Nat) : Nat := (a % 2 ^ 64 + (2 ^ 64 - b % 2 ^ 64)) % 2 ^ 64

/-- The byte `p[i]`, as an unsigned value; bytes past the end of the buffer read as zero. -/
def byteAt (p : Bytes) (i : Nat) : Nat := (p.getD i 0) % 256

/-! ## The digests -/

/-- Load of 8 bytes at `p` (`fetch64`, lines 707-711). -/
def fetch64 (p : Bytes) : Nat :=
  byteAt p 0 + byteAt p 1 * 2 ^ 8 + byteAt p 2 * 2 ^ 16 + byteAt p 3 * 2 ^ 24
    + byteAt p 4 * 2 ^ 32 + byteAt p 5 * 2 ^ 40 + byteAt p 6 * 2 ^ 48 + byteAt p 7 * 2 ^ 56

/-- Load of 4 bytes at `p` (`fetch32`, lines 713-717). -/
def fetch32 (p : Bytes) : Nat :=
  byteAt p 0 + byteAt p 1 * 2 ^ 8 + byteAt p 2 * 2 ^ 16 + byteAt p 3 * 2 ^ 24

/-- Constant `k0` (line 719). -/
def k0 : Nat := 0xc3a5c85c97cb3127

/-- Constant `k1` (line 720). -/
def k1 : Nat := 0xb492b66fbe98f273

/-- Constant `k2` (line 721). -/
def k2 : Nat := 0x9ae16a3b2f90404f

/-- Constant `k3` (line 722). -/
def k3 : Nat := 0xc949d7c7509e6557

/-- Function `hash128to64` (lines 724-733); the pair is `(first, second)`. -/
def hash128to64 (x : Nat × Nat) : Nat :=
  let kmul : Nat := 0x9ddfea08eb382d69
  let a := u64 ((x.1 ^^^ x.2) * kmul)
  let a := a ^^^ (a >>> 47)
  let b := u64 ((x.2 ^^^ a) * kmul)
  let b := b ^^^ (b >>> 47)
  u64 (b * kmul)

/-- Function `rotate` (lines 735-738). -/
def rotate (val shift : Nat) : Nat :=
  if shift = 0 then val else (val >>> shift) ||| u64 (val <<< (64 - shift))

/-- Function `rotate1` (lines 740-743). -/
def rotate1 (val shift : Nat) : Nat :=
  (val >>> shift) ||| u64 (val <<< (64 - shift))

/-- Function `shiftmix` (lines 745-748). -/
def shiftmix (val : Nat) : Nat := val ^^^ (val >>> 47)

/-- Function `hashlen16` (lines 750-756). -/
def hashlen16 (u v : Nat) : Nat := hash128to64 (u, v)

/-- Function `hashlen0to16` (lines 758-778). -/
def hashlen0to16 (s : Bytes) (len : Nat) : Nat :=
  if len > 8 then
    let a := fetch64 s
    let b := fetch64 (s.drop (len - 8))
    (hashlen16 a (rotate1 (u64 (b + len)) len)) ^^^ b
  else if len ≥ 4 then
    let a := fetch32 s
    hashlen16 (u64 (len + (a <<< 3))) (fetch32 (s.drop (len - 4)))
  else if len > 0 then
    let a := byteAt s 0
    let b := byteAt s (len >>> 1)
    let c := byteAt s (len - 1)
    let y := u32 (a + (b <<< 8))
    let z := u32 (len + (c <<< 2))
    u64 (shiftmix (u64 (y * k2) ^^^ u64 (z * k3)) * k2)
  else k2

/-- Function `hashlen17to32` (lines 780-788). -/
def hashlen17to32 (s : Bytes) (len : Nat) : Nat :=
  let a := u64 (fetch64 s * k1)
  let b := fetch64 (s.drop 8)
  let c := u64 (fetch64 (s.drop (len - 8)) * k2)
  let d := u64 (fetch64 (s.drop (len - 16)) * k0)
  hashlen16 (u64 (rotate (sub64 a b) 43 + rotate c 30 + d))
    (u64 (sub64 (a + rotate (b ^^^ k3) 20) c + len))

/-- Function `weakhashlen32withseeds6` (lines 790-804). -/
def weakhashlen32withseeds6 (w x y z a b : Nat) : Nat × Nat :=
  let a := u64 (a + w)
  let b := rotate (u64 (b + a + z)) 21
  let c := a
  let a := u64 (a + x)
  let a := u64 (a + y)
  let b := u64 (b + rotate a 44)
  (u64 (a + z), u64 (b + c))

/-- Function `weakhashlen32withseeds` (lines 806-810). -/
def weakhashlen32withseeds (s : Bytes) (a b : Nat) : Nat × Nat :=
  weakhashlen32withseeds6 (fetch64 s) (fetch64 (s.drop 8)) (fetch64 (s.drop 16))
    (fetch64 (s.drop 24)) a b

/-- Function `hashlen33to64` (lines 812-834). -/
def hashlen33to64 (s : Bytes) (len : Nat) : Nat :=
  let z := fetch64 (s.drop 24)
  let a := u64 (fetch64 s + u64 (len + fetch64 (s.drop (len - 16))) * k0)
  let b := rotate (u64 (a + z)) 52
  let c := rotate a 37
  let a := u64 (a + fetch64 (s.drop 8))
  let c := u64 (c + rotate a 7)
  let a := u64 (a + fetch64 (s.drop 16))
  let vf := u64 (a + z)
  let vs := u64 (b + rotate a 31 + c)
  let a := u64 (fetch64 (s.drop 16) + fetch64 (s.drop (len - 32)))
  let z := fetch64 (s.drop (len - 8))
  let b := rotate (u64 (a + z)) 52
  let c := rotate a 37
  let a := u64 (a + fetch64 (s.drop (len - 24)))
  let c := u64 (c + rotate a 7)
  let a := u64 (a + fetch64 (s.drop (len - 16)))
  let wf := u64 (a + z)
  let ws := u64 (b + rotate a 31 + c)
  let r := shiftmix (u64 (u64 (vf + ws) * k2 + u64 (wf + vs) * k0))
  u64 (shiftmix (u64 (r * k0 + vs)) * k2)

/-- The registers of the block loop of `cityhash64`. -/
structure city_state where
  x : Nat
  y : Nat
  z : Nat
  v : Nat × Nat
  w : Nat × Nat
deriving DecidableEq, Repr

/-- One pass through the body of the `do ... while` loop (lines 857-867), on the block at `s`. -/
def cityhash64_body (s : Bytes) (st : city_state) : city_state :=
  let x := u64 (rotate (u64 (st.x + st.y + st.v.1 + fetch64 (s.drop 8))) 37 * k1)
  let y := u64 (rotate (u64 (st.y + st.v.2 + fetch64 (s.drop 48))) 42 * k1)
  let x := x ^^^ st.w.2
  let y := u64 (y + st.v.1 + fetch64 (s.drop 40))
  let z := u64 (rotate (u64 (st.z + st.w.1)) 33 * k1)
  let v := weakhashlen32withseeds s (u64 (st.v.2 * k1)) (u64 (x + st.w.1))
  let w := weakhashlen32withseeds (s.drop 32) (u64 (z + st.w.2)) (u64 (y + fetch64 (s.drop 16)))
  { x := z, y := y, z := x, v := v, w := w }

/-- The `do ... while (len != 0)` loop (lines 856-870).  The first argument bounds the number of
passes; the result is `none` when the bound is used up before `len` reaches zero. -/
def cityhash64_loop : Nat → Bytes → Nat → city_state → Option city_state
  | 0, _, _, _ => none
  | fuel + 1, s, len, st =>
    let st := cityhash64_body s st
    let s := s.drop 64
    let len := sub64 len 64
    if len ≠ 0 then cityhash64_loop fuel s len st else some st

/-- Function `cityhash64` (lines 836-873) with an explicit bound on the passes of its loop. -/
def cityhash64_fuel (fuel : Nat) (s : Bytes) (len : Nat) : Option Nat :=
  if len ≤ 32 then
    if len ≤ 16 then some (hashlen0to16 s len) else some (hashlen17to32 s len)
  else if len ≤ 64 then some (hashlen33to64 s len)
  else
    let x := fetch64 (s.drop (len - 40))
    let y := u64 (fetch64 (s.drop (len - 16)) + fetch64 (s.drop (len - 56)))
    let z := hashlen16 (u64 (fetch64 (s.drop (len - 48)) + len)) (fetch64 (s.drop (len - 24)))
    let v := weakhashlen32withseeds (s.drop (len - 64)) len z
    let w := weakhashlen32withseeds (s.drop (len - 32)) (u64 (y + k1)) x
    let x := u64 (x * k1 + fetch64 s)
    let len := (sub64 len 1) &&& (2 ^ 64 - 64)
    match cityhash64_loop fuel s len { x := x, y := y, z := z, v := v, w := w } with
    | none => none
    | some st =>
      some (hashlen16 (u64 (hashlen16 st.v.1 st.w.1 + u64 (shiftmix st.y * k1) + st.z))
        (u64 (hashlen16 st.v.2 st.w.2 + st.x)))

/-- Function `cityhash64` (lines 836-873).  The loop is given `len` passes, more than it ever
takes; the digest of a run that used them all up is reported as `0`. -/
def cityhash64 (s : Bytes) (len : Nat) : Nat :=
  (cityhash64_fuel len s len).getD 0

/-- The value of the plain `char` at `*s` converted to `uint64_t`, where `char` is signed (as on
x86-64): bytes from `0x80` on are sign-extended. -/
def char_to_u64 (b : Nat) : Nat :=
  if b % 256 < 128 then b % 256 else 2 ^ 64 - 256 + b % 256

/-- Function `djb2hash64` (lines 686-692): the loop `while (len--)` over the bytes at `s`. -/
def djb2hash64_loop : Nat → Bytes → Nat → Nat
  | 0, _, hash => hash
  | len + 1, s, hash =>
    djb2hash64_loop len (s.drop 1) (u64 (u64 (u64 (hash <<< 5) + hash) + char_to_u64 (s.getD 0 0)))

/-- Function `djb2hash64` (lines 686-692). -/
def djb2hash64 (s : Bytes) (len : Nat) : Nat := djb2hash64_loop len s 5381

/-! ## Status codes -/

/-- Modelled from the spec: the header `cat_error.h` that declares `stat_t` is not among the
sources.  The constructors are the status names the sources use; `COMPLETE` is the only one that
tests as false in `if (...)`. -/
inductive stat_t where
  | COMPLETE
  | ERR_MEMORY_ALLOCATION
  | ERR_INVALID_OPERATION
  | ERR_CAPACITY_OVERFLOW
  | ERR_INDEX_OUT_OF_RANGE
deriving DecidableEq, Repr

/-! ## The hashmap data model -/

/-- Constant `HASHMAP_MIN_CAPACITY` (line 30). -/
def HASHMAP_MIN_CAPACITY : Nat := 8

/-- Constant `HASHMAP_MAX_CAPACITY` (line 31). -/
def HASHMAP_MAX_CAPACITY : Nat := SIZE_MAX / 2 + 1

/-- The size in bytes of one bucket slot, `sizeof(hashmap_entry_t)`. -/
def sizeof_entry_ptr : Nat := 8

/-- The size in bytes of `hashmap_entry_s` (four 8-byte fields). -/
def sizeof_entry : Nat := 32

/-- The size in bytes of `hashmap_s` (nine 8-byte fields). -/
def sizeof_hashmap : Nat := 72

/-- Struct `hashmap_entry_s` (lines 33-38); `next` is the tail of the chain the entry sits in. -/
structure hashmap_entry_s where
  hash : Nat
  key : Option Bytes
  elem : Bytes
deriving DecidableEq, Repr

/-- A chain of entries, head first. -/
abbrev chain_t := List hashmap_entry_s

/-- Struct `hashmap_s` (lines 40-51).  The allocator pair is the oracle passed to the calls. -/
structure hashmap_s where
  entries : List chain_t
  size : Nat
  capacity : Nat
  elem_size : Nat
  key_len : Nat
  hash_fn : Option (Bytes → Nat)
  cmp_fn : Option (Bytes → Bytes → Int)

/-- The `n` bytes that `memcpy(dst, src, n)` copies out of `src`. -/
def memcpy (src : Bytes) (n : Nat) : Bytes := src.take n

/-- The sign of `memcmp(a, b, n)`. -/
def memcmp : Bytes → Bytes → Nat → Int
  | _, _, 0 => 0
  | a, b, n + 1 =>
    if a.headD 0 < b.headD 0 then -1
    else if b.headD 0 < a.headD 0 then 1
    else memcmp a.tail b.tail n

/-- The chain at `entries[i]`. -/
def bucket (entries : List chain_t) (i : Nat) : chain_t := entries.getD i []

/-- The `size_t` value `capacity - 1`. -/
def mask (capacity : Nat) : Nat := sub64 capacity 1

/-- Function `hashmap_size` (lines 75-78). -/
def hashmap_size (ht : hashmap_s) : Nat := ht.size

/-- Function `hashmap_capacity` (lines 86-89). -/
def hashmap_capacity (ht : hashmap_s) : Nat := ht.capacity

/-- The number of low bits that the conversion of `n` to `double` rounds away: the least `e`,
from the start value on, with `n < 2 ^ (53 + e)`.  The first argument bounds the search; 11
steps are enough for a `size_t`. -/
def double_exp : Nat → Nat → Nat → Nat
  | 0, _, e => e
  | fuel + 1, n, e => if n < 2 ^ (53 + e) then e else double_exp fuel n (e + 1)

/-- The value of `(double)n` for a `size_t` value `n`: `n` rounded to 53 significant bits, to
nearest, ties to even.  With `e = double_exp 11 n 0` the doubles around `n` are the multiples of
`2 ^ e`; `q` is the multiple below `n` and `r` the distance from it.  The result is an integer
again; below `2 ^ 53` it is `n` itself. -/
def to_double (n : Nat) : Nat :=
  let e := double_exp 11 n 0
  let q := n / 2 ^ e
  let r := n % 2 ^ e
  if 2 ^ e < 2 * r ∨ (2 * r = 2 ^ e ∧ q % 2 = 1) then (q + 1) * 2 ^ e else q * 2 ^ e

/-- The test `hashmap_load(ht) >= HASHMAP_LOAD_THRESHOLD` (lines 97-100 and 442) in IEEE double
arithmetic: `(double)size / capacity` is the quotient of the two converted values, rounded to
nearest.  The rounded quotient is at least `0.75` exactly when the quotient itself is at least
`0.75 - 2 ^ -54`, the midpoint between `0.75` and the double below it (the mantissa of `0.75` is
even, so the midpoint rounds to `0.75`).  For capacity zero the quotient is NaN when the size is
zero (the test fails) and infinite otherwise (the test holds). -/
def hashmap_load_ge_threshold (ht : hashmap_s) : Bool :=
  if ht.capacity = 0 then decide (0 < ht.size)
  else decide ((3 * 2 ^ 52 - 1) * to_double ht.capacity ≤ 2 ^ 54 * to_double ht.size)

/-- Function `hashmap_is_empty` (lines 108-111). -/
def hashmap_is_empty (ht : hashmap_s) : Bool := ht.size == 0

/-- Function `hashmap_hash` (lines 426-430). -/
def hashmap_hash (ht : hashmap_s) (key : Bytes) : Nat :=
  match ht.hash_fn with
  | some f => u64 (f key)
  | none => cityhash64 key ht.key_len

/-- The comparison `match == 0` of the chain scans (lines 134-137, 457-460, 500-503, 545-548). -/
def key_match (ht : hashmap_s) (entry_key key : Bytes) : Bool :=
  (match ht.cmp_fn with
   | some f => f entry_key key
   | none => memcmp entry_key key ht.key_len) == 0

/-- The test a chain scan applies to an entry: for a `NULL` argument `!entry->key`, otherwise
`entry->key` and `match == 0`. -/
def entry_hit (ht : hashmap_s) (key : Option Bytes) (entry : hashmap_entry_s) : Bool :=
  match key, entry.key with
  | none, none => true
  | none, some _ => false
  | some _, none => false
  | some k, some ek => key_match ht ek k

/-- The bucket index a call scans: `0` for a `NULL` key, otherwise `hash & (capacity - 1)`. -/
def scan_index (ht : hashmap_s) (key : Option Bytes) : Nat :=
  match key with
  | none => 0
  | some k => hashmap_hash ht k &&& mask ht.capacity

/-- The scan `while (entry) { if (hit) return entry; entry = entry->next; }`. -/
def chain_find (hit : hashmap_entry_s → Bool) : chain_t → Option hashmap_entry_s
  | [] => none
  | entry :: next => if hit entry then some entry else chain_find hit next

/-- The scan of `hashmap_assign` and `null_entry_assign`: the first entry that is hit gets
`memcpy(entry->elem, val, elem_size)`; `none` when no entry is hit. -/
def chain_assign (hit : hashmap_entry_s → Bool) (val : Bytes) (elem_size : Nat) :
    chain_t → Option chain_t
  | [] => none
  | entry :: next =>
    if hit entry then some ({ entry with elem := memcpy val elem_size } :: next)
    else (chain_assign hit val elem_size next).map (fun c => entry :: c)

/-- The scan of `hashmap_remove` and `null_entry_remove`: the first entry that is hit is unlinked
(`prev->next = entry->next` or `entries[i] = entry->next`) and returned with the chain that is
left; `none` when no entry is hit. -/
def chain_remove (hit : hashmap_entry_s → Bool) : chain_t → Option (hashmap_entry_s × chain_t)
  | [] => none
  | entry :: next =>
    if hit entry then some (entry, next)
    else (chain_remove hit next).map (fun r => (r.1, entry :: r.2))

/-- Function `hashmap_contains_key` (lines 120-143). -/
def hashmap_contains_key (ht : hashmap_s) (key : Option Bytes) : Nat :=
  match chain_find (entry_hit ht key) (bucket ht.entries (scan_index ht key)) with
  | some _ => 1
  | none => 0

/-- The inner loop of `hashmap_rehash` (lines 204-210): the chain is walked from its head and
every entry is pushed on the front of `entries[entry->hash & (capacity - 1)]`. -/
def rehash_chain (capacity : Nat) : chain_t → List chain_t → List chain_t
  | [], entries => entries
  | entry :: next, entries =>
    let j := entry.hash &&& mask capacity
    rehash_chain capacity next (entries.set j (entry :: bucket entries j))

/-- Function `hashmap_rehash` (lines 200-212). -/
def hashmap_rehash (ht : hashmap_s) (entries : List chain_t) (capacity : Nat) : List chain_t :=
  (List.range ht.capacity).foldl
    (fun acc i => rehash_chain capacity (bucket ht.entries i) acc) entries

/-- Function `hashmap_alloc` (lines 175-191).  A granted bucket array has `capacity` slots.
That is what the code gets as long as the byte size `capacity * 8` does not wrap, that is for
`capacity < 2 ^ 61`; from `2 ^ 61` on the request wraps and the array of the code is smaller than
the one here. -/
def hashmap_alloc (alloc : Nat → Bool) (ht : hashmap_s) (capacity : Nat) : stat_t × hashmap_s :=
  if alloc (u64 (capacity * sizeof_entry_ptr)) = false then (stat_t.ERR_MEMORY_ALLOCATION, ht)
  else
    let entries : List chain_t := List.replicate capacity []
    let entries := if ht.entries.isEmpty then entries else hashmap_rehash ht entries capacity
    (stat_t.COMPLETE, { ht with entries := entries })

/-- Function `roundup_pow2` (lines 673-684). -/
def roundup_pow2 (n : Nat) : Nat :=
  let n := sub64 n 1
  let n := n ||| (n >>> 1)
  let n := n ||| (n >>> 2)
  let n := n ||| (n >>> 4)
  let n := n ||| (n >>> 8)
  let n := n ||| (n >>> 16)
  let n := n ||| (n >>> 32)
  u64 (n + 1)

/-- Function `_hashmap_init` (lines 226-256); `none` is the `NULL` result.  An `elem_size` of
zero divides by zero in the source; here the quotient is zero. -/
def _hashmap_init (alloc : Nat → Bool) (capacity key_len elem_size : Nat)
    (hash_fn : Option (Bytes → Nat)) (cmp_fn : Option (Bytes → Bytes → Int)) :
    Option hashmap_s :=
  if capacity > SIZE_MAX / elem_size then none
  else if alloc sizeof_hashmap = false then none
  else
    let ht : hashmap_s :=
      { entries := []
        size := 0
        capacity := if capacity ≤ HASHMAP_MIN_CAPACITY then HASHMAP_MIN_CAPACITY
                    else roundup_pow2 capacity
        elem_size := elem_size
        key_len := key_len
        hash_fn := hash_fn
        cmp_fn := cmp_fn }
    let r := hashmap_alloc alloc ht ht.capacity
    if r.1 ≠ stat_t.COMPLETE then none else some r.2

/-- The growth step shared by `hashmap_reserve` (lines 271-273) and `hashmap_assign` (lines
445-447): `if (hashmap_alloc(ht, new)) return ERR_MEMORY_ALLOCATION; ht->capacity = new;`. -/
def hashmap_grow (alloc : Nat → Bool) (ht : hashmap_s) (new : Nat) : stat_t × hashmap_s :=
  let r := hashmap_alloc alloc ht new
  if r.1 ≠ stat_t.COMPLETE then (stat_t.ERR_MEMORY_ALLOCATION, r.2)
  else (stat_t.COMPLETE, { r.2 with capacity := new })

/-- Function `hashmap_reserve` (lines 265-275). -/
def hashmap_reserve (alloc : Nat → Bool) (ht : hashmap_s) (capacity : Nat) :
    stat_t × hashmap_s :=
  if capacity ≤ ht.capacity ∨ capacity ≥ HASHMAP_MAX_CAPACITY >>> 1 then
    (stat_t.ERR_INVALID_OPERATION, ht)
  else hashmap_grow alloc ht (roundup_pow2 capacity)

/-- Function `entry_alloc` (lines 284-307): whether the three requests are all granted. -/
def entry_alloc (alloc : Nat → Bool) (ht : hashmap_s) : Bool :=
  alloc sizeof_entry && alloc ht.key_len && alloc ht.elem_size

/-- Function `null_entry_alloc` (lines 316-334): whether the two requests are both granted. -/
def null_entry_alloc (alloc : Nat → Bool) (ht : hashmap_s) : Bool :=
  alloc sizeof_entry && alloc ht.elem_size

/-- Function `null_entry_assign` (lines 343-363). -/
def null_entry_assign (alloc : Nat → Bool) (ht : hashmap_s) (val : Bytes) : stat_t × hashmap_s :=
  match chain_assign (entry_hit ht none) val ht.elem_size (bucket ht.entries 0) with
  | some c => (stat_t.COMPLETE, { ht with entries := ht.entries.set 0 c })
  | none =>
    if null_entry_alloc alloc ht = false then (stat_t.ERR_MEMORY_ALLOCATION, ht)
    else
      let null_entry : hashmap_entry_s :=
        { hash := 0, key := none, elem := memcpy val ht.elem_size }
      (stat_t.COMPLETE,
        { ht with
          entries := ht.entries.set 0 (null_entry :: bucket ht.entries 0)
          size := u64 (ht.size + 1) })

/-- The part of `hashmap_assign` after the growth step (lines 449-478). -/
def hashmap_assign_entry (alloc : Nat → Bool) (ht : hashmap_s) (key : Option Bytes)
    (val : Bytes) : stat_t × hashmap_s :=
  match key with
  | none => null_entry_assign alloc ht val
  | some k =>
    let hash := hashmap_hash ht k
    let i := hash &&& mask ht.capacity
    match chain_assign (entry_hit ht (some k)) val ht.elem_size (bucket ht.entries i) with
    | some c => (stat_t.COMPLETE, { ht with entries := ht.entries.set i c })
    | none =>
      if entry_alloc alloc ht = false then (stat_t.ERR_MEMORY_ALLOCATION, ht)
      else
        let new_entry : hashmap_entry_s :=
          { hash := hash, key := some (memcpy k ht.key_len), elem := memcpy val ht.elem_size }
        (stat_t.COMPLETE,
          { ht with
            entries := ht.entries.set i (new_entry :: bucket ht.entries i)
            size := u64 (ht.size + 1) })

/-- Function `hashmap_assign` (lines 440-479). -/
def hashmap_assign (alloc : Nat → Bool) (ht : hashmap_s) (key : Option Bytes) (val : Bytes) :
    stat_t × hashmap_s :=
  if hashmap_load_ge_threshold ht then
    if u64 (ht.capacity <<< 1) ≥ HASHMAP_MAX_CAPACITY then (stat_t.ERR_CAPACITY_OVERFLOW, ht)
    else
      let r := hashmap_grow alloc ht (u64 (ht.capacity <<< 1))
      if r.1 ≠ stat_t.COMPLETE then r
      else hashmap_assign_entry alloc r.2 key val
  else hashmap_assign_entry alloc ht key val

/-- Functions `hashmap_remove` (lines 489-525) and `null_entry_remove` (lines 372-397).  The
second component is the map after the call; the third holds the `elem_size` bytes copied to
`ret_val` (when `ret_val` is not `NULL`). -/
def hashmap_remove (ht : hashmap_s) (key : Option Bytes) : stat_t × hashmap_s × Option Bytes :=
  let i := scan_index ht key
  match chain_remove (entry_hit ht key) (bucket ht.entries i) with
  | some (entry, c) =>
    (stat_t.COMPLETE,
      { ht with entries := ht.entries.set i c, size := sub64 ht.size 1 },
      some (memcpy entry.elem ht.elem_size))
  | none => (stat_t.ERR_INVALID_OPERATION, ht, none)

/-- Functions `hashmap_query` (lines 535-556) and `null_entry_query` (lines 406-417).  The second
component holds the `elem_size` bytes copied to `ret_val`. -/
def hashmap_query (ht : hashmap_s) (key : Option Bytes) : stat_t × Option Bytes :=
  match chain_find (entry_hit ht key) (bucket ht.entries (scan_index ht key)) with
  | some entry => (stat_t.COMPLETE, some (memcpy entry.elem ht.elem_size))
  | none => (stat_t.ERR_INVALID_OPERATION, none)

/-- Function `hashmap_clear` (lines 628-648). -/
def hashmap_clear (ht : hashmap_s) : hashmap_s :=
  { ht with
    entries := (List.range ht.capacity).foldl (fun acc i => acc.set i []) ht.entries
    size := 0 }

/-- The comparison `match == 0` of `hashmap_contains_val` (lines 158-161): the map's comparison
function on the stored value and `val`, or `memcmp` over `elem_size` bytes. -/
def val_match (ht : hashmap_s) (entry_elem val : Bytes) : Bool :=
  (match ht.cmp_fn with
   | some f => f entry_elem val
   | none => memcmp entry_elem val ht.elem_size) == 0

/-- The inner loop of `hashmap_contains_val` (lines 157-163) over one chain. -/
def contains_val_chain (ht : hashmap_s) (val : Bytes) : chain_t → Nat → Nat
  | [], count => count
  | entry :: next, count =>
    contains_val_chain ht val next
      (if val_match ht entry.elem val then u64 (count + 1) else count)

/-- Function `hashmap_contains_val` (lines 152-166). -/
def hashmap_contains_val (ht : hashmap_s) (val : Bytes) : Nat :=
  (List.range ht.capacity).foldl
    (fun count i => contains_val_chain ht val (bucket ht.entries i) count) 0

/-- The inner loop of `hashmap_copy` (lines 578-584) over one chain of the source; `none` once
a call of `hashmap_assign` has reported an error (the copy is torn down and the function
returns). -/
def copy_chain (alloc : Nat → Bool) : chain_t → Option hashmap_s → Option hashmap_s
  | [], dst => dst
  | _ :: _, none => none
  | entry :: next, some dst =>
    if (hashmap_assign alloc dst entry.key entry.elem).1 ≠ stat_t.COMPLETE then none
    else copy_chain alloc next (some (hashmap_assign alloc dst entry.key entry.elem).2)

/-- Function `hashmap_copy` (lines 565-587); the second component is `*dst` after a successful
call. -/
def hashmap_copy (alloc : Nat → Bool) (src : hashmap_s) : stat_t × Option hashmap_s :=
  match _hashmap_init alloc src.capacity src.key_len src.elem_size src.hash_fn src.cmp_fn with
  | none => (stat_t.ERR_MEMORY_ALLOCATION, none)
  | some dst =>
    match (List.range src.capacity).foldl
      (fun acc i => copy_chain alloc (bucket src.entries i) acc) (some dst) with
    | none => (stat_t.ERR_MEMORY_ALLOCATION, none)
    | some dst => (stat_t.COMPLETE, some dst)

/-- The inner loop of `hashmap_key_map` (lines 598-601) over one chain: `fn(entry->key)` for
every entry from the head on.  The function `fn` is taken by its effect on a state outside the
map; its argument is `none` for the entry without a key. -/
def key_map_chain {σ : Type} (fn : σ → Option Bytes → σ) : chain_t → σ → σ
  | [], s => s
  | entry :: next, s => key_map_chain fn next (fn s entry.key)

/-- Function `hashmap_key_map` (lines 595-604). -/
def hashmap_key_map {σ : Type} (ht : hashmap_s) (fn : σ → Option Bytes → σ) (s : σ) : σ :=
  (List.range ht.capacity).foldl (fun s i => key_map_chain fn (bucket ht.entries i) s) s

/-- The inner loop of `hashmap_val_map` (lines 615-618) over one chain: `fn(entry->elem)` for
every entry from the head on. -/
def val_map_chain {σ : Type} (fn : σ → Bytes → σ) : chain_t → σ → σ
  | [], s => s
  | entry :: next, s => val_map_chain fn next (fn s entry.elem)

/-- Function `hashmap_val_map` (lines 612-621). -/
def hashmap_val_map {σ : Type} (ht : hashmap_s) (fn : σ → Bytes → σ) (s : σ) : σ :=
  (List.range ht.capacity).foldl (fun s i => val_map_chain fn (bucket ht.entries i) s) s


/-! ## The deque (`src/src/cat_deque.c`)

The buffer `deq->deque` is a list of slots, one per element; slot `i` stands for the
`elem_size` bytes at `deque_shift(deq, i)`.  A buffer obtained for `capacity` elements has
`capacity` slots.  The bytes of a slot that was never written are indeterminate in the source;
here such a slot holds the empty buffer.  The `NULL` buffer is `none`. -/

/-- Constant `DEQUE_EXP_FACTOR` (line 29). -/
def DEQUE_EXP_FACTOR : Nat := 2

/-- Constant `DEQUE_DEFAULT_CAPACITY` (line 30). -/
def DEQUE_DEFAULT_CAPACITY : Nat := 8

/-- The size in bytes of `deque_s` (eight 8-byte fields). -/
def sizeof_deque : Nat := 64

/-- Struct `deque_s` (lines 34-44).  The allocator pair is the oracle passed to the calls. -/
structure deque_s where
  front : Nat
  rear : Nat
  size : Nat
  capacity : Nat
  elem_size : Nat
  deque : Option (List Bytes)
deriving DecidableEq, Repr

/-- The element at `deque_shift(deq, i)` (line 32). -/
def deque_shift (deq : deque_s) (i : Nat) : Bytes := (deq.deque.getD []).getD i []

/-- The buffer after `memcpy(deque_shift(deq, i), elem, deq->elem_size)`. -/
def deque_store (deq : deque_s) (i : Nat) (elem : Bytes) : Option (List Bytes) :=
  deq.deque.map (fun buffer => buffer.set i (memcpy elem deq.elem_size))

/-- Function `deque_size` (lines 54-57). -/
def deque_size (deq : deque_s) : Nat := deq.size

/-- Function `deque_capacity` (lines 65-68). -/
def deque_capacity (deq : deque_s) : Nat := deq.capacity

/-- Function `deque_is_empty` (lines 76-79). -/
def deque_is_empty (deq : deque_s) : Bool := deq.size == 0

/-- Function `deque_is_full` (lines 87-90). -/
def deque_is_full (deq : deque_s) : Bool := decide (deq.size ≥ deq.capacity)

/-- The copy loop of `deque_alloc` (lines 132-137): the first argument is the number of passes
left (`deq->size - i`), then `i`, `j` and the new buffer. -/
def deque_alloc_loop (deq : deque_s) : Nat → Nat → Nat → List Bytes → List Bytes
  | 0, _, _, buffer => buffer
  | n + 1, i, j, buffer =>
    deque_alloc_loop deq n (i + 1) (if j = sub64 deq.capacity 1 then 0 else j + 1)
      (buffer.set i (memcpy (deque_shift deq j) deq.elem_size))

/-- Function `deque_alloc` (lines 122-144). -/
def deque_alloc (alloc : Nat → Bool) (deq : deque_s) (capacity : Nat) : stat_t × deque_s :=
  if alloc (u64 (capacity * deq.elem_size)) = false then (stat_t.ERR_MEMORY_ALLOCATION, deq)
  else
    let buffer : List Bytes := List.replicate capacity []
    let buffer :=
      if deq.deque.isSome then deque_alloc_loop deq deq.size 0 deq.front buffer else buffer
    (stat_t.COMPLETE, { deq with deque := some buffer, front := 0, rear := deq.size })

/-- Function `_deque_init` (lines 155-180); `none` is the `NULL` result.  An `elem_size` of
zero divides by zero in the source; here the quotient is zero. -/
def _deque_init (alloc : Nat → Bool) (capacity elem_size : Nat) : Option deque_s :=
  if capacity ≥ SIZE_MAX / elem_size then none
  else if alloc sizeof_deque = false then none
  else
    let deq : deque_s :=
      { front := 0
        rear := 0
        size := 0
        capacity := if capacity ≠ 0 then capacity else DEQUE_DEFAULT_CAPACITY
        elem_size := elem_size
        deque := none }
    let r := deque_alloc alloc deq capacity
    if r.1 ≠ stat_t.COMPLETE then none else some r.2

/-- Function `deque_reserve` (lines 189-199). -/
def deque_reserve (alloc : Nat → Bool) (deq : deque_s) (capacity : Nat) : stat_t × deque_s :=
  if capacity ≤ deq.capacity ∨ capacity ≥ SIZE_MAX / deq.elem_size then
    (stat_t.ERR_INVALID_OPERATION, deq)
  else
    let r := deque_alloc alloc deq capacity
    if r.1 ≠ stat_t.COMPLETE then (stat_t.ERR_MEMORY_ALLOCATION, r.2)
    else (stat_t.COMPLETE, { r.2 with capacity := capacity })

/-- Function `deque_shrink_to_fit` (lines 207-216). -/
def deque_shrink_to_fit (alloc : Nat → Bool) (deq : deque_s) : stat_t × deque_s :=
  if deq.size = 0 then (stat_t.ERR_INVALID_OPERATION, deq)
  else if deq.capacity = deq.size then (stat_t.COMPLETE, deq)
  else
    let r := deque_alloc alloc deq deq.size
    if r.1 ≠ stat_t.COMPLETE then (stat_t.ERR_MEMORY_ALLOCATION, r.2)
    else (stat_t.COMPLETE, { r.2 with capacity := r.2.size })

/-- The growth step shared by `deque_push_front` (lines 227-233) and `deque_push_back` (lines
251-257): nothing happens while `size < capacity`; otherwise the guard, the call of
`deque_alloc` and `deq->capacity *= DEQUE_EXP_FACTOR`. -/
def deque_grow (alloc : Nat → Bool) (deq : deque_s) : stat_t × deque_s :=
  if deq.size ≥ deq.capacity then
    if deq.capacity ≥ SIZE_MAX / deq.elem_size / DEQUE_EXP_FACTOR then
      (stat_t.ERR_CAPACITY_OVERFLOW, deq)
    else
      let r := deque_alloc alloc deq (u64 (deq.capacity * DEQUE_EXP_FACTOR))
      if r.1 ≠ stat_t.COMPLETE then (stat_t.ERR_MEMORY_ALLOCATION, r.2)
      else (stat_t.COMPLETE, { r.2 with capacity := u64 (r.2.capacity * DEQUE_EXP_FACTOR) })
  else (stat_t.COMPLETE, deq)

/-- Function `deque_push_front` (lines 225-240). -/
def deque_push_front (alloc : Nat → Bool) (deq : deque_s) (elem : Bytes) : stat_t × deque_s :=
  let r := deque_grow alloc deq
  if r.1 ≠ stat_t.COMPLETE then r
  else
    let front := if r.2.front = 0 then sub64 r.2.capacity 1 else r.2.front - 1
    (stat_t.COMPLETE,
      { r.2 with
        front := front
        deque := deque_store r.2 front elem
        size := u64 (r.2.size + 1) })

/-- Function `deque_push_back` (lines 249-264). -/
def deque_push_back (alloc : Nat → Bool) (deq : deque_s) (elem : Bytes) : stat_t × deque_s :=
  let r := deque_grow alloc deq
  if r.1 ≠ stat_t.COMPLETE then r
  else
    (stat_t.COMPLETE,
      { r.2 with
        deque := deque_store r.2 r.2.rear elem
        rear := if r.2.rear = sub64 r.2.capacity 1 then 0 else u64 (r.2.rear + 1)
        size := u64 (r.2.size + 1) })

/-- Function `deque_pop_front` (lines 273-283).  The third component holds the `elem_size`
bytes copied to `ret_elem` (when `ret_elem` is not `NULL`). -/
def deque_pop_front (deq : deque_s) : stat_t × deque_s × Option Bytes :=
  if deq.size = 0 then (stat_t.ERR_INVALID_OPERATION, deq, none)
  else
    (stat_t.COMPLETE,
      { deq with
        front := if deq.front = sub64 deq.capacity 1 then 0 else u64 (deq.front + 1)
        size := sub64 deq.size 1 },
      some (memcpy (deque_shift deq deq.front) deq.elem_size))

/-- Function `deque_pop_back` (lines 292-302).  The third component holds the `elem_size`
bytes copied to `ret_elem` (when `ret_elem` is not `NULL`). -/
def deque_pop_back (deq : deque_s) : stat_t × deque_s × Option Bytes :=
  if deq.size = 0 then (stat_t.ERR_INVALID_OPERATION, deq, none)
  else
    let rear := if deq.rear = 0 then sub64 deq.capacity 1 else deq.rear - 1
    (stat_t.COMPLETE,
      { deq with rear := rear, size := sub64 deq.size 1 },
      some (memcpy (deque_shift deq rear) deq.elem_size))

/-- Function `deque_get` (lines 346-353).  The second component holds the `elem_size` bytes
copied to `ret_elem`.  A capacity of zero divides by zero in the source; here the remainder is
the dividend. -/
def deque_get (deq : deque_s) (i : Nat) : stat_t × Option Bytes :=
  if i ≥ deq.size then (stat_t.ERR_INDEX_OUT_OF_RANGE, none)
  else
    let j := u64 (deq.front + i) % deq.capacity
    (stat_t.COMPLETE, some (memcpy (deque_shift deq j) deq.elem_size))

/-- Function `deque_set` (lines 363-370). -/
def deque_set (deq : deque_s) (elem : Bytes) (i : Nat) : stat_t × deque_s :=
  if i ≥ deq.size then (stat_t.ERR_INDEX_OUT_OF_RANGE, deq)
  else
    let j := u64 (deq.front + i) % deq.capacity
    (stat_t.COMPLETE, { deq with deque := deque_store deq j elem })

/-- Function `deque_copy` (lines 406-428); the second component is `*dst` after a successful
call.  The final `memcpy` overwrites the first `src->capacity` slots of the new buffer with
those of the source buffer. -/
def deque_copy (alloc : Nat → Bool) (src : deque_s) : stat_t × Option deque_s :=
  if alloc sizeof_deque = false then (stat_t.ERR_MEMORY_ALLOCATION, none)
  else
    let dst : deque_s :=
      { front := src.front
        rear := src.rear
        size := src.size
        capacity := src.capacity
        elem_size := src.elem_size
        deque := none }
    let r := deque_alloc alloc dst src.capacity
    if r.1 ≠ stat_t.COMPLETE then (stat_t.ERR_MEMORY_ALLOCATION, none)
    else
      (stat_t.COMPLETE,
        some { r.2 with
          deque := r.2.deque.map (fun buffer =>
            (src.deque.getD []).take src.capacity ++ buffer.drop src.capacity) })

/-- Function `deque_clear` (lines 462-466). -/
def deque_clear (deq : deque_s) : deque_s := { deq with front := 0, rear := 0, size := 0 }


/-! ## The priority queue (`src/src/cat_pqueue.c`)

The buffer `pq->heap` is a list of slots, one per element, as for the deque; a buffer obtained
for `capacity` elements has `capacity` slots.  The queue asks for one slot more than its
capacity: the slot at index `capacity` is the scratch element of the swaps. -/

/-- Constant `PQUEUE_EXP_FACTOR` (line 29). -/
def PQUEUE_EXP_FACTOR : Nat := 2

/-- The size in bytes of `pqueue_s` (seven 8-byte fields). -/
def sizeof_pqueue : Nat := 56

/-- Struct `pqueue_s` (lines 36-45).  The field `default_alloc` records the test
`alloc == malloc && dealloc == free` of `pqueue_alloc`; the allocator itself is the oracle
passed to the calls. -/
structure pqueue_s where
  size : Nat
  capacity : Nat
  elem_size : Nat
  heap : Option (List Bytes)
  cmp_fn : Bytes → Bytes → Int
  default_alloc : Bool

/-- The element at `pqueue_shift(pq, i)` (line 31). -/
def pqueue_shift (pq : pqueue_s) (i : Nat) : Bytes := (pq.heap.getD []).getD i []

/-- The queue after `memcpy(pqueue_shift(pq, i), elem, pq->elem_size)`. -/
def pqueue_store (pq : pqueue_s) (i : Nat) (elem : Bytes) : pqueue_s :=
  { pq with heap := pq.heap.map (fun buffer => buffer.set i (memcpy elem pq.elem_size)) }

/-- Macro `parent` (line 32). -/
def parent (i : Nat) : Nat := sub64 i 1 / 2

/-- Macro `lchild` (line 33). -/
def lchild (i : Nat) : Nat := u64 (2 * i + 1)

/-- Macro `rchild` (line 34). -/
def rchild (i : Nat) : Nat := u64 (2 * i + 2)

/-- Function `pqueue_size` (lines 58-61). -/
def pqueue_size (pq : pqueue_s) : Nat := pq.size

/-- Function `pqueue_capacity` (lines 69-72). -/
def pqueue_capacity (pq : pqueue_s) : Nat := pq.capacity

/-- Function `pqueue_is_empty` (lines 80-83). -/
def pqueue_is_empty (pq : pqueue_s) : Bool := pq.size == 0

/-- Function `pqueue_alloc` (lines 120-144).  With the default allocator the old buffer is
resized by `realloc`, which keeps its slots; otherwise the first `size` slots are copied into
the new buffer. -/
def pqueue_alloc (alloc : Nat → Bool) (pq : pqueue_s) (capacity : Nat) : stat_t × pqueue_s :=
  if alloc (u64 (capacity * pq.elem_size)) = false then (stat_t.ERR_MEMORY_ALLOCATION, pq)
  else
    match pq.heap with
    | some old =>
      if pq.default_alloc then
        (stat_t.COMPLETE,
          { pq with
            heap := some (old.take capacity ++ List.replicate (capacity - old.length) []) })
      else
        (stat_t.COMPLETE,
          { pq with
            heap := some (old.take pq.size ++ List.replicate (capacity - pq.size) []) })
    | none => (stat_t.COMPLETE, { pq with heap := some (List.replicate capacity []) })

/-- Function `_pqueue_init` (lines 156-182); `none` is the `NULL` result.  An `elem_size` of
zero divides by zero in the source; here the quotient is zero. -/
def _pqueue_init (alloc : Nat → Bool) (capacity elem_size : Nat)
    (cmp_fn : Bytes → Bytes → Int) (default_alloc : Bool) : Option pqueue_s :=
  if capacity > SIZE_MAX / elem_size then none
  else if alloc sizeof_pqueue = false then none
  else
    let pq : pqueue_s :=
      { size := 0
        capacity := capacity
        elem_size := elem_size
        heap := none
        cmp_fn := cmp_fn
        default_alloc := default_alloc }
    let r := pqueue_alloc alloc pq (u64 (capacity + 1))
    if r.1 ≠ stat_t.COMPLETE then none else some r.2

/-- The three copies that exchange two elements through the scratch slot (lines 242-250 and
268-276): `heap[capacity] = heap[a]; heap[a] = heap[b]; heap[b] = heap[capacity]`. -/
def pqueue_swap (pq : pqueue_s) (a b : Nat) : pqueue_s :=
  let pq := pqueue_store pq pq.capacity (pqueue_shift pq a)
  let pq := pqueue_store pq a (pqueue_shift pq b)
  pqueue_store pq b (pqueue_shift pq pq.capacity)

/-- The loop of `heapify_down` (lines 228-252).  The first argument bounds the number of passes;
the result is `none` when the bound is used up before the loop is left. -/
def heapify_down_loop : Nat → pqueue_s → Nat → Option pqueue_s
  | 0, _, _ => none
  | fuel + 1, pq, i =>
    let l := lchild i
    let r := rchild i
    let m := i
    let m :=
      if l < pq.size ∧ pq.cmp_fn (pqueue_shift pq l) (pqueue_shift pq m) < 0 then l else m
    let m :=
      if r < pq.size ∧ pq.cmp_fn (pqueue_shift pq r) (pqueue_shift pq m) < 0 then r else m
    if m = i then some pq else heapify_down_loop fuel (pqueue_swap pq m i) m

/-- Function `heapify_down` (lines 226-253).  The loop is given `size + 1` passes, more than it
ever takes on a queue whose size is below `2 ^ 63`. -/
def heapify_down (pq : pqueue_s) (i : Nat) : Option pqueue_s :=
  heapify_down_loop (pq.size + 1) pq i

/-- The loop of `heapify_up` (lines 263-278).  The first argument bounds the number of passes;
the result is `none` when the bound is used up before the loop is left. -/
def heapify_up_loop : Nat → pqueue_s → Nat → Option pqueue_s
  | 0, _, _ => none
  | fuel + 1, pq, i =>
    if i > 0 then
      let p := parent i
      if pq.cmp_fn (pqueue_shift pq i) (pqueue_shift pq p) ≥ 0 then some pq
      else heapify_up_loop fuel (pqueue_swap pq i p) p
    else some pq

/-- Function `heapify_up` (lines 261-279).  The loop is given `i + 1` passes, more than it ever
takes. -/
def heapify_up (pq : pqueue_s) (i : Nat) : Option pqueue_s :=
  heapify_up_loop (i + 1) pq i

/-- The growth step of `pqueue_push` (lines 290-296): nothing happens while `size < capacity`;
otherwise the guard, the call of `pqueue_alloc` and `pq->capacity *= PQUEUE_EXP_FACTOR`. -/
def pqueue_grow (alloc : Nat → Bool) (pq : pqueue_s) : stat_t × pqueue_s :=
  if pq.size ≥ pq.capacity then
    if pq.capacity ≥ (SIZE_MAX - 1) / pq.elem_size / PQUEUE_EXP_FACTOR then
      (stat_t.ERR_CAPACITY_OVERFLOW, pq)
    else
      let r := pqueue_alloc alloc pq (u64 (pq.capacity * PQUEUE_EXP_FACTOR + 1))
      if r.1 ≠ stat_t.COMPLETE then (stat_t.ERR_MEMORY_ALLOCATION, r.2)
      else (stat_t.COMPLETE, { r.2 with capacity := u64 (r.2.capacity * PQUEUE_EXP_FACTOR) })
  else (stat_t.COMPLETE, pq)

/-- Function `pqueue_push` (lines 288-303); `none` when a loop used up its bound. -/
def pqueue_push (alloc : Nat → Bool) (pq : pqueue_s) (elem : Bytes) :
    Option (stat_t × pqueue_s) :=
  let grown := pqueue_grow alloc pq
  if grown.1 ≠ stat_t.COMPLETE then some grown
  else
    let pq := pqueue_store grown.2 grown.2.size elem
    (heapify_up { pq with size := u64 (pq.size + 1) } pq.size).map
      (fun pq => (stat_t.COMPLETE, pq))

/-- Function `pqueue_pop` (lines 312-327); `none` when a loop used up its bound.  The third
component holds the `elem_size` bytes copied to `ret_elem` (when `ret_elem` is not `NULL`). -/
def pqueue_pop (pq : pqueue_s) : Option (stat_t × pqueue_s × Option Bytes) :=
  if pq.size = 0 then some (stat_t.ERR_INVALID_OPERATION, pq, none)
  else
    let ret_elem := memcpy (pqueue_shift pq 0) pq.elem_size
    let sifted : Option pqueue_s :=
      if pq.size > 1 then
        heapify_down (pqueue_store pq 0 (pqueue_shift pq (sub64 pq.size 1))) 0
      else some pq
    sifted.map (fun pq => (stat_t.COMPLETE, { pq with size := sub64 pq.size 1 }, some ret_elem))

/-- Function `pqueue_top` (lines 336-342).  The second component holds the `elem_size` bytes
copied to `elem`. -/
def pqueue_top (pq : pqueue_s) : stat_t × Option Bytes :=
  if pq.size = 0 then (stat_t.ERR_INVALID_OPERATION, none)
  else (stat_t.COMPLETE, some (memcpy (pqueue_shift pq 0) pq.elem_size))


/-! ## The string search (`src/src/cat_string.c`)

A C string is the list of its bytes up to the terminating zero byte; the byte at an index from
the length on reads as zero, which is the terminator at the length itself.  A pointer into
`str->str` that a search returns is its offset from `str->str`; `none` is `NULL`. -/

/-- The size in bytes of one `size_t`. -/
def sizeof_size_t : Nat := 8

/-- Struct `string_s` (lines 30-37): the bytes at `str`, and `len`.  The field `capacity` and
the allocator pair play no part in the searches. -/
structure string_s where
  str : Bytes
  len : Nat
deriving DecidableEq, Repr

/-- The byte `p[i]` of a C string. -/
def char_at (p : Bytes) (i : Nat) : Nat := p.getD i 0

/-- Function `strlen`: the number of bytes before the first zero byte. -/
def strlen : Bytes → Nat
  | [] => 0
  | c :: rest => if c = 0 then 0 else strlen rest + 1

/-- Function `string_custom` (lines 105-128), as far as the searches see it: the bytes of
`cstr` up to its terminator, and their number. -/
def string_custom (cstr : Bytes) : string_s :=
  { str := cstr.take (strlen cstr), len := strlen cstr }

/-- Function `string_length` (lines 48-51). -/
def string_length (str : string_s) : Nat := str.len

/-- The inner loop of `string_find` and the test after it (lines 210-214):
`while (*i && *j && *i == *j) i++, j++;` followed by `!*j`.  The arguments are the strings at
`i` and at `j`. -/
def string_find_at : Bytes → Bytes → Bool
  | [], j => char_at j 0 == 0
  | c :: i, j =>
    if c ≠ 0 ∧ char_at j 0 ≠ 0 ∧ c = char_at j 0 then string_find_at i (j.drop 1)
    else char_at j 0 == 0

/-- The outer loop of `string_find` (lines 209-216); the arguments are the string at `s`, the
offset of `s` from `str->str`, and the pattern. -/
def string_find_loop : Bytes → Nat → Bytes → Option Nat
  | [], _, _ => none
  | c :: s, k, cstr =>
    if c = 0 then none
    else if string_find_at (c :: s) cstr then some k
    else string_find_loop s (k + 1) cstr

/-- Function `string_find` (lines 204-218); the pattern `none` is the `NULL` pointer. -/
def string_find (str : string_s) (cstr : Option Bytes) : Option Nat :=
  match cstr with
  | none => some 0
  | some p => string_find_loop str.str 0 p

/-- The loop of `gen_lps` (lines 232-239).  The first argument bounds the number of passes; the
result is `none` when the bound is used up before the loop is left. -/
def gen_lps_loop : Nat → Bytes → Nat → Nat → Nat → List Nat → Option (List Nat)
  | 0, _, _, _, _, _ => none
  | fuel + 1, cstr, m, len, i, lps =>
    if i < m then
      if char_at cstr i = char_at cstr len then
        gen_lps_loop fuel cstr m (len + 1) (i + 1) (lps.set i (len + 1))
      else if len ≠ 0 then gen_lps_loop fuel cstr m (lps.getD (len - 1) 0) i lps
      else gen_lps_loop fuel cstr m len (i + 1) (lps.set i 0)
    else some lps

/-- Function `gen_lps` (lines 227-240).  The loop is given `2 * m + 1` passes. -/
def gen_lps (cstr : Bytes) (m : Nat) (lps : List Nat) : Option (List Nat) :=
  gen_lps_loop (2 * m + 1) cstr m 0 1 (lps.set 0 0)

/-- The loop of `string_kmp` (lines 260-272).  The first argument bounds the number of passes;
the outer `none` is the result when the bound is used up before the loop is left. -/
def string_kmp_loop :
    Nat → Bytes → Nat → Bytes → Nat → List Nat → Nat → Nat → Option (Option Nat)
  | 0, _, _, _, _, _, _, _ => none
  | fuel + 1, s, n, cstr, m, lps, i, j =>
    if i < n then
      let matched := decide (char_at s i = char_at cstr j)
      let i := if matched then i + 1 else i
      let j := if matched then j + 1 else j
      if j = m then some (some (i - j))
      else if i < n ∧ char_at s i ≠ char_at cstr j then
        if j ≠ 0 then string_kmp_loop fuel s n cstr m lps i (lps.getD (j - 1) 0)
        else string_kmp_loop fuel s n cstr m lps (i + 1) j
      else string_kmp_loop fuel s n cstr m lps i j
    else some none

/-- Function `string_kmp` (lines 249-275).  The outer `none` is the result when a loop used up
its bound (`2 * n + 1` passes for the search); the inner `none` is the `NULL` pointer.  The
fresh `lps` array holds zeros. -/
def string_kmp (alloc : Nat → Bool) (str : string_s) (cstr : Bytes) : Option (Option Nat) :=
  let n := string_length str
  let m := strlen cstr
  if n = 0 then some (some 0)
  else if alloc (u64 (m * sizeof_size_t)) = false then some none
  else
    match gen_lps cstr m (List.replicate m 0) with
    | none => none
    | some lps => string_kmp_loop (2 * n + 1) str.str n cstr m lps 0 0


/-! ## The array (`src/src/cat_array.c`)

The buffer `arr->array` is a list of slots, one per element, as for the deque; a buffer obtained
for `capacity` elements has `capacity` slots, and a store at an index that is not below the
number of slots lands outside the buffer. -/

/-- Constant `ARRAY_EXP_FACTOR` (line 29). -/
def ARRAY_EXP_FACTOR : Nat := 2

/-- The size in bytes of `array_s` (six 8-byte fields). -/
def sizeof_array : Nat := 48

/-- Struct `array_s` (lines 33-41).  The field `default_alloc` records the test
`alloc == malloc && dealloc == free` of `array_alloc`; the allocator itself is the oracle
passed to the calls. -/
structure array_s where
  size : Nat
  capacity : Nat
  elem_size : Nat
  array : Option (List Bytes)
  default_alloc : Bool
deriving DecidableEq, Repr

/-- The element at `array_shift(arr, i)` (line 31). -/
def array_shift (arr : array_s) (i : Nat) : Bytes := (arr.array.getD []).getD i []

/-- The buffer after `memcpy(array_shift(arr, i), elem, arr->elem_size)`. -/
def array_store (arr : array_s) (i : Nat) (elem : Bytes) : Option (List Bytes) :=
  arr.array.map (fun buffer => buffer.set i (memcpy elem arr.elem_size))

/-- Function `array_size` (lines 51-54). -/
def array_size (arr : array_s) : Nat := arr.size

/-- Function `array_capacity` (lines 62-65). -/
def array_capacity (arr : array_s) : Nat := arr.capacity

/-- Function `array_alloc` (lines 129-154).  With the default allocator the old buffer is
resized by `realloc`, which keeps its slots; otherwise the first `size` slots are copied into
the new buffer. -/
def array_alloc (alloc : Nat → Bool) (arr : array_s) (capacity : Nat) : stat_t × array_s :=
  if alloc (u64 (capacity * arr.elem_size)) = false then (stat_t.ERR_MEMORY_ALLOCATION, arr)
  else
    match arr.array with
    | some old =>
      if arr.default_alloc then
        (stat_t.COMPLETE,
          { arr with
            array := some (old.take capacity ++ List.replicate (capacity - old.length) []) })
      else
        (stat_t.COMPLETE,
          { arr with
            array := some ((old.take arr.size).take capacity
              ++ List.replicate (capacity - min arr.size old.length) []) })
    | none => (stat_t.COMPLETE, { arr with array := some (List.replicate capacity []) })

/-- Function `_array_init` (lines 165-188); `none` is the `NULL` result.  An `elem_size` of zero
divides by zero in the source; here the quotient is zero. -/
def _array_init (alloc : Nat → Bool) (capacity elem_size : Nat) (default_alloc : Bool) :
    Option array_s :=
  if capacity ≥ SIZE_MAX / elem_size then none
  else if alloc sizeof_array = false then none
  else
    let arr : array_s :=
      { size := 0
        capacity := capacity
        elem_size := elem_size
        array := none
        default_alloc := default_alloc }
    let r := array_alloc alloc arr capacity
    if r.1 ≠ stat_t.COMPLETE then none else some r.2

/-- The growth step shared by `array_push_back` (lines 235-241) and `array_insert` (lines
278-284): nothing happens while `size < capacity`; otherwise the guard, the call of
`array_alloc` and `arr->capacity *= ARRAY_EXP_FACTOR`. -/
def array_grow (alloc : Nat → Bool) (arr : array_s) : stat_t × array_s :=
  if arr.size ≥ arr.capacity then
    if arr.capacity ≥ SIZE_MAX / arr.elem_size / ARRAY_EXP_FACTOR then
      (stat_t.ERR_CAPACITY_OVERFLOW, arr)
    else
      let r := array_alloc alloc arr (u64 (arr.capacity * ARRAY_EXP_FACTOR))
      if r.1 ≠ stat_t.COMPLETE then (stat_t.ERR_MEMORY_ALLOCATION, r.2)
      else (stat_t.COMPLETE, { r.2 with capacity := u64 (r.2.capacity * ARRAY_EXP_FACTOR) })
  else (stat_t.COMPLETE, arr)

/-- Function `array_push_back` (lines 233-247). -/
def array_push_back (alloc : Nat → Bool) (arr : array_s) (elem : Bytes) : stat_t × array_s :=
  let r := array_grow alloc arr
  if r.1 ≠ stat_t.COMPLETE then r
  else
    (stat_t.COMPLETE,
      { r.2 with array := array_store r.2 r.2.size elem, size := u64 (r.2.size + 1) })

/-- The buffer after `memmove(array_shift(arr, dst), array_shift(arr, src), n * elem_size)`:
the slots `src, ..., src + n - 1` as they were before the call land in the slots
`dst, ..., dst + n - 1`. -/
def array_memmove (arr : array_s) (dst src n : Nat) : Option (List Bytes) :=
  arr.array.map (fun buffer =>
    (List.range n).foldl (fun acc k => acc.set (dst + k) (buffer.getD (src + k) [])) buffer)

/-- Function `array_insert` (lines 275-295). -/
def array_insert (alloc : Nat → Bool) (arr : array_s) (elem : Bytes) (i : Nat) :
    stat_t × array_s :=
  if i > arr.size then (stat_t.ERR_INDEX_OUT_OF_RANGE, arr)
  else
    let r := array_grow alloc arr
    if r.1 ≠ stat_t.COMPLETE then r
    else
      let moved : array_s :=
        if i < r.2.size then
          { r.2 with array := array_memmove r.2 (u64 (i + 1)) i (r.2.size - i) }
        else r.2
      (stat_t.COMPLETE,
        { moved with array := array_store moved i elem, size := u64 (moved.size + 1) })


/-! ## The bookkeeping of `cityhash64`: the blocks of the loop and the bytes that are read

The definitions below follow the control flow and the pointer arithmetic of
`src/src/cat_hashmap.c` (lines 707-873) and leave the mixing out.  A byte index is an offset
from the argument `s`; it is an integer, so that a read before the start of the buffer would
show as a negative index. -/

/-- The `do ... while (len != 0)` loop of `cityhash64` (lines 856-870) with its bookkeeping
only: for every pass, in order, the offset `s - s0` of the block the pass works on and the value
of `len` after `len -= 64`.  The first argument bounds the number of passes; the result is
`none` when the bound is used up before `len` reaches zero. -/
def cityhash64_blocks : Nat → Nat → Nat → Option (List (Nat × Nat))
  | 0, _, _ => none
  | fuel + 1, off, len =>
    let len := sub64 len 64
    if len ≠ 0 then (cityhash64_blocks fuel (off + 64) len).map (fun l => (off, len) :: l)
    else some [(off, len)]

/-- The value of `len` on entry to the loop of `cityhash64`: `(len - 1) & ~(size_t) (63)`
(line 855). -/
def cityhash64_counter (len : Nat) : Nat := (sub64 len 1) &&& (2 ^ 64 - 64)

/-- The byte indices read by `fetch64(s + off)` (lines 707-711): `memcpy` of 8 bytes. -/
def fetch64_reads (off : Int) : List Int := (List.range 8).map (fun (i : Nat) => off + (i : Int))

/-- The byte indices read by `fetch32(s + off)` (lines 713-717): `memcpy` of 4 bytes. -/
def fetch32_reads (off : Int) : List Int := (List.range 4).map (fun (i : Nat) => off + (i : Int))

/-- The byte indices read by `hashlen0to16(s, len)` (lines 758-778). -/
def hashlen0to16_reads (len : Nat) : List Int :=
  if len > 8 then fetch64_reads 0 ++ fetch64_reads ((len : Int) - 8)
  else if len ≥ 4 then fetch32_reads 0 ++ fetch32_reads ((len : Int) - 4)
  else if len > 0 then [0, ((len >>> 1 : Nat) : Int), (len : Int) - 1]
  else []

/-- The byte indices read by `hashlen17to32(s, len)` (lines 780-788). -/
def hashlen17to32_reads (len : Nat) : List Int :=
  fetch64_reads 0 ++ fetch64_reads 8 ++ fetch64_reads ((len : Int) - 8)
    ++ fetch64_reads ((len : Int) - 16)

/-- The byte indices read by `weakhashlen32withseeds(s + off, a, b)` (lines 806-810). -/
def weakhashlen32withseeds_reads (off : Int) : List Int :=
  fetch64_reads off ++ fetch64_reads (off + 8) ++ fetch64_reads (off + 16)
    ++ fetch64_reads (off + 24)

/-- The byte indices read by `hashlen33to64(s, len)` (lines 812-834). -/
def hashlen33to64_reads (len : Nat) : List Int :=
  fetch64_reads 24 ++ fetch64_reads 0 ++ fetch64_reads ((len : Int) - 16) ++ fetch64_reads 8
    ++ fetch64_reads 16 ++ fetch64_reads 16 ++ fetch64_reads ((len : Int) - 32)
    ++ fetch64_reads ((len : Int) - 8) ++ fetch64_reads ((len : Int) - 24)
    ++ fetch64_reads ((len : Int) - 16)

/-- The byte indices read by one pass through the body of the loop (lines 857-867) on the block
at `s + off`. -/
def cityhash64_body_reads (off : Int) : List Int :=
  fetch64_reads (off + 8) ++ fetch64_reads (off + 48) ++ fetch64_reads (off + 40)
    ++ weakhashlen32withseeds_reads off ++ weakhashlen32withseeds_reads (off + 32)
    ++ fetch64_reads (off + 16)

/-- The byte indices read by `cityhash64(s, len)` before its loop (lines 847-853). -/
def cityhash64_head_reads (len : Nat) : List Int :=
  fetch64_reads ((len : Int) - 40) ++ fetch64_reads ((len : Int) - 16)
    ++ fetch64_reads ((len : Int) - 56) ++ fetch64_reads ((len : Int) - 48)
    ++ fetch64_reads ((len : Int) - 24) ++ weakhashlen32withseeds_reads ((len : Int) - 64)
    ++ weakhashlen32withseeds_reads ((len : Int) - 32) ++ fetch64_reads 0

/-- The byte indices read by `cityhash64(s, len)` (lines 836-873), with an explicit bound on
the passes of its loop. -/
def cityhash64_reads_fuel (fuel len : Nat) : Option (List Int) :=
  if len ≤ 32 then
    if len ≤ 16 then some (hashlen0to16_reads len) else some (hashlen17to32_reads len)
  else if len ≤ 64 then some (hashlen33to64_reads len)
  else
    (cityhash64_blocks fuel 0 (cityhash64_counter len)).map
      (fun l => cityhash64_head_reads len
        ++ (l.map (fun b => cityhash64_body_reads (b.1 : Int))).flatten)

/-- The byte indices read by `cityhash64(s, len)`; the loop is given `len` passes, as in
`cityhash64`. -/
def cityhash64_reads (len : Nat) : List Int := (cityhash64_reads_fuel len len).getD []

/-- Every byte index of the list lies in `[0, len)`. -/
def reads_in_range (len : Nat) (l : List Int) : Prop := ∀ r, r ∈ l → 0 ≤ r ∧ r < (len : Int)

/-- The buffers `s` and `t` hold the same byte at every index of the list. -/
def reads_agree (s t : Bytes) (l : List Int) : Prop :=
  ∀ r, r ∈ l → byteAt s r.toNat = byteAt t r.toNat


/-! ## Predicates used by the proofs -/

/-- The bits of `x` are the bits of `m` smeared down over a window of width `w`. -/
def Smeared (m x w : Nat) : Prop :=
  ∀ i, x.testBit i = true ↔ ∃ d, d < w ∧ m.testBit (i + d) = true

/-- A key argument is well formed for `ht`: a present key is a buffer of `key_len` bytes. -/
def key_ok (ht : hashmap_s) (key : Option Bytes) : Prop :=
  ∀ k, key = some k → k.length = ht.key_len

/-- The cached hash an entry for `key` carries: the digest of a present key, `0` for `NULL`. -/
def key_hash (ht : hashmap_s) (key : Option Bytes) : Nat :=
  match key with
  | none => 0
  | some k => hashmap_hash ht k

/-- The entries of all chains, bucket by bucket. -/
def all_entries (ht : hashmap_s) : List hashmap_entry_s := ht.entries.flatten

/-- Whether some entry of the map carries `key`. -/
def has_key (ht : hashmap_s) (key : Option Bytes) : Prop :=
  ∃ e, e ∈ all_entries ht ∧ e.key = key

/-- The entries of `l` whose key is not `key`. -/
def drop_key (key : Option Bytes) (l : List hashmap_entry_s) : List hashmap_entry_s :=
  l.filter (fun e => decide (e.key ≠ key))

/-- Two maps agree on the parameters fixed at construction. -/
def same_params (a b : hashmap_s) : Prop :=
  a.key_len = b.key_len ∧ a.elem_size = b.elem_size ∧ a.hash_fn = b.hash_fn ∧
    a.cmp_fn = b.cmp_fn

/-- The entry that `hashmap_assign` and `null_entry_assign` link for `key` and `val`. -/
def new_entry_for (ht : hashmap_s) (key : Option Bytes) (val : Bytes) : hashmap_entry_s :=
  { hash := key_hash ht key
    key := key.map (fun k => memcpy k ht.key_len)
    elem := memcpy val ht.elem_size }

/-- Whether the allocations for a new entry for `key` are granted. -/
def entry_granted (alloc : Nat → Bool) (ht : hashmap_s) (key : Option Bytes) : Bool :=
  match key with
  | none => null_entry_alloc alloc ht
  | some _ => entry_alloc alloc ht

/-- The common shape of lines 449-478 and of `null_entry_assign`: scan the chain at
`scan_index`, overwrite on a hit, otherwise link a new entry at the head. -/
def assign_at (alloc : Nat → Bool) (ht : hashmap_s) (key : Option Bytes) (val : Bytes) :
    stat_t × hashmap_s :=
  match chain_assign (entry_hit ht key) val ht.elem_size (bucket ht.entries (scan_index ht key))
  with
  | some c => (stat_t.COMPLETE, { ht with entries := ht.entries.set (scan_index ht key) c })
  | none =>
    if entry_granted alloc ht key = false then (stat_t.ERR_MEMORY_ALLOCATION, ht)
    else
      (stat_t.COMPLETE,
        { ht with
          entries := ht.entries.set (scan_index ht key)
            (new_entry_for ht key val :: bucket ht.entries (scan_index ht key))
          size := u64 (ht.size + 1) })

/-- The shape invariant of a map: the capacity is a power of two between `8` and `2 ^ 62`, the
bucket array has `capacity` slots, `size` counts the entries and the load is at most `0.75`. -/
structure Inv (ht : hashmap_s) : Prop where
  cap : ∃ e, 3 ≤ e ∧ e ≤ 62 ∧ ht.capacity = 2 ^ e
  len : ht.entries.length = ht.capacity
  size : ht.size = (all_entries ht).length
  load : 4 * ht.size ≤ 3 * ht.capacity

/-- The key invariant of a map: every entry sits in the bucket its cached hash selects, the
cached hash is the digest of the key, stored keys have `key_len` bytes and no key occurs twice. -/
structure KeyInv (ht : hashmap_s) : Prop where
  place : ∀ i e, e ∈ bucket ht.entries i → e.hash &&& mask ht.capacity = i
  hash : ∀ e, e ∈ all_entries ht → e.hash = key_hash ht e.key
  klen : ∀ e, e ∈ all_entries ht → key_ok ht e.key
  nodup : ((all_entries ht).map (fun e => e.key)).Nodup

/-- The states a map goes through: it is created by a successful `_hashmap_init` (with a positive
element size and a requested capacity of at most `2 ^ 62`) and then used through
`hashmap_assign`, `hashmap_remove`, `hashmap_reserve` and `hashmap_clear` with well-formed keys.
The state after a call that reports an error is a state too. -/
inductive Reachable : hashmap_s → Prop where
  | init (alloc : Nat → Bool) (capacity key_len elem_size : Nat)
      (hash_fn : Option (Bytes → Nat)) (cmp_fn : Option (Bytes → Bytes → Int))
      (ht : hashmap_s) :
      capacity ≤ 2 ^ 62 → 0 < elem_size →
      _hashmap_init alloc capacity key_len elem_size hash_fn cmp_fn = some ht → Reachable ht
  | assign (alloc : Nat → Bool) (ht : hashmap_s) (key : Option Bytes) (val : Bytes) :
      Reachable ht → key_ok ht key → Reachable (hashmap_assign alloc ht key val).2
  | remove (ht : hashmap_s) (key : Option Bytes) :
      Reachable ht → key_ok ht key → Reachable (hashmap_remove ht key).2.1
  | reserve (alloc : Nat → Bool) (ht : hashmap_s) (capacity : Nat) :
      Reachable ht → Reachable (hashmap_reserve alloc ht capacity).2
  | clear (ht : hashmap_s) : Reachable ht → Reachable (hashmap_clear ht)

/-- The capacity `c` is the least value `8 * 2 ^ j` with `4 * (n - 1) < 3 * c`. -/
def least_capacity (n c : Nat) : Prop :=
  ∃ j, c = 8 * 2 ^ j ∧ 4 * (n - 1) < 3 * c ∧
    ∀ j2, 4 * (n - 1) < 3 * (8 * 2 ^ j2) → 8 * 2 ^ j ≤ 8 * 2 ^ j2

/-- Deciding `key_ok`. -/
instance key_ok_decidable (ht : hashmap_s) (key : Option Bytes) : Decidable (key_ok ht key) :=
  match key with
  | none => isTrue (fun _ h => nomatch h)
  | some k =>
    if h : k.length = ht.key_len then isTrue (fun _ h2 => (Option.some.inj h2) ▸ h)
    else isFalse (fun h2 => h (h2 k rfl))

/-- Deciding `has_key`. -/
instance has_key_decidable (ht : hashmap_s) (key : Option Bytes) : Decidable (has_key ht key) :=
  List.decidableBEx (fun (e : hashmap_entry_s) => e.key = key) (all_entries ht)

/-- One call of `hashmap_assign`: the allocator outcome of the call, the key and the value. -/
abbrev assign_call := (Nat → Bool) × Option Bytes × Bytes

/-- A run of `hashmap_assign` calls; `none` when one of the calls reports an error. -/
def assign_all (ht : hashmap_s) : List assign_call → Option hashmap_s
  | [] => some ht
  | c :: rest =>
    if (hashmap_assign c.1 ht c.2.1 c.2.2).1 = stat_t.COMPLETE then
      assign_all (hashmap_assign c.1 ht c.2.1 c.2.2).2 rest
    else none

/-- The calls `hashmap_copy` makes for a list of source entries: `hashmap_assign(*dst,
entry->key, entry->elem)`, all with the allocator outcome of the copy. -/
def copy_calls (alloc : Nat → Bool) (l : List hashmap_entry_s) : List assign_call :=
  l.map (fun e => (alloc, e.key, e.elem))

/-- The value passed by the most recent call of a run whose key is `key`. -/
def last_assigned (key : Option Bytes) : List assign_call → Option Bytes
  | [] => none
  | c :: rest =>
    match last_assigned key rest with
    | some w => some w
    | none => if c.2.1 = key then some c.2.2 else none

/-! ## Example data -/

/-- An allocator that grants every request. -/
def grant_all : Nat → Bool := fun _ => true

/-- An allocator that refuses every request. -/
def refuse_all : Nat → Bool := fun _ => false

/-- The four bytes of the `int` value `n` (little-endian, `n < 65536`). -/
def int_bytes (n : Nat) : Bytes := [n % 256, n / 256 % 256, 0, 0]

/-- The map `hashmap(int, int, 8)` of the tests, as a bare state. -/
def example_init : hashmap_s :=
  { entries := List.replicate 8 []
    size := 0
    capacity := 8
    elem_size := 4
    key_len := 4
    hash_fn := none
    cmp_fn := none }

/-- The calls `assign(i, 10 * i)` for `i = 0, ..., n - 1`, all allocations granted. -/
def example_calls (n : Nat) : List assign_call :=
  (List.range n).map (fun i => (grant_all, some (int_bytes i), int_bytes (10 * i)))

/-- The state after the first `n` calls of `example_calls` on `example_init`. -/
def example_map (n : Nat) : hashmap_s :=
  (assign_all example_init (example_calls n)).getD example_init

/-- The fresh map with the keys 1 and 2 both assigned the value 5. -/
def example_twins : hashmap_s :=
  (hashmap_assign grant_all
    (hashmap_assign grant_all example_init (some (int_bytes 1)) (int_bytes 5)).2
    (some (int_bytes 2)) (int_bytes 5)).2

/-- The copy that `hashmap_copy` makes of the map with eight entries. -/
def example_copy : hashmap_s :=
  (hashmap_copy grant_all (example_map 8)).2.getD example_init

/-- The digest the spec describes for `djb2hash64`: start from 5381 and apply
`hash := (hash * 33 + b) mod 2 ^ 64` for each of the first `len` bytes `b` in order, each byte
taken as its value `0..255`. -/
def djb2_by_spec (s : Bytes) (len : Nat) : Nat :=
  (s.take len).foldl (fun hash b => (hash * 33 + b % 256) % 2 ^ 64) 5381

/-- The map with the keys `0, ..., 4` and the entry without a key: size 6 at capacity 8. -/
def example_null : hashmap_s :=
  (hashmap_assign grant_all (example_map 5) none (int_bytes 7)).2

/-- A bare state with capacity `2 ^ 62` at load `0.75`, where doubling reaches the maximum. -/
def example_full : hashmap_s :=
  { entries := []
    size := 3 * 2 ^ 60
    capacity := 2 ^ 62
    elem_size := 4
    key_len := 4
    hash_fn := none
    cmp_fn := none }

/-- A bare state with capacity `2 ^ 62` and one entry less than load `0.75`. -/
def example_near_full : hashmap_s :=
  { entries := []
    size := 3 * 2 ^ 60 - 1
    capacity := 2 ^ 62
    elem_size := 4
    key_len := 4
    hash_fn := none
    cmp_fn := none }

/-- An allocator that never grants a request of `2 ^ 63` bytes or more: no object is larger
than `PTRDIFF_MAX` bytes. -/
def alloc_bounded (alloc : Nat → Bool) : Prop := ∀ n, alloc n = true → n < 2 ^ 63

/-- An allocator that grants exactly the requests below `2 ^ 63` bytes. -/
def grant_small : Nat → Bool := fun n => decide (n < 2 ^ 63)

/-- The deque `deque(int, 4)` after `push_back(1)`, `push_back(2)`. -/
def example_deque : deque_s :=
  (deque_push_back grant_all
    (deque_push_back grant_all ((_deque_init grant_all 4 4).getD
      { front := 0, rear := 0, size := 0, capacity := 0, elem_size := 0, deque := none })
      (int_bytes 1)).2 (int_bytes 2)).2

/-- The deque `example_deque` after `pop_front`: one element, `2`, at front index 1. -/
def example_deque_popped : deque_s := (deque_pop_front example_deque).2.1

/-- The deque `deque(int, 2)` with the allocator `grant_small`, before any push. -/
def example_ring_init : deque_s :=
  (_deque_init grant_small 2 4).getD
    { front := 0, rear := 0, size := 0, capacity := 0, elem_size := 0, deque := none }

/-- The deque `deque(int, 2)` after `push_back(1)`, `push_back(2)`, `pop_front`, `push_back(3)`
and `push_back(4)`: the fourth push finds the ring full with front index 1 and doubles the
capacity. -/
def example_ring : deque_s :=
  (deque_push_back grant_small
    (deque_push_back grant_small
      (deque_pop_front
        (deque_push_back grant_small
          (deque_push_back grant_small example_ring_init (int_bytes 1)).2
          (int_bytes 2)).2).2.1
      (int_bytes 3)).2
    (int_bytes 4)).2

/-- The bytes of an ASCII string. -/
def ascii (s : String) : Bytes := s.toList.map Char.toNat

/-! ## The deque as a sequence -/

/-- The logical contents of a deque, from the front: the elements at the ring positions
`(front + i) % capacity` for `i < size`. -/
def deque_contents (deq : deque_s) : List Bytes :=
  (List.range deq.size).map (fun i => deque_shift deq ((deq.front + i) % deq.capacity))

/-- The shape invariant of a deque: a positive capacity below `SIZE_MAX / elem_size` and below
`2 ^ 63`, a buffer of `capacity` slots of at most `elem_size` bytes each, `front < capacity`,
`size ≤ capacity` and `rear = (front + size) % capacity`. -/
structure DequeInv (deq : deque_s) : Prop where
  cap_pos : 0 < deq.capacity
  cap_lt : deq.capacity < SIZE_MAX / deq.elem_size
  cap63 : deq.capacity < 2 ^ 63
  buf : ∃ b, deq.deque = some b ∧ b.length = deq.capacity ∧ ∀ s, s ∈ b → s.length ≤ deq.elem_size
  front : deq.front < deq.capacity
  size : deq.size ≤ deq.capacity
  rear : deq.rear = (deq.front + deq.size) % deq.capacity

/-- The states of a deque that is created by a successful `_deque_init` with a requested
capacity of at least 1 and then used through `deque_push_back`, `deque_push_front`,
`deque_pop_front`, `deque_pop_back` and `deque_set` (and read through `deque_get`), with
allocators that never grant `2 ^ 63` bytes or more.  The state after a call that reports an
error is a state too. -/
inductive DequeReach : deque_s → Prop where
  | init (alloc : Nat → Bool) (capacity elem_size : Nat) (deq : deque_s) :
      alloc_bounded alloc → 1 ≤ capacity →
      _deque_init alloc capacity elem_size = some deq → DequeReach deq
  | push_back (alloc : Nat → Bool) (deq : deque_s) (elem : Bytes) :
      alloc_bounded alloc → DequeReach deq → DequeReach (deque_push_back alloc deq elem).2
  | push_front (alloc : Nat → Bool) (deq : deque_s) (elem : Bytes) :
      alloc_bounded alloc → DequeReach deq → DequeReach (deque_push_front alloc deq elem).2
  | pop_front (deq : deque_s) : DequeReach deq → DequeReach (deque_pop_front deq).2.1
  | pop_back (deq : deque_s) : DequeReach deq → DequeReach (deque_pop_back deq).2.1
  | set (deq : deque_s) (elem : Bytes) (i : Nat) :
      DequeReach deq → DequeReach (deque_set deq elem i).2

/-- The sequence of the spec: `push_back` appends. -/
def seq_push_back (l : List Bytes) (x : Bytes) : List Bytes := l ++ [x]

/-- The sequence of the spec: `push_front` prepends. -/
def seq_push_front (l : List Bytes) (x : Bytes) : List Bytes := x :: l

/-- The sequence of the spec: `pop_front` removes and returns the first element. -/
def seq_pop_front (l : List Bytes) : Option Bytes × List Bytes := (l.head?, l.tail)

/-- The sequence of the spec: `pop_back` removes and returns the last element. -/
def seq_pop_back (l : List Bytes) : Option Bytes × List Bytes := (l.getLast?, l.dropLast)

/-- The sequence of the spec: `get(i)` is the `i`-th element from the front. -/
def seq_get (l : List Bytes) (i : Nat) : Option Bytes := l.get? i

/-- The sequence of the spec: `set(i, x)` replaces the `i`-th element from the front. -/
def seq_set (l : List Bytes) (i : Nat) (x : Bytes) : List Bytes := l.set i x

/-! ## The priority queue as a heap -/

/-- The comparison function is a total preorder, in the way of a `qsort` comparator: the sign
of `cmp a b` is the opposite of the sign of `cmp b a`, and `cmp a b ≤ 0` is transitive. -/
structure cmp_total_preorder (cmp : Bytes → Bytes → Int) : Prop where
  anti : ∀ a b, cmp a b < 0 ↔ 0 < cmp b a
  trans : ∀ a b c, cmp a b ≤ 0 → cmp b c ≤ 0 → cmp a c ≤ 0

/-- The elements of a priority queue: the slots `0, ..., size - 1` of the heap. -/
def pqueue_contents (pq : pqueue_s) : List Bytes :=
  (List.range pq.size).map (pqueue_shift pq)

/-- The shape invariant of a priority queue: a positive capacity below `2 ^ 63`, a buffer of
`capacity + 1` slots of at most `elem_size` bytes each, and `size ≤ capacity`. -/
structure PQInv (pq : pqueue_s) : Prop where
  cap_pos : 0 < pq.capacity
  cap63 : pq.capacity < 2 ^ 63
  buf : ∃ b, pq.heap = some b ∧ b.length = pq.capacity + 1 ∧
    ∀ s, s ∈ b → s.length ≤ pq.elem_size
  size : pq.size ≤ pq.capacity

/-- The heap order on the first `n` slots: no element compares below its parent. -/
def HeapOrdered (pq : pqueue_s) (n : Nat) : Prop :=
  ∀ j, 0 < j → j < n →
    pq.cmp_fn (pqueue_shift pq ((j - 1) / 2)) (pqueue_shift pq j) ≤ 0

/-- The states of a priority queue that is created by a successful `_pqueue_init` with a
requested capacity of at least 1 and below `SIZE_MAX / elem_size` and a comparison function that
is a total preorder, and then used through `pqueue_push` and `pqueue_pop`, with allocators that
never grant `2 ^ 63` bytes or more.  The state after a call that reports an error is a state
too. -/
inductive PQReach : pqueue_s → Prop where
  | init (alloc : Nat → Bool) (capacity elem_size : Nat) (cmp_fn : Bytes → Bytes → Int)
      (default_alloc : Bool) (pq : pqueue_s) :
      alloc_bounded alloc → 1 ≤ capacity → capacity < SIZE_MAX / elem_size →
      cmp_total_preorder cmp_fn →
      _pqueue_init alloc capacity elem_size cmp_fn default_alloc = some pq → PQReach pq
  | push (alloc : Nat → Bool) (pq : pqueue_s) (elem : Bytes) (r : stat_t × pqueue_s) :
      alloc_bounded alloc → PQReach pq → pqueue_push alloc pq elem = some r → PQReach r.2
  | pop (pq : pqueue_s) (r : stat_t × pqueue_s × Option Bytes) :
      PQReach pq → pqueue_pop pq = some r → PQReach r.2.1

/-- One call of `pqueue_push`: the allocator outcome of the call and the element. -/
abbrev push_call := (Nat → Bool) × Bytes

/-- A run of `pqueue_push` calls; `none` when one of the calls does not return `COMPLETE`. -/
def pqueue_push_all (pq : pqueue_s) : List push_call → Option pqueue_s
  | [] => some pq
  | c :: rest =>
    match pqueue_push c.1 pq c.2 with
    | some (stat_t.COMPLETE, pq2) => pqueue_push_all pq2 rest
    | _ => none

/-- The loop `while (!pqueue_is_empty(pq)) pqueue_pop(pq, &v);` with the values it hands out,
in order.  The first argument bounds the number of passes; the result is `none` when the bound
is used up or a call does not return `COMPLETE`. -/
def pqueue_drain_loop : Nat → pqueue_s → Option (List Bytes)
  | 0, pq => if pqueue_is_empty pq then some [] else none
  | fuel + 1, pq =>
    if pqueue_is_empty pq then some []
    else
      match pqueue_pop pq with
      | some (stat_t.COMPLETE, pq2, some v) =>
        (pqueue_drain_loop fuel pq2).map (fun l => v :: l)
      | _ => none

/-- Popping until the queue is empty: the loop is given `size` passes. -/
def pqueue_drain (pq : pqueue_s) : Option (List Bytes) := pqueue_drain_loop pq.size pq

/-- The value of the `int` stored in the four bytes of an element (little-endian). -/
def int_value (a : Bytes) : Int :=
  (byteAt a 0 + byteAt a 1 * 2 ^ 8 + byteAt a 2 * 2 ^ 16 + byteAt a 3 * 2 ^ 24 : Nat)

/-- The comparison `int_cmp1` of the tests (`*(int*)a - *(int*)b`), on values whose difference
does not overflow. -/
def int_cmp1 (a b : Bytes) : Int := int_value a - int_value b

/-- The queue `pqueue(int, 3, int_cmp1)` of the tests, with the allocator `grant_small`. -/
def example_pq_init : pqueue_s :=
  (_pqueue_init grant_small 3 4 int_cmp1 true).getD
    { size := 0, capacity := 0, elem_size := 0, heap := none, cmp_fn := int_cmp1,
      default_alloc := true }

/-- The pushes `5, 3, 7, 1, 9` of the tests. -/
def example_pushes : List push_call :=
  [(grant_small, int_bytes 5), (grant_small, int_bytes 3), (grant_small, int_bytes 7),
    (grant_small, int_bytes 1), (grant_small, int_bytes 9)]

/-- The queue of the tests after the five pushes. -/
def example_pq : pqueue_s := (pqueue_push_all example_pq_init example_pushes).getD example_pq_init

/-- Two queue states that differ in the contents of the heap buffer only. -/
def pq_frame (a b : pqueue_s) : Prop :=
  a.size = b.size ∧ a.capacity = b.capacity ∧ a.elem_size = b.elem_size ∧
    a.cmp_fn = b.cmp_fn ∧ a.default_alloc = b.default_alloc

/-- The state of the loop of `heapify_up` at index `i` on the first `n` slots: the heap order
holds at every index but `i`, and the children of `i` are not below the parent of `i`. -/
def UpInv (pq : pqueue_s) (n i : Nat) : Prop :=
  (∀ j, 0 < j → j < n → j ≠ i →
      pq.cmp_fn (pqueue_shift pq ((j - 1) / 2)) (pqueue_shift pq j) ≤ 0) ∧
    (0 < i → ∀ j, 0 < j → j < n → (j - 1) / 2 = i →
      pq.cmp_fn (pqueue_shift pq ((i - 1) / 2)) (pqueue_shift pq j) ≤ 0)

/-- The state of the loop of `heapify_down` at index `i` on the first `n` slots: the heap order
holds at every index but the children of `i`, which are not below the parent of `i`. -/
def DownInv (pq : pqueue_s) (n i : Nat) : Prop :=
  (∀ j, 0 < j → j < n → (j - 1) / 2 ≠ i →
      pq.cmp_fn (pqueue_shift pq ((j - 1) / 2)) (pqueue_shift pq j) ≤ 0) ∧
    (0 < i → ∀ j, 0 < j → j < n → (j - 1) / 2 = i →
      pq.cmp_fn (pqueue_shift pq ((i - 1) / 2)) (pqueue_shift pq j) ≤ 0)

/-- The invariant of a priority queue: the shape invariant, the heap order on the elements, and
a comparison function that is a total preorder. -/
def PQGood (pq : pqueue_s) : Prop :=
  PQInv pq ∧ HeapOrdered pq pq.size ∧ cmp_total_preorder pq.cmp_fn


/-! ## Further predicates and example data -/

/-- The linking invariant of a map, which holds whatever the digest and the equality in use:
every entry sits in the bucket its cached hash selects, the cached hash is the digest of the key
(`0` for the entry without a key) and at most one entry has no key. -/
structure LinkInv (ht : hashmap_s) : Prop where
  place : ∀ i e, e ∈ bucket ht.entries i → e.hash &&& mask ht.capacity = i
  hash : ∀ e, e ∈ all_entries ht → e.hash = key_hash ht e.key
  null_once : (all_entries ht).countP (fun e => e.key.isNone) ≤ 1

/-- Every keyed entry of the map carries `cityhash64` of its key bytes as its cached hash, and it
is linked in the chain of the bucket `hash & (capacity - 1)` and in no other chain. -/
def HashLinked (ht : hashmap_s) : Prop :=
  ∀ e k, e ∈ all_entries ht → e.key = some k →
    e.hash = cityhash64 k ht.key_len ∧
      e ∈ bucket ht.entries (e.hash &&& (ht.capacity - 1)) ∧
      ∀ i, e ∈ bucket ht.entries i → i = e.hash &&& (ht.capacity - 1)

/-- The load bound `size / capacity ≤ 0.75`. -/
def load_bounded (ht : hashmap_s) : Prop := 4 * hashmap_size ht ≤ 3 * hashmap_capacity ht

/-- An allocator that grants the 72 bytes of the map itself and a request of zero bytes, and
refuses every other request. -/
def grant_wrapped : Nat → Bool := fun n => decide (n = 72 ∨ n = 0)

/-- The entry of key 3 in the map of the tests after the assignments `assign(i, 10 * i)`. -/
def example_entry : hashmap_entry_s :=
  { hash := cityhash64 (int_bytes 3) 4, key := some (int_bytes 3), elem := int_bytes 30 }


/-- The deque `example_deque` (`deque(int, 4)` holding 1, 2) after `deque_shrink_to_fit`. -/
def example_shrunk : deque_s := (deque_shrink_to_fit grant_all example_deque).2

/-- The deque `example_shrunk` after `pop_front`. -/
def example_shrunk_popped : deque_s := (deque_pop_front example_shrunk).2.1

/-- The number of slots of the buffer of a deque. -/
def deque_slots (deq : deque_s) : Nat := (deq.deque.getD []).length

/-- The array that `_array_init(0, 4, free_fn, alloc_fn)` returns when the allocator grants the
request of zero bytes. -/
def example_array : array_s :=
  { size := 0, capacity := 0, elem_size := 4, array := some [], default_alloc := false }

/-- The number of slots of the buffer of an array. -/
def array_slots (arr : array_s) : Nat := (arr.array.getD []).length


/-! ## Arithmetic of capacities -/

theorem mask_eq (c : Nat) (h1 : 1 ≤ c) (h2 : c < 2 ^ 64) : mask c = c - 1 := by
  simp only [mask, sub64]
  omega

theorem index_lt (h c : Nat) (h1 : 1 ≤ c) (h2 : c < 2 ^ 64) : h &&& mask c < c := by
  rw [mask_eq c h1 h2]
  have := @Nat.and_le_right h (c - 1)
  omega

theorem pow_le_of_le {a b : Nat} (h : a ≤ b) : 2 ^ a ≤ 2 ^ b :=
  Nat.pow_le_pow_right (by decide) h

theorem pow_bounds (e : Nat) (h3 : 3 ≤ e) (h62 : e ≤ 62) :
    8 ≤ 2 ^ e ∧ 2 ^ e ≤ 2 ^ 62 ∧ ∃ m, 2 ^ e = 8 * m := by
  refine ⟨?_, pow_le_of_le h62, 2 ^ (e - 3), ?_⟩
  · have := pow_le_of_le h3
    simpa using this
  · have : e = 3 + (e - 3) := by omega
    conv_lhs => rw [this, Nat.pow_add]

theorem smeared_self (m : Nat) : Smeared m m 1 := by
  intro i
  constructor
  · intro h
    exact ⟨0, by decide, by simpa using h⟩
  · rintro ⟨d, hd, h⟩
    have : d = 0 := by omega
    subst this
    simpa using h

theorem smeared_step (m x w : Nat) (h : Smeared m x w) :
    Smeared m (x ||| (x >>> w)) (w + w) := by
  intro i
  rw [Nat.testBit_or, Nat.testBit_shiftRight, Bool.or_eq_true, h i, h (w + i)]
  constructor
  · rintro (⟨d, hd, hb⟩ | ⟨d, hd, hb⟩)
    · exact ⟨d, by omega, hb⟩
    · refine ⟨w + d, by omega, ?_⟩
      have : i + (w + d) = w + i + d := by omega
      rw [this]
      exact hb
  · rintro ⟨d, hd, hb⟩
    by_cases hw : d < w
    · exact Or.inl ⟨d, hw, hb⟩
    · refine Or.inr ⟨d - w, by omega, ?_⟩
      have : w + i + (d - w) = i + d := by omega
      rw [this]
      exact hb

theorem testBit_top (m k : Nat) (h1 : 2 ^ k ≤ m) (h2 : m < 2 ^ (k + 1)) :
    m.testBit k = true := by
  rw [Nat.testBit_to_div_mod]
  have hpos : 0 < 2 ^ k := Nat.pow_pos (by decide)
  have hd : m / 2 ^ k = 1 := by
    apply Nat.div_eq_of_lt_le
    · simpa using h1
    · rw [Nat.pow_succ] at h2
      omega
  simp [hd]

theorem smeared_full (m x k : Nat) (hk : k < 64) (h1 : 2 ^ k ≤ m) (h2 : m < 2 ^ (k + 1))
    (h : Smeared m x 64) : x = 2 ^ (k + 1) - 1 := by
  apply Nat.eq_of_testBit_eq
  intro i
  rw [Nat.testBit_two_pow_sub_one]
  by_cases hi : i < k + 1
  · rw [decide_eq_true hi]
    apply (h i).2
    refine ⟨k - i, by omega, ?_⟩
    have : i + (k - i) = k := by omega
    rw [this]
    exact testBit_top m k h1 h2
  · rw [decide_eq_false hi]
    cases hx : x.testBit i with
    | false => rfl
    | true =>
      obtain ⟨d, _, hb⟩ := (h i).1 hx
      have hlt : m < 2 ^ (i + d) := Nat.lt_of_lt_of_le h2 (pow_le_of_le (by omega))
      rw [Nat.testBit_lt_two_pow hlt] at hb
      exact absurd hb (by decide)

theorem roundup_smeared (m : Nat) :
    Smeared m
      (let n := m
       let n := n ||| (n >>> 1)
       let n := n ||| (n >>> 2)
       let n := n ||| (n >>> 4)
       let n := n ||| (n >>> 8)
       let n := n ||| (n >>> 16)
       n ||| (n >>> 32)) 64 := by
  have h1 := smeared_step m _ 1 (smeared_self m)
  have h2 := smeared_step m _ 2 h1
  have h4 := smeared_step m _ 4 h2
  have h8 := smeared_step m _ 8 h4
  have h16 := smeared_step m _ 16 h8
  exact smeared_step m _ 32 h16

theorem max_capacity_eq : HASHMAP_MAX_CAPACITY = 2 ^ 63 := by
  norm_num [HASHMAP_MAX_CAPACITY, SIZE_MAX]

theorem max_capacity_half : HASHMAP_MAX_CAPACITY >>> 1 = 2 ^ 62 := by
  rw [max_capacity_eq, Nat.shiftRight_eq_div_pow]
  norm_num

/-- For `2 ≤ n ≤ 2 ^ 63` the result of `roundup_pow2` is the power of two `2 ^ (k + 1)` with
`2 ^ k < n ≤ 2 ^ (k + 1)`. -/
theorem roundup_pow2_eq (n : Nat) (h2 : 2 ≤ n) (h63 : n ≤ 2 ^ 63) :
    ∃ k, k ≤ 62 ∧ 2 ^ k < n ∧ n ≤ 2 ^ (k + 1) ∧ roundup_pow2 n = 2 ^ (k + 1) := by
  have hm : n - 1 ≠ 0 := by omega
  have hlo := Nat.log2_self_le hm
  have hhi := @Nat.lt_log2_self (n - 1)
  have hk : (n - 1).log2 < 63 := (Nat.log2_lt hm).2 (by omega)
  refine ⟨(n - 1).log2, by omega, by omega, by omega, ?_⟩
  have hsub : sub64 n 1 = n - 1 := by
    simp only [sub64]
    omega
  have hs := smeared_full (n - 1) _ (n - 1).log2 (by omega) hlo hhi (roundup_smeared (n - 1))
  simp only [roundup_pow2, hsub]
  simp only at hs
  rw [hs]
  have hp : 2 ^ ((n - 1).log2 + 1) ≤ 2 ^ 63 := pow_le_of_le (by omega)
  have hpos : 0 < 2 ^ ((n - 1).log2 + 1) := Nat.pow_pos (by decide)
  simp only [u64]
  omega


/-! ## The conversion to `double` and the load test -/

theorem double_exp_spec (fuel n e : Nat) (hlow : e = 0 ∨ 2 ^ (52 + e) ≤ n)
    (hhigh : n < 2 ^ (53 + e + fuel)) :
    n < 2 ^ (53 + double_exp fuel n e) ∧
      (double_exp fuel n e = 0 ∨ 2 ^ (52 + double_exp fuel n e) ≤ n) := by
  induction fuel generalizing e with
  | zero => exact ⟨hhigh, hlow⟩
  | succ fuel ih =>
    simp only [double_exp]
    split
    · rename_i h
      exact ⟨h, hlow⟩
    · rename_i h
      apply ih
      · right
        have : 52 + (e + 1) = 53 + e := by omega
        rw [this]
        omega
      · have : 53 + (e + 1) + fuel = 53 + e + (fuel + 1) := by omega
        rw [this]
        exact hhigh

/-- The exponent of the conversion of a `size_t`: `n < 2 ^ (53 + e)`, and `2 ^ (52 + e) ≤ n`
unless `e = 0`. -/
theorem double_exp_size_t (n : Nat) (h : n < 2 ^ 64) :
    n < 2 ^ (53 + double_exp 11 n 0) ∧
      (double_exp 11 n 0 = 0 ∨ 2 ^ (52 + double_exp 11 n 0) ≤ n) :=
  double_exp_spec 11 n 0 (Or.inl rfl) h

theorem to_double_of_lt (n : Nat) (h : n < 2 ^ 53) : to_double n = n := by
  have he : double_exp 11 n 0 = 0 := by
    simp only [double_exp]
    rw [if_pos h]
  simp only [to_double, he, Nat.pow_zero, Nat.div_one, Nat.mod_one, Nat.mul_zero, Nat.mul_one]
  rw [if_neg]
  rintro (h1 | ⟨h1, _⟩)
  · omega
  · omega

theorem floor_le_to_double (n : Nat) :
    n / 2 ^ double_exp 11 n 0 * 2 ^ double_exp 11 n 0 ≤ to_double n := by
  simp only [to_double]
  split
  · exact Nat.mul_le_mul_right _ (Nat.le_succ _)
  · exact Nat.le_refl _

/-- The conversion does not go below a representable value that the argument reaches. -/
theorem le_to_double (m k n : Nat) (hm : m < 2 ^ 53) (hn : n < 2 ^ 64) (h : m * 2 ^ k ≤ n) :
    m * 2 ^ k ≤ to_double n := by
  obtain ⟨h1, h2⟩ := double_exp_size_t n hn
  refine le_trans ?_ (floor_le_to_double n)
  generalize double_exp 11 n 0 = e at h1 h2
  have hpe : 0 < 2 ^ e := Nat.pow_pos (by norm_num)
  by_cases hk : e ≤ k
  · have hsplit : m * 2 ^ k = m * 2 ^ (k - e) * 2 ^ e := by
      rw [Nat.mul_assoc, ← Nat.pow_add, Nat.sub_add_cancel hk]
    rw [hsplit] at h ⊢
    exact Nat.mul_le_mul_right _ ((Nat.le_div_iff_mul_le hpe).2 h)
  · have he0 : e ≠ 0 := by omega
    have hlow : 2 ^ (52 + e) ≤ n := by
      rcases h2 with h2 | h2
      · exact absurd h2 he0
      · exact h2
    have hT : m * 2 ^ k ≤ 2 ^ 52 * 2 ^ e := by
      have hk1 : 2 ^ k ≤ 2 ^ (e - 1) := Nat.pow_le_pow_right (by norm_num) (by omega)
      have h53 : 2 ^ 53 * 2 ^ (e - 1) = 2 ^ 52 * 2 ^ e := by
        rw [← Nat.pow_add, ← Nat.pow_add]
        congr 1
        omega
      calc m * 2 ^ k ≤ 2 ^ 53 * 2 ^ (e - 1) := Nat.mul_le_mul (Nat.le_of_lt hm) hk1
        _ = 2 ^ 52 * 2 ^ e := h53
    refine le_trans hT (Nat.mul_le_mul_right _ ?_)
    rw [Nat.le_div_iff_mul_le hpe, ← Nat.pow_add]
    exact hlow

/-- A representable value is converted to itself. -/
theorem to_double_representable (m k : Nat) (hm : m < 2 ^ 53) (h64 : m * 2 ^ k < 2 ^ 64) :
    to_double (m * 2 ^ k) = m * 2 ^ k := by
  obtain ⟨h1, h2⟩ := double_exp_size_t (m * 2 ^ k) h64
  have hdvd : 2 ^ double_exp 11 (m * 2 ^ k) 0 ∣ m * 2 ^ k := by
    generalize double_exp 11 (m * 2 ^ k) 0 = e at h1 h2
    rcases h2 with h2 | h2
    · rw [h2]
      simp
    · have hlt : 2 ^ (52 + e) < 2 ^ (53 + k) := by
        refine lt_of_le_of_lt h2 ?_
        rw [Nat.pow_add 2 53 k]
        exact Nat.mul_lt_mul_of_pos_right hm (Nat.pow_pos (by norm_num))
      have hek : 52 + e < 53 + k := (Nat.pow_lt_pow_iff_right (by norm_num)).1 hlt
      exact Dvd.dvd.mul_left (Nat.pow_dvd_pow 2 (by omega)) m
  simp only [to_double]
  rw [Nat.mod_eq_zero_of_dvd hdvd, if_neg, Nat.div_mul_cancel hdvd]
  have hpe : 0 < 2 ^ double_exp 11 (m * 2 ^ k) 0 := Nat.pow_pos (by norm_num)
  rintro (h3 | ⟨h3, _⟩)
  · omega
  · omega


/-- A power of two is converted to itself. -/
theorem to_double_two_pow (E : Nat) (h : E ≤ 63) : to_double (2 ^ E) = 2 ^ E := by
  have h64 : 1 * 2 ^ E < 2 ^ 64 := by
    rw [Nat.one_mul]
    exact Nat.pow_lt_pow_right (by norm_num) (by omega)
  have := to_double_representable 1 E (by norm_num) h64
  rw [Nat.one_mul] at this
  exact this

/-- The load test of a map whose capacity is a power of two, with the converted capacity
written out. -/
theorem load_test_eq (ht : hashmap_s) (E : Nat) (hE : E ≤ 63) (hc : ht.capacity = 2 ^ E) :
    hashmap_load_ge_threshold ht
      = decide ((3 * 2 ^ 52 - 1) * ht.capacity ≤ 2 ^ 54 * to_double ht.size) := by
  have hpos : 0 < 2 ^ E := Nat.pow_pos (by norm_num)
  have hc0 : ht.capacity ≠ 0 := by omega
  simp only [hashmap_load_ge_threshold, if_neg hc0]
  rw [hc, to_double_two_pow E hE]

/-- When `size / capacity` is at least `0.75`, the load test of the code holds. -/
theorem load_test_of_exact (ht : hashmap_s) (E : Nat) (hE2 : 2 ≤ E) (hE : E ≤ 63)
    (hc : ht.capacity = 2 ^ E) (hs : ht.size < 2 ^ 64)
    (h : 3 * ht.capacity ≤ 4 * ht.size) : hashmap_load_ge_threshold ht = true := by
  have hp : 2 ^ E = 4 * 2 ^ (E - 2) := by
    have : E = 2 + (E - 2) := by omega
    rw [this, Nat.pow_add, Nat.add_sub_cancel_left]
  have hT : 3 * 2 ^ (E - 2) ≤ ht.size := by omega
  have hD := le_to_double 3 (E - 2) ht.size (by norm_num) hs hT
  rw [load_test_eq ht E hE hc, decide_eq_true_eq, hc, hp]
  generalize 2 ^ (E - 2) = p at hD
  omega

/-- Below `2 ^ 53` entries the load test of the code is the exact comparison of
`size / capacity` with `0.75`. -/
theorem load_test_exact (ht : hashmap_s) (E : Nat) (hE2 : 2 ≤ E) (hE : E ≤ 63)
    (hc : ht.capacity = 2 ^ E) (hs : ht.size < 2 ^ 53) :
    hashmap_load_ge_threshold ht = decide (3 * ht.capacity ≤ 4 * ht.size) := by
  have hp : 2 ^ E = 4 * 2 ^ (E - 2) := by
    have : E = 2 + (E - 2) := by omega
    rw [this, Nat.pow_add, Nat.add_sub_cancel_left]
  rw [load_test_eq ht E hE hc, to_double_of_lt _ hs, hc, hp]
  generalize 2 ^ (E - 2) = p
  by_cases h : 3 * (4 * p) ≤ 4 * ht.size
  · rw [decide_eq_true h, decide_eq_true_eq]
    omega
  · rw [decide_eq_false h, decide_eq_false_iff_not]
    omega

/-- The load test of a map that satisfies the shape invariant fails only when
`size / capacity` is below `0.75`. -/
theorem load_lt_of_test_false (ht : hashmap_s) (h : Inv ht)
    (hld : ¬ hashmap_load_ge_threshold ht = true) : 4 * ht.size < 3 * ht.capacity := by
  obtain ⟨e, h3, he62, he⟩ := h.cap
  have hb := pow_bounds e h3 he62
  rw [← he] at hb
  have hl := h.load
  by_contra hcon
  exact hld (load_test_of_exact ht e (by omega) (by omega) he (by omega) (by omega))

/-- The load test of a map that satisfies the shape invariant and holds fewer than `2 ^ 53`
entries is the exact comparison. -/
theorem load_test_exact_of_inv (ht : hashmap_s) (h : Inv ht) (hs : ht.size < 2 ^ 53) :
    hashmap_load_ge_threshold ht = true ↔ 3 * ht.capacity ≤ 4 * ht.size := by
  obtain ⟨e, h3, he62, he⟩ := h.cap
  rw [load_test_exact ht e (by omega) (by omega) he hs, decide_eq_true_eq]


/-! ## Buckets and chains -/

theorem bucket_eq_getElem (l : List chain_t) (i : Nat) (h : i < l.length) :
    bucket l i = l[i] := by
  simp [bucket, List.getElem?_eq_getElem h]

theorem bucket_of_le (l : List chain_t) (i : Nat) (h : l.length ≤ i) : bucket l i = [] := by
  simp [bucket, List.getElem?_eq_none h]

theorem bucket_set_self (l : List chain_t) (j : Nat) (c : chain_t) (h : j < l.length) :
    bucket (l.set j c) j = c := by
  rw [bucket_eq_getElem _ _ (by simpa using h)]
  simp

theorem bucket_set_ne (l : List chain_t) (i j : Nat) (c : chain_t) (h : i ≠ j) :
    bucket (l.set j c) i = bucket l i := by
  by_cases hi : i < l.length
  · rw [bucket_eq_getElem _ _ (by simpa using hi), bucket_eq_getElem _ _ hi]
    exact List.getElem_set_ne (Ne.symm h) _
  · rw [bucket_of_le _ _ (by simpa using hi), bucket_of_le _ _ (by omega)]

theorem mem_flatten_iff_bucket (l : List chain_t) (e : hashmap_entry_s) :
    e ∈ l.flatten ↔ ∃ i, i < l.length ∧ e ∈ bucket l i := by
  rw [List.mem_flatten]
  constructor
  · rintro ⟨c, hc, he⟩
    obtain ⟨i, hi, rfl⟩ := List.getElem_of_mem hc
    exact ⟨i, hi, by rw [bucket_eq_getElem _ _ hi]; exact he⟩
  · rintro ⟨i, hi, he⟩
    rw [bucket_eq_getElem _ _ hi] at he
    exact ⟨l[i], List.getElem_mem hi, he⟩

theorem mem_flatten_of_bucket (l : List chain_t) (i : Nat) (e : hashmap_entry_s)
    (he : e ∈ bucket l i) : e ∈ l.flatten := by
  by_cases hi : i < l.length
  · exact (mem_flatten_iff_bucket l e).2 ⟨i, hi, he⟩
  · rw [bucket_of_le _ _ (by omega)] at he
    cases he

/-- Replacing one chain of the bucket array replaces it in the list of all entries. -/
theorem flatten_set_split (l : List chain_t) (j : Nat) (hj : j < l.length) :
    ∃ R : chain_t, l.flatten.Perm (bucket l j ++ R) ∧
      ∀ c : chain_t, (l.set j c).flatten.Perm (c ++ R) := by
  induction l generalizing j with
  | nil => cases hj
  | cons a l ih =>
    cases j with
    | zero =>
      exact ⟨l.flatten, by simp [bucket], fun c => by simp⟩
    | succ j =>
      obtain ⟨R, h1, h2⟩ := ih j (by simpa using hj)
      refine ⟨a ++ R, ?_, fun c => ?_⟩
      · have hb : bucket (a :: l) (j + 1) = bucket l j := by simp [bucket]
        rw [hb, List.flatten_cons]
        exact (List.Perm.append_left a h1).trans (List.perm_append_comm_assoc _ _ _)
      · rw [List.set_cons_succ, List.flatten_cons]
        exact (List.Perm.append_left a (h2 c)).trans (List.perm_append_comm_assoc _ _ _)

theorem flatten_set_cons_perm (l : List chain_t) (j : Nat) (hj : j < l.length)
    (x : hashmap_entry_s) :
    (l.set j (x :: bucket l j)).flatten.Perm (x :: l.flatten) := by
  obtain ⟨R, h1, h2⟩ := flatten_set_split l j hj
  exact (h2 _).trans (List.Perm.cons x h1.symm)

theorem length_set_eq (l : List chain_t) (j : Nat) (c : chain_t) :
    (l.set j c).length = l.length := by simp

/-! ### The chain scans -/

theorem chain_find_eq_find (hit : hashmap_entry_s → Bool) (c : chain_t) :
    chain_find hit c = c.find? hit := by
  induction c with
  | nil => rfl
  | cons e c ih =>
    simp only [chain_find, List.find?_cons]
    cases hit e <;> simp [ih]

theorem chain_find_none (hit : hashmap_entry_s → Bool) (c : chain_t) :
    chain_find hit c = none ↔ ∀ e ∈ c, hit e = false := by
  rw [chain_find_eq_find]
  simp

theorem chain_find_some (hit : hashmap_entry_s → Bool) (c : chain_t) (e : hashmap_entry_s)
    (h : chain_find hit c = some e) : e ∈ c ∧ hit e = true := by
  rw [chain_find_eq_find] at h
  exact ⟨List.mem_of_find?_eq_some h, List.find?_some h⟩

theorem chain_find_congr (hit hit2 : hashmap_entry_s → Bool) (c : chain_t)
    (h : ∀ e ∈ c, hit e = hit2 e) : chain_find hit c = chain_find hit2 c := by
  induction c with
  | nil => rfl
  | cons e c ih =>
    simp only [chain_find]
    rw [h e (List.mem_cons_self _ _), ih (fun x hx => h x (List.mem_cons_of_mem _ hx))]

theorem chain_find_split (hit : hashmap_entry_s → Bool) (a b : chain_t) (e : hashmap_entry_s)
    (ha : ∀ x ∈ a, hit x = false) (he : hit e = true) :
    chain_find hit (a ++ e :: b) = some e := by
  induction a with
  | nil => simp [chain_find, he]
  | cons x a ih =>
    simp only [List.cons_append, chain_find]
    rw [ha x (List.mem_cons_self _ _)]
    simpa using ih (fun y hy => ha y (List.mem_cons_of_mem _ hy))

theorem chain_find_append_miss (hit : hashmap_entry_s → Bool) (a b : chain_t)
    (ha : ∀ x ∈ a, hit x = false) : chain_find hit (a ++ b) = chain_find hit b := by
  induction a with
  | nil => rfl
  | cons x a ih =>
    simp only [List.cons_append, chain_find]
    rw [ha x (List.mem_cons_self _ _)]
    simpa using ih (fun y hy => ha y (List.mem_cons_of_mem _ hy))

theorem chain_assign_none (hit : hashmap_entry_s → Bool) (val : Bytes) (n : Nat) (c : chain_t) :
    chain_assign hit val n c = none ↔ ∀ e ∈ c, hit e = false := by
  induction c with
  | nil => simp [chain_assign]
  | cons e c ih =>
    simp only [chain_assign]
    cases he : hit e with
    | true => simp [he]
    | false => simp [he, ih]

theorem chain_assign_some (hit : hashmap_entry_s → Bool) (val : Bytes) (n : Nat)
    (c c2 : chain_t) (h : chain_assign hit val n c = some c2) :
    ∃ a e b, c = a ++ e :: b ∧ hit e = true ∧ (∀ x ∈ a, hit x = false) ∧
      c2 = a ++ { e with elem := memcpy val n } :: b := by
  induction c generalizing c2 with
  | nil => simp [chain_assign] at h
  | cons e c ih =>
    simp only [chain_assign] at h
    cases he : hit e with
    | true =>
      simp only [he, if_true, Option.some.injEq] at h
      exact ⟨[], e, c, rfl, he, by simp, by simp [← h]⟩
    | false =>
      simp only [he, Bool.false_eq_true, if_false, Option.map_eq_some'] at h
      obtain ⟨c3, h3, rfl⟩ := h
      obtain ⟨a, e2, b, rfl, h2, ha, rfl⟩ := ih c3 h3
      refine ⟨e :: a, e2, b, rfl, h2, ?_, rfl⟩
      intro x hx
      rcases List.mem_cons.1 hx with rfl | hx
      · exact he
      · exact ha x hx

theorem chain_remove_none (hit : hashmap_entry_s → Bool) (c : chain_t) :
    chain_remove hit c = none ↔ ∀ e ∈ c, hit e = false := by
  induction c with
  | nil => simp [chain_remove]
  | cons e c ih =>
    simp only [chain_remove]
    cases he : hit e with
    | true => simp [he]
    | false => simp [he, ih]

theorem chain_remove_some (hit : hashmap_entry_s → Bool) (c c2 : chain_t)
    (e : hashmap_entry_s) (h : chain_remove hit c = some (e, c2)) :
    ∃ a b, c = a ++ e :: b ∧ hit e = true ∧ (∀ x ∈ a, hit x = false) ∧ c2 = a ++ b := by
  induction c generalizing c2 with
  | nil => simp [chain_remove] at h
  | cons x c ih =>
    simp only [chain_remove] at h
    cases hx : hit x with
    | true =>
      simp only [hx, if_true, Option.some.injEq, Prod.mk.injEq] at h
      obtain ⟨rfl, rfl⟩ := h
      exact ⟨[], c, rfl, hx, by simp, rfl⟩
    | false =>
      simp only [hx, Bool.false_eq_true, if_false, Option.map_eq_some', Prod.mk.injEq] at h
      obtain ⟨⟨e3, c3⟩, h3, rfl, rfl⟩ := h
      obtain ⟨a, b, rfl, h2, ha, rfl⟩ := ih c3 h3
      refine ⟨x :: a, b, rfl, h2, ?_, rfl⟩
      intro y hy
      rcases List.mem_cons.1 hy with rfl | hy
      · exact hx
      · exact ha y hy


/-! ## Rehashing -/

theorem flatten_replicate_nil (n : Nat) :
    (List.replicate n ([] : chain_t)).flatten = [] := by
  induction n with
  | zero => rfl
  | succ n ih => simp [List.replicate_succ, ih]

theorem bucket_replicate_nil (n i : Nat) : bucket (List.replicate n ([] : chain_t)) i = [] := by
  by_cases h : i < n
  · rw [bucket_eq_getElem _ _ (by simpa using h)]
    simp
  · exact bucket_of_le _ _ (by simpa using h)

theorem map_bucket_range (l : List chain_t) : (List.range l.length).map (bucket l) = l := by
  apply List.ext_getElem
  · simp
  · intro i h1 h2
    simp only [List.getElem_map, List.getElem_range]
    exact bucket_eq_getElem l i h2

theorem foldl_range_bucket {β : Type} (f : β → chain_t → β) (l : List chain_t) (b : β) :
    (List.range l.length).foldl (fun acc i => f acc (bucket l i)) b = l.foldl f b := by
  conv_rhs => rw [← map_bucket_range l, List.foldl_map]

theorem rehash_chain_length (c : Nat) (chain : chain_t) (acc : List chain_t) :
    (rehash_chain c chain acc).length = acc.length := by
  induction chain generalizing acc with
  | nil => rfl
  | cons e next ih => simp [rehash_chain, ih]

theorem rehash_chain_perm (c : Nat) (h1 : 1 ≤ c) (h2 : c < 2 ^ 64) (chain : chain_t)
    (acc : List chain_t) (hacc : acc.length = c) :
    (rehash_chain c chain acc).flatten.Perm (chain ++ acc.flatten) := by
  induction chain generalizing acc with
  | nil => exact List.Perm.refl _
  | cons e next ih =>
    simp only [rehash_chain]
    have hj : e.hash &&& mask c < acc.length := by
      rw [hacc]
      exact index_lt _ _ h1 h2
    refine (ih _ (by simpa using hacc)).trans ?_
    refine (List.Perm.append_left next (flatten_set_cons_perm acc _ hj e)).trans ?_
    exact List.perm_middle

theorem rehash_chain_place (c : Nat) (h1 : 1 ≤ c) (h2 : c < 2 ^ 64) (chain : chain_t)
    (acc : List chain_t) (hacc : acc.length = c)
    (h : ∀ i e, e ∈ bucket acc i → e.hash &&& mask c = i) :
    ∀ i e, e ∈ bucket (rehash_chain c chain acc) i → e.hash &&& mask c = i := by
  induction chain generalizing acc with
  | nil => exact h
  | cons x next ih =>
    simp only [rehash_chain]
    apply ih _ (by simpa using hacc)
    intro i e he
    have hj : x.hash &&& mask c < acc.length := by
      rw [hacc]
      exact index_lt _ _ h1 h2
    by_cases hij : i = x.hash &&& mask c
    · subst hij
      rw [bucket_set_self _ _ _ hj] at he
      rcases List.mem_cons.1 he with rfl | he
      · rfl
      · exact h _ e he
    · rw [bucket_set_ne _ _ _ _ hij] at he
      exact h i e he

theorem rehash_fold_length (c : Nat) (l acc : List chain_t) :
    (l.foldl (fun a ch => rehash_chain c ch a) acc).length = acc.length := by
  induction l generalizing acc with
  | nil => rfl
  | cons ch l ih => simp [List.foldl_cons, ih, rehash_chain_length]

theorem rehash_fold_perm (c : Nat) (h1 : 1 ≤ c) (h2 : c < 2 ^ 64) (l acc : List chain_t)
    (hacc : acc.length = c) :
    (l.foldl (fun a ch => rehash_chain c ch a) acc).flatten.Perm (l.flatten ++ acc.flatten) := by
  induction l generalizing acc with
  | nil => exact List.Perm.refl _
  | cons ch l ih =>
    simp only [List.foldl_cons, List.flatten_cons]
    refine (ih _ (by rw [rehash_chain_length]; exact hacc)).trans ?_
    refine (List.Perm.append_left _ (rehash_chain_perm c h1 h2 ch acc hacc)).trans ?_
    rw [List.append_assoc]
    exact List.perm_append_comm_assoc _ _ _

theorem rehash_fold_place (c : Nat) (h1 : 1 ≤ c) (h2 : c < 2 ^ 64) (l acc : List chain_t)
    (hacc : acc.length = c)
    (h : ∀ i e, e ∈ bucket acc i → e.hash &&& mask c = i) :
    ∀ i e, e ∈ bucket (l.foldl (fun a ch => rehash_chain c ch a) acc) i →
      e.hash &&& mask c = i := by
  induction l generalizing acc with
  | nil => exact h
  | cons ch l ih =>
    simp only [List.foldl_cons]
    exact ih _ (by rw [rehash_chain_length]; exact hacc)
      (rehash_chain_place c h1 h2 ch acc hacc h)

theorem hashmap_rehash_eq (ht : hashmap_s) (hlen : ht.entries.length = ht.capacity)
    (acc : List chain_t) (c : Nat) :
    hashmap_rehash ht acc c = ht.entries.foldl (fun a ch => rehash_chain c ch a) acc := by
  simp only [hashmap_rehash]
  rw [← hlen]
  exact foldl_range_bucket (fun a ch => rehash_chain c ch a) ht.entries acc

/-- A granted `hashmap_alloc` yields an array of `c` buckets that holds the same entries, each in
the bucket its cached hash selects under the new capacity. -/
theorem hashmap_alloc_ok (alloc : Nat → Bool) (ht : hashmap_s) (c : Nat)
    (hlen : ht.entries.length = ht.capacity) (hne : ht.capacity ≠ 0)
    (h1 : 1 ≤ c) (h2 : c < 2 ^ 64) (ht2 : hashmap_s)
    (h : hashmap_alloc alloc ht c = (stat_t.COMPLETE, ht2)) :
    ht2 = { ht with entries := ht2.entries } ∧ ht2.entries.length = c ∧
      ht2.entries.flatten.Perm ht.entries.flatten ∧
      ∀ i e, e ∈ bucket ht2.entries i → e.hash &&& mask c = i := by
  simp only [hashmap_alloc] at h
  split at h
  · simp at h
  · have hemp : ht.entries.isEmpty = false := by
      cases hl : ht.entries with
      | nil => rw [hl] at hlen; exact absurd hlen.symm hne
      | cons a l => rfl
    simp only [hemp, Bool.false_eq_true, if_false, Prod.mk.injEq, true_and] at h
    subst h
    simp only [true_and]
    rw [hashmap_rehash_eq ht hlen]
    refine ⟨?_, ?_, ?_⟩
    · rw [rehash_fold_length]; simp
    · have := rehash_fold_perm c h1 h2 ht.entries (List.replicate c []) (by simp)
      rwa [flatten_replicate_nil, List.append_nil] at this
    · apply rehash_fold_place c h1 h2 _ _ (by simp)
      intro i e he
      rw [bucket_replicate_nil] at he
      cases he

theorem hashmap_alloc_fail (alloc : Nat → Bool) (ht : hashmap_s) (c : Nat) (s : stat_t)
    (ht2 : hashmap_s) (h : hashmap_alloc alloc ht c = (s, ht2)) (hs : s ≠ stat_t.COMPLETE) :
    ht2 = ht ∧ s = stat_t.ERR_MEMORY_ALLOCATION := by
  simp only [hashmap_alloc] at h
  split at h
  · simp only [Prod.mk.injEq] at h
    exact ⟨h.2.symm, h.1.symm⟩
  · simp only [Prod.mk.injEq] at h
    exact absurd h.1.symm hs

/-! ## Clearing -/

theorem clear_fold_length (n : Nat) (l : List chain_t) :
    ((List.range n).foldl (fun acc i => acc.set i []) l).length = l.length := by
  induction n with
  | zero => rfl
  | succ n ih => simp [List.range_succ, List.foldl_append, ih]

theorem clear_fold_bucket (n : Nat) (l : List chain_t) (i : Nat) :
    bucket ((List.range n).foldl (fun acc i => acc.set i []) l) i
      = if i < n then [] else bucket l i := by
  induction n with
  | zero => simp
  | succ n ih =>
    simp only [List.range_succ, List.foldl_append, List.foldl_cons, List.foldl_nil]
    by_cases hin : i = n
    · subst hin
      simp only [Nat.lt_succ_self, if_true]
      by_cases hl : i < l.length
      · exact bucket_set_self _ _ _ (by rw [clear_fold_length]; exact hl)
      · exact bucket_of_le _ _ (by simp [clear_fold_length]; omega)
    · rw [bucket_set_ne _ _ _ _ hin, ih]
      by_cases h : i < n
      · simp [h, Nat.lt_succ_of_lt h]
      · have : ¬ i < n + 1 := by omega
        simp [h, this]

theorem flatten_eq_nil_of_buckets (l : List chain_t) (h : ∀ i, i < l.length → bucket l i = []) :
    l.flatten = [] := by
  apply List.eq_nil_iff_forall_not_mem.2
  intro e he
  obtain ⟨i, hi, hm⟩ := (mem_flatten_iff_bucket l e).1 he
  rw [h i hi] at hm
  cases hm

theorem hashmap_clear_entries (ht : hashmap_s) (hlen : ht.entries.length = ht.capacity) :
    (hashmap_clear ht).entries.length = ht.capacity ∧ (hashmap_clear ht).entries.flatten = [] := by
  simp only [hashmap_clear]
  refine ⟨by rw [clear_fold_length]; exact hlen, ?_⟩
  apply flatten_eq_nil_of_buckets
  intro i hi
  rw [clear_fold_length, hlen] at hi
  rw [clear_fold_bucket]
  simp [hi]


/-! ## The shape invariant is preserved -/

theorem hashmap_assign_entry_eq (alloc : Nat → Bool) (ht : hashmap_s) (key : Option Bytes)
    (val : Bytes) : hashmap_assign_entry alloc ht key val = assign_at alloc ht key val := by
  cases key with
  | none => rfl
  | some k => rfl

theorem flatten_length_set (l : List chain_t) (j : Nat) (c : chain_t) (hj : j < l.length) :
    (l.set j c).flatten.length + (bucket l j).length = l.flatten.length + c.length := by
  obtain ⟨R, h1, h2⟩ := flatten_set_split l j hj
  have e1 := h1.length_eq
  have e2 := (h2 c).length_eq
  simp only [List.length_append] at e1 e2
  omega

theorem Inv.cap_bounds {ht : hashmap_s} (h : Inv ht) :
    8 ≤ ht.capacity ∧ ht.capacity ≤ 2 ^ 62 ∧ ∃ m, ht.capacity = 8 * m := by
  obtain ⟨e, h3, h62, he⟩ := h.cap
  rw [he]
  exact pow_bounds e h3 h62

theorem scan_index_lt (ht : hashmap_s) (h : Inv ht) (key : Option Bytes) :
    scan_index ht key < ht.entries.length := by
  obtain ⟨h8, h62, _⟩ := h.cap_bounds
  rw [h.len]
  cases key with
  | none => simp only [scan_index]; omega
  | some k => exact index_lt _ _ (by omega) (by omega)

theorem assign_at_inv (alloc : Nat → Bool) (ht : hashmap_s) (key : Option Bytes) (val : Bytes)
    (h : Inv ht) (hload : 4 * ht.size < 3 * ht.capacity) :
    Inv (assign_at alloc ht key val).2 := by
  have hi := scan_index_lt ht h key
  obtain ⟨h8, h62, m, hm⟩ := h.cap_bounds
  have hsz := h.size
  simp only [all_entries] at hsz
  simp only [assign_at]
  split
  · rename_i c hc
    obtain ⟨a, e, b, hab, _, _, rfl⟩ := chain_assign_some _ _ _ _ _ hc
    have hl := flatten_length_set ht.entries (scan_index ht key)
      (a ++ { e with elem := memcpy val ht.elem_size } :: b) hi
    rw [hab] at hl
    simp only [List.length_append, List.length_cons] at hl
    exact ⟨h.cap, by simpa using h.len, by simp only [all_entries]; omega, h.load⟩
  · split
    · exact h
    · have hl := flatten_length_set ht.entries (scan_index ht key)
        (new_entry_for ht key val :: bucket ht.entries (scan_index ht key)) hi
      simp only [List.length_cons] at hl
      have hu : u64 (ht.size + 1) = ht.size + 1 := by
        simp only [u64]
        omega
      refine ⟨h.cap, by simpa using h.len, ?_, ?_⟩
      · simp only [all_entries, hu]; omega
      · simp only [hu]; omega

theorem shl_one (c : Nat) : c <<< 1 = 2 * c := by
  rw [Nat.shiftLeft_eq]
  omega

theorem hashmap_alloc_eq_of_ok (alloc : Nat → Bool) (ht : hashmap_s) (c : Nat)
    (h : (hashmap_alloc alloc ht c).1 = stat_t.COMPLETE) :
    hashmap_alloc alloc ht c = (stat_t.COMPLETE, (hashmap_alloc alloc ht c).2) :=
  Prod.ext h rfl

theorem hashmap_alloc_eq_of_fail (alloc : Nat → Bool) (ht : hashmap_s) (c : Nat)
    (h : (hashmap_alloc alloc ht c).1 ≠ stat_t.COMPLETE) :
    (hashmap_alloc alloc ht c).2 = ht :=
  (hashmap_alloc_fail alloc ht c _ _ rfl h).1

/-- A growth step that fails leaves the map as it was. -/
theorem hashmap_grow_fail (alloc : Nat → Bool) (ht : hashmap_s) (c : Nat)
    (h : (hashmap_grow alloc ht c).1 ≠ stat_t.COMPLETE) :
    hashmap_grow alloc ht c = (stat_t.ERR_MEMORY_ALLOCATION, ht) := by
  simp only [hashmap_grow] at h ⊢
  split
  · rename_i hne
    rw [hashmap_alloc_eq_of_fail alloc ht c hne]
  · rename_i hne
    rw [if_neg hne] at h
    exact absurd rfl h

theorem hashmap_grow_eq_of_ok (alloc : Nat → Bool) (ht : hashmap_s) (c : Nat)
    (h : (hashmap_grow alloc ht c).1 = stat_t.COMPLETE) :
    (hashmap_alloc alloc ht c).1 = stat_t.COMPLETE ∧
      hashmap_grow alloc ht c
        = (stat_t.COMPLETE, { (hashmap_alloc alloc ht c).2 with capacity := c }) := by
  simp only [hashmap_grow] at h ⊢
  split
  · rename_i hne
    rw [if_pos hne] at h
    cases h
  · rename_i hne
    exact ⟨not_not.1 hne, rfl⟩

/-- A granted growth step to capacity `c = 2 ^ e` keeps the entries and the size, sets the
capacity and keeps the shape invariant. -/
theorem hashmap_grow_inv (alloc : Nat → Bool) (ht : hashmap_s) (c e : Nat) (h : Inv ht)
    (h3 : 3 ≤ e) (h62 : e ≤ 62) (hc : c = 2 ^ e) (hle : ht.capacity ≤ c)
    (hs : (hashmap_grow alloc ht c).1 = stat_t.COMPLETE) :
    Inv (hashmap_grow alloc ht c).2 ∧
      (all_entries (hashmap_grow alloc ht c).2).Perm (all_entries ht) ∧
      (hashmap_grow alloc ht c).2.size = ht.size ∧
      (hashmap_grow alloc ht c).2.capacity = c ∧
      ∀ i x, x ∈ bucket (hashmap_grow alloc ht c).2.entries i → x.hash &&& mask c = i := by
  obtain ⟨h8, hb62, _⟩ := h.cap_bounds
  have hb := pow_bounds e h3 h62
  obtain ⟨hok, hg⟩ := hashmap_grow_eq_of_ok alloc ht c hs
  obtain ⟨hr, hlen2, hperm, hplace⟩ := hashmap_alloc_ok alloc ht c h.len (by omega)
    (by omega) (by omega) _ (hashmap_alloc_eq_of_ok alloc ht c hok)
  have hsize2 : (hashmap_alloc alloc ht c).2.size = ht.size := by rw [hr]
  rw [hg]
  refine ⟨⟨⟨e, h3, h62, hc⟩, hlen2, ?_, ?_⟩, hperm, hsize2, rfl, hplace⟩
  · have := h.size
    have hl := hperm.length_eq
    simp only [all_entries] at this ⊢
    omega
  · have := h.load
    simp only
    omega

/-- Whatever it reports, `hashmap_assign` keeps the shape invariant. -/
theorem hashmap_assign_inv (alloc : Nat → Bool) (ht : hashmap_s) (key : Option Bytes)
    (val : Bytes) (h : Inv ht) : Inv (hashmap_assign alloc ht key val).2 := by
  obtain ⟨h8, h62, m, hm⟩ := h.cap_bounds
  obtain ⟨e, h3, he62, he⟩ := h.cap
  simp only [hashmap_assign, hashmap_assign_entry_eq]
  split
  · rename_i hld
    split
    · exact h
    · rename_i hov
      have hdbl : u64 (ht.capacity <<< 1) = 2 ^ (e + 1) := by
        rw [shl_one, he, Nat.pow_succ]
        simp only [u64]
        omega
      have he61 : e ≤ 61 := by
        by_contra hcon
        have hp := pow_le_of_le (show 63 ≤ e + 1 by omega)
        rw [hdbl, max_capacity_eq] at hov
        omega
      split
      · rename_i hne
        rw [hashmap_grow_fail alloc ht _ hne]
        exact h
      · rename_i hne
        have hs := not_not.1 hne
        obtain ⟨hi2, _, hsz, hcap, _⟩ := hashmap_grow_inv alloc ht _ (e + 1) h (by omega)
          (by omega) hdbl (by rw [hdbl, he, Nat.pow_succ]; omega) hs
        apply assign_at_inv alloc _ key val hi2
        rw [hsz, hcap, hdbl, Nat.pow_succ]
        have := h.load
        omega
  · rename_i hld
    apply assign_at_inv alloc ht key val h
    exact load_lt_of_test_false ht h hld

/-- Whatever it reports, `hashmap_remove` keeps the shape invariant. -/
theorem hashmap_remove_inv (ht : hashmap_s) (key : Option Bytes) (h : Inv ht) :
    Inv (hashmap_remove ht key).2.1 := by
  have hi := scan_index_lt ht h key
  obtain ⟨h8, h62, m, hm⟩ := h.cap_bounds
  have hsz := h.size
  have hld := h.load
  simp only [all_entries] at hsz
  simp only [hashmap_remove]
  split
  · rename_i e c hc
    obtain ⟨a, b, hab, _, _, rfl⟩ := chain_remove_some _ _ _ _ hc
    have hl := flatten_length_set ht.entries (scan_index ht key) (a ++ b) hi
    rw [hab] at hl
    simp only [List.length_append, List.length_cons] at hl
    have hu : sub64 ht.size 1 = ht.size - 1 := by
      simp only [sub64]
      omega
    refine ⟨h.cap, by simpa using h.len, ?_, ?_⟩
    · simp only [all_entries, hu]; omega
    · simp only [hu]; omega
  · exact h

theorem hashmap_reserve_new_cap (ht : hashmap_s) (h : Inv ht) (capacity : Nat)
    (hgt : ht.capacity < capacity) (hlt : capacity < 2 ^ 62) :
    ∃ e, 3 ≤ e ∧ e ≤ 62 ∧ roundup_pow2 capacity = 2 ^ e ∧ capacity ≤ 2 ^ e ∧
      ht.capacity ≤ 2 ^ e ∧ ∀ e2, capacity ≤ 2 ^ e2 → 2 ^ e ≤ 2 ^ e2 := by
  obtain ⟨h8, h62, _⟩ := h.cap_bounds
  obtain ⟨k, hk, hlo, hhi, hr⟩ := roundup_pow2_eq capacity (by omega) (by omega)
  have hk61 : k < 62 := by
    by_contra hcon
    have := pow_le_of_le (show 62 ≤ k by omega)
    omega
  have hk3 : 3 ≤ k + 1 := by
    by_contra hcon
    have := pow_le_of_le (show k + 1 ≤ 3 by omega)
    omega
  refine ⟨k + 1, hk3, by omega, hr, hhi, by omega, ?_⟩
  intro e2 he2
  apply pow_le_of_le
  by_contra hcon
  have := pow_le_of_le (show e2 ≤ k by omega)
  omega


/-- Whatever it reports, `hashmap_reserve` keeps the shape invariant. -/
theorem hashmap_reserve_inv (alloc : Nat → Bool) (ht : hashmap_s) (capacity : Nat)
    (h : Inv ht) : Inv (hashmap_reserve alloc ht capacity).2 := by
  simp only [hashmap_reserve]
  split
  · exact h
  · rename_i hc
    rw [max_capacity_half] at hc
    obtain ⟨e, h3, h62, hr, _, hle, _⟩ :=
      hashmap_reserve_new_cap ht h capacity (by omega) (by omega)
    by_cases hs : (hashmap_grow alloc ht (roundup_pow2 capacity)).1 = stat_t.COMPLETE
    · exact (hashmap_grow_inv alloc ht (roundup_pow2 capacity) e h h3 h62 hr
        (by rw [hr]; exact hle) hs).1
    · rw [hashmap_grow_fail alloc ht _ hs]
      exact h

/-- The call `hashmap_clear` keeps the shape invariant. -/
theorem hashmap_clear_inv (ht : hashmap_s) (h : Inv ht) : Inv (hashmap_clear ht) := by
  obtain ⟨hl, hf⟩ := hashmap_clear_entries ht h.len
  refine ⟨h.cap, hl, ?_, ?_⟩
  · simp only [all_entries, hf]
    rfl
  · simp [hashmap_clear]

/-- The result of a successful `_hashmap_init`. -/
theorem hashmap_init_eq (alloc : Nat → Bool) (capacity key_len elem_size : Nat)
    (hash_fn : Option (Bytes → Nat)) (cmp_fn : Option (Bytes → Bytes → Int)) (ht : hashmap_s)
    (h : _hashmap_init alloc capacity key_len elem_size hash_fn cmp_fn = some ht) :
    ht =
      { entries := List.replicate
          (if capacity ≤ HASHMAP_MIN_CAPACITY then HASHMAP_MIN_CAPACITY
            else roundup_pow2 capacity) []
        size := 0
        capacity := if capacity ≤ HASHMAP_MIN_CAPACITY then HASHMAP_MIN_CAPACITY
                    else roundup_pow2 capacity
        elem_size := elem_size
        key_len := key_len
        hash_fn := hash_fn
        cmp_fn := cmp_fn } := by
  simp only [_hashmap_init] at h
  generalize (if capacity ≤ HASHMAP_MIN_CAPACITY then HASHMAP_MIN_CAPACITY
    else roundup_pow2 capacity) = c at h ⊢
  split at h
  · cases h
  · split at h
    · cases h
    · split at h
      · cases h
      · simp only [Option.some.injEq] at h
        rw [← h]
        simp only [hashmap_alloc]
        split
        · rename_i hne hal
          exfalso
          apply hne
          simp only [hashmap_alloc, hal, if_true]
          exact fun hh => by cases hh
        · simp only [List.isEmpty_nil, if_true]

theorem hashmap_init_inv (alloc : Nat → Bool) (capacity key_len elem_size : Nat)
    (hash_fn : Option (Bytes → Nat)) (cmp_fn : Option (Bytes → Bytes → Int)) (ht : hashmap_s)
    (hcap : capacity ≤ 2 ^ 62)
    (h : _hashmap_init alloc capacity key_len elem_size hash_fn cmp_fn = some ht) :
    Inv ht ∧ all_entries ht = [] := by
  have heq := hashmap_init_eq alloc capacity key_len elem_size hash_fn cmp_fn ht h
  have hc : ∃ e, 3 ≤ e ∧ e ≤ 62 ∧ ht.capacity = 2 ^ e := by
    rw [heq]
    simp only [HASHMAP_MIN_CAPACITY]
    by_cases h8 : capacity ≤ 8
    · exact ⟨3, by omega, by omega, by simp [h8]⟩
    · obtain ⟨k, hk, hlo, hhi, hr⟩ := roundup_pow2_eq capacity (by omega) (by omega)
      have hk61 : k < 62 := by
        by_contra hcon
        have := pow_le_of_le (show 62 ≤ k by omega)
        omega
      have hk3 : 3 ≤ k + 1 := by
        by_contra hcon
        have := pow_le_of_le (show k + 1 ≤ 3 by omega)
        omega
      exact ⟨k + 1, hk3, by omega, by simp [h8, hr]⟩
  have hall : all_entries ht = [] := by
    rw [heq]
    exact flatten_replicate_nil _
  refine ⟨⟨hc, ?_, ?_, ?_⟩, hall⟩
  · rw [heq]; simp
  · rw [hall, heq]; rfl
  · rw [heq]; simp

/-- Every reachable map satisfies the shape invariant. -/
theorem reachable_inv (ht : hashmap_s) (h : Reachable ht) : Inv ht := by
  induction h with
  | init alloc capacity key_len elem_size hash_fn cmp_fn ht hcap _ hinit =>
    exact (hashmap_init_inv alloc capacity key_len elem_size hash_fn cmp_fn ht hcap hinit).1
  | assign alloc ht key val _ _ ih => exact hashmap_assign_inv alloc ht key val ih
  | remove ht key _ _ ih => exact hashmap_remove_inv ht key ih
  | reserve alloc ht capacity _ ih => exact hashmap_reserve_inv alloc ht capacity ih
  | clear ht _ ih => exact hashmap_clear_inv ht ih


/-! ## Keys -/

theorem memcmp_eq_zero_iff (n : Nat) (a b : Bytes) (ha : a.length = n) (hb : b.length = n) :
    memcmp a b n = 0 ↔ a = b := by
  induction n generalizing a b with
  | zero =>
    have h1 : a = [] := List.length_eq_zero.1 ha
    have h2 : b = [] := List.length_eq_zero.1 hb
    subst h1 h2
    simp [memcmp]
  | succ n ih =>
    cases a with
    | nil => cases ha
    | cons x a =>
      cases b with
      | nil => cases hb
      | cons y b =>
        simp only [memcmp, List.headD_cons, List.tail_cons]
        by_cases h1 : x < y
        · simp only [h1, if_true]
          constructor
          · intro h; exact absurd h (by decide)
          · intro h
            have : x = y := (List.cons.inj h).1
            omega
        · by_cases h2 : y < x
          · simp only [h1, h2, if_true, if_false]
            constructor
            · intro h; exact absurd h (by decide)
            · intro h
              have : x = y := (List.cons.inj h).1
              omega
          · have hxy : x = y := by omega
            subst hxy
            simp only [h1, if_false]
            rw [ih a b (by simpa using ha) (by simpa using hb)]
            simp

theorem entry_hit_iff (ht : hashmap_s) (hc : ht.cmp_fn = none) (key : Option Bytes)
    (e : hashmap_entry_s) (hkey : key_ok ht key) (he : key_ok ht e.key) :
    entry_hit ht key e = true ↔ e.key = key := by
  cases key with
  | none =>
    cases hk : e.key with
    | none => simp [entry_hit, hk]
    | some ek => simp [entry_hit, hk]
  | some k =>
    cases hk : e.key with
    | none => simp [entry_hit, hk]
    | some ek =>
      simp only [entry_hit, hk, key_match, hc, beq_iff_eq, Option.some.injEq]
      exact memcmp_eq_zero_iff ht.key_len ek k (he ek hk) (hkey k rfl)

theorem key_hash_index (ht : hashmap_s) (key : Option Bytes) :
    key_hash ht key &&& mask ht.capacity = scan_index ht key := by
  cases key with
  | none => simp [key_hash, scan_index]
  | some k => rfl

theorem key_map_memcpy (ht : hashmap_s) (key : Option Bytes) (hkey : key_ok ht key) :
    key.map (fun k => memcpy k ht.key_len) = key := by
  cases key with
  | none => rfl
  | some k =>
    have := hkey k rfl
    simp [memcpy, ← this]

theorem same_params_refl (ht : hashmap_s) : same_params ht ht := ⟨rfl, rfl, rfl, rfl⟩

theorem same_params_trans {a b c : hashmap_s} (h1 : same_params a b) (h2 : same_params b c) :
    same_params a c :=
  ⟨h1.1.trans h2.1, h1.2.1.trans h2.2.1, h1.2.2.1.trans h2.2.2.1, h1.2.2.2.trans h2.2.2.2⟩

theorem key_hash_params {a b : hashmap_s} (h : same_params a b) (key : Option Bytes) :
    key_hash a key = key_hash b key := by
  cases key with
  | none => rfl
  | some k => simp only [key_hash, hashmap_hash, h.1, h.2.2.1]

theorem key_ok_params {a b : hashmap_s} (h : same_params a b) (key : Option Bytes) :
    key_ok a key ↔ key_ok b key := by
  simp only [key_ok, h.1]

/-! ### Lists with distinct keys -/

theorem mem_drop_key (key : Option Bytes) (l : List hashmap_entry_s) (e : hashmap_entry_s) :
    e ∈ drop_key key l ↔ e ∈ l ∧ e.key ≠ key := by
  simp [drop_key]

theorem drop_key_eq_self (key : Option Bytes) (l : List hashmap_entry_s)
    (h : ∀ e, e ∈ l → e.key ≠ key) : drop_key key l = l := by
  simp only [drop_key]
  apply List.filter_eq_self.2
  intro e he
  simpa using h e he

theorem nodup_drop_key (key : Option Bytes) (l : List hashmap_entry_s)
    (h : (l.map (fun e => e.key)).Nodup) : ((drop_key key l).map (fun e => e.key)).Nodup :=
  List.Nodup.sublist (List.Sublist.map _ (List.filter_sublist l)) h

theorem key_not_mem_drop_key (key : Option Bytes) (l : List hashmap_entry_s) :
    key ∉ (drop_key key l).map (fun e => e.key) := by
  intro h
  obtain ⟨e, he, hk⟩ := List.mem_map.1 h
  exact ((mem_drop_key key l e).1 he).2 hk

theorem eq_of_key_eq (l : List hashmap_entry_s) (h : (l.map (fun e => e.key)).Nodup)
    (x y : hashmap_entry_s) (hx : x ∈ l) (hy : y ∈ l) (hk : x.key = y.key) : x = y :=
  List.inj_on_of_nodup_map h hx hy hk

/-- In a list with distinct keys, dropping the key of `e` drops exactly `e`. -/
theorem drop_key_perm (key : Option Bytes) (l a b : List hashmap_entry_s) (e : hashmap_entry_s)
    (hp : l.Perm (a ++ e :: b)) (hn : (l.map (fun e => e.key)).Nodup) (hk : e.key = key) :
    (drop_key key l).Perm (a ++ b) := by
  have hn2 : ((a ++ e :: b).map (fun e => e.key)).Nodup := (List.Perm.map _ hp).nodup_iff.1 hn
  have hmid : (a ++ e :: b).Perm (e :: (a ++ b)) := List.perm_middle
  have hn3 : ((e :: (a ++ b)).map (fun e => e.key)).Nodup :=
    (List.Perm.map _ hmid).nodup_iff.1 hn2
  rw [List.map_cons, List.nodup_cons] at hn3
  have hne : ∀ x, x ∈ a ++ b → x.key ≠ key := by
    intro x hx hxk
    apply hn3.1
    rw [hk, ← hxk]
    exact List.mem_map_of_mem _ hx
  have h1 : (drop_key key l).Perm (drop_key key (e :: (a ++ b))) :=
    List.Perm.filter _ (hp.trans hmid)
  have h2 : drop_key key (e :: (a ++ b)) = a ++ b := by
    have : drop_key key (e :: (a ++ b)) = drop_key key (a ++ b) := by
      simp [drop_key, hk]
    rw [this]
    exact drop_key_eq_self key _ hne
  rw [h2] at h1
  exact h1

theorem length_drop_key_of_mem (key : Option Bytes) (l : List hashmap_entry_s)
    (hn : (l.map (fun e => e.key)).Nodup) (e : hashmap_entry_s) (he : e ∈ l)
    (hk : e.key = key) : (drop_key key l).length + 1 = l.length := by
  obtain ⟨a, b, rfl⟩ := List.append_of_mem he
  have := (drop_key_perm key _ a b e (List.Perm.refl _) hn hk).length_eq
  simp only [List.length_append, List.length_cons] at this ⊢
  omega


/-! ## The key invariant is preserved -/

theorem keyinv_of_perm (ht ht2 : hashmap_s) (l : List hashmap_entry_s)
    (hp : same_params ht2 ht)
    (hplace : ∀ i e, e ∈ bucket ht2.entries i → e.hash &&& mask ht2.capacity = i)
    (hperm : (all_entries ht2).Perm l)
    (hhash : ∀ e, e ∈ l → e.hash = key_hash ht e.key)
    (hklen : ∀ e, e ∈ l → key_ok ht e.key)
    (hnd : (l.map (fun e => e.key)).Nodup) : KeyInv ht2 := by
  refine ⟨hplace, ?_, ?_, ?_⟩
  · intro e he
    rw [key_hash_params hp]
    exact hhash e (hperm.mem_iff.1 he)
  · intro e he
    rw [key_ok_params hp]
    exact hklen e (hperm.mem_iff.1 he)
  · exact (List.Perm.map _ hperm).nodup_iff.2 hnd

theorem mem_all_of_bucket (ht : hashmap_s) (i : Nat) (e : hashmap_entry_s)
    (he : e ∈ bucket ht.entries i) : e ∈ all_entries ht :=
  mem_flatten_of_bucket ht.entries i e he

/-- An entry that carries `key` sits in the bucket that a call for `key` scans. -/
theorem mem_scan_bucket (ht : hashmap_s) (hk : KeyInv ht) (key : Option Bytes)
    (e : hashmap_entry_s) (he : e ∈ all_entries ht) (hkey : e.key = key) :
    e ∈ bucket ht.entries (scan_index ht key) := by
  obtain ⟨i, _, hi⟩ := (mem_flatten_iff_bucket ht.entries e).1 he
  have h1 := hk.place i e hi
  rw [hk.hash e he, hkey, key_hash_index] at h1
  rw [h1]
  exact hi

theorem no_key_of_miss (ht : hashmap_s) (hk : KeyInv ht) (hc : ht.cmp_fn = none)
    (key : Option Bytes) (hkey : key_ok ht key)
    (hmiss : ∀ e, e ∈ bucket ht.entries (scan_index ht key) → entry_hit ht key e = false) :
    ∀ e, e ∈ all_entries ht → e.key ≠ key := by
  intro e he hek
  have hb := mem_scan_bucket ht hk key e he hek
  have := (entry_hit_iff ht hc key e hkey (hk.klen e he)).2 hek
  rw [hmiss e hb] at this
  exact absurd this (by decide)

theorem new_entry_hash (ht : hashmap_s) (key : Option Bytes) (val : Bytes)
    (hkey : key_ok ht key) :
    (new_entry_for ht key val).hash = key_hash ht (new_entry_for ht key val).key ∧
      (new_entry_for ht key val).key = key := by
  simp only [new_entry_for, key_map_memcpy ht key hkey, and_self]

theorem keyinv_cons_drop (ht ht2 : hashmap_s) (key : Option Bytes) (val : Bytes)
    (hk : KeyInv ht) (hkey : key_ok ht key) (hp : same_params ht2 ht)
    (hplace : ∀ i e, e ∈ bucket ht2.entries i → e.hash &&& mask ht2.capacity = i)
    (hperm : (all_entries ht2).Perm (new_entry_for ht key val :: drop_key key (all_entries ht))) :
    KeyInv ht2 := by
  obtain ⟨hh, hnk⟩ := new_entry_hash ht key val hkey
  apply keyinv_of_perm ht ht2 _ hp hplace hperm
  · intro e he
    rcases List.mem_cons.1 he with rfl | he
    · exact hh
    · exact hk.hash e ((mem_drop_key _ _ _).1 he).1
  · intro e he
    rcases List.mem_cons.1 he with rfl | he
    · rw [hnk]; exact hkey
    · exact hk.klen e ((mem_drop_key _ _ _).1 he).1
  · rw [List.map_cons, List.nodup_cons, hnk]
    exact ⟨key_not_mem_drop_key key _, nodup_drop_key key _ hk.nodup⟩

/-- The effect of the scan-and-link step on the entries of a map with default equality: the
entry for `key`, if there was one, is replaced by the entry for `key` and `val`. -/
theorem assign_at_keys (alloc : Nat → Bool) (ht : hashmap_s) (key : Option Bytes) (val : Bytes)
    (h : Inv ht) (hk : KeyInv ht) (hc : ht.cmp_fn = none) (hkey : key_ok ht key) :
    same_params (assign_at alloc ht key val).2 ht ∧
      (assign_at alloc ht key val).2.capacity = ht.capacity ∧
      KeyInv (assign_at alloc ht key val).2 ∧
      ((assign_at alloc ht key val).1 = stat_t.COMPLETE →
        (all_entries (assign_at alloc ht key val).2).Perm
          (new_entry_for ht key val :: drop_key key (all_entries ht))) ∧
      ((assign_at alloc ht key val).1 ≠ stat_t.COMPLETE →
        (assign_at alloc ht key val).2 = ht) := by
  have hi := scan_index_lt ht h key
  obtain ⟨R, hR1, hR2⟩ := flatten_set_split ht.entries (scan_index ht key) hi
  cases hca : chain_assign (entry_hit ht key) val ht.elem_size
      (bucket ht.entries (scan_index ht key)) with
  | some c =>
    have hr : assign_at alloc ht key val
        = (stat_t.COMPLETE, { ht with entries := ht.entries.set (scan_index ht key) c }) := by
      simp only [assign_at, hca]
    rw [hr]
    obtain ⟨a, e, b, hab, hhit, _, rfl⟩ := chain_assign_some _ _ _ _ _ hca
    have hmem : e ∈ all_entries ht := by
      apply mem_all_of_bucket ht (scan_index ht key)
      rw [hab]
      simp
    have hek : e.key = key := (entry_hit_iff ht hc key e hkey (hk.klen e hmem)).1 hhit
    have hnew : ({ e with elem := memcpy val ht.elem_size } : hashmap_entry_s)
        = new_entry_for ht key val := by
      simp only [new_entry_for, key_map_memcpy ht key hkey, hk.hash e hmem, hek]
    have hall : (all_entries ht).Perm (a ++ e :: (b ++ R)) := by
      have := hR1
      rw [hab] at this
      simpa [all_entries] using this
    have hperm : (all_entries
        { ht with
          entries :=
            ht.entries.set (scan_index ht key)
              (a ++ { e with elem := memcpy val ht.elem_size } :: b) }).Perm
        (new_entry_for ht key val :: drop_key key (all_entries ht)) := by
      have h2 := hR2 (a ++ { e with elem := memcpy val ht.elem_size } :: b)
      rw [hnew] at h2 ⊢
      have h3 : (a ++ new_entry_for ht key val :: b ++ R).Perm
          (new_entry_for ht key val :: (a ++ (b ++ R))) := by
        simp
      exact (h2.trans h3).trans
        (List.Perm.cons _ (drop_key_perm key _ a (b ++ R) e hall hk.nodup hek).symm)
    have hplace : ∀ i x,
        x ∈ bucket (ht.entries.set (scan_index ht key)
          (a ++ { e with elem := memcpy val ht.elem_size } :: b)) i →
        x.hash &&& mask ht.capacity = i := by
      intro i x hx
      by_cases hij : i = scan_index ht key
      · subst hij
        rw [bucket_set_self _ _ _ hi] at hx
        have hx2 : x ∈ a ∨ x = { e with elem := memcpy val ht.elem_size } ∨ x ∈ b := by
          simpa using hx
        rcases hx2 with hx2 | hx2 | hx2
        · exact hk.place _ x (by rw [hab]; simp [hx2])
        · rw [hx2]
          exact hk.place _ e (by rw [hab]; simp)
        · exact hk.place _ x (by rw [hab]; simp [hx2])
      · rw [bucket_set_ne _ _ _ _ hij] at hx
        exact hk.place i x hx
    refine ⟨⟨rfl, rfl, rfl, rfl⟩, rfl, ?_, fun _ => hperm, fun hne => absurd rfl hne⟩
    exact keyinv_cons_drop ht _ key val hk hkey ⟨rfl, rfl, rfl, rfl⟩ hplace hperm
  | none =>
    cases hg : entry_granted alloc ht key with
    | false =>
      have hr : assign_at alloc ht key val = (stat_t.ERR_MEMORY_ALLOCATION, ht) := by
        simp only [assign_at, hca, hg, if_true]
      rw [hr]
      exact ⟨same_params_refl ht, rfl, hk, fun hcon => (by cases hcon), fun _ => rfl⟩
    | true =>
      have hr : assign_at alloc ht key val
          = (stat_t.COMPLETE,
              { ht with
                entries := ht.entries.set (scan_index ht key)
                  (new_entry_for ht key val :: bucket ht.entries (scan_index ht key))
                size := u64 (ht.size + 1) }) := by
        simp only [assign_at, hca, hg, Bool.true_eq_false, if_false]
      rw [hr]
      have hmiss := (chain_assign_none _ _ _ _).1 hca
      have hno := no_key_of_miss ht hk hc key hkey hmiss
      have hperm : (all_entries
          { ht with
            entries := ht.entries.set (scan_index ht key)
              (new_entry_for ht key val :: bucket ht.entries (scan_index ht key))
            size := u64 (ht.size + 1) }).Perm
          (new_entry_for ht key val :: drop_key key (all_entries ht)) := by
        rw [drop_key_eq_self key _ hno]
        exact flatten_set_cons_perm ht.entries _ hi _
      have hplace : ∀ i x,
          x ∈ bucket (ht.entries.set (scan_index ht key)
            (new_entry_for ht key val :: bucket ht.entries (scan_index ht key))) i →
          x.hash &&& mask ht.capacity = i := by
        intro i x hx
        by_cases hij : i = scan_index ht key
        · subst hij
          rw [bucket_set_self _ _ _ hi] at hx
          rcases List.mem_cons.1 hx with rfl | hx
          · exact key_hash_index ht key
          · exact hk.place _ x hx
        · rw [bucket_set_ne _ _ _ _ hij] at hx
          exact hk.place i x hx
      refine ⟨⟨rfl, rfl, rfl, rfl⟩, rfl, ?_, fun _ => hperm, fun hne => absurd rfl hne⟩
      exact keyinv_cons_drop ht _ key val hk hkey ⟨rfl, rfl, rfl, rfl⟩ hplace hperm


/-! ## Growth -/

theorem hashmap_alloc_params (alloc : Nat → Bool) (ht : hashmap_s) (c : Nat) :
    same_params (hashmap_alloc alloc ht c).2 ht := by
  simp only [hashmap_alloc]
  split <;> exact ⟨rfl, rfl, rfl, rfl⟩

/-- No growth step changes the parameters fixed at construction. -/
theorem hashmap_grow_params (alloc : Nat → Bool) (ht : hashmap_s) (c : Nat) :
    same_params (hashmap_grow alloc ht c).2 ht := by
  have hp := hashmap_alloc_params alloc ht c
  simp only [hashmap_grow]
  split
  · exact hp
  · exact ⟨hp.1, hp.2.1, hp.2.2.1, hp.2.2.2⟩

/-- A granted growth step keeps the key invariant. -/
theorem hashmap_grow_keys (alloc : Nat → Bool) (ht : hashmap_s) (c e : Nat) (h : Inv ht)
    (h3 : 3 ≤ e) (h62 : e ≤ 62) (hc : c = 2 ^ e) (hle : ht.capacity ≤ c)
    (hs : (hashmap_grow alloc ht c).1 = stat_t.COMPLETE) (hk : KeyInv ht) :
    KeyInv (hashmap_grow alloc ht c).2 := by
  obtain ⟨_, hperm, _, hcap, hplace⟩ := hashmap_grow_inv alloc ht c e h h3 h62 hc hle hs
  refine keyinv_of_perm ht _ (all_entries ht) (hashmap_grow_params alloc ht c) ?_ hperm
    hk.hash hk.klen hk.nodup
  rw [hcap]
  exact hplace

theorem new_entry_params {a b : hashmap_s} (h : same_params a b) (key : Option Bytes)
    (val : Bytes) : new_entry_for a key val = new_entry_for b key val := by
  simp only [new_entry_for, key_hash_params h, h.1, h.2.1]

/-- The effect of `hashmap_assign` on the entries of a map with default equality. -/
theorem hashmap_assign_keys (alloc : Nat → Bool) (ht : hashmap_s) (key : Option Bytes)
    (val : Bytes) (h : Inv ht) (hk : KeyInv ht) (hc : ht.cmp_fn = none)
    (hkey : key_ok ht key) :
    same_params (hashmap_assign alloc ht key val).2 ht ∧
      KeyInv (hashmap_assign alloc ht key val).2 ∧
      ((hashmap_assign alloc ht key val).1 = stat_t.COMPLETE →
        (all_entries (hashmap_assign alloc ht key val).2).Perm
          (new_entry_for ht key val :: drop_key key (all_entries ht))) ∧
      ((hashmap_assign alloc ht key val).1 ≠ stat_t.COMPLETE →
        (all_entries (hashmap_assign alloc ht key val).2).Perm (all_entries ht)) := by
  obtain ⟨h8, h62, m, hm⟩ := h.cap_bounds
  obtain ⟨e, h3, he62, he⟩ := h.cap
  simp only [hashmap_assign, hashmap_assign_entry_eq]
  split
  · rename_i hld
    split
    · exact ⟨same_params_refl ht, hk, fun hcon => (by cases hcon), fun _ => List.Perm.refl _⟩
    · rename_i hov
      have hdbl : u64 (ht.capacity <<< 1) = 2 ^ (e + 1) := by
        rw [shl_one, he, Nat.pow_succ]
        simp only [u64]
        omega
      have he61 : e ≤ 61 := by
        by_contra hcon
        have hp := pow_le_of_le (show 63 ≤ e + 1 by omega)
        rw [hdbl, max_capacity_eq] at hov
        omega
      split
      · rename_i hne
        rw [hashmap_grow_fail alloc ht _ hne]
        exact ⟨same_params_refl ht, hk, fun hcon => (by cases hcon), fun _ => List.Perm.refl _⟩
      · rename_i hne
        have hs := not_not.1 hne
        have hle : ht.capacity ≤ u64 (ht.capacity <<< 1) := by
          rw [hdbl, he, Nat.pow_succ]; omega
        obtain ⟨hi3, hperm3, _, _, _⟩ := hashmap_grow_inv alloc ht _ (e + 1) h (by omega)
          (by omega) hdbl hle hs
        have hk3 := hashmap_grow_keys alloc ht _ (e + 1) h (by omega) (by omega) hdbl hle hs hk
        have hp3 := hashmap_grow_params alloc ht (u64 (ht.capacity <<< 1))
        obtain ⟨q1, _, q3, q4, q5⟩ := assign_at_keys alloc _ key val hi3 hk3
          (by rw [hp3.2.2.2]; exact hc) ((key_ok_params hp3 key).2 hkey)
        refine ⟨same_params_trans q1 hp3, q3, ?_, ?_⟩
        · intro hst
          rw [← new_entry_params hp3 key val]
          exact (q4 hst).trans (List.Perm.cons _ (List.Perm.filter _ hperm3))
        · intro hst
          rw [q5 hst]
          exact hperm3
  · obtain ⟨q1, _, q3, q4, q5⟩ := assign_at_keys alloc ht key val h hk hc hkey
    refine ⟨q1, q3, q4, ?_⟩
    intro hs
    rw [q5 hs]

/-- The effect of `hashmap_remove` on the entries of a map with default equality. -/
theorem hashmap_remove_keys (ht : hashmap_s) (key : Option Bytes) (h : Inv ht)
    (hk : KeyInv ht) (hc : ht.cmp_fn = none) (hkey : key_ok ht key) :
    same_params (hashmap_remove ht key).2.1 ht ∧
      (hashmap_remove ht key).2.1.capacity = ht.capacity ∧
      KeyInv (hashmap_remove ht key).2.1 ∧
      (∀ e, e ∈ all_entries ht → e.key = key →
        (hashmap_remove ht key).1 = stat_t.COMPLETE ∧
        (hashmap_remove ht key).2.2 = some (memcpy e.elem ht.elem_size) ∧
        (all_entries (hashmap_remove ht key).2.1).Perm (drop_key key (all_entries ht))) ∧
      ((∀ e, e ∈ all_entries ht → e.key ≠ key) →
        hashmap_remove ht key = (stat_t.ERR_INVALID_OPERATION, ht, none)) := by
  have hi := scan_index_lt ht h key
  obtain ⟨R, hR1, hR2⟩ := flatten_set_split ht.entries (scan_index ht key) hi
  cases hcr : chain_remove (entry_hit ht key) (bucket ht.entries (scan_index ht key)) with
  | none =>
    have hr : hashmap_remove ht key = (stat_t.ERR_INVALID_OPERATION, ht, none) := by
      simp only [hashmap_remove, hcr]
    rw [hr]
    refine ⟨same_params_refl ht, rfl, hk, ?_, fun _ => rfl⟩
    intro e he hek
    have hno := no_key_of_miss ht hk hc key hkey ((chain_remove_none _ _).1 hcr)
    exact absurd hek (hno e he)
  | some p =>
    obtain ⟨e, c⟩ := p
    have hr : hashmap_remove ht key
        = (stat_t.COMPLETE,
            { ht with entries := ht.entries.set (scan_index ht key) c, size := sub64 ht.size 1 },
            some (memcpy e.elem ht.elem_size)) := by
      simp only [hashmap_remove, hcr]
    rw [hr]
    obtain ⟨a, b, hab, hhit, _, rfl⟩ := chain_remove_some _ _ _ _ hcr
    have hmem : e ∈ all_entries ht := by
      apply mem_all_of_bucket ht (scan_index ht key)
      rw [hab]
      simp
    have hek : e.key = key := (entry_hit_iff ht hc key e hkey (hk.klen e hmem)).1 hhit
    have hall : (all_entries ht).Perm (a ++ e :: (b ++ R)) := by
      have := hR1
      rw [hab] at this
      simpa [all_entries] using this
    have hperm : (all_entries
        { ht with entries := ht.entries.set (scan_index ht key) (a ++ b),
                  size := sub64 ht.size 1 }).Perm (drop_key key (all_entries ht)) := by
      have h2 := hR2 (a ++ b)
      rw [List.append_assoc] at h2
      exact h2.trans (drop_key_perm key _ a (b ++ R) e hall hk.nodup hek).symm
    have hplace : ∀ i x, x ∈ bucket (ht.entries.set (scan_index ht key) (a ++ b)) i →
        x.hash &&& mask ht.capacity = i := by
      intro i x hx
      by_cases hij : i = scan_index ht key
      · subst hij
        rw [bucket_set_self _ _ _ hi] at hx
        rcases List.mem_append.1 hx with hx2 | hx2
        · exact hk.place _ x (by rw [hab]; simp [hx2])
        · exact hk.place _ x (by rw [hab]; simp [hx2])
      · rw [bucket_set_ne _ _ _ _ hij] at hx
        exact hk.place i x hx
    refine ⟨⟨rfl, rfl, rfl, rfl⟩, rfl, ?_, ?_, ?_⟩
    · refine keyinv_of_perm ht _ _ ⟨rfl, rfl, rfl, rfl⟩ hplace hperm ?_ ?_ ?_
      · intro x hx
        exact hk.hash x ((mem_drop_key _ _ _).1 hx).1
      · intro x hx
        exact hk.klen x ((mem_drop_key _ _ _).1 hx).1
      · exact nodup_drop_key key _ hk.nodup
    · intro e2 he2 hek2
      have : e2 = e := eq_of_key_eq _ hk.nodup e2 e he2 hmem (hek2.trans hek.symm)
      subst this
      exact ⟨rfl, rfl, hperm⟩
    · intro hno
      exact absurd hek (hno e hmem)

/-- The effect of `hashmap_reserve` on the entries of a map. -/
theorem hashmap_reserve_keys (alloc : Nat → Bool) (ht : hashmap_s) (capacity : Nat)
    (h : Inv ht) :
    same_params (hashmap_reserve alloc ht capacity).2 ht ∧
      (all_entries (hashmap_reserve alloc ht capacity).2).Perm (all_entries ht) ∧
      (hashmap_reserve alloc ht capacity).2.size = ht.size ∧
      (KeyInv ht → KeyInv (hashmap_reserve alloc ht capacity).2) := by
  simp only [hashmap_reserve]
  split
  · exact ⟨same_params_refl ht, List.Perm.refl _, rfl, fun hk => hk⟩
  · rename_i hcnd
    rw [max_capacity_half] at hcnd
    obtain ⟨e, h3, h62, hr, _, hle, _⟩ :=
      hashmap_reserve_new_cap ht h capacity (by omega) (by omega)
    by_cases hs : (hashmap_grow alloc ht (roundup_pow2 capacity)).1 = stat_t.COMPLETE
    · have hle2 : ht.capacity ≤ roundup_pow2 capacity := by rw [hr]; exact hle
      obtain ⟨_, hperm, hsz, _, _⟩ :=
        hashmap_grow_inv alloc ht (roundup_pow2 capacity) e h h3 h62 hr hle2 hs
      exact ⟨hashmap_grow_params alloc ht _, hperm, hsz,
        hashmap_grow_keys alloc ht (roundup_pow2 capacity) e h h3 h62 hr hle2 hs⟩
    · rw [hashmap_grow_fail alloc ht _ hs]
      exact ⟨same_params_refl ht, List.Perm.refl _, rfl, fun hk => hk⟩

theorem keyinv_of_empty (ht : hashmap_s) (hall : all_entries ht = [])
    (hb : ∀ i, bucket ht.entries i = []) : KeyInv ht := by
  refine ⟨?_, ?_, ?_, ?_⟩
  · intro i e he
    rw [hb i] at he
    cases he
  · intro e he
    rw [hall] at he
    cases he
  · intro e he
    rw [hall] at he
    cases he
  · rw [hall]
    exact List.nodup_nil

theorem hashmap_clear_keys (ht : hashmap_s) (h : Inv ht) :
    same_params (hashmap_clear ht) ht ∧ all_entries (hashmap_clear ht) = [] ∧
      KeyInv (hashmap_clear ht) := by
  have hall := (hashmap_clear_entries ht h.len).2
  refine ⟨⟨rfl, rfl, rfl, rfl⟩, hall, keyinv_of_empty _ hall ?_⟩
  intro i
  simp only [hashmap_clear]
  rw [clear_fold_bucket]
  by_cases hi : i < ht.capacity
  · simp [hi]
  · simp only [hi, if_false]
    exact bucket_of_le _ _ (by rw [h.len]; omega)

theorem hashmap_init_keys (alloc : Nat → Bool) (capacity key_len elem_size : Nat)
    (hash_fn : Option (Bytes → Nat)) (cmp_fn : Option (Bytes → Bytes → Int)) (ht : hashmap_s)
    (h : _hashmap_init alloc capacity key_len elem_size hash_fn cmp_fn = some ht) :
    KeyInv ht := by
  have heq := hashmap_init_eq alloc capacity key_len elem_size hash_fn cmp_fn ht h
  apply keyinv_of_empty
  · rw [heq]
    exact flatten_replicate_nil _
  · intro i
    rw [heq]
    exact bucket_replicate_nil _ i

theorem assign_at_params (alloc : Nat → Bool) (ht : hashmap_s) (key : Option Bytes)
    (val : Bytes) : same_params (assign_at alloc ht key val).2 ht := by
  simp only [assign_at]
  split
  · exact ⟨rfl, rfl, rfl, rfl⟩
  · split <;> exact ⟨rfl, rfl, rfl, rfl⟩

/-- No call of `hashmap_assign` changes the parameters fixed at construction. -/
theorem hashmap_assign_params (alloc : Nat → Bool) (ht : hashmap_s) (key : Option Bytes)
    (val : Bytes) : same_params (hashmap_assign alloc ht key val).2 ht := by
  simp only [hashmap_assign, hashmap_assign_entry_eq]
  split
  · split
    · exact same_params_refl ht
    · have hp := hashmap_grow_params alloc ht (u64 (ht.capacity <<< 1))
      split
      · exact hp
      · exact same_params_trans (assign_at_params alloc _ key val) hp
  · exact assign_at_params alloc ht key val

theorem hashmap_remove_params (ht : hashmap_s) (key : Option Bytes) :
    same_params (hashmap_remove ht key).2.1 ht := by
  simp only [hashmap_remove]
  split <;> exact ⟨rfl, rfl, rfl, rfl⟩

theorem hashmap_reserve_params (alloc : Nat → Bool) (ht : hashmap_s) (capacity : Nat) :
    same_params (hashmap_reserve alloc ht capacity).2 ht := by
  simp only [hashmap_reserve]
  split
  · exact same_params_refl ht
  · exact hashmap_grow_params alloc ht (roundup_pow2 capacity)

/-- Every reachable map with default equality satisfies the key invariant. -/
theorem reachable_keyinv (ht : hashmap_s) (h : Reachable ht) (hc : ht.cmp_fn = none) :
    KeyInv ht := by
  induction h with
  | init alloc capacity key_len elem_size hash_fn cmp_fn ht _ _ hinit =>
    exact hashmap_init_keys alloc capacity key_len elem_size hash_fn cmp_fn ht hinit
  | assign alloc ht key val hr hkey ih =>
    have hi := reachable_inv ht hr
    have hc0 : ht.cmp_fn = none := by
      rw [← (hashmap_assign_params alloc ht key val).2.2.2]; exact hc
    exact (hashmap_assign_keys alloc ht key val hi (ih hc0) hc0 hkey).2.1
  | remove ht key hr hkey ih =>
    have hi := reachable_inv ht hr
    have hc0 : ht.cmp_fn = none := by
      rw [← (hashmap_remove_params ht key).2.2.2]; exact hc
    exact (hashmap_remove_keys ht key hi (ih hc0) hc0 hkey).2.2.1
  | reserve alloc ht capacity hr ih =>
    have hi := reachable_inv ht hr
    obtain ⟨hp, _, _, hk⟩ := hashmap_reserve_keys alloc ht capacity hi
    exact hk (ih (hp.2.2.2 ▸ hc))
  | clear ht hr ih =>
    exact (hashmap_clear_keys ht (reachable_inv ht hr)).2.2


/-! ## Queries -/

/-- A query for the key of a stored entry finds that entry. -/
theorem hashmap_query_hit (ht : hashmap_s) (hk : KeyInv ht) (hc : ht.cmp_fn = none)
    (key : Option Bytes) (hkey : key_ok ht key) (e : hashmap_entry_s)
    (he : e ∈ all_entries ht) (hek : e.key = key) :
    hashmap_query ht key = (stat_t.COMPLETE, some (memcpy e.elem ht.elem_size)) ∧
      hashmap_contains_key ht key = 1 := by
  have hb := mem_scan_bucket ht hk key e he hek
  have hhit := (entry_hit_iff ht hc key e hkey (hk.klen e he)).2 hek
  cases hf : chain_find (entry_hit ht key) (bucket ht.entries (scan_index ht key)) with
  | none =>
    have := (chain_find_none _ _).1 hf e hb
    rw [hhit] at this
    exact absurd this (by decide)
  | some e2 =>
    obtain ⟨hm2, hh2⟩ := chain_find_some _ _ _ hf
    have hm2a := mem_all_of_bucket ht _ e2 hm2
    have hk2 := (entry_hit_iff ht hc key e2 hkey (hk.klen e2 hm2a)).1 hh2
    have : e2 = e := eq_of_key_eq _ hk.nodup e2 e hm2a he (hk2.trans hek.symm)
    subst this
    simp only [hashmap_query, hashmap_contains_key, hf, and_self]

/-- A query for a key that no entry carries finds nothing. -/
theorem hashmap_query_miss (ht : hashmap_s) (hk : KeyInv ht) (hc : ht.cmp_fn = none)
    (key : Option Bytes) (hkey : key_ok ht key)
    (hno : ∀ e, e ∈ all_entries ht → e.key ≠ key) :
    hashmap_query ht key = (stat_t.ERR_INVALID_OPERATION, none) ∧
      hashmap_contains_key ht key = 0 := by
  cases hf : chain_find (entry_hit ht key) (bucket ht.entries (scan_index ht key)) with
  | none => simp only [hashmap_query, hashmap_contains_key, hf, and_self]
  | some e2 =>
    obtain ⟨hm2, hh2⟩ := chain_find_some _ _ _ hf
    have hm2a := mem_all_of_bucket ht _ e2 hm2
    have hk2 := (entry_hit_iff ht hc key e2 hkey (hk.klen e2 hm2a)).1 hh2
    exact absurd hk2 (hno e2 hm2a)

/-- Two maps whose entries for `key` agree answer a query for `key` alike. -/
theorem hashmap_query_congr (ht ht2 : hashmap_s) (hk : KeyInv ht) (hk2 : KeyInv ht2)
    (hp : same_params ht2 ht) (hc : ht.cmp_fn = none) (key : Option Bytes)
    (hkey : key_ok ht key)
    (hsame : ∀ e, e.key = key → (e ∈ all_entries ht2 ↔ e ∈ all_entries ht)) :
    hashmap_query ht2 key = hashmap_query ht key ∧
      hashmap_contains_key ht2 key = hashmap_contains_key ht key := by
  have hc2 : ht2.cmp_fn = none := by rw [hp.2.2.2]; exact hc
  have hkey2 : key_ok ht2 key := (key_ok_params hp key).2 hkey
  by_cases hex : ∃ e, e ∈ all_entries ht ∧ e.key = key
  · obtain ⟨e, he, hek⟩ := hex
    obtain ⟨q1, q2⟩ := hashmap_query_hit ht hk hc key hkey e he hek
    obtain ⟨r1, r2⟩ := hashmap_query_hit ht2 hk2 hc2 key hkey2 e ((hsame e hek).2 he) hek
    rw [q1, q2, r1, r2, hp.2.1]
    exact ⟨rfl, rfl⟩
  · have hno : ∀ e, e ∈ all_entries ht → e.key ≠ key := fun e he hek => hex ⟨e, he, hek⟩
    have hno2 : ∀ e, e ∈ all_entries ht2 → e.key ≠ key :=
      fun e he hek => hex ⟨e, (hsame e hek).1 he, hek⟩
    obtain ⟨q1, q2⟩ := hashmap_query_miss ht hk hc key hkey hno
    obtain ⟨r1, r2⟩ := hashmap_query_miss ht2 hk2 hc2 key hkey2 hno2
    rw [q1, q2, r1, r2]
    exact ⟨rfl, rfl⟩

theorem memcpy_memcpy (v : Bytes) (n : Nat) : memcpy (memcpy v n) n = memcpy v n := by
  simp [memcpy, List.take_take]

/-- What a successful `hashmap_assign` does to a map that satisfies both invariants: the key
maps to the value, every other key is answered as before, and the size grows by one exactly
when the key was new. -/
theorem hashmap_assign_effect (alloc : Nat → Bool) (ht : hashmap_s) (key : Option Bytes)
    (val : Bytes) (h : Inv ht) (hk : KeyInv ht) (hc : ht.cmp_fn = none)
    (hkey : key_ok ht key)
    (hs : (hashmap_assign alloc ht key val).1 = stat_t.COMPLETE) :
    hashmap_query (hashmap_assign alloc ht key val).2 key
        = (stat_t.COMPLETE, some (memcpy val ht.elem_size)) ∧
      (∀ key2, key2 ≠ key → key_ok ht key2 →
        hashmap_query (hashmap_assign alloc ht key val).2 key2 = hashmap_query ht key2) ∧
      (has_key ht key → (hashmap_assign alloc ht key val).2.size = ht.size) ∧
      (¬ has_key ht key → (hashmap_assign alloc ht key val).2.size = ht.size + 1) ∧
      (∀ key2, has_key (hashmap_assign alloc ht key val).2 key2 ↔
        (key2 = key ∨ has_key ht key2)) := by
  obtain ⟨hp, hk2, hperm, _⟩ := hashmap_assign_keys alloc ht key val h hk hc hkey
  have hperm := hperm hs
  have hi2 := hashmap_assign_inv alloc ht key val h
  have hc2 : (hashmap_assign alloc ht key val).2.cmp_fn = none := by rw [hp.2.2.2]; exact hc
  obtain ⟨_, hnk⟩ := new_entry_hash ht key val hkey
  refine ⟨?_, ?_, ?_, ?_, ?_⟩
  · have hm : new_entry_for ht key val ∈ all_entries (hashmap_assign alloc ht key val).2 :=
      hperm.mem_iff.2 (List.mem_cons_self _ _)
    have := (hashmap_query_hit _ hk2 hc2 key ((key_ok_params hp key).2 hkey) _ hm hnk).1
    rw [this, hp.2.1]
    simp only [new_entry_for, memcpy_memcpy]
  · intro key2 hne hkey2
    apply (hashmap_query_congr ht _ hk hk2 hp hc key2 hkey2 ?_).1
    intro e hek
    rw [hperm.mem_iff, List.mem_cons, mem_drop_key]
    constructor
    · rintro (rfl | ⟨hm, _⟩)
      · rw [hnk] at hek
        exact absurd hek.symm hne
      · exact hm
    · intro hm
      exact Or.inr ⟨hm, by rw [hek]; exact hne⟩
  · rintro ⟨e, he, hek⟩
    have h1 := hi2.size
    rw [hperm.length_eq, List.length_cons,
      length_drop_key_of_mem key _ hk.nodup e he hek] at h1
    rw [h1]
    exact h.size.symm
  · intro hno
    have h1 := hi2.size
    rw [hperm.length_eq, List.length_cons,
      drop_key_eq_self key _ (fun e he hek => hno ⟨e, he, hek⟩)] at h1
    rw [h1, h.size]
  · intro key2
    simp only [has_key]
    constructor
    · rintro ⟨e, he, hek⟩
      rw [hperm.mem_iff, List.mem_cons, mem_drop_key] at he
      rcases he with rfl | ⟨hm, _⟩
      · exact Or.inl (hek.symm.trans hnk)
      · exact Or.inr ⟨e, hm, hek⟩
    · rintro (rfl | ⟨e, he, hek⟩)
      · exact ⟨_, hperm.mem_iff.2 (List.mem_cons_self _ _), hnk⟩
      · by_cases hkk : key2 = key
        · subst hkk
          exact ⟨_, hperm.mem_iff.2 (List.mem_cons_self _ _), hnk⟩
        · refine ⟨e, hperm.mem_iff.2 (List.mem_cons_of_mem _ ?_), hek⟩
          exact (mem_drop_key _ _ _).2 ⟨he, by rw [hek]; exact hkk⟩


/-! ## Effects of removal and reservation -/

theorem not_has_key_iff (ht : hashmap_s) (key : Option Bytes) :
    ¬ has_key ht key ↔ ∀ e, e ∈ all_entries ht → e.key ≠ key := by
  simp only [has_key, not_exists, not_and]

/-- What `hashmap_remove` does to a map that satisfies both invariants and stores `key`. -/
theorem hashmap_remove_effect (ht : hashmap_s) (key : Option Bytes) (h : Inv ht)
    (hk : KeyInv ht) (hc : ht.cmp_fn = none) (hkey : key_ok ht key) (hp : has_key ht key) :
    (hashmap_remove ht key).1 = stat_t.COMPLETE ∧
      (hashmap_remove ht key).2.2 = (hashmap_query ht key).2 ∧
      (hashmap_remove ht key).2.1.size + 1 = ht.size ∧
      (hashmap_remove ht key).2.1.capacity = ht.capacity ∧
      ¬ has_key (hashmap_remove ht key).2.1 key ∧
      (∀ key2, key2 ≠ key → key_ok ht key2 →
        hashmap_query (hashmap_remove ht key).2.1 key2 = hashmap_query ht key2) := by
  obtain ⟨e, he, hek⟩ := hp
  obtain ⟨hpar, hcap, hk2, hhit, _⟩ := hashmap_remove_keys ht key h hk hc hkey
  obtain ⟨hs, hv, hperm⟩ := hhit e he hek
  have hi2 := hashmap_remove_inv ht key h
  refine ⟨hs, ?_, ?_, hcap, ?_, ?_⟩
  · rw [hv, (hashmap_query_hit ht hk hc key hkey e he hek).1]
  · have h1 := hi2.size
    rw [hperm.length_eq] at h1
    rw [h1, h.size]
    exact length_drop_key_of_mem key _ hk.nodup e he hek
  · rintro ⟨x, hx, hxk⟩
    exact ((mem_drop_key _ _ _).1 (hperm.mem_iff.1 hx)).2 hxk
  · intro key2 hne hkey2
    apply (hashmap_query_congr ht _ hk hk2 hpar hc key2 hkey2 ?_).1
    intro x hxk
    rw [hperm.mem_iff, mem_drop_key]
    constructor
    · exact fun hx => hx.1
    · exact fun hx => ⟨hx, by rw [hxk]; exact hne⟩

/-- A successful `hashmap_remove` found an entry for its key. -/
theorem has_key_of_remove_ok (ht : hashmap_s) (key : Option Bytes) (h : Inv ht)
    (hk : KeyInv ht) (hc : ht.cmp_fn = none) (hkey : key_ok ht key)
    (hs : (hashmap_remove ht key).1 = stat_t.COMPLETE) : has_key ht key := by
  by_contra hno
  have := (hashmap_remove_keys ht key h hk hc hkey).2.2.2.2 ((not_has_key_iff ht key).1 hno)
  rw [this] at hs
  cases hs

/-- A query is answered alike before and after `hashmap_reserve`. -/
theorem hashmap_reserve_query (alloc : Nat → Bool) (ht : hashmap_s) (capacity : Nat)
    (h : Inv ht) (hk : KeyInv ht) (hc : ht.cmp_fn = none) (key : Option Bytes)
    (hkey : key_ok ht key) :
    hashmap_query (hashmap_reserve alloc ht capacity).2 key = hashmap_query ht key := by
  obtain ⟨hpar, hperm, _, hk2⟩ := hashmap_reserve_keys alloc ht capacity h
  apply (hashmap_query_congr ht _ hk (hk2 hk) hpar hc key hkey ?_).1
  intro x _
  exact hperm.mem_iff

/-- The growth step succeeds exactly when the bucket array is granted. -/
theorem hashmap_grow_granted (alloc : Nat → Bool) (ht : hashmap_s) (c : Nat)
    (hal : alloc (u64 (c * sizeof_entry_ptr)) = true) :
    (hashmap_grow alloc ht c).1 = stat_t.COMPLETE := by
  have h1 : (hashmap_alloc alloc ht c).1 = stat_t.COMPLETE := by
    simp only [hashmap_alloc, hal, Bool.true_eq_false, if_false]
  simp only [hashmap_grow, h1, ne_eq, not_true_eq_false, if_false]

theorem hashmap_grow_refused (alloc : Nat → Bool) (ht : hashmap_s) (c : Nat)
    (hal : alloc (u64 (c * sizeof_entry_ptr)) = false) :
    hashmap_grow alloc ht c = (stat_t.ERR_MEMORY_ALLOCATION, ht) := by
  apply hashmap_grow_fail
  have h1 : (hashmap_alloc alloc ht c).1 = stat_t.ERR_MEMORY_ALLOCATION := by
    simp only [hashmap_alloc, hal, if_true]
  simp only [hashmap_grow, h1, ne_eq, if_true]
  exact fun hh => by cases hh

/-- On a reachable map with default equality `hashmap_contains_key` reports whether an entry
carries the key. -/
theorem contains_key_iff_has_key (ht : hashmap_s) (hk : KeyInv ht) (hc : ht.cmp_fn = none)
    (key : Option Bytes) (hkey : key_ok ht key) :
    hashmap_contains_key ht key = 1 ↔ has_key ht key := by
  constructor
  · intro h1
    by_contra hno
    have := (hashmap_query_miss ht hk hc key hkey ((not_has_key_iff ht key).1 hno)).2
    rw [this] at h1
    cases h1
  · rintro ⟨e, he, hek⟩
    exact (hashmap_query_hit ht hk hc key hkey e he hek).2


/-! ## Runs of assignments -/

theorem assign_all_cons (ht ht2 : hashmap_s) (c : assign_call) (rest : List assign_call)
    (h : assign_all ht (c :: rest) = some ht2) :
    (hashmap_assign c.1 ht c.2.1 c.2.2).1 = stat_t.COMPLETE ∧
      assign_all (hashmap_assign c.1 ht c.2.1 c.2.2).2 rest = some ht2 := by
  simp only [assign_all] at h
  split at h
  · rename_i hs
    exact ⟨hs, h⟩
  · cases h

theorem reachable_assign_all (ht ht2 : hashmap_s) (calls : List assign_call)
    (hr : Reachable ht) (hkeys : ∀ c, c ∈ calls → key_ok ht c.2.1)
    (h : assign_all ht calls = some ht2) : Reachable ht2 ∧ same_params ht2 ht := by
  induction calls generalizing ht with
  | nil =>
    simp only [assign_all, Option.some.injEq] at h
    subst h
    exact ⟨hr, same_params_refl _⟩
  | cons c rest ih =>
    obtain ⟨_, h2⟩ := assign_all_cons ht ht2 c rest h
    have hp := hashmap_assign_params c.1 ht c.2.1 c.2.2
    have hr1 := Reachable.assign c.1 ht c.2.1 c.2.2 hr (hkeys c (List.mem_cons_self _ _))
    obtain ⟨q1, q2⟩ := ih _ hr1
      (fun x hx => (key_ok_params hp x.2.1).2 (hkeys x (List.mem_cons_of_mem _ hx))) h2
    exact ⟨q1, same_params_trans q2 hp⟩

theorem last_assigned_key_ok (ht : hashmap_s) (key : Option Bytes) (v : Bytes)
    (calls : List assign_call) (hkeys : ∀ c, c ∈ calls → key_ok ht c.2.1)
    (h : last_assigned key calls = some v) : key_ok ht key := by
  induction calls generalizing v with
  | nil => cases h
  | cons c rest ih =>
    simp only [last_assigned] at h
    split at h
    · rename_i w hw
      exact ih w (fun x hx => hkeys x (List.mem_cons_of_mem _ hx)) hw
    · split at h
      · rename_i hck
        rw [← hck]
        exact hkeys c (List.mem_cons_self _ _)
      · cases h

/-- After a run of successful assignments a key answers with the value of its most recent
assignment, and a key the run did not assign answers as before. -/
theorem assign_all_query (ht ht2 : hashmap_s) (calls : List assign_call) (hi : Inv ht)
    (hk : KeyInv ht) (hc : ht.cmp_fn = none) (hkeys : ∀ c, c ∈ calls → key_ok ht c.2.1)
    (h : assign_all ht calls = some ht2) (key : Option Bytes) (hkey : key_ok ht key) :
    (∀ v, last_assigned key calls = some v →
        hashmap_query ht2 key = (stat_t.COMPLETE, some (memcpy v ht.elem_size))) ∧
      (last_assigned key calls = none → hashmap_query ht2 key = hashmap_query ht key) := by
  induction calls generalizing ht with
  | nil =>
    simp only [assign_all, Option.some.injEq] at h
    subst h
    exact ⟨fun v hv => (by cases hv), fun _ => rfl⟩
  | cons c rest ih =>
    obtain ⟨hs, h2⟩ := assign_all_cons ht ht2 c rest h
    have hkc := hkeys c (List.mem_cons_self _ _)
    obtain ⟨hp, hk1, _, _⟩ := hashmap_assign_keys c.1 ht c.2.1 c.2.2 hi hk hc hkc
    have hi1 := hashmap_assign_inv c.1 ht c.2.1 c.2.2 hi
    obtain ⟨e1, e2, _, _, _⟩ := hashmap_assign_effect c.1 ht c.2.1 c.2.2 hi hk hc hkc hs
    obtain ⟨q1, q2⟩ := ih _ hi1 hk1 (by rw [hp.2.2.2]; exact hc)
      (fun x hx => (key_ok_params hp x.2.1).2 (hkeys x (List.mem_cons_of_mem _ hx))) h2
      ((key_ok_params hp key).2 hkey)
    rw [hp.2.1] at q1
    constructor
    · intro v hv
      simp only [last_assigned] at hv
      split at hv
      · rename_i w hw
        cases hv
        exact q1 _ hw
      · rename_i hw
        split at hv
        · rename_i hck
          cases hv
          rw [q2 hw, ← hck]
          exact e1
        · cases hv
    · intro hv
      simp only [last_assigned] at hv
      split at hv
      · cases hv
      · rename_i hw
        split at hv
        · cases hv
        · rename_i hck
          rw [q2 hw]
          exact e2 key (fun hh => hck hh.symm) hkey

/-- A run of successful assignments of distinct keys, none of them stored before, adds one
entry per call. -/
theorem assign_all_size (ht ht2 : hashmap_s) (calls : List assign_call) (hi : Inv ht)
    (hk : KeyInv ht) (hc : ht.cmp_fn = none) (hkeys : ∀ c, c ∈ calls → key_ok ht c.2.1)
    (hnd : (calls.map (fun c => c.2.1)).Nodup)
    (hnew : ∀ c, c ∈ calls → ¬ has_key ht c.2.1)
    (h : assign_all ht calls = some ht2) : ht2.size = ht.size + calls.length := by
  induction calls generalizing ht with
  | nil =>
    simp only [assign_all, Option.some.injEq] at h
    subst h
    rfl
  | cons c rest ih =>
    obtain ⟨hs, h2⟩ := assign_all_cons ht ht2 c rest h
    have hkc := hkeys c (List.mem_cons_self _ _)
    obtain ⟨hp, hk1, _, _⟩ := hashmap_assign_keys c.1 ht c.2.1 c.2.2 hi hk hc hkc
    have hi1 := hashmap_assign_inv c.1 ht c.2.1 c.2.2 hi
    obtain ⟨_, _, _, e4, e5⟩ := hashmap_assign_effect c.1 ht c.2.1 c.2.2 hi hk hc hkc hs
    rw [List.map_cons, List.nodup_cons] at hnd
    have := ih _ hi1 hk1 (by rw [hp.2.2.2]; exact hc)
      (fun x hx => (key_ok_params hp x.2.1).2 (hkeys x (List.mem_cons_of_mem _ hx))) hnd.2
      (fun x hx hh => by
        rcases (e5 x.2.1).1 hh with heq | hold
        · exact hnd.1 (heq ▸ List.mem_map_of_mem (fun c => c.2.1) hx)
        · exact hnew x (List.mem_cons_of_mem _ hx) hold) h2
    rw [this, e4 (hnew c (List.mem_cons_self _ _)), List.length_cons]
    omega

theorem example_init_eq : _hashmap_init grant_all 8 4 4 none none = some example_init := by
  rfl

theorem example_init_reachable : Reachable example_init :=
  Reachable.init grant_all 8 4 4 none none example_init (by decide) (by decide) example_init_eq


/-! ## The deque: ring-buffer lemmas -/

theorem slot_set (b : List Bytes) (j k : Nat) (x : Bytes) :
    (b.set j x).getD k [] = if k = j ∧ j < b.length then x else b.getD k [] := by
  simp only [List.getD_eq_getElem?_getD, List.getElem?_set]
  by_cases hjk : j = k
  · subst hjk
    by_cases hj : j < b.length
    · simp [hj]
    · simp [hj, List.getElem?_eq_none (Nat.le_of_not_lt hj)]
  · have hkj : ¬ k = j := fun h => hjk h.symm
    simp [hjk, hkj]

theorem ring_add (f i c : Nat) (hf : f < c) (hi : i ≤ c) :
    (f + i) % c = if f + i < c then f + i else f + i - c := by
  split
  · rename_i h
    exact Nat.mod_eq_of_lt h
  · rename_i h
    rw [Nat.mod_eq_sub_mod (by omega)]
    exact Nat.mod_eq_of_lt (by omega)

theorem memcpy_of_le (s : Bytes) (n : Nat) (h : s.length ≤ n) : memcpy s n = s := by
  simp only [memcpy]
  exact List.take_of_length_le h

theorem memcpy_length_le (s : Bytes) (n : Nat) : (memcpy s n).length ≤ n := by
  simp only [memcpy, List.length_take]
  omega

theorem deque_contents_length (deq : deque_s) : (deque_contents deq).length = deq.size := by
  simp [deque_contents]

theorem deque_contents_get (deq : deque_s) (i : Nat) (h : i < deq.size) :
    (deque_contents deq).get? i = some (deque_shift deq ((deq.front + i) % deq.capacity)) := by
  simp [deque_contents, List.getElem?_map, List.getElem?_range h]

theorem deque_alloc_loop_length (deq : deque_s) (n i j : Nat) (buffer : List Bytes) :
    (deque_alloc_loop deq n i j buffer).length = buffer.length := by
  induction n generalizing i j buffer with
  | zero => rfl
  | succ n ih => simp only [deque_alloc_loop, ih, List.length_set]

theorem ring_next (j c : Nat) (hc : 0 < c) (hc64 : c < 2 ^ 64) (hj : j < c) :
    (if j = sub64 c 1 then 0 else j + 1) = (j + 1) % c := by
  have hs : sub64 c 1 = c - 1 := by
    simp only [sub64]
    omega
  rw [hs, ring_add j 1 c hj (by omega)]
  by_cases h : j = c - 1
  · rw [if_pos h, if_neg (by omega)]
    omega
  · rw [if_neg h, if_pos (by omega)]

/-- The copy loop of `deque_alloc` fills the slots `i, ..., i + n - 1` of the new buffer with
the elements at the ring positions `j, j + 1, ...` of the old one. -/
theorem deque_alloc_loop_get (deq : deque_s) (hc : 0 < deq.capacity)
    (hc64 : deq.capacity < 2 ^ 64) (n i j : Nat) (buffer : List Bytes) (hj : j < deq.capacity)
    (hlen : i + n ≤ buffer.length) (k : Nat) :
    (deque_alloc_loop deq n i j buffer).getD k []
      = if i ≤ k ∧ k < i + n then
          memcpy (deque_shift deq ((j + (k - i)) % deq.capacity)) deq.elem_size
        else buffer.getD k [] := by
  induction n generalizing i j buffer with
  | zero =>
    simp only [deque_alloc_loop]
    rw [if_neg (by omega)]
  | succ n ih =>
    simp only [deque_alloc_loop]
    rw [ring_next j deq.capacity hc hc64 hj]
    rw [ih (i + 1) ((j + 1) % deq.capacity) _ (Nat.mod_lt _ hc)
      (by rw [List.length_set]; omega)]
    by_cases h1 : i + 1 ≤ k ∧ k < i + 1 + n
    · rw [if_pos h1, if_pos (by omega)]
      rw [Nat.mod_add_mod]
      have h3 : j + 1 + (k - (i + 1)) = j + (k - i) := by omega
      rw [h3]
    · rw [if_neg h1, slot_set]
      by_cases h2 : k = i
      · subst h2
        rw [if_pos ⟨rfl, by omega⟩, if_pos (by omega), Nat.sub_self, Nat.add_zero,
          Nat.mod_eq_of_lt hj]
      · rw [if_neg (by omega), if_neg (by omega)]

theorem deque_alloc_loop_slots (deq : deque_s) (n i j : Nat) (buffer : List Bytes)
    (h : ∀ s, s ∈ buffer → s.length ≤ deq.elem_size) :
    ∀ s, s ∈ deque_alloc_loop deq n i j buffer → s.length ≤ deq.elem_size := by
  induction n generalizing i j buffer with
  | zero => exact h
  | succ n ih =>
    simp only [deque_alloc_loop]
    apply ih
    intro s hs
    rcases List.mem_or_eq_of_mem_set hs with h1 | h1
    · exact h s h1
    · rw [h1]
      exact memcpy_length_le _ _

theorem sub64_one (c : Nat) (h0 : 0 < c) (h : c < 2 ^ 64) : sub64 c 1 = c - 1 := by
  simp only [sub64]
  omega

theorem u64_of_lt (x : Nat) (h : x < 2 ^ 64) : u64 x = x := by
  simp only [u64]
  exact Nat.mod_eq_of_lt h

theorem deque_inv_bounds {deq : deque_s} (h : DequeInv deq) :
    deq.capacity < 2 ^ 64 ∧ SIZE_MAX / deq.elem_size < 2 ^ 64 := by
  have h1 := h.cap_lt
  have h2 : SIZE_MAX / deq.elem_size ≤ SIZE_MAX := Nat.div_le_self _ _
  have h3 : SIZE_MAX < 2 ^ 64 := by
    simp only [SIZE_MAX]
    omega
  omega

theorem deque_shift_of_inv {deq : deque_s} (h : DequeInv deq) (i : Nat) :
    (deque_shift deq i).length ≤ deq.elem_size := by
  obtain ⟨b, hb, _, hs⟩ := h.buf
  simp only [deque_shift, hb, Option.getD_some, List.getD_eq_getElem?_getD]
  by_cases hi : i < b.length
  · rw [List.getElem?_eq_getElem hi]
    exact hs _ (List.getElem_mem _)
  · rw [List.getElem?_eq_none (Nat.le_of_not_lt hi)]
    simp

/-- Two deques whose slots agree at the ring positions of their contents have the same
contents. -/
theorem deque_contents_ext (a b : deque_s) (hsz : a.size = b.size)
    (h : ∀ i, i < b.size → deque_shift a ((a.front + i) % a.capacity)
      = deque_shift b ((b.front + i) % b.capacity)) :
    deque_contents a = deque_contents b := by
  simp only [deque_contents, hsz]
  apply List.map_congr_left
  intro i hi
  exact h i (List.mem_range.1 hi)

/-- The growth step of the pushes: on failure the deque is untouched; on success the deque
keeps its contents and its size and has room for one more element. -/
theorem deque_grow_ok (alloc : Nat → Bool) (deq : deque_s) (hal : alloc_bounded alloc)
    (h : DequeInv deq) :
    ((deque_grow alloc deq).1 ≠ stat_t.COMPLETE → (deque_grow alloc deq).2 = deq) ∧
      ((deque_grow alloc deq).1 = stat_t.COMPLETE →
        DequeInv (deque_grow alloc deq).2 ∧
        deque_contents (deque_grow alloc deq).2 = deque_contents deq ∧
        (deque_grow alloc deq).2.size = deq.size ∧
        (deque_grow alloc deq).2.elem_size = deq.elem_size ∧
        (deque_grow alloc deq).2.size < (deque_grow alloc deq).2.capacity ∧
        (deque_grow alloc deq).2.capacity
          = if deq.size < deq.capacity then deq.capacity else 2 * deq.capacity) := by
  obtain ⟨hc64, hq64⟩ := deque_inv_bounds h
  obtain ⟨b, hb, hblen, hbs⟩ := h.buf
  have hcp := h.cap_pos
  have hcl := h.cap_lt
  have hsz := h.size
  have hfr := h.front
  simp only [deque_grow]
  by_cases hfull : deq.size ≥ deq.capacity
  · rw [if_pos hfull]
    by_cases hov : deq.capacity ≥ SIZE_MAX / deq.elem_size / DEQUE_EXP_FACTOR
    · rw [if_pos hov]
      exact ⟨fun _ => rfl, fun hh => by cases hh⟩
    · rw [if_neg hov]
      simp only [DEQUE_EXP_FACTOR] at hov ⊢
      have h2c : 2 * deq.capacity < SIZE_MAX / deq.elem_size := by omega
      have hu : u64 (deq.capacity * 2) = 2 * deq.capacity := by
        simp only [u64]
        omega
      rw [hu]
      simp only [deque_alloc]
      by_cases hgr : alloc (u64 (2 * deq.capacity * deq.elem_size)) = false
      · rw [if_pos hgr]
        exact ⟨fun _ => rfl, fun hh => absurd hh (by simp)⟩
      · rw [if_neg hgr]
        have h263 : 2 * deq.capacity < 2 ^ 63 := by
          have hb1 := hal _ (by simpa using hgr)
          have hm : 2 * deq.capacity * deq.elem_size ≤ SIZE_MAX :=
            (Nat.mul_le_mul_right _ (Nat.le_of_lt h2c)).trans (Nat.div_mul_le_self _ _)
          have hes : 1 ≤ deq.elem_size := by
            by_contra hcon
            have h0 : deq.elem_size = 0 := by omega
            rw [h0, Nat.div_zero] at hcl
            omega
          have hge : 2 * deq.capacity ≤ 2 * deq.capacity * deq.elem_size :=
            Nat.le_mul_of_pos_right _ hes
          rw [u64_of_lt _ (by simp only [SIZE_MAX] at hm; omega)] at hb1
          omega
        simp only [hb, Option.isSome_some, if_true, ne_eq, not_true_eq_false, if_false]
        refine ⟨fun hh => absurd hh (by simp), fun _ => ?_⟩
        have hlen : (deque_alloc_loop deq deq.size 0 deq.front
            (List.replicate (2 * deq.capacity) [])).length = 2 * deq.capacity := by
          rw [deque_alloc_loop_length, List.length_replicate]
        have hget : ∀ k, k < deq.size →
            (deque_alloc_loop deq deq.size 0 deq.front
              (List.replicate (2 * deq.capacity) [])).getD k []
            = deque_shift deq ((deq.front + k) % deq.capacity) := by
          intro k hk
          rw [deque_alloc_loop_get deq hcp hc64 deq.size 0 deq.front _ hfr
            (by rw [List.length_replicate]; omega) k, if_pos (by omega), Nat.sub_zero]
          exact memcpy_of_le _ _ (deque_shift_of_inv h _)
        have hu2 : u64 (deq.capacity * 2) = 2 * deq.capacity := hu
        refine ⟨⟨?_, ?_, ?_, ?_, ?_, ?_, ?_⟩, ?_, trivial, trivial, ?_, ?_⟩
        · simp only [hu2]
          omega
        · simp only [hu2]
          exact h2c
        · simp only [hu2]
          exact h263
        · refine ⟨_, rfl, ?_, ?_⟩
          · simp only [hu2]
            exact hlen
          · apply deque_alloc_loop_slots
            intro s hs
            rw [List.eq_of_mem_replicate hs]
            simp
        · simp only [hu2]
          omega
        · simp only [hu2]
          omega
        · simp only [hu2]
          rw [Nat.zero_add, Nat.mod_eq_of_lt (by omega)]
        · apply deque_contents_ext
          · rfl
          · intro i hi
            simp only [hu2, Nat.zero_add]
            rw [Nat.mod_eq_of_lt (show i < 2 * deq.capacity by omega)]
            simp only [deque_shift, Option.getD_some]
            rw [hget i hi]
            simp only [deque_shift]
        · simp only [hu2]
          omega
        · simp only [hu2]
          rw [if_neg (by omega)]
  · rw [if_neg hfull]
    refine ⟨fun hh => absurd rfl hh, fun _ => ⟨h, rfl, rfl, rfl, ?_, ?_⟩⟩
    · show deq.size < deq.capacity
      omega
    · rw [if_pos (by omega)]

theorem deque_shift_store (deq : deque_s) (b : List Bytes) (hb : deq.deque = some b)
    (j k : Nat) (x : Bytes) :
    ((deque_store deq j x).getD []).getD k []
      = if k = j ∧ j < b.length then memcpy x deq.elem_size else deque_shift deq k := by
  simp only [deque_store, deque_shift, hb, Option.map_some', Option.getD_some]
  exact slot_set b j k _

theorem deque_store_inv (deq : deque_s) (b : List Bytes) (hb : deq.deque = some b)
    (hs : ∀ s, s ∈ b → s.length ≤ deq.elem_size) (j : Nat) (x : Bytes) :
    ∃ b2, deque_store deq j x = some b2 ∧ b2.length = b.length ∧
      ∀ s, s ∈ b2 → s.length ≤ deq.elem_size := by
  refine ⟨b.set j (memcpy x deq.elem_size), ?_, List.length_set _ _ _, ?_⟩
  · simp only [deque_store, hb, Option.map_some']
  · intro s hs2
    rcases List.mem_or_eq_of_mem_set hs2 with h1 | h1
    · exact hs s h1
    · rw [h1]
      exact memcpy_length_le _ _

/-- The body of `deque_push_back` after the growth step, on a deque with room: the element is
appended. -/
theorem deque_push_back_core (g : deque_s) (elem : Bytes) (h : DequeInv g)
    (hroom : g.size < g.capacity) :
    DequeInv
        { g with
          deque := deque_store g g.rear elem
          rear := if g.rear = sub64 g.capacity 1 then 0 else u64 (g.rear + 1)
          size := u64 (g.size + 1) } ∧
      deque_contents
        { g with
          deque := deque_store g g.rear elem
          rear := if g.rear = sub64 g.capacity 1 then 0 else u64 (g.rear + 1)
          size := u64 (g.size + 1) }
        = deque_contents g ++ [memcpy elem g.elem_size] := by
  obtain ⟨hc64, _⟩ := deque_inv_bounds h
  obtain ⟨b, hb, hblen, hbs⟩ := h.buf
  have hcp := h.cap_pos
  have hfr := h.front
  have hrear := h.rear
  have hs1 : sub64 g.capacity 1 = g.capacity - 1 := sub64_one _ hcp hc64
  have hu : u64 (g.size + 1) = g.size + 1 := u64_of_lt _ (by omega)
  have hra := ring_add g.front g.size g.capacity hfr (by omega)
  have hrlt : g.rear < g.capacity := by
    rw [hrear]
    exact Nat.mod_lt _ hcp
  have hu2 : u64 (g.rear + 1) = g.rear + 1 := u64_of_lt _ (by omega)
  obtain ⟨b2, hb2, hb2len, hb2s⟩ := deque_store_inv g b hb hbs g.rear elem
  constructor
  · refine ⟨hcp, h.cap_lt, h.cap63, ⟨b2, hb2, by rw [hb2len]; exact hblen, hb2s⟩, hfr, ?_, ?_⟩
    · simp only [hu]
      omega
    · simp only [hu, hs1, hu2]
      have hrb := ring_add g.front (g.size + 1) g.capacity hfr (by omega)
      rw [hrb]
      rw [hra] at hrear
      split_ifs at hrear ⊢ <;> omega
  · simp only [deque_contents, hu, List.range_succ, List.map_append, List.map_cons,
      List.map_nil]
    refine congrArg₂ (fun x y => x ++ [y]) ?_ ?_
    · apply List.map_congr_left
      intro i hi
      have hi2 := List.mem_range.1 hi
      simp only [deque_shift]
      rw [deque_shift_store g b hb, if_neg]
      · simp only [deque_shift]
      · intro hcon
        have hri := ring_add g.front i g.capacity hfr (by omega)
        rw [hrear, hra, hri] at hcon
        split_ifs at hcon <;> omega
    · simp only [deque_shift]
      rw [deque_shift_store g b hb, if_pos]
      exact ⟨hrear.symm, by omega⟩

/-- The body of `deque_push_front` after the growth step, on a deque with room: the element is
prepended. -/
theorem deque_push_front_core (g : deque_s) (elem : Bytes) (h : DequeInv g)
    (hroom : g.size < g.capacity) :
    DequeInv
        { g with
          front := if g.front = 0 then sub64 g.capacity 1 else g.front - 1
          deque := deque_store g (if g.front = 0 then sub64 g.capacity 1 else g.front - 1) elem
          size := u64 (g.size + 1) } ∧
      deque_contents
        { g with
          front := if g.front = 0 then sub64 g.capacity 1 else g.front - 1
          deque := deque_store g (if g.front = 0 then sub64 g.capacity 1 else g.front - 1) elem
          size := u64 (g.size + 1) }
        = memcpy elem g.elem_size :: deque_contents g := by
  obtain ⟨hc64, _⟩ := deque_inv_bounds h
  obtain ⟨b, hb, hblen, hbs⟩ := h.buf
  have hcp := h.cap_pos
  have hfr := h.front
  have hrear := h.rear
  have hs1 : sub64 g.capacity 1 = g.capacity - 1 := sub64_one _ hcp hc64
  have hu : u64 (g.size + 1) = g.size + 1 := u64_of_lt _ (by omega)
  generalize hf2 : (if g.front = 0 then sub64 g.capacity 1 else g.front - 1) = f2
  have hf2lt : f2 < g.capacity := by
    rw [← hf2, hs1]
    split_ifs <;> omega
  have hf2eq : ∀ i, i < g.capacity → (f2 + (i + 1)) % g.capacity = (g.front + i) % g.capacity := by
    intro i hi
    rw [ring_add f2 (i + 1) g.capacity hf2lt (by omega),
      ring_add g.front i g.capacity hfr (by omega)]
    rw [← hf2, hs1]
    split_ifs <;> omega
  obtain ⟨b2, hb2, hb2len, hb2s⟩ := deque_store_inv g b hb hbs f2 elem
  constructor
  · refine ⟨hcp, h.cap_lt, h.cap63, ⟨b2, hb2, by rw [hb2len]; exact hblen, hb2s⟩, hf2lt, ?_, ?_⟩
    · simp only [hu]
      omega
    · simp only [hu]
      rw [hrear, ← Nat.add_assoc, ← hf2eq g.size (by omega), Nat.add_assoc]
  · simp only [deque_contents, hu, List.range_succ_eq_map, List.map_cons, List.map_map]
    refine congrArg₂ (fun x y => x :: y) ?_ ?_
    · simp only [deque_shift, Nat.add_zero]
      rw [Nat.mod_eq_of_lt hf2lt, deque_shift_store g b hb, if_pos ⟨rfl, by omega⟩]
    · apply List.map_congr_left
      intro i hi
      have hi2 := List.mem_range.1 hi
      simp only [Function.comp, deque_shift]
      rw [show f2 + Nat.succ i = f2 + (i + 1) from rfl, hf2eq i (by omega),
        deque_shift_store g b hb, if_neg]
      · simp only [deque_shift]
      · intro hcon
        have hri := ring_add g.front i g.capacity hfr (by omega)
        rw [hri, ← hf2, hs1] at hcon
        split_ifs at hcon <;> omega

/-- On a deque that is not empty `deque_pop_front` removes and returns the first element. -/
theorem deque_pop_front_ok (deq : deque_s) (h : DequeInv deq) (hne : deq.size ≠ 0) :
    (deque_pop_front deq).1 = stat_t.COMPLETE ∧ DequeInv (deque_pop_front deq).2.1 ∧
      deque_contents deq
        = deque_shift deq deq.front :: deque_contents (deque_pop_front deq).2.1 ∧
      (deque_pop_front deq).2.2 = some (deque_shift deq deq.front) := by
  obtain ⟨hc64, _⟩ := deque_inv_bounds h
  obtain ⟨b, hb, hblen, hbs⟩ := h.buf
  have hcp := h.cap_pos
  have hfr := h.front
  have hrear := h.rear
  have hsz := h.size
  have hs1 : sub64 deq.capacity 1 = deq.capacity - 1 := sub64_one _ hcp hc64
  have hu : u64 (deq.front + 1) = deq.front + 1 := u64_of_lt _ (by omega)
  have hs2 : sub64 deq.size 1 = deq.size - 1 := sub64_one _ (by omega) (by omega)
  have hnext : (if deq.front = deq.capacity - 1 then 0 else deq.front + 1)
      = (deq.front + 1) % deq.capacity := by
    rw [ring_add deq.front 1 deq.capacity hfr (by omega)]
    split_ifs <;> omega
  simp only [deque_pop_front, if_neg hne, hs1, hu, hs2, hnext]
  refine ⟨trivial, ⟨hcp, h.cap_lt, h.cap63, ⟨b, hb, hblen, hbs⟩, Nat.mod_lt _ hcp, ?_, ?_⟩, ?_, ?_⟩
  · show deq.size - 1 ≤ deq.capacity
    omega
  · show deq.rear = ((deq.front + 1) % deq.capacity + (deq.size - 1)) % deq.capacity
    rw [hrear, Nat.mod_add_mod, show deq.front + 1 + (deq.size - 1) = deq.front + deq.size by
      omega]
  · simp only [deque_contents]
    obtain ⟨n, hn⟩ : ∃ n, deq.size = n + 1 := ⟨deq.size - 1, by omega⟩
    rw [hn, List.range_succ_eq_map, List.map_cons, List.map_map, Nat.add_zero,
      Nat.mod_eq_of_lt hfr, Nat.add_sub_cancel]
    refine congrArg₂ (fun x y => x :: y) rfl ?_
    apply List.map_congr_left
    intro i _
    simp only [Function.comp, deque_shift]
    rw [Nat.mod_add_mod, show deq.front + Nat.succ i = deq.front + 1 + i by omega]
  · rw [memcpy_of_le _ _ (deque_shift_of_inv h _)]

/-- On a deque that is not empty `deque_pop_back` removes and returns the last element. -/
theorem deque_pop_back_ok (deq : deque_s) (h : DequeInv deq) (hne : deq.size ≠ 0) :
    (deque_pop_back deq).1 = stat_t.COMPLETE ∧ DequeInv (deque_pop_back deq).2.1 ∧
      deque_contents deq
        = deque_contents (deque_pop_back deq).2.1
          ++ [deque_shift deq ((deq.front + (deq.size - 1)) % deq.capacity)] ∧
      (deque_pop_back deq).2.2
        = some (deque_shift deq ((deq.front + (deq.size - 1)) % deq.capacity)) := by
  obtain ⟨hc64, _⟩ := deque_inv_bounds h
  obtain ⟨b, hb, hblen, hbs⟩ := h.buf
  have hcp := h.cap_pos
  have hfr := h.front
  have hrear := h.rear
  have hsz := h.size
  have hs1 : sub64 deq.capacity 1 = deq.capacity - 1 := sub64_one _ hcp hc64
  have hs2 : sub64 deq.size 1 = deq.size - 1 := sub64_one _ (by omega) (by omega)
  have hprev : (if deq.rear = 0 then deq.capacity - 1 else deq.rear - 1)
      = (deq.front + (deq.size - 1)) % deq.capacity := by
    rw [hrear, ring_add deq.front deq.size deq.capacity hfr hsz,
      ring_add deq.front (deq.size - 1) deq.capacity hfr (by omega)]
    split_ifs <;> omega
  simp only [deque_pop_back, if_neg hne, hs1, hs2, hprev]
  refine ⟨trivial, ⟨hcp, h.cap_lt, h.cap63, ⟨b, hb, hblen, hbs⟩, hfr, ?_, rfl⟩, ?_, ?_⟩
  · show deq.size - 1 ≤ deq.capacity
    omega
  · simp only [deque_contents]
    obtain ⟨n, hn⟩ : ∃ n, deq.size = n + 1 := ⟨deq.size - 1, by omega⟩
    rw [hn, List.range_succ, List.map_append, List.map_cons, List.map_nil,
      Nat.add_sub_cancel]
    rfl
  · rw [memcpy_of_le _ _ (deque_shift_of_inv h _)]

/-- Within the size `deque_set` replaces the element at the index. -/
theorem deque_set_ok (deq : deque_s) (elem : Bytes) (i : Nat) (h : DequeInv deq)
    (hi : i < deq.size) :
    (deque_set deq elem i).1 = stat_t.COMPLETE ∧ DequeInv (deque_set deq elem i).2 ∧
      deque_contents (deque_set deq elem i).2
        = (deque_contents deq).set i (memcpy elem deq.elem_size) := by
  obtain ⟨hc64, _⟩ := deque_inv_bounds h
  obtain ⟨b, hb, hblen, hbs⟩ := h.buf
  have hcp := h.cap_pos
  have hfr := h.front
  have hsz := h.size
  have h63 := h.cap63
  have hu : u64 (deq.front + i) = deq.front + i := u64_of_lt _ (by omega)
  obtain ⟨b2, hb2, hb2len, hb2s⟩ :=
    deque_store_inv deq b hb hbs ((deq.front + i) % deq.capacity) elem
  simp only [deque_set, if_neg (show ¬ i ≥ deq.size by omega), hu]
  refine ⟨trivial, ⟨hcp, h.cap_lt, h.cap63, ⟨b2, hb2, by rw [hb2len]; exact hblen, hb2s⟩, hfr,
    hsz, h.rear⟩, ?_⟩
  apply List.ext_getElem
  · simp [deque_contents]
  · intro k h1 h2
    have hk : k < deq.size := by
      simpa [deque_contents] using h1
    simp only [deque_contents, List.getElem_map, List.getElem_range, List.getElem_set,
      deque_shift]
    rw [deque_shift_store deq b hb]
    have hjlt : (deq.front + i) % deq.capacity < b.length := by
      rw [hblen]
      exact Nat.mod_lt _ hcp
    by_cases hik : i = k
    · subst hik
      rw [if_pos ⟨rfl, hjlt⟩, if_pos rfl]
    · rw [if_neg hik, if_neg]
      · simp only [deque_shift]
      · intro hcon
        have h3 := ring_add deq.front i deq.capacity hfr (by omega)
        have h4 := ring_add deq.front k deq.capacity hfr (by omega)
        rw [h3, h4] at hcon
        split_ifs at hcon <;> omega

/-- Within the size `deque_get` yields the element at the index. -/
theorem deque_get_ok (deq : deque_s) (i : Nat) (h : DequeInv deq) :
    deque_get deq i
      = if i < deq.size then (stat_t.COMPLETE, (deque_contents deq).get? i)
        else (stat_t.ERR_INDEX_OUT_OF_RANGE, none) := by
  obtain ⟨hc64, _⟩ := deque_inv_bounds h
  have hfr := h.front
  have hsz := h.size
  have h63 := h.cap63
  simp only [deque_get]
  by_cases hi : i < deq.size
  · have hu : u64 (deq.front + i) = deq.front + i := u64_of_lt _ (by omega)
    rw [if_neg (by omega), if_pos hi, hu, deque_contents_get deq i hi,
      memcpy_of_le _ _ (deque_shift_of_inv h _)]
  · rw [if_pos (by omega), if_neg hi]

/-- A successful `_deque_init` with a requested capacity of at least 1 gives an empty deque with
that capacity. -/
theorem deque_init_ok (alloc : Nat → Bool) (capacity elem_size : Nat) (deq : deque_s)
    (hal : alloc_bounded alloc) (h1 : 1 ≤ capacity)
    (h : _deque_init alloc capacity elem_size = some deq) :
    DequeInv deq ∧ deque_contents deq = [] ∧ deq.size = 0 ∧ deq.capacity = capacity ∧
      deq.elem_size = elem_size := by
  simp only [_deque_init] at h
  by_cases hg : capacity ≥ SIZE_MAX / elem_size
  · rw [if_pos hg] at h
    cases h
  · rw [if_neg hg] at h
    by_cases ha : alloc sizeof_deque = false
    · rw [if_pos ha] at h
      cases h
    · rw [if_neg ha] at h
      simp only [deque_alloc] at h
      by_cases hb : alloc (u64 (capacity * elem_size)) = false
      · rw [if_pos hb] at h
        simp at h
      · rw [if_neg hb] at h
        simp only [ne_eq, not_true_eq_false, if_false, Option.isSome_none, Bool.false_eq_true,
          Option.some.injEq] at h
        have hcne : capacity ≠ 0 := by omega
        have hes : 1 ≤ elem_size := by
          by_contra hcon
          have h0 : elem_size = 0 := by omega
          rw [h0, Nat.div_zero] at hg
          omega
        have hm : capacity * elem_size ≤ SIZE_MAX :=
          (Nat.mul_le_mul_right _ (Nat.le_of_lt (Nat.lt_of_not_le hg))).trans
            (Nat.div_mul_le_self _ _)
        have h63 : capacity < 2 ^ 63 := by
          have hb1 := hal _ (by simpa using hb)
          rw [u64_of_lt _ (by simp only [SIZE_MAX] at hm; omega)] at hb1
          have hge : capacity ≤ capacity * elem_size := Nat.le_mul_of_pos_right _ hes
          omega
        rw [if_pos hcne] at h
        subst h
        refine ⟨⟨(show 0 < capacity by omega), Nat.lt_of_not_le hg, h63,
          ⟨_, rfl, List.length_replicate _ _, ?_⟩, (show 0 < capacity by omega),
          Nat.zero_le _, ?_⟩, rfl, rfl, rfl, rfl⟩
        · intro s hs
          rw [List.eq_of_mem_replicate hs]
          exact Nat.zero_le _
        · show 0 = (0 + 0) % capacity
          rw [Nat.add_zero, Nat.zero_mod]

/-- The call `deque_push_back`: an error leaves the deque untouched, a success appends the
element; the call succeeds whenever the growth step does. -/
theorem deque_push_back_ok (alloc : Nat → Bool) (deq : deque_s) (elem : Bytes)
    (hal : alloc_bounded alloc) (h : DequeInv deq) :
    (deque_push_back alloc deq elem).1 = (deque_grow alloc deq).1 ∧
      ((deque_push_back alloc deq elem).1 ≠ stat_t.COMPLETE →
        (deque_push_back alloc deq elem).2 = deq) ∧
      DequeInv (deque_push_back alloc deq elem).2 ∧
      ((deque_push_back alloc deq elem).1 = stat_t.COMPLETE →
        deque_contents (deque_push_back alloc deq elem).2
          = deque_contents deq ++ [memcpy elem deq.elem_size]) := by
  obtain ⟨hfail, hok⟩ := deque_grow_ok alloc deq hal h
  simp only [deque_push_back]
  by_cases hg : (deque_grow alloc deq).1 = stat_t.COMPLETE
  · obtain ⟨hi, hcont, _, hes, hroom, _⟩ := hok hg
    obtain ⟨hi2, hc2⟩ := deque_push_back_core (deque_grow alloc deq).2 elem hi hroom
    rw [if_neg (not_not.2 hg)]
    refine ⟨hg.symm, fun hh => absurd rfl hh, hi2, fun _ => ?_⟩
    rw [hc2, hcont, hes]
  · rw [if_pos hg]
    refine ⟨rfl, fun _ => hfail hg, ?_, fun hh => absurd hh hg⟩
    rw [hfail hg]
    exact h

/-- The call `deque_push_front`: an error leaves the deque untouched, a success prepends the
element; the call succeeds whenever the growth step does. -/
theorem deque_push_front_ok (alloc : Nat → Bool) (deq : deque_s) (elem : Bytes)
    (hal : alloc_bounded alloc) (h : DequeInv deq) :
    (deque_push_front alloc deq elem).1 = (deque_grow alloc deq).1 ∧
      ((deque_push_front alloc deq elem).1 ≠ stat_t.COMPLETE →
        (deque_push_front alloc deq elem).2 = deq) ∧
      DequeInv (deque_push_front alloc deq elem).2 ∧
      ((deque_push_front alloc deq elem).1 = stat_t.COMPLETE →
        deque_contents (deque_push_front alloc deq elem).2
          = memcpy elem deq.elem_size :: deque_contents deq) := by
  obtain ⟨hfail, hok⟩ := deque_grow_ok alloc deq hal h
  simp only [deque_push_front]
  by_cases hg : (deque_grow alloc deq).1 = stat_t.COMPLETE
  · obtain ⟨hi, hcont, _, hes, hroom, _⟩ := hok hg
    obtain ⟨hi2, hc2⟩ := deque_push_front_core (deque_grow alloc deq).2 elem hi hroom
    rw [if_neg (not_not.2 hg)]
    refine ⟨hg.symm, fun hh => absurd rfl hh, hi2, fun _ => ?_⟩
    rw [hc2, hcont, hes]
  · rw [if_pos hg]
    refine ⟨rfl, fun _ => hfail hg, ?_, fun hh => absurd hh hg⟩
    rw [hfail hg]
    exact h

theorem deque_pop_front_empty (deq : deque_s) (h : deq.size = 0) :
    deque_pop_front deq = (stat_t.ERR_INVALID_OPERATION, deq, none) := by
  simp only [deque_pop_front, if_pos h]

theorem deque_pop_back_empty (deq : deque_s) (h : deq.size = 0) :
    deque_pop_back deq = (stat_t.ERR_INVALID_OPERATION, deq, none) := by
  simp only [deque_pop_back, if_pos h]

theorem deque_set_out_of_range (deq : deque_s) (elem : Bytes) (i : Nat) (h : deq.size ≤ i) :
    deque_set deq elem i = (stat_t.ERR_INDEX_OUT_OF_RANGE, deq) := by
  simp only [deque_set, if_pos (show i ≥ deq.size from h)]

/-- Every reachable deque satisfies the shape invariant. -/
theorem deque_reach_inv (deq : deque_s) (h : DequeReach deq) : DequeInv deq := by
  induction h with
  | init alloc capacity elem_size deq hal h1 hinit =>
    exact (deque_init_ok alloc capacity elem_size deq hal h1 hinit).1
  | push_back alloc deq elem hal _ ih => exact (deque_push_back_ok alloc deq elem hal ih).2.2.1
  | push_front alloc deq elem hal _ ih => exact (deque_push_front_ok alloc deq elem hal ih).2.2.1
  | pop_front deq _ ih =>
    by_cases hz : deq.size = 0
    · rw [deque_pop_front_empty deq hz]
      exact ih
    · exact (deque_pop_front_ok deq ih hz).2.1
  | pop_back deq _ ih =>
    by_cases hz : deq.size = 0
    · rw [deque_pop_back_empty deq hz]
      exact ih
    · exact (deque_pop_back_ok deq ih hz).2.1
  | set deq elem i _ ih =>
    by_cases hi : i < deq.size
    · exact (deque_set_ok deq elem i ih hi).2.1
    · rw [deque_set_out_of_range deq elem i (by omega)]
      exact ih


/-! ## The priority queue: heap lemmas -/

theorem pqueue_shift_store (pq : pqueue_s) (b : List Bytes) (hb : pq.heap = some b)
    (j k : Nat) (x : Bytes) :
    pqueue_shift (pqueue_store pq j x) k
      = if k = j ∧ j < b.length then memcpy x pq.elem_size else pqueue_shift pq k := by
  simp only [pqueue_store, pqueue_shift, hb, Option.map_some', Option.getD_some]
  exact slot_set b j k _

theorem pq_frame_refl (pq : pqueue_s) : pq_frame pq pq := ⟨rfl, rfl, rfl, rfl, rfl⟩

theorem pq_frame_trans {a b c : pqueue_s} (h1 : pq_frame a b) (h2 : pq_frame b c) :
    pq_frame a c :=
  ⟨h1.1.trans h2.1, h1.2.1.trans h2.2.1, h1.2.2.1.trans h2.2.2.1,
    h1.2.2.2.1.trans h2.2.2.2.1, h1.2.2.2.2.trans h2.2.2.2.2⟩

theorem pqueue_store_frame (pq : pqueue_s) (j : Nat) (x : Bytes) :
    pq_frame (pqueue_store pq j x) pq := ⟨rfl, rfl, rfl, rfl, rfl⟩

theorem pqueue_store_inv (pq : pqueue_s) (h : PQInv pq) (j : Nat) (x : Bytes) :
    PQInv (pqueue_store pq j x) := by
  obtain ⟨b, hb, hblen, hbs⟩ := h.buf
  refine ⟨h.cap_pos, h.cap63, ⟨b.set j (memcpy x pq.elem_size), ?_, ?_, ?_⟩, h.size⟩
  · simp only [pqueue_store, hb, Option.map_some']
  · rw [List.length_set]
    exact hblen
  · intro s hs
    rcases List.mem_or_eq_of_mem_set hs with h1 | h1
    · exact hbs s h1
    · rw [h1]
      exact memcpy_length_le _ _

theorem pqueue_shift_len (pq : pqueue_s) (h : PQInv pq) (i : Nat) :
    (pqueue_shift pq i).length ≤ pq.elem_size := by
  obtain ⟨b, hb, _, hs⟩ := h.buf
  simp only [pqueue_shift, hb, Option.getD_some, List.getD_eq_getElem?_getD]
  by_cases hi : i < b.length
  · rw [List.getElem?_eq_getElem hi]
    exact hs _ (List.getElem_mem _)
  · rw [List.getElem?_eq_none (Nat.le_of_not_lt hi)]
    exact Nat.zero_le _

/-- Copying the element of slot `i` into slot `j`. -/
theorem pqueue_copy_slot (pq : pqueue_s) (h : PQInv pq) (j : Nat) (hj : j ≤ pq.capacity)
    (i k : Nat) :
    pqueue_shift (pqueue_store pq j (pqueue_shift pq i)) k
      = if k = j then pqueue_shift pq i else pqueue_shift pq k := by
  obtain ⟨b, hb, hblen, _⟩ := h.buf
  rw [pqueue_shift_store pq b hb, memcpy_of_le _ _ (pqueue_shift_len pq h i)]
  by_cases hk : k = j
  · rw [if_pos ⟨hk, by omega⟩, if_pos hk]
  · rw [if_neg (fun hh => hk hh.1), if_neg hk]

/-- The exchange of two elements through the scratch slot: slot `x` gets the element of slot
`y` and slot `y` the element of slot `x`; the other slots below the capacity keep theirs. -/
theorem pqueue_swap_shift (pq : pqueue_s) (h : PQInv pq) (x y : Nat) (hx : x < pq.capacity)
    (hy : y < pq.capacity) (k : Nat) (hk : k ≠ pq.capacity) :
    pqueue_shift (pqueue_swap pq x y) k
      = pqueue_shift pq (if k = y then x else if k = x then y else k) := by
  have h1 := pqueue_store_inv pq h pq.capacity (pqueue_shift pq x)
  have h2 := pqueue_store_inv _ h1 x
    (pqueue_shift (pqueue_store pq pq.capacity (pqueue_shift pq x)) y)
  have e1 := pqueue_copy_slot pq h pq.capacity (Nat.le_refl _) x
  have e2 := pqueue_copy_slot _ h1 x (Nat.le_of_lt hx) y
  have e3 := pqueue_copy_slot _ h2 y (Nat.le_of_lt hy) pq.capacity k
  have hsw : pqueue_swap pq x y
      = pqueue_store
          (pqueue_store (pqueue_store pq pq.capacity (pqueue_shift pq x)) x
            (pqueue_shift (pqueue_store pq pq.capacity (pqueue_shift pq x)) y)) y
          (pqueue_shift
            (pqueue_store (pqueue_store pq pq.capacity (pqueue_shift pq x)) x
              (pqueue_shift (pqueue_store pq pq.capacity (pqueue_shift pq x)) y))
            pq.capacity) := rfl
  rw [hsw, e3, e2, e2, e1, e1, e1]
  by_cases hky : k = y
  · rw [if_pos hky, if_pos hky, if_neg (by omega), if_pos rfl]
  · rw [if_neg hky, if_neg hky]
    by_cases hkx : k = x
    · rw [if_pos hkx, if_pos hkx, if_neg (by omega)]
    · rw [if_neg hkx, if_neg hkx, if_neg hk]

theorem pqueue_swap_frame (pq : pqueue_s) (x y : Nat) : pq_frame (pqueue_swap pq x y) pq :=
  ⟨rfl, rfl, rfl, rfl, rfl⟩

theorem pqueue_swap_inv (pq : pqueue_s) (h : PQInv pq) (x y : Nat) :
    PQInv (pqueue_swap pq x y) :=
  pqueue_store_inv _ (pqueue_store_inv _ (pqueue_store_inv pq h _ _) _ _) _ _

theorem range_map_swap_perm (n x y : Nat) (hx : x < n) (hy : y < n) :
    ((List.range n).map (fun k => if k = y then x else if k = x then y else k)).Perm
      (List.range n) := by
  have hinj : Function.Injective (fun k : Nat => if k = y then x else if k = x then y else k) := by
    intro a b hab
    simp only at hab
    split_ifs at hab <;> omega
  rw [List.perm_ext_iff_of_nodup ((List.nodup_range n).map hinj) (List.nodup_range n)]
  intro a
  simp only [List.mem_map, List.mem_range]
  constructor
  · rintro ⟨k, hk, rfl⟩
    split_ifs <;> omega
  · intro ha
    refine ⟨if a = y then x else if a = x then y else a, ?_, ?_⟩
    · split_ifs <;> omega
    · split_ifs <;> omega

/-- The exchange of two elements of the heap keeps the elements as a multiset. -/
theorem pqueue_swap_perm (pq : pqueue_s) (h : PQInv pq) (x y : Nat) (hx : x < pq.size)
    (hy : y < pq.size) :
    (pqueue_contents (pqueue_swap pq x y)).Perm (pqueue_contents pq) := by
  have hsz := h.size
  have hmap : pqueue_contents (pqueue_swap pq x y)
      = ((List.range pq.size).map
          (fun k => if k = y then x else if k = x then y else k)).map (pqueue_shift pq) := by
    simp only [pqueue_contents, List.map_map]
    show (List.range pq.size).map (pqueue_shift (pqueue_swap pq x y)) = _
    apply List.map_congr_left
    intro k hk
    have hk2 := List.mem_range.1 hk
    rw [pqueue_swap_shift pq h x y (by omega) (by omega) k (by omega)]
    rfl
  rw [hmap]
  exact (range_map_swap_perm pq.size x y hx hy).map _

/-- Consequences of the sign rule of a comparison that is a total preorder. -/
theorem cmp_le_of_not_lt {cmp : Bytes → Bytes → Int} (hc : cmp_total_preorder cmp)
    (a b : Bytes) (h : ¬ cmp a b < 0) : cmp b a ≤ 0 := by
  by_contra hcon
  exact h ((hc.anti a b).2 (by omega))

theorem cmp_le_of_lt {cmp : Bytes → Bytes → Int} (a b : Bytes) (h : cmp a b < 0) :
    cmp a b ≤ 0 := by omega

theorem cmp_not_lt_of_le {cmp : Bytes → Bytes → Int} (hc : cmp_total_preorder cmp)
    (a b : Bytes) (h : cmp a b ≤ 0) : ¬ cmp b a < 0 := by
  intro hcon
  have := (hc.anti b a).1 hcon
  omega

theorem cmp_refl {cmp : Bytes → Bytes → Int} (hc : cmp_total_preorder cmp) (a : Bytes) :
    cmp a a ≤ 0 := by
  by_contra hcon
  have h1 : 0 < cmp a a := by omega
  have := (hc.anti a a).2 h1
  omega

theorem pqueue_swap_fst (pq : pqueue_s) (h : PQInv pq) (x y : Nat) (hx : x < pq.capacity)
    (hy : y < pq.capacity) : pqueue_shift (pqueue_swap pq x y) x = pqueue_shift pq y := by
  rw [pqueue_swap_shift pq h x y hx hy x (by omega)]
  by_cases hxy : x = y
  · rw [if_pos hxy, hxy]
  · rw [if_neg hxy, if_pos rfl]

theorem pqueue_swap_snd (pq : pqueue_s) (h : PQInv pq) (x y : Nat) (hx : x < pq.capacity)
    (hy : y < pq.capacity) : pqueue_shift (pqueue_swap pq x y) y = pqueue_shift pq x := by
  rw [pqueue_swap_shift pq h x y hx hy y (by omega), if_pos rfl]

theorem pqueue_swap_other (pq : pqueue_s) (h : PQInv pq) (x y : Nat) (hx : x < pq.capacity)
    (hy : y < pq.capacity) (k : Nat) (hk : k < pq.capacity) (hkx : k ≠ x) (hky : k ≠ y) :
    pqueue_shift (pqueue_swap pq x y) k = pqueue_shift pq k := by
  rw [pqueue_swap_shift pq h x y hx hy k (by omega), if_neg hky, if_neg hkx]

theorem parent_eq (i : Nat) (h0 : 0 < i) (h : i < 2 ^ 64) : parent i = (i - 1) / 2 := by
  simp only [parent]
  rw [sub64_one i h0 h]

/-- The swap of the loop of `heapify_up` moves the state of the loop from `i` to its parent. -/
theorem up_inv_step (pq : pqueue_s) (hc : cmp_total_preorder pq.cmp_fn) (h : PQInv pq)
    (i : Nat) (h0 : 0 < i) (hi : i < pq.size) (hu : UpInv pq pq.size i)
    (hlt : pq.cmp_fn (pqueue_shift pq i) (pqueue_shift pq ((i - 1) / 2)) < 0) :
    UpInv (pqueue_swap pq i ((i - 1) / 2)) pq.size ((i - 1) / 2) := by
  have hsz := h.size
  have hic : i < pq.capacity := by omega
  have hpc : (i - 1) / 2 < pq.capacity := by omega
  have hcf : (pqueue_swap pq i ((i - 1) / 2)).cmp_fn = pq.cmp_fn := rfl
  have hi' := pqueue_swap_fst pq h i ((i - 1) / 2) hic hpc
  have hp' := pqueue_swap_snd pq h i ((i - 1) / 2) hic hpc
  have ho := pqueue_swap_other pq h i ((i - 1) / 2) hic hpc
  have hle : pq.cmp_fn (pqueue_shift pq i) (pqueue_shift pq ((i - 1) / 2)) ≤ 0 := by omega
  constructor
  · intro j hj0 hjn hjp
    rw [hcf]
    by_cases hji : j = i
    · rw [hji, hp', hi']
      exact hle
    · have hj' := ho j (by omega) hji hjp
      rw [hj']
      by_cases hq1 : (j - 1) / 2 = i
      · rw [hq1, hi']
        exact hu.2 h0 j hj0 hjn hq1
      · by_cases hq2 : (j - 1) / 2 = (i - 1) / 2
        · rw [hq2, hp']
          have := hu.1 j hj0 hjn hji
          rw [hq2] at this
          exact hc.trans _ _ _ hle this
        · rw [ho ((j - 1) / 2) (by omega) hq1 hq2]
          exact hu.1 j hj0 hjn hji
  · intro hp0 j hj0 hjn hjq
    rw [hcf]
    have hpp := ho (((i - 1) / 2 - 1) / 2) (by omega) (by omega) (by omega)
    rw [hpp]
    have hpar := hu.1 ((i - 1) / 2) hp0 (by omega) (by omega)
    by_cases hji : j = i
    · rw [hji, hi']
      exact hpar
    · rw [ho j (by omega) hji (by omega)]
      have := hu.1 j hj0 hjn hji
      rw [hjq] at this
      exact hc.trans _ _ _ hpar this

/-- The loop of `heapify_up` leaves the loop within `i + 1` passes, keeps the elements as a
multiset and restores the heap order. -/
theorem heapify_up_loop_ok (fuel : Nat) (pq : pqueue_s) (i : Nat)
    (hc : cmp_total_preorder pq.cmp_fn) (h : PQInv pq) (hi : i < pq.size) (hf : i < fuel)
    (hu : UpInv pq pq.size i) :
    ∃ pq2, heapify_up_loop fuel pq i = some pq2 ∧ PQInv pq2 ∧ pq_frame pq2 pq ∧
      HeapOrdered pq2 pq.size ∧ (pqueue_contents pq2).Perm (pqueue_contents pq) := by
  induction fuel generalizing pq i with
  | zero => omega
  | succ fuel ih =>
    have hsz := h.size
    have h63 := h.cap63
    simp only [heapify_up_loop]
    by_cases h0 : i > 0
    · rw [if_pos h0, parent_eq i h0 (by omega)]
      by_cases hge : pq.cmp_fn (pqueue_shift pq i) (pqueue_shift pq ((i - 1) / 2)) ≥ 0
      · rw [if_pos hge]
        refine ⟨pq, rfl, h, pq_frame_refl pq, ?_, List.Perm.refl _⟩
        intro j hj0 hjn
        by_cases hji : j = i
        · rw [hji]
          exact cmp_le_of_not_lt hc _ _ (by omega)
        · exact hu.1 j hj0 hjn hji
      · rw [if_neg hge]
        have hlt : pq.cmp_fn (pqueue_shift pq i) (pqueue_shift pq ((i - 1) / 2)) < 0 := by
          omega
        have hstep := up_inv_step pq hc h i h0 hi hu hlt
        obtain ⟨pq2, h1, h2, h3, h4, h5⟩ := ih (pqueue_swap pq i ((i - 1) / 2)) ((i - 1) / 2)
          hc (pqueue_swap_inv pq h _ _) (show (i - 1) / 2 < pq.size by omega) (by omega) hstep
        exact ⟨pq2, h1, h2, pq_frame_trans h3 (pqueue_swap_frame pq _ _), h4,
          h5.trans (pqueue_swap_perm pq h _ _ hi (by omega))⟩
    · rw [if_neg h0]
      refine ⟨pq, rfl, h, pq_frame_refl pq, ?_, List.Perm.refl _⟩
      intro j hj0 hjn
      exact hu.1 j hj0 hjn (by omega)

/-- The swap of the loop of `heapify_down` moves the state of the loop from `i` to the child
`m`, an element that is not above its parent nor above the other child. -/
theorem down_inv_step (pq : pqueue_s) (h : PQInv pq)
    (i m : Nat) (hm0 : 0 < m) (hm : m < pq.size) (hpar : (m - 1) / 2 = i)
    (hd : DownInv pq pq.size i)
    (hmi : pq.cmp_fn (pqueue_shift pq m) (pqueue_shift pq i) ≤ 0)
    (hsib : ∀ j, 0 < j → j < pq.size → (j - 1) / 2 = i →
      pq.cmp_fn (pqueue_shift pq m) (pqueue_shift pq j) ≤ 0) :
    DownInv (pqueue_swap pq m i) pq.size m := by
  have hsz := h.size
  have hmc : m < pq.capacity := by omega
  have hic : i < pq.capacity := by omega
  have hcf : (pqueue_swap pq m i).cmp_fn = pq.cmp_fn := rfl
  have hm' := pqueue_swap_fst pq h m i hmc hic
  have hi' := pqueue_swap_snd pq h m i hmc hic
  have ho := pqueue_swap_other pq h m i hmc hic
  constructor
  · intro j hj0 hjn hq
    rw [hcf]
    by_cases hjm : j = m
    · rw [hjm, hpar, hi', hm']
      exact hmi
    · by_cases hji : j = i
      · rw [hji, hi', ho ((i - 1) / 2) (by omega) (by omega) (by omega)]
        exact hd.2 (by omega) m hm0 hm hpar
      · rw [ho j (by omega) hjm hji]
        by_cases hqi : (j - 1) / 2 = i
        · rw [hqi, hi']
          exact hsib j hj0 hjn hqi
        · rw [ho ((j - 1) / 2) (by omega) hq hqi]
          exact hd.1 j hj0 hjn hqi
  · intro _ j hj0 hjn hq
    rw [hcf, hpar, hi', ho j (by omega) (by omega) (by omega)]
    have := hd.1 j hj0 hjn (by omega)
    rw [hq] at this
    exact this

theorem lchild_eq (i : Nat) (h : i < 2 ^ 63) : lchild i = 2 * i + 1 := by
  simp only [lchild]
  exact u64_of_lt _ (by omega)

theorem rchild_eq (i : Nat) (h : i + 1 < 2 ^ 63) : rchild i = 2 * i + 2 := by
  show u64 (2 * i + 2) = 2 * i + 2
  exact u64_of_lt _ (by omega)

/-- The loop of `heapify_down` leaves the loop within `size - i` passes, keeps the elements as a
multiset and restores the heap order. -/
theorem heapify_down_loop_ok (fuel : Nat) (pq : pqueue_s) (i : Nat)
    (hc : cmp_total_preorder pq.cmp_fn) (h : PQInv pq) (hi : i < pq.size)
    (hf : pq.size ≤ fuel + i) (hd : DownInv pq pq.size i) :
    ∃ pq2, heapify_down_loop fuel pq i = some pq2 ∧ PQInv pq2 ∧ pq_frame pq2 pq ∧
      HeapOrdered pq2 pq.size ∧ (pqueue_contents pq2).Perm (pqueue_contents pq) := by
  induction fuel generalizing pq i with
  | zero => omega
  | succ fuel ih =>
    have hsz := h.size
    have h63 := h.cap63
    have hl := lchild_eq i (by omega)
    have hr := rchild_eq i (by omega)
    have hrec : ∀ m, 0 < m → m < pq.size → (m - 1) / 2 = i → i < m →
        pq.cmp_fn (pqueue_shift pq m) (pqueue_shift pq i) ≤ 0 →
        (∀ j, 0 < j → j < pq.size → (j - 1) / 2 = i →
          pq.cmp_fn (pqueue_shift pq m) (pqueue_shift pq j) ≤ 0) →
        ∃ pq2, heapify_down_loop fuel (pqueue_swap pq m i) m = some pq2 ∧ PQInv pq2 ∧
          pq_frame pq2 pq ∧ HeapOrdered pq2 pq.size ∧
          (pqueue_contents pq2).Perm (pqueue_contents pq) := by
      intro m hm0 hm hpar him hmi hsib
      have hstep := down_inv_step pq h i m hm0 hm hpar hd hmi hsib
      obtain ⟨pq2, h1, h2, h3, h4, h5⟩ := ih (pqueue_swap pq m i) m hc
        (pqueue_swap_inv pq h _ _) hm (show pq.size ≤ fuel + m by omega) hstep
      exact ⟨pq2, h1, h2, pq_frame_trans h3 (pqueue_swap_frame pq _ _), h4,
        h5.trans (pqueue_swap_perm pq h _ _ hm hi)⟩
    simp only [heapify_down_loop, hl, hr]
    by_cases c1 : 2 * i + 1 < pq.size ∧
        pq.cmp_fn (pqueue_shift pq (2 * i + 1)) (pqueue_shift pq i) < 0
    · simp only [if_pos c1]
      by_cases c2 : 2 * i + 2 < pq.size ∧
          pq.cmp_fn (pqueue_shift pq (2 * i + 2)) (pqueue_shift pq (2 * i + 1)) < 0
      · rw [if_pos c2, if_neg (by omega)]
        have hrl : pq.cmp_fn (pqueue_shift pq (2 * i + 2)) (pqueue_shift pq (2 * i + 1)) ≤ 0 := by
          omega
        have hli : pq.cmp_fn (pqueue_shift pq (2 * i + 1)) (pqueue_shift pq i) ≤ 0 := by
          omega
        apply hrec (2 * i + 2) (by omega) c2.1 (by omega) (by omega) (hc.trans _ _ _ hrl hli)
        intro j hj0 hjn hq
        have hj : j = 2 * i + 1 ∨ j = 2 * i + 2 := by omega
        rcases hj with hj | hj
        · rw [hj]
          exact hrl
        · rw [hj]
          exact cmp_refl hc _
      · rw [if_neg c2, if_neg (by omega)]
        have hli : pq.cmp_fn (pqueue_shift pq (2 * i + 1)) (pqueue_shift pq i) ≤ 0 := by
          omega
        apply hrec (2 * i + 1) (by omega) c1.1 (by omega) (by omega) hli
        intro j hj0 hjn hq
        have hj : j = 2 * i + 1 ∨ j = 2 * i + 2 := by omega
        rcases hj with hj | hj
        · rw [hj]
          exact cmp_refl hc _
        · rw [hj]
          rw [hj] at hjn
          exact cmp_le_of_not_lt hc _ _ (fun hh => c2 ⟨hjn, hh⟩)
    · simp only [if_neg c1]
      by_cases c2 : 2 * i + 2 < pq.size ∧
          pq.cmp_fn (pqueue_shift pq (2 * i + 2)) (pqueue_shift pq i) < 0
      · rw [if_pos c2, if_neg (by omega)]
        have hri : pq.cmp_fn (pqueue_shift pq (2 * i + 2)) (pqueue_shift pq i) ≤ 0 := by
          omega
        apply hrec (2 * i + 2) (by omega) c2.1 (by omega) (by omega) hri
        intro j hj0 hjn hq
        have hj : j = 2 * i + 1 ∨ j = 2 * i + 2 := by omega
        rcases hj with hj | hj
        · rw [hj]
          rw [hj] at hjn
          exact hc.trans _ _ _ hri (cmp_le_of_not_lt hc _ _ (fun hh => c1 ⟨hjn, hh⟩))
        · rw [hj]
          exact cmp_refl hc _
      · rw [if_neg c2, if_pos rfl]
        refine ⟨pq, rfl, h, pq_frame_refl pq, ?_, List.Perm.refl _⟩
        intro j hj0 hjn
        by_cases hq : (j - 1) / 2 = i
        · have hj : j = 2 * i + 1 ∨ j = 2 * i + 2 := by omega
          rw [hq]
          rcases hj with hj | hj
          · rw [hj]
            rw [hj] at hjn
            exact cmp_le_of_not_lt hc _ _ (fun hh => c1 ⟨hjn, hh⟩)
          · rw [hj]
            rw [hj] at hjn
            exact cmp_le_of_not_lt hc _ _ (fun hh => c2 ⟨hjn, hh⟩)
        · exact hd.1 j hj0 hjn hq

/-- The loop of `heapify_down` never moves an element that is a copy of the element it sinks:
a slot `k` holding the same bytes as slot `i` keeps them. -/
theorem heapify_down_loop_stale (fuel : Nat) (pq : pqueue_s) (i k : Nat)
    (hc : cmp_total_preorder pq.cmp_fn) (h : PQInv pq) (hi : i < pq.size) (hk : k < pq.size)
    (hki : k ≠ i) (heq : pqueue_shift pq k = pqueue_shift pq i) (pq2 : pqueue_s)
    (hres : heapify_down_loop fuel pq i = some pq2) :
    pqueue_shift pq2 k = pqueue_shift pq k := by
  induction fuel generalizing pq i with
  | zero => cases hres
  | succ fuel ih =>
    have hsz := h.size
    have h63 := h.cap63
    have hl := lchild_eq i (by omega)
    have hr := rchild_eq i (by omega)
    have hirr : ∀ x y : Bytes, pq.cmp_fn x y < 0 → ¬ pq.cmp_fn y x < 0 := by
      intro x y h1 h2
      have := (hc.anti x y).1 h1
      omega
    have hrec : ∀ m, m < pq.size → m ≠ i → m ≠ k →
        heapify_down_loop fuel (pqueue_swap pq m i) m = some pq2 →
        pqueue_shift pq2 k = pqueue_shift pq k := by
      intro m hm hmi hmk hres2
      have ho := pqueue_swap_other pq h m i (by omega) (by omega) k (by omega) (Ne.symm hmk) hki
      have hm' := pqueue_swap_fst pq h m i (by omega) (by omega)
      have := ih (pqueue_swap pq m i) m hc (pqueue_swap_inv pq h _ _) hm hk (Ne.symm hmk)
        (by rw [ho, hm', heq]) hres2
      rw [this, ho]
    simp only [heapify_down_loop, hl, hr] at hres
    by_cases c1 : 2 * i + 1 < pq.size ∧
        pq.cmp_fn (pqueue_shift pq (2 * i + 1)) (pqueue_shift pq i) < 0
    · simp only [if_pos c1] at hres
      by_cases c2 : 2 * i + 2 < pq.size ∧
          pq.cmp_fn (pqueue_shift pq (2 * i + 2)) (pqueue_shift pq (2 * i + 1)) < 0
      · rw [if_pos c2, if_neg (by omega)] at hres
        apply hrec (2 * i + 2) c2.1 (by omega) _ hres
        intro hcon
        have h1 := c2.2
        have h2 := c1.2
        rw [hcon, heq] at h1
        exact hirr _ _ h1 h2
      · rw [if_neg c2, if_neg (by omega)] at hres
        apply hrec (2 * i + 1) c1.1 (by omega) _ hres
        intro hcon
        have h2 := c1.2
        rw [hcon, heq] at h2
        exact hirr _ _ h2 h2
    · simp only [if_neg c1] at hres
      by_cases c2 : 2 * i + 2 < pq.size ∧
          pq.cmp_fn (pqueue_shift pq (2 * i + 2)) (pqueue_shift pq i) < 0
      · rw [if_pos c2, if_neg (by omega)] at hres
        apply hrec (2 * i + 2) c2.1 (by omega) _ hres
        intro hcon
        have h2 := c2.2
        rw [hcon, heq] at h2
        exact hirr _ _ h2 h2
      · rw [if_neg c2, if_pos rfl] at hres
        cases hres
        rfl

/-- In a heap the root is not above any element. -/
theorem heap_root_min (pq : pqueue_s) (hc : cmp_total_preorder pq.cmp_fn) (n : Nat)
    (hh : HeapOrdered pq n) (j : Nat) (hj : j < n) :
    pq.cmp_fn (pqueue_shift pq 0) (pqueue_shift pq j) ≤ 0 := by
  induction j using Nat.strong_induction_on with
  | _ j ih =>
    by_cases h0 : j = 0
    · rw [h0]
      exact cmp_refl hc _
    · exact hc.trans _ _ _ (ih ((j - 1) / 2) (by omega) (by omega)) (hh j (by omega) hj)

theorem pqueue_contents_length (pq : pqueue_s) : (pqueue_contents pq).length = pq.size := by
  simp [pqueue_contents]

theorem mem_pqueue_contents (pq : pqueue_s) (x : Bytes) :
    x ∈ pqueue_contents pq ↔ ∃ j, j < pq.size ∧ pqueue_shift pq j = x := by
  simp [pqueue_contents]

/-- The root of a queue that is not empty is one of its elements and is not above any of
them. -/
theorem pqueue_root_min (pq : pqueue_s) (hg : PQGood pq) (hne : pq.size ≠ 0) :
    pqueue_shift pq 0 ∈ pqueue_contents pq ∧
      ∀ x, x ∈ pqueue_contents pq → pq.cmp_fn (pqueue_shift pq 0) x ≤ 0 := by
  constructor
  · exact (mem_pqueue_contents pq _).2 ⟨0, by omega, rfl⟩
  · intro x hx
    obtain ⟨j, hj, rfl⟩ := (mem_pqueue_contents pq x).1 hx
    exact heap_root_min pq hg.2.2 pq.size hg.2.1 j hj

/-- A granted call of `pqueue_alloc` for at least `capacity + 1` slots keeps the elements. -/
theorem pqueue_alloc_ok (alloc : Nat → Bool) (pq : pqueue_s) (c : Nat) (h : PQInv pq)
    (hc : pq.capacity + 1 ≤ c) (hal : alloc (u64 (c * pq.elem_size)) = true) :
    (pqueue_alloc alloc pq c).1 = stat_t.COMPLETE ∧
      pq_frame (pqueue_alloc alloc pq c).2 pq ∧
      (∃ b, (pqueue_alloc alloc pq c).2.heap = some b ∧ b.length = c ∧
        ∀ s, s ∈ b → s.length ≤ pq.elem_size) ∧
      ∀ k, k < pq.size → pqueue_shift (pqueue_alloc alloc pq c).2 k = pqueue_shift pq k := by
  obtain ⟨b, hb, hblen, hbs⟩ := h.buf
  have hsz := h.size
  have hnil : ∀ n (s : Bytes), s ∈ List.replicate n ([] : Bytes) → s.length ≤ pq.elem_size := by
    intro n s hs
    rw [List.eq_of_mem_replicate hs]
    exact Nat.zero_le _
  simp only [pqueue_alloc, hal, Bool.true_eq_false, if_false, hb]
  by_cases hd : pq.default_alloc = true
  · rw [if_pos hd]
    refine ⟨rfl, ⟨rfl, rfl, rfl, rfl, rfl⟩, ⟨_, rfl, ?_, ?_⟩, ?_⟩
    · rw [List.length_append, List.length_take, List.length_replicate]
      omega
    · intro s hs
      rcases List.mem_append.1 hs with h1 | h1
      · exact hbs s (List.mem_of_mem_take h1)
      · exact hnil _ s h1
    · intro k hk
      simp only [pqueue_shift, hb, Option.getD_some, List.getD_eq_getElem?_getD]
      rw [List.take_of_length_le (by omega), List.getElem?_append_left (by omega)]
  · rw [if_neg hd]
    refine ⟨rfl, ⟨rfl, rfl, rfl, rfl, rfl⟩, ⟨_, rfl, ?_, ?_⟩, ?_⟩
    · rw [List.length_append, List.length_take, List.length_replicate]
      omega
    · intro s hs
      rcases List.mem_append.1 hs with h1 | h1
      · exact hbs s (List.mem_of_mem_take h1)
      · exact hnil _ s h1
    · intro k hk
      simp only [pqueue_shift, hb, Option.getD_some, List.getD_eq_getElem?_getD]
      rw [List.getElem?_append_left (by rw [List.length_take]; omega), List.getElem?_take_of_lt hk]

theorem pqueue_alloc_fail (alloc : Nat → Bool) (pq : pqueue_s) (c : Nat)
    (h : (pqueue_alloc alloc pq c).1 ≠ stat_t.COMPLETE) : (pqueue_alloc alloc pq c).2 = pq := by
  simp only [pqueue_alloc] at h ⊢
  by_cases hal : alloc (u64 (c * pq.elem_size)) = false
  · rw [if_pos hal]
  · rw [if_neg hal] at h
    exfalso
    apply h
    cases pq.heap with
    | none => rfl
    | some old =>
      simp only
      split <;> rfl

theorem pqueue_alloc_granted (alloc : Nat → Bool) (pq : pqueue_s) (c : Nat)
    (h : (pqueue_alloc alloc pq c).1 = stat_t.COMPLETE) :
    alloc (u64 (c * pq.elem_size)) = true := by
  simp only [pqueue_alloc] at h
  by_cases hal : alloc (u64 (c * pq.elem_size)) = false
  · rw [if_pos hal] at h
    cases h
  · simpa using hal

/-- The growth step of `pqueue_push`: on failure the queue is untouched; on success the queue
keeps its elements, their order in the heap and its size, and has room for one more. -/
theorem pqueue_grow_ok (alloc : Nat → Bool) (pq : pqueue_s) (hal : alloc_bounded alloc)
    (h : PQInv pq) :
    ((pqueue_grow alloc pq).1 ≠ stat_t.COMPLETE → (pqueue_grow alloc pq).2 = pq) ∧
      ((pqueue_grow alloc pq).1 = stat_t.COMPLETE →
        PQInv (pqueue_grow alloc pq).2 ∧
        (pqueue_grow alloc pq).2.size = pq.size ∧
        (pqueue_grow alloc pq).2.elem_size = pq.elem_size ∧
        (pqueue_grow alloc pq).2.cmp_fn = pq.cmp_fn ∧
        (pqueue_grow alloc pq).2.size < (pqueue_grow alloc pq).2.capacity ∧
        ∀ k, k < pq.size → pqueue_shift (pqueue_grow alloc pq).2 k = pqueue_shift pq k) := by
  have hsz := h.size
  have hcp := h.cap_pos
  have h63 := h.cap63
  simp only [pqueue_grow]
  by_cases hfull : pq.size ≥ pq.capacity
  · rw [if_pos hfull]
    by_cases hov : pq.capacity ≥ (SIZE_MAX - 1) / pq.elem_size / PQUEUE_EXP_FACTOR
    · rw [if_pos hov]
      exact ⟨fun _ => rfl, fun hh => by cases hh⟩
    · rw [if_neg hov]
      simp only [PQUEUE_EXP_FACTOR] at hov ⊢
      have hu : u64 (pq.capacity * 2 + 1) = 2 * pq.capacity + 1 := by
        rw [u64_of_lt _ (by omega)]
        omega
      rw [hu]
      by_cases hst : (pqueue_alloc alloc pq (2 * pq.capacity + 1)).1 = stat_t.COMPLETE
      · rw [if_neg (not_not.2 hst)]
        refine ⟨fun hh => absurd rfl hh, fun _ => ?_⟩
        have hgr := pqueue_alloc_granted alloc pq _ hst
        obtain ⟨_, hfr, ⟨b, hb, hblen, hbs⟩, hkeep⟩ :=
          pqueue_alloc_ok alloc pq (2 * pq.capacity + 1) h (by omega) hgr
        obtain ⟨f1, f2, f3, f4, f5⟩ := hfr
        have hes : 1 ≤ pq.elem_size := by
          by_contra hcon
          have h0 : pq.elem_size = 0 := by omega
          rw [h0, Nat.div_zero] at hov
          omega
        have hq : 2 * pq.capacity + 2 ≤ (SIZE_MAX - 1) / pq.elem_size := by omega
        have hm : (2 * pq.capacity + 2) * pq.elem_size ≤ SIZE_MAX - 1 :=
          (Nat.mul_le_mul_right _ hq).trans (Nat.div_mul_le_self _ _)
        have hm2 : (2 * pq.capacity + 1) * pq.elem_size ≤ (2 * pq.capacity + 2) * pq.elem_size :=
          Nat.mul_le_mul_right _ (by omega)
        have h263 : 2 * pq.capacity < 2 ^ 63 := by
          have hb1 := hal _ hgr
          rw [u64_of_lt _ (by simp only [SIZE_MAX] at hm; omega)] at hb1
          have hge : 2 * pq.capacity + 1 ≤ (2 * pq.capacity + 1) * pq.elem_size :=
            Nat.le_mul_of_pos_right _ hes
          omega
        have hu2 : u64 ((pqueue_alloc alloc pq (2 * pq.capacity + 1)).2.capacity * 2)
            = 2 * pq.capacity := by
          rw [f2, u64_of_lt _ (by omega)]
          omega
        simp only [hu2]
        refine ⟨⟨?_, ?_, ⟨b, hb, ?_, ?_⟩, ?_⟩, f1, f3, f4, ?_, ?_⟩
        · show 0 < 2 * pq.capacity
          omega
        · exact h263
        · exact hblen
        · intro s hs
          rw [show ({ (pqueue_alloc alloc pq (2 * pq.capacity + 1)).2 with
            capacity := 2 * pq.capacity } : pqueue_s).elem_size = pq.elem_size from f3]
          exact hbs s hs
        · show (pqueue_alloc alloc pq (2 * pq.capacity + 1)).2.size ≤ 2 * pq.capacity
          rw [f1]
          omega
        · show (pqueue_alloc alloc pq (2 * pq.capacity + 1)).2.size < 2 * pq.capacity
          rw [f1]
          omega
        · intro k hk
          exact hkeep k hk
      · rw [if_pos hst]
        exact ⟨fun _ => pqueue_alloc_fail alloc pq _ hst, fun hh => by cases hh⟩
  · rw [if_neg hfull]
    refine ⟨fun hh => absurd rfl hh, fun _ => ⟨h, rfl, rfl, rfl, ?_, fun _ _ => rfl⟩⟩
    show pq.size < pq.capacity
    omega

/-- The call `pqueue_push` runs to completion: an error leaves the queue untouched, a success
adds the `elem_size` bytes at `elem` to the elements and keeps the heap order. -/
theorem pqueue_push_ok (alloc : Nat → Bool) (pq : pqueue_s) (elem : Bytes)
    (hal : alloc_bounded alloc) (hg : PQGood pq) :
    ∃ r, pqueue_push alloc pq elem = some r ∧ r.1 = (pqueue_grow alloc pq).1 ∧ PQGood r.2 ∧
      r.2.elem_size = pq.elem_size ∧ r.2.cmp_fn = pq.cmp_fn ∧
      (r.1 ≠ stat_t.COMPLETE → r.2 = pq) ∧
      (r.1 = stat_t.COMPLETE →
        (pqueue_contents r.2).Perm (memcpy elem pq.elem_size :: pqueue_contents pq) ∧
        r.2.size = pq.size + 1) := by
  obtain ⟨hinv, hheap, hc⟩ := hg
  obtain ⟨hfail, hok⟩ := pqueue_grow_ok alloc pq hal hinv
  simp only [pqueue_push]
  by_cases hst : (pqueue_grow alloc pq).1 = stat_t.COMPLETE
  · rw [if_neg (not_not.2 hst)]
    obtain ⟨gi, gsz, ges, gcmp, groom, gkeep⟩ := hok hst
    generalize pqueue_grow alloc pq = gr at hst gi gsz ges gcmp groom gkeep hfail
    obtain ⟨st, g⟩ := gr
    simp only at hst gi gsz ges gcmp groom gkeep
    have g63 := gi.cap63
    obtain ⟨b, hb, hblen, hbs⟩ := gi.buf
    have hu : u64 (g.size + 1) = g.size + 1 := u64_of_lt _ (by omega)
    have hsz1 : (pqueue_store g g.size elem).size = g.size := rfl
    simp only [hsz1, hu, heapify_up]
    have hinv2 : PQInv { pqueue_store g g.size elem with size := g.size + 1 } := by
      obtain ⟨b1, hb1, hb1len, hb1s⟩ := (pqueue_store_inv g gi g.size elem).buf
      exact ⟨gi.cap_pos, gi.cap63, ⟨b1, hb1, hb1len, hb1s⟩, groom⟩
    have hsh : ∀ k, pqueue_shift { pqueue_store g g.size elem with size := g.size + 1 } k
        = if k = g.size then memcpy elem g.elem_size else pqueue_shift g k := by
      intro k
      have := pqueue_shift_store g b hb g.size k elem
      by_cases hk : k = g.size
      · rw [if_pos ⟨hk, by omega⟩] at this
        rw [if_pos hk]
        exact this
      · rw [if_neg (fun hh => hk hh.1)] at this
        rw [if_neg hk]
        exact this
    have hup : UpInv { pqueue_store g g.size elem with size := g.size + 1 } (g.size + 1)
        g.size := by
      constructor
      · intro j hj0 hjn hji
        rw [hsh, hsh, if_neg (by omega), if_neg hji, gkeep _ (by omega), gkeep _ (by omega)]
        show g.cmp_fn _ _ ≤ 0
        rw [gcmp]
        exact hheap j hj0 (by omega)
      · intro h0 j hj0 hjn hq
        omega
    obtain ⟨pq3, h1, h2, h3, h4, h5⟩ := heapify_up_loop_ok (g.size + 1)
      { pqueue_store g g.size elem with size := g.size + 1 } g.size
      (by show cmp_total_preorder g.cmp_fn; rw [gcmp]; exact hc) hinv2
      (show g.size < g.size + 1 by omega) (by omega) hup
    obtain ⟨f1, f2, f3, f4, f5⟩ := h3
    have f1' : pq3.size = g.size + 1 := f1
    have f3' : pq3.elem_size = g.elem_size := f3
    have f4' : pq3.cmp_fn = g.cmp_fn := f4
    rw [h1]
    refine ⟨(stat_t.COMPLETE, pq3), rfl, hst.symm, ⟨h2, ?_, ?_⟩, f3'.trans ges,
      f4'.trans gcmp, fun hh => absurd rfl hh, fun _ => ⟨?_, by rw [f1', gsz]⟩⟩
    · rw [f1']
      exact h4
    · rw [f4', gcmp]
      exact hc
    · refine h5.trans ?_
      have hcont : pqueue_contents { pqueue_store g g.size elem with size := g.size + 1 }
          = pqueue_contents pq ++ [memcpy elem pq.elem_size] := by
        simp only [pqueue_contents, List.range_succ, List.map_append, List.map_cons,
          List.map_nil]
        refine congrArg₂ (fun x y => x ++ [y]) ?_ ?_
        · rw [← gsz]
          apply List.map_congr_left
          intro k hk
          have hk2 := List.mem_range.1 hk
          rw [hsh, if_neg (by omega), gkeep k (by omega)]
        · rw [hsh, if_pos rfl, ges]
      rw [hcont]
      exact List.perm_append_singleton _ _
  · rw [if_pos hst]
    refine ⟨_, rfl, rfl, ?_, ?_, ?_, fun _ => hfail hst, fun hh => absurd hh hst⟩
    · rw [hfail hst]
      exact ⟨hinv, hheap, hc⟩
    · rw [hfail hst]
    · rw [hfail hst]

theorem pqueue_pop_empty (pq : pqueue_s) (h : pq.size = 0) :
    pqueue_pop pq = some (stat_t.ERR_INVALID_OPERATION, pq, none) := by
  simp only [pqueue_pop, if_pos h]

/-- On a queue that is not empty `pqueue_pop` runs to completion, hands out the root and leaves
the other elements in heap order. -/
theorem pqueue_pop_ok (pq : pqueue_s) (hg : PQGood pq) (hne : pq.size ≠ 0) :
    ∃ pq3, pqueue_pop pq = some (stat_t.COMPLETE, pq3, some (pqueue_shift pq 0)) ∧
      PQGood pq3 ∧ pq3.size + 1 = pq.size ∧ pq3.elem_size = pq.elem_size ∧
      pq3.cmp_fn = pq.cmp_fn ∧
      (pqueue_contents pq).Perm (pqueue_shift pq 0 :: pqueue_contents pq3) := by
  obtain ⟨hinv, hheap, hc⟩ := hg
  have hsz := hinv.size
  have h63 := hinv.cap63
  have hs1 : sub64 pq.size 1 = pq.size - 1 := sub64_one _ (by omega) (by omega)
  simp only [pqueue_pop, if_neg hne, memcpy_of_le _ _ (pqueue_shift_len pq hinv 0), hs1]
  by_cases hgt : pq.size > 1
  · rw [if_pos hgt]
    obtain ⟨n, hn⟩ : ∃ n, pq.size = n + 2 := ⟨pq.size - 2, by omega⟩
    have hinv1 := pqueue_store_inv pq hinv 0 (pqueue_shift pq (pq.size - 1))
    have hsh1 := pqueue_copy_slot pq hinv 0 (Nat.zero_le _) (pq.size - 1)
    generalize hpq1 : pqueue_store pq 0 (pqueue_shift pq (pq.size - 1)) = pq1 at hinv1 hsh1
    have e1 : pq1.size = pq.size := by rw [← hpq1]; rfl
    have e2 : pq1.cmp_fn = pq.cmp_fn := by rw [← hpq1]; rfl
    have e3 : pq1.elem_size = pq.elem_size := by rw [← hpq1]; rfl
    have e4 : pq1.capacity = pq.capacity := by rw [← hpq1]; rfl
    have hc1 : cmp_total_preorder pq1.cmp_fn := by rw [e2]; exact hc
    have hd : DownInv pq1 pq1.size 0 := by
      constructor
      · intro j hj0 hjn hq
        rw [hsh1, hsh1, if_neg (by omega), if_neg (by omega), e2]
        exact hheap j hj0 (by omega)
      · intro h0
        omega
    simp only [heapify_down]
    obtain ⟨pq2, h1, h2, h3, h4, h5⟩ := heapify_down_loop_ok (pq1.size + 1) pq1 0 hc1 hinv1
      (by omega) (by omega) hd
    have hstale := heapify_down_loop_stale (pq1.size + 1) pq1 0 (pq.size - 1) hc1 hinv1
      (by omega) (by omega) (by omega)
      (by rw [hsh1, hsh1, if_neg (by omega), if_pos rfl]) pq2 h1
    rw [hsh1, if_neg (by omega)] at hstale
    obtain ⟨f1, f2, f3, f4, f5⟩ := h3
    rw [h1]
    simp only [Option.map_some']
    have hs2 : sub64 pq2.size 1 = pq.size - 1 := by rw [f1, e1]; exact hs1
    rw [hs2]
    refine ⟨_, rfl, ⟨?_, ?_, ?_⟩, ?_, ?_, ?_, ?_⟩
    · obtain ⟨b2, hb2, hb2len, hb2s⟩ := h2.buf
      refine ⟨h2.cap_pos, h2.cap63, ⟨b2, hb2, hb2len, hb2s⟩, ?_⟩
      show pq.size - 1 ≤ pq2.capacity
      rw [f2, e4]
      omega
    · intro j hj0 hjn
      exact h4 j hj0 (by rw [e1]; exact Nat.lt_of_lt_of_le hjn (Nat.sub_le _ _))
    · show cmp_total_preorder pq2.cmp_fn
      rw [f4]
      exact hc1
    · show pq.size - 1 + 1 = pq.size
      omega
    · exact f3.trans e3
    · exact f4.trans e2
    · have hC : pqueue_contents pq
          = pqueue_shift pq 0
            :: ((List.range n).map (fun k => pqueue_shift pq (k + 1))
              ++ [pqueue_shift pq (n + 1)]) := by
        simp only [pqueue_contents, hn]
        rw [List.range_succ_eq_map, List.map_cons, List.map_map, List.range_succ,
          List.map_append, List.map_cons, List.map_nil]
        rfl
      have hn1 : n + 2 - 1 = n + 1 := rfl
      have hC1 : pqueue_contents pq1
          = pqueue_shift pq (n + 1)
            :: ((List.range n).map (fun k => pqueue_shift pq (k + 1))
              ++ [pqueue_shift pq (n + 1)]) := by
        simp only [pqueue_contents, e1, hn]
        rw [List.range_succ_eq_map, List.map_cons, List.map_map, List.range_succ,
          List.map_append, List.map_cons, List.map_nil]
        refine congrArg₂ (fun x y => x :: y) ?_ (congrArg₂ (fun x y => x ++ [y]) ?_ ?_)
        · rw [hsh1, if_pos rfl, hn, hn1]
        · apply List.map_congr_left
          intro k _
          simp only [Function.comp]
          rw [hsh1, if_neg (by omega)]
        · simp only [Function.comp]
          rw [hsh1, if_neg (by omega)]
      have hC2 : pqueue_contents pq2
          = (List.range (n + 1)).map (pqueue_shift pq2) ++ [pqueue_shift pq (n + 1)] := by
        simp only [pqueue_contents, f1, e1, hn]
        rw [List.range_succ, List.map_append, List.map_cons, List.map_nil]
        rw [hn] at hstale
        rw [show n + 2 - 1 = n + 1 from rfl] at hstale
        rw [hstale]
      have hC3 : pqueue_contents { pq2 with size := pq.size - 1 }
          = (List.range (n + 1)).map (pqueue_shift pq2) := by
        simp only [pqueue_contents, hn]
        rfl
      rw [hC, hC3]
      rw [hC1, hC2] at h5
      apply List.Perm.cons
      have h6 : ((List.range (n + 1)).map (pqueue_shift pq2)).Perm
          (pqueue_shift pq (n + 1) :: (List.range n).map (fun k => pqueue_shift pq (k + 1))) := by
        rw [← List.cons_append] at h5
        exact (List.perm_append_right_iff _).1 h5
      exact (h6.trans (List.perm_append_singleton _ _).symm).symm
  · rw [if_neg hgt]
    have h1 : pq.size = 1 := by omega
    simp only [Option.map_some']
    generalize hpq3 : ({ pq with size := sub64 pq.size 1 } : pqueue_s) = pq3
    have e1 : pq3.size = pq.size - 1 := by rw [← hpq3]; exact hs1
    have e2 : pq3.cmp_fn = pq.cmp_fn := by rw [← hpq3]
    have e3 : pq3.elem_size = pq.elem_size := by rw [← hpq3]
    have e4 : pq3.capacity = pq.capacity := by rw [← hpq3]
    have e5 : pq3.heap = pq.heap := by rw [← hpq3]
    refine ⟨pq3, rfl, ⟨?_, ?_, ?_⟩, ?_, e3, e2, ?_⟩
    · obtain ⟨b, hb, hblen, hbs⟩ := hinv.buf
      refine ⟨by rw [e4]; exact hinv.cap_pos, by rw [e4]; exact h63,
        ⟨b, e5.trans hb, by rw [e4]; exact hblen, by rw [e3]; exact hbs⟩, ?_⟩
      rw [e1, e4]
      omega
    · intro j hj0 hjn
      rw [e1] at hjn
      omega
    · rw [e2]
      exact hc
    · rw [e1]
      omega
    · have hc3 : pqueue_contents pq3 = [] := by
        simp only [pqueue_contents, e1, h1]
        rfl
      rw [hc3]
      simp only [pqueue_contents, h1]
      exact List.Perm.refl _

/-- A successful `_pqueue_init` with a requested capacity of at least 1 and below
`SIZE_MAX / elem_size` gives an empty queue with that capacity. -/
theorem pqueue_init_ok (alloc : Nat → Bool) (capacity elem_size : Nat)
    (cmp_fn : Bytes → Bytes → Int) (default_alloc : Bool) (pq : pqueue_s)
    (hal : alloc_bounded alloc) (h1 : 1 ≤ capacity) (hlt : capacity < SIZE_MAX / elem_size)
    (hc : cmp_total_preorder cmp_fn)
    (h : _pqueue_init alloc capacity elem_size cmp_fn default_alloc = some pq) :
    PQGood pq ∧ pqueue_contents pq = [] ∧ pq.size = 0 ∧ pq.capacity = capacity ∧
      pq.elem_size = elem_size ∧ pq.cmp_fn = cmp_fn := by
  have hq : SIZE_MAX / elem_size ≤ SIZE_MAX := Nat.div_le_self _ _
  have hsm : SIZE_MAX < 2 ^ 64 := by
    simp only [SIZE_MAX]
    omega
  have hu : u64 (capacity + 1) = capacity + 1 := u64_of_lt _ (by omega)
  have hes : 1 ≤ elem_size := by
    by_contra hcon
    have h0 : elem_size = 0 := by omega
    rw [h0, Nat.div_zero] at hlt
    omega
  have hm : (capacity + 1) * elem_size ≤ SIZE_MAX :=
    (Nat.mul_le_mul_right _ (show capacity + 1 ≤ SIZE_MAX / elem_size by omega)).trans
      (Nat.div_mul_le_self _ _)
  simp only [_pqueue_init, hu] at h
  rw [if_neg (by omega)] at h
  by_cases ha : alloc sizeof_pqueue = false
  · rw [if_pos ha] at h
    cases h
  · rw [if_neg ha] at h
    simp only [pqueue_alloc] at h
    by_cases hb : alloc (u64 ((capacity + 1) * elem_size)) = false
    · rw [if_pos hb] at h
      simp at h
    · rw [if_neg hb] at h
      simp only [ne_eq, not_true_eq_false, if_false, Option.some.injEq] at h
      have h63 : capacity + 1 < 2 ^ 63 := by
        have hb1 := hal _ (by simpa using hb)
        rw [u64_of_lt _ (by omega)] at hb1
        have hge : capacity + 1 ≤ (capacity + 1) * elem_size := Nat.le_mul_of_pos_right _ hes
        omega
      subst h
      refine ⟨⟨⟨(show 0 < capacity by omega), (show capacity < 2 ^ 63 by omega),
        ⟨_, rfl, List.length_replicate _ _, ?_⟩, Nat.zero_le _⟩, ?_, hc⟩, rfl, rfl, rfl, rfl,
        rfl⟩
      · intro s hs
        rw [List.eq_of_mem_replicate hs]
        exact Nat.zero_le _
      · intro j hj0 hjn
        exact absurd hjn (Nat.not_lt_zero _)

/-- Every reachable queue satisfies the invariant. -/
theorem pq_reach_good (pq : pqueue_s) (h : PQReach pq) : PQGood pq := by
  induction h with
  | init alloc capacity elem_size cmp_fn default_alloc pq hal h1 hlt hc hinit =>
    exact (pqueue_init_ok alloc capacity elem_size cmp_fn default_alloc pq hal h1 hlt hc
      hinit).1
  | push alloc pq elem r hal _ hpush ih =>
    obtain ⟨r2, h1, _, h3, _⟩ := pqueue_push_ok alloc pq elem hal ih
    rw [h1] at hpush
    cases hpush
    exact h3
  | pop pq r _ hpop ih =>
    by_cases hz : pq.size = 0
    · rw [pqueue_pop_empty pq hz] at hpop
      cases hpop
      exact ih
    · obtain ⟨pq3, h1, h2, _⟩ := pqueue_pop_ok pq ih hz
      rw [h1] at hpop
      cases hpop
      exact h2

/-- Popping until the queue is empty hands out the elements in non-decreasing order. -/
theorem pqueue_drain_loop_ok (fuel : Nat) (pq : pqueue_s) (hg : PQGood pq)
    (hf : pq.size ≤ fuel) :
    ∃ out, pqueue_drain_loop fuel pq = some out ∧ out.Perm (pqueue_contents pq) ∧
      out.Pairwise (fun a b => pq.cmp_fn a b ≤ 0) := by
  induction fuel generalizing pq with
  | zero =>
    have hz : pq.size = 0 := by omega
    refine ⟨[], ?_, ?_, List.Pairwise.nil⟩
    · simp [pqueue_drain_loop, pqueue_is_empty, hz]
    · simp [pqueue_contents, hz]
  | succ fuel ih =>
    by_cases hz : pq.size = 0
    · refine ⟨[], ?_, ?_, List.Pairwise.nil⟩
      · simp [pqueue_drain_loop, pqueue_is_empty, hz]
      · simp [pqueue_contents, hz]
    · obtain ⟨pq3, h1, h2, h3, _, h5, h6⟩ := pqueue_pop_ok pq hg hz
      obtain ⟨out, o1, o2, o3⟩ := ih pq3 h2 (by omega)
      obtain ⟨_, hmin⟩ := pqueue_root_min pq hg hz
      refine ⟨pqueue_shift pq 0 :: out, ?_, ?_, ?_⟩
      · have he : pqueue_is_empty pq = false := by
          simp [pqueue_is_empty, hz]
        simp only [pqueue_drain_loop, he, Bool.false_eq_true, if_false, h1, o1,
          Option.map_some']
      · exact (List.Perm.cons _ o2).trans h6.symm
      · rw [List.pairwise_cons]
        constructor
        · intro y hy
          apply hmin
          exact h6.symm.subset (List.mem_cons_of_mem _ (o2.subset hy))
        · rw [h5] at o3
          exact o3

/-- A run of successful pushes adds the pushed elements to the queue. -/
theorem pqueue_push_all_ok (calls : List push_call) (pq pq2 : pqueue_s) (hg : PQGood pq)
    (hal : ∀ c, c ∈ calls → alloc_bounded c.1) (h : pqueue_push_all pq calls = some pq2) :
    PQGood pq2 ∧ pq2.elem_size = pq.elem_size ∧ pq2.cmp_fn = pq.cmp_fn ∧
      pq2.size = pq.size + calls.length ∧
      (pqueue_contents pq2).Perm
        (calls.map (fun c => memcpy c.2 pq.elem_size) ++ pqueue_contents pq) := by
  induction calls generalizing pq with
  | nil =>
    simp only [pqueue_push_all, Option.some.injEq] at h
    subst h
    exact ⟨hg, rfl, rfl, rfl, List.Perm.refl _⟩
  | cons c rest ih =>
    obtain ⟨r, h1, _, h3, h4, h5, _, h7⟩ :=
      pqueue_push_ok c.1 pq c.2 (hal c (List.mem_cons_self _ _)) hg
    simp only [pqueue_push_all, h1] at h
    obtain ⟨st, pq1⟩ := r
    cases st with
    | COMPLETE =>
      simp only at h h3 h4 h5 h7
      obtain ⟨i1, i2, i3, i4, i5⟩ := ih pq1 h3
        (fun c2 hc2 => hal c2 (List.mem_cons_of_mem _ hc2)) h
      obtain ⟨p1, p2⟩ := h7 trivial
      refine ⟨i1, i2.trans h4, i3.trans h5, ?_, ?_⟩
      · rw [i4, p2, List.length_cons]
        omega
      · rw [h4] at i5
        refine i5.trans ?_
        rw [List.map_cons]
        exact ((List.Perm.append_left _ p1).trans List.perm_middle)
    | ERR_MEMORY_ALLOCATION => cases h
    | ERR_INVALID_OPERATION => cases h
    | ERR_CAPACITY_OVERFLOW => cases h
    | ERR_INDEX_OUT_OF_RANGE => cases h


/-! ## The linking invariant is preserved -/

theorem linkinv_of_perm (ht ht2 : hashmap_s) (l : List hashmap_entry_s)
    (hp : same_params ht2 ht)
    (hplace : ∀ i e, e ∈ bucket ht2.entries i → e.hash &&& mask ht2.capacity = i)
    (hperm : (all_entries ht2).Perm l)
    (hhash : ∀ e, e ∈ l → e.hash = key_hash ht e.key)
    (hnull : l.countP (fun e => e.key.isNone) ≤ 1) : LinkInv ht2 := by
  refine ⟨hplace, ?_, ?_⟩
  · intro e he
    rw [key_hash_params hp]
    exact hhash e (hperm.mem_iff.1 he)
  · rw [hperm.countP_eq]
    exact hnull

/-- In a map that satisfies the linking invariant every entry without a key is in bucket 0. -/
theorem null_entry_in_bucket_zero (ht : hashmap_s) (hk : LinkInv ht) (e : hashmap_entry_s)
    (he : e ∈ all_entries ht) (hn : e.key = none) : e ∈ bucket ht.entries 0 := by
  obtain ⟨i, _, hi⟩ := (mem_flatten_iff_bucket ht.entries e).1 he
  have h1 := hk.place i e hi
  rw [hk.hash e he, hn] at h1
  have h0 : i = 0 := by
    rw [← h1]
    simp [key_hash]
  rw [← h0]
  exact hi

theorem countP_null_eq_zero (l : List hashmap_entry_s) (h : ∀ e, e ∈ l → e.key ≠ none) :
    l.countP (fun e => e.key.isNone) = 0 := by
  rw [List.countP_eq_zero]
  intro e he
  have := h e he
  cases hk : e.key with
  | none => exact absurd hk this
  | some k => simp

/-- The scan-and-link step keeps the linking invariant, whatever it reports. -/
theorem assign_at_link (alloc : Nat → Bool) (ht : hashmap_s) (key : Option Bytes) (val : Bytes)
    (h : Inv ht) (hk : LinkInv ht) (hkey : key_ok ht key) :
    LinkInv (assign_at alloc ht key val).2 := by
  have hi := scan_index_lt ht h key
  obtain ⟨R, hR1, hR2⟩ := flatten_set_split ht.entries (scan_index ht key) hi
  cases hca : chain_assign (entry_hit ht key) val ht.elem_size
      (bucket ht.entries (scan_index ht key)) with
  | some c =>
    have hr : assign_at alloc ht key val
        = (stat_t.COMPLETE, { ht with entries := ht.entries.set (scan_index ht key) c }) := by
      simp only [assign_at, hca]
    rw [hr]
    obtain ⟨a, e, b, hab, hhit, _, rfl⟩ := chain_assign_some _ _ _ _ _ hca
    have hmem : e ∈ all_entries ht := by
      apply mem_all_of_bucket ht (scan_index ht key)
      rw [hab]
      simp
    have hall : (all_entries ht).Perm (a ++ e :: (b ++ R)) := by
      have := hR1
      rw [hab] at this
      simpa [all_entries] using this
    have hperm : (all_entries
        { ht with
          entries :=
            ht.entries.set (scan_index ht key)
              (a ++ { e with elem := memcpy val ht.elem_size } :: b) }).Perm
        (a ++ { e with elem := memcpy val ht.elem_size } :: (b ++ R)) := by
      have h2 := hR2 (a ++ { e with elem := memcpy val ht.elem_size } :: b)
      simpa [all_entries] using h2
    have hplace : ∀ i x,
        x ∈ bucket (ht.entries.set (scan_index ht key)
          (a ++ { e with elem := memcpy val ht.elem_size } :: b)) i →
        x.hash &&& mask ht.capacity = i := by
      intro i x hx
      by_cases hij : i = scan_index ht key
      · subst hij
        rw [bucket_set_self _ _ _ hi] at hx
        have hx2 : x ∈ a ∨ x = { e with elem := memcpy val ht.elem_size } ∨ x ∈ b := by
          simpa using hx
        rcases hx2 with hx2 | hx2 | hx2
        · exact hk.place _ x (by rw [hab]; simp [hx2])
        · rw [hx2]
          exact hk.place _ e (by rw [hab]; simp)
        · exact hk.place _ x (by rw [hab]; simp [hx2])
      · rw [bucket_set_ne _ _ _ _ hij] at hx
        exact hk.place i x hx
    refine linkinv_of_perm ht _ _ ⟨rfl, rfl, rfl, rfl⟩ hplace hperm ?_ ?_
    · intro x hx
      have hx2 : x ∈ a ∨ x = { e with elem := memcpy val ht.elem_size } ∨ x ∈ b ∨ x ∈ R := by
        simpa using hx
      rcases hx2 with hx2 | hx2 | hx2 | hx2
      · exact hk.hash x (hall.mem_iff.2 (by simp [hx2]))
      · rw [hx2]
        exact hk.hash e hmem
      · exact hk.hash x (hall.mem_iff.2 (by simp [hx2]))
      · exact hk.hash x (hall.mem_iff.2 (by simp [hx2]))
    · have hc := hk.null_once
      rw [hall.countP_eq] at hc
      simpa [List.countP_append, List.countP_cons] using hc
  | none =>
    cases hg : entry_granted alloc ht key with
    | false =>
      have hr : assign_at alloc ht key val = (stat_t.ERR_MEMORY_ALLOCATION, ht) := by
        simp only [assign_at, hca, hg, if_true]
      rw [hr]
      exact hk
    | true =>
      have hr : assign_at alloc ht key val
          = (stat_t.COMPLETE,
              { ht with
                entries := ht.entries.set (scan_index ht key)
                  (new_entry_for ht key val :: bucket ht.entries (scan_index ht key))
                size := u64 (ht.size + 1) }) := by
        simp only [assign_at, hca, hg, Bool.true_eq_false, if_false]
      rw [hr]
      have hmiss := (chain_assign_none _ _ _ _).1 hca
      obtain ⟨hh, hnk⟩ := new_entry_hash ht key val hkey
      have hperm : (all_entries
          { ht with
            entries := ht.entries.set (scan_index ht key)
              (new_entry_for ht key val :: bucket ht.entries (scan_index ht key))
            size := u64 (ht.size + 1) }).Perm
          (new_entry_for ht key val :: all_entries ht) :=
        flatten_set_cons_perm ht.entries _ hi _
      have hplace : ∀ i x,
          x ∈ bucket (ht.entries.set (scan_index ht key)
            (new_entry_for ht key val :: bucket ht.entries (scan_index ht key))) i →
          x.hash &&& mask ht.capacity = i := by
        intro i x hx
        by_cases hij : i = scan_index ht key
        · subst hij
          rw [bucket_set_self _ _ _ hi] at hx
          rcases List.mem_cons.1 hx with rfl | hx
          · exact key_hash_index ht key
          · exact hk.place _ x hx
        · rw [bucket_set_ne _ _ _ _ hij] at hx
          exact hk.place i x hx
      refine linkinv_of_perm ht _ _ ⟨rfl, rfl, rfl, rfl⟩ hplace hperm ?_ ?_
      · intro x hx
        rcases List.mem_cons.1 hx with rfl | hx
        · exact hh
        · exact hk.hash x hx
      · rw [List.countP_cons, hnk]
        cases key with
        | none =>
          have hz : (all_entries ht).countP (fun e => e.key.isNone) = 0 := by
            apply countP_null_eq_zero
            intro e he hn
            have hb := null_entry_in_bucket_zero ht hk e he hn
            have := hmiss e hb
            simp [entry_hit, hn] at this
          rw [hz]
          simp
        | some k =>
          simpa using hk.null_once

/-- A granted growth step keeps the linking invariant. -/
theorem hashmap_grow_link (alloc : Nat → Bool) (ht : hashmap_s) (c e : Nat) (h : Inv ht)
    (h3 : 3 ≤ e) (h62 : e ≤ 62) (hc : c = 2 ^ e) (hle : ht.capacity ≤ c)
    (hs : (hashmap_grow alloc ht c).1 = stat_t.COMPLETE) (hk : LinkInv ht) :
    LinkInv (hashmap_grow alloc ht c).2 := by
  obtain ⟨_, hperm, _, hcap, hplace⟩ := hashmap_grow_inv alloc ht c e h h3 h62 hc hle hs
  refine linkinv_of_perm ht _ (all_entries ht) (hashmap_grow_params alloc ht c) ?_ hperm
    hk.hash hk.null_once
  rw [hcap]
  exact hplace

/-- Whatever it reports, `hashmap_assign` keeps the linking invariant. -/
theorem hashmap_assign_link (alloc : Nat → Bool) (ht : hashmap_s) (key : Option Bytes)
    (val : Bytes) (h : Inv ht) (hk : LinkInv ht) (hkey : key_ok ht key) :
    LinkInv (hashmap_assign alloc ht key val).2 := by
  obtain ⟨h8, h62, m, hm⟩ := h.cap_bounds
  obtain ⟨e, h3, he62, he⟩ := h.cap
  simp only [hashmap_assign, hashmap_assign_entry_eq]
  split
  · rename_i hld
    split
    · exact hk
    · rename_i hov
      have hdbl : u64 (ht.capacity <<< 1) = 2 ^ (e + 1) := by
        rw [shl_one, he, Nat.pow_succ]
        simp only [u64]
        omega
      have he61 : e ≤ 61 := by
        by_contra hcon
        have hp := pow_le_of_le (show 63 ≤ e + 1 by omega)
        rw [hdbl, max_capacity_eq] at hov
        omega
      split
      · rename_i hne
        rw [hashmap_grow_fail alloc ht _ hne]
        exact hk
      · rename_i hne
        have hs := not_not.1 hne
        have hle : ht.capacity ≤ u64 (ht.capacity <<< 1) := by
          rw [hdbl, he, Nat.pow_succ]; omega
        obtain ⟨hi3, _, _, _, _⟩ := hashmap_grow_inv alloc ht _ (e + 1) h (by omega)
          (by omega) hdbl hle hs
        have hk3 := hashmap_grow_link alloc ht _ (e + 1) h (by omega) (by omega) hdbl hle hs hk
        have hp3 := hashmap_grow_params alloc ht (u64 (ht.capacity <<< 1))
        exact assign_at_link alloc _ key val hi3 hk3 ((key_ok_params hp3 key).2 hkey)
  · exact assign_at_link alloc ht key val h hk hkey

/-- Whatever it reports, `hashmap_remove` keeps the linking invariant. -/
theorem hashmap_remove_link (ht : hashmap_s) (key : Option Bytes) (h : Inv ht)
    (hk : LinkInv ht) : LinkInv (hashmap_remove ht key).2.1 := by
  have hi := scan_index_lt ht h key
  obtain ⟨R, hR1, hR2⟩ := flatten_set_split ht.entries (scan_index ht key) hi
  cases hcr : chain_remove (entry_hit ht key) (bucket ht.entries (scan_index ht key)) with
  | none =>
    have hr : hashmap_remove ht key = (stat_t.ERR_INVALID_OPERATION, ht, none) := by
      simp only [hashmap_remove, hcr]
    rw [hr]
    exact hk
  | some p =>
    obtain ⟨e, c⟩ := p
    have hr : hashmap_remove ht key
        = (stat_t.COMPLETE,
            { ht with entries := ht.entries.set (scan_index ht key) c, size := sub64 ht.size 1 },
            some (memcpy e.elem ht.elem_size)) := by
      simp only [hashmap_remove, hcr]
    rw [hr]
    obtain ⟨a, b, hab, _, _, rfl⟩ := chain_remove_some _ _ _ _ hcr
    have hall : (all_entries ht).Perm (a ++ e :: (b ++ R)) := by
      have := hR1
      rw [hab] at this
      simpa [all_entries] using this
    have hperm : (all_entries
        { ht with entries := ht.entries.set (scan_index ht key) (a ++ b),
                  size := sub64 ht.size 1 }).Perm (a ++ (b ++ R)) := by
      have h2 := hR2 (a ++ b)
      rw [List.append_assoc] at h2
      exact h2
    have hplace : ∀ i x, x ∈ bucket (ht.entries.set (scan_index ht key) (a ++ b)) i →
        x.hash &&& mask ht.capacity = i := by
      intro i x hx
      by_cases hij : i = scan_index ht key
      · subst hij
        rw [bucket_set_self _ _ _ hi] at hx
        rcases List.mem_append.1 hx with hx2 | hx2
        · exact hk.place _ x (by rw [hab]; simp [hx2])
        · exact hk.place _ x (by rw [hab]; simp [hx2])
      · rw [bucket_set_ne _ _ _ _ hij] at hx
        exact hk.place i x hx
    refine linkinv_of_perm ht _ _ ⟨rfl, rfl, rfl, rfl⟩ hplace hperm ?_ ?_
    · intro x hx
      have hx2 : x ∈ a ∨ x ∈ b ∨ x ∈ R := by simpa using hx
      rcases hx2 with hx2 | hx2 | hx2
      · exact hk.hash x (hall.mem_iff.2 (by simp [hx2]))
      · exact hk.hash x (hall.mem_iff.2 (by simp [hx2]))
      · exact hk.hash x (hall.mem_iff.2 (by simp [hx2]))
    · have hc := hk.null_once
      rw [hall.countP_eq] at hc
      simp only [List.countP_append, List.countP_cons] at hc ⊢
      omega

/-- Whatever it reports, `hashmap_reserve` keeps the linking invariant. -/
theorem hashmap_reserve_link (alloc : Nat → Bool) (ht : hashmap_s) (capacity : Nat)
    (h : Inv ht) (hk : LinkInv ht) : LinkInv (hashmap_reserve alloc ht capacity).2 := by
  simp only [hashmap_reserve]
  split
  · exact hk
  · rename_i hcnd
    rw [max_capacity_half] at hcnd
    obtain ⟨e, h3, h62, hr, _, hle, _⟩ :=
      hashmap_reserve_new_cap ht h capacity (by omega) (by omega)
    by_cases hs : (hashmap_grow alloc ht (roundup_pow2 capacity)).1 = stat_t.COMPLETE
    · have hle2 : ht.capacity ≤ roundup_pow2 capacity := by rw [hr]; exact hle
      exact hashmap_grow_link alloc ht (roundup_pow2 capacity) e h h3 h62 hr hle2 hs hk
    · rw [hashmap_grow_fail alloc ht _ hs]
      exact hk

theorem linkinv_of_empty (ht : hashmap_s) (hall : all_entries ht = [])
    (hb : ∀ i, bucket ht.entries i = []) : LinkInv ht := by
  refine ⟨?_, ?_, ?_⟩
  · intro i e he
    rw [hb i] at he
    cases he
  · intro e he
    rw [hall] at he
    cases he
  · rw [hall]
    simp

/-- Every reachable map satisfies the linking invariant. -/
theorem reachable_linkinv (ht : hashmap_s) (h : Reachable ht) : LinkInv ht := by
  induction h with
  | init alloc capacity key_len elem_size hash_fn cmp_fn ht _ _ hinit =>
    have heq := hashmap_init_eq alloc capacity key_len elem_size hash_fn cmp_fn ht hinit
    apply linkinv_of_empty
    · rw [heq]
      exact flatten_replicate_nil _
    · intro i
      rw [heq]
      exact bucket_replicate_nil _ i
  | assign alloc ht key val hr hkey ih =>
    exact hashmap_assign_link alloc ht key val (reachable_inv ht hr) ih hkey
  | remove ht key hr _ ih =>
    exact hashmap_remove_link ht key (reachable_inv ht hr) ih
  | reserve alloc ht capacity hr ih =>
    exact hashmap_reserve_link alloc ht capacity (reachable_inv ht hr) ih
  | clear ht hr ih =>
    have h := reachable_inv ht hr
    have hall := (hashmap_clear_entries ht h.len).2
    apply linkinv_of_empty _ hall
    intro i
    simp only [hashmap_clear]
    rw [clear_fold_bucket]
    by_cases hi : i < ht.capacity
    · simp [hi]
    · simp only [hi, if_false]
      exact bucket_of_le _ _ (by rw [h.len]; omega)


/-! ## The loop of `cityhash64` -/

theorem sub64_of_le (a b : Nat) (hb : b ≤ a) (ha : a < 2 ^ 64) : sub64 a b = a - b := by
  simp only [sub64]
  omega

theorem testBit_mask63 (i : Nat) :
    (2 ^ 64 - 64 : Nat).testBit i = (decide (6 ≤ i) && decide (i < 64)) := by
  have hm : (2 : Nat) ^ 64 - 64 = 2 ^ 6 * (2 ^ 58 - 1) := by norm_num
  rw [hm, Nat.testBit_mul_pow_two, Nat.testBit_two_pow_sub_one]
  by_cases h6 : 6 ≤ i
  · by_cases h64 : i < 64
    · have : i - 6 < 58 := by omega
      simp [h6, h64, this]
    · have : ¬ i - 6 < 58 := by omega
      simp [h6, h64, this]
  · simp [h6]

theorem testBit_block_floor (x i : Nat) :
    (64 * (x / 64)).testBit i = (decide (6 ≤ i) && x.testBit i) := by
  have hm : 64 * (x / 64) = 2 ^ 6 * (x >>> 6) := by
    rw [Nat.shiftRight_eq_div_pow]
    norm_num
  rw [hm, Nat.testBit_mul_pow_two, Nat.testBit_shiftRight]
  by_cases h6 : 6 ≤ i
  · have : 6 + (i - 6) = i := by omega
    simp [h6, this]
  · simp [h6]

/-- The counter of the loop on entry: `(len - 1) & ~63` is `64 * ((len - 1) / 64)`. -/
theorem cityhash64_counter_eq (len : Nat) (h1 : 1 ≤ len) (h64 : len < 2 ^ 64) :
    cityhash64_counter len = 64 * ((len - 1) / 64) := by
  have hs : sub64 len 1 = len - 1 := sub64_of_le len 1 h1 h64
  simp only [cityhash64_counter, hs]
  apply Nat.eq_of_testBit_eq
  intro i
  rw [Nat.testBit_and, testBit_mask63, testBit_block_floor]
  by_cases h6 : 6 ≤ i
  · by_cases hlt : i < 64
    · simp [h6, hlt]
    · have hge : 2 ^ 64 ≤ 2 ^ i := Nat.pow_le_pow_right (by norm_num) (by omega)
      have hx : (len - 1).testBit i = false :=
        Nat.testBit_lt_two_pow (lt_of_lt_of_le (by omega) hge)
      simp [hx]
  · simp [h6]

/-- The passes of the loop from a counter `64 * n` with `n > 0`: `n` passes on the blocks at
`off`, `off + 64`, ..., the counter decreasing by 64 to exactly 0. -/
theorem cityhash64_blocks_eq (n : Nat) (fuel off : Nat) (hn : 0 < n) (hf : n ≤ fuel)
    (h64 : 64 * n < 2 ^ 64) :
    cityhash64_blocks fuel off (64 * n)
      = some ((List.range n).map (fun k => (off + 64 * k, 64 * (n - 1 - k)))) := by
  induction n generalizing fuel off with
  | zero => omega
  | succ n ih =>
    cases fuel with
    | zero => omega
    | succ fuel =>
      have hs : sub64 (64 * (n + 1)) 64 = 64 * n := by
        rw [sub64_of_le _ _ (by omega) h64]
        omega
      simp only [cityhash64_blocks, hs]
      by_cases hz : n = 0
      · subst hz
        rfl
      · have hne : 64 * n ≠ 0 := by omega
        rw [if_pos hne, ih fuel (off + 64) (by omega) (by omega) (by omega)]
        simp only [Option.map_some', Option.some.injEq]
        rw [List.range_succ_eq_map, List.map_cons, List.map_map]
        refine congrArg₂ (fun x y => x :: y) ?_ ?_
        · simp
        · apply List.map_congr_left
          intro k hk
          have hk2 := List.mem_range.1 hk
          have e1 : off + 64 + 64 * k = off + 64 * (k + 1) := by omega
          have e2 : 64 * (n - 1 - k) = 64 * (n + 1 - 1 - (k + 1)) := by omega
          show (off + 64 + 64 * k, 64 * (n - 1 - k))
            = (off + 64 * (k + 1), 64 * (n + 1 - 1 - (k + 1)))
          rw [e1, e2]

/-- The loop does not come to its end in fewer than `n` passes. -/
theorem cityhash64_blocks_none (n : Nat) (fuel off : Nat) (hf : fuel < n)
    (h64 : 64 * n < 2 ^ 64) : cityhash64_blocks fuel off (64 * n) = none := by
  induction fuel generalizing n off with
  | zero => rfl
  | succ fuel ih =>
    have hs : sub64 (64 * n) 64 = 64 * (n - 1) := by
      rw [sub64_of_le _ _ (by omega) h64]
      omega
    have hne : 64 * (n - 1) ≠ 0 := by omega
    simp only [cityhash64_blocks, hs]
    rw [if_pos hne, ih (n - 1) (off + 64) (by omega) (by omega)]
    rfl

/-- The loop of `cityhash64` is the body folded over the blocks of `cityhash64_blocks`. -/
theorem cityhash64_loop_eq_blocks (fuel : Nat) (s : Bytes) (off len : Nat) (st : city_state) :
    cityhash64_loop fuel (s.drop off) len st
      = (cityhash64_blocks fuel off len).map
          (fun l => l.foldl (fun st b => cityhash64_body (s.drop b.1) st) st) := by
  induction fuel generalizing off len st with
  | zero => rfl
  | succ fuel ih =>
    simp only [cityhash64_loop, cityhash64_blocks]
    by_cases hz : sub64 len 64 = 0
    · simp [hz]
    · rw [if_pos hz, if_pos hz, List.drop_drop, ih]
      simp only [Option.map_map]
      rfl


/-! ## The bytes read by `cityhash64` -/

theorem reads_in_range_append (len : Nat) (a b : List Int) :
    reads_in_range len (a ++ b) ↔ reads_in_range len a ∧ reads_in_range len b := by
  simp only [reads_in_range, List.mem_append]
  constructor
  · intro h
    exact ⟨fun r hr => h r (Or.inl hr), fun r hr => h r (Or.inr hr)⟩
  · rintro ⟨ha, hb⟩ r (hr | hr)
    · exact ha r hr
    · exact hb r hr

theorem fetch64_in_range (len : Nat) (off : Int) (h0 : 0 ≤ off) (h1 : off + 8 ≤ len) :
    reads_in_range len (fetch64_reads off) := by
  intro r hr
  simp only [fetch64_reads, List.mem_map, List.mem_range] at hr
  obtain ⟨i, hi, rfl⟩ := hr
  omega

theorem fetch32_in_range (len : Nat) (off : Int) (h0 : 0 ≤ off) (h1 : off + 4 ≤ len) :
    reads_in_range len (fetch32_reads off) := by
  intro r hr
  simp only [fetch32_reads, List.mem_map, List.mem_range] at hr
  obtain ⟨i, hi, rfl⟩ := hr
  omega

theorem weakhashlen32withseeds_in_range (len : Nat) (off : Int) (h0 : 0 ≤ off)
    (h1 : off + 32 ≤ len) : reads_in_range len (weakhashlen32withseeds_reads off) := by
  simp only [weakhashlen32withseeds_reads, reads_in_range_append]
  exact ⟨⟨⟨fetch64_in_range len _ (by omega) (by omega),
    fetch64_in_range len _ (by omega) (by omega)⟩,
    fetch64_in_range len _ (by omega) (by omega)⟩,
    fetch64_in_range len _ (by omega) (by omega)⟩

theorem cityhash64_body_in_range (len : Nat) (off : Int) (h0 : 0 ≤ off) (h1 : off + 64 ≤ len) :
    reads_in_range len (cityhash64_body_reads off) := by
  simp only [cityhash64_body_reads, reads_in_range_append]
  exact ⟨⟨⟨⟨⟨fetch64_in_range len _ (by omega) (by omega),
    fetch64_in_range len _ (by omega) (by omega)⟩,
    fetch64_in_range len _ (by omega) (by omega)⟩,
    weakhashlen32withseeds_in_range len _ (by omega) (by omega)⟩,
    weakhashlen32withseeds_in_range len _ (by omega) (by omega)⟩,
    fetch64_in_range len _ (by omega) (by omega)⟩

theorem hashlen0to16_in_range (len : Nat) (h : len ≤ 16) :
    reads_in_range len (hashlen0to16_reads len) := by
  simp only [hashlen0to16_reads]
  split
  · rw [reads_in_range_append]
    exact ⟨fetch64_in_range len _ (by omega) (by omega),
      fetch64_in_range len _ (by omega) (by omega)⟩
  · split
    · rw [reads_in_range_append]
      exact ⟨fetch32_in_range len _ (by omega) (by omega),
        fetch32_in_range len _ (by omega) (by omega)⟩
    · split
      · intro r hr
        have hsh : len >>> 1 = len / 2 := by
          rw [Nat.shiftRight_eq_div_pow, Nat.pow_one]
        simp only [List.mem_cons, List.mem_singleton, List.not_mem_nil, or_false, hsh] at hr
        rcases hr with rfl | rfl | rfl <;> omega
      · intro r hr
        cases hr

theorem hashlen17to32_in_range (len : Nat) (h1 : 16 < len) :
    reads_in_range len (hashlen17to32_reads len) := by
  simp only [hashlen17to32_reads, reads_in_range_append]
  exact ⟨⟨⟨fetch64_in_range len _ (by omega) (by omega),
    fetch64_in_range len _ (by omega) (by omega)⟩,
    fetch64_in_range len _ (by omega) (by omega)⟩,
    fetch64_in_range len _ (by omega) (by omega)⟩

theorem hashlen33to64_in_range (len : Nat) (h1 : 32 < len) :
    reads_in_range len (hashlen33to64_reads len) := by
  simp only [hashlen33to64_reads, reads_in_range_append]
  exact ⟨⟨⟨⟨⟨⟨⟨⟨⟨fetch64_in_range len _ (by omega) (by omega),
    fetch64_in_range len _ (by omega) (by omega)⟩,
    fetch64_in_range len _ (by omega) (by omega)⟩,
    fetch64_in_range len _ (by omega) (by omega)⟩,
    fetch64_in_range len _ (by omega) (by omega)⟩,
    fetch64_in_range len _ (by omega) (by omega)⟩,
    fetch64_in_range len _ (by omega) (by omega)⟩,
    fetch64_in_range len _ (by omega) (by omega)⟩,
    fetch64_in_range len _ (by omega) (by omega)⟩,
    fetch64_in_range len _ (by omega) (by omega)⟩

theorem cityhash64_head_in_range (len : Nat) (h1 : 64 < len) :
    reads_in_range len (cityhash64_head_reads len) := by
  simp only [cityhash64_head_reads, reads_in_range_append]
  exact ⟨⟨⟨⟨⟨⟨⟨fetch64_in_range len _ (by omega) (by omega),
    fetch64_in_range len _ (by omega) (by omega)⟩,
    fetch64_in_range len _ (by omega) (by omega)⟩,
    fetch64_in_range len _ (by omega) (by omega)⟩,
    fetch64_in_range len _ (by omega) (by omega)⟩,
    weakhashlen32withseeds_in_range len _ (by omega) (by omega)⟩,
    weakhashlen32withseeds_in_range len _ (by omega) (by omega)⟩,
    fetch64_in_range len _ (by omega) (by omega)⟩

theorem reads_in_range_flatten (len : Nat) (l : List (List Int))
    (h : ∀ a, a ∈ l → reads_in_range len a) : reads_in_range len l.flatten := by
  intro r hr
  obtain ⟨a, ha, hra⟩ := List.mem_flatten.1 hr
  exact h a ha r hra

/-- The bytes read by `cityhash64(s, len)`, for a `len` that fits `size_t`: the list exists (the
loop comes to its end) and every index is in `[0, len)`. -/
theorem cityhash64_reads_fuel_in_range (len fuel : Nat) (h64 : len < 2 ^ 64)
    (hf : (len - 1) / 64 ≤ fuel) :
    ∃ l, cityhash64_reads_fuel fuel len = some l ∧ reads_in_range len l := by
  simp only [cityhash64_reads_fuel]
  split
  · split
    · exact ⟨_, rfl, hashlen0to16_in_range len (by omega)⟩
    · exact ⟨_, rfl, hashlen17to32_in_range len (by omega)⟩
  · split
    · exact ⟨_, rfl, hashlen33to64_in_range len (by omega)⟩
    · have hn : 0 < (len - 1) / 64 := Nat.div_pos (by omega) (by norm_num)
      have hm := Nat.div_mul_le_self (len - 1) 64
      rw [cityhash64_counter_eq len (by omega) h64,
        cityhash64_blocks_eq ((len - 1) / 64) fuel 0 hn hf (by omega)]
      refine ⟨_, rfl, ?_⟩
      rw [reads_in_range_append]
      refine ⟨cityhash64_head_in_range len (by omega), ?_⟩
      apply reads_in_range_flatten
      intro a ha
      simp only [List.map_map, List.mem_map, List.mem_range, Function.comp] at ha
      obtain ⟨k, hk, rfl⟩ := ha
      apply cityhash64_body_in_range
      · omega
      · push_cast
        omega


/-! ## The digest depends on the bytes read only -/

theorem reads_agree_append (s t : Bytes) (a b : List Int) :
    reads_agree s t (a ++ b) ↔ reads_agree s t a ∧ reads_agree s t b := by
  simp only [reads_agree, List.mem_append]
  constructor
  · intro h
    exact ⟨fun r hr => h r (Or.inl hr), fun r hr => h r (Or.inr hr)⟩
  · rintro ⟨ha, hb⟩ r (hr | hr)
    · exact ha r hr
    · exact hb r hr

theorem byteAt_drop (s : Bytes) (k j : Nat) : byteAt (s.drop k) j = byteAt s (k + j) := by
  simp [byteAt, List.getD_eq_getElem?_getD, List.getElem?_drop]

theorem fetch64_agree (s t : Bytes) (off : Int) (k : Nat) (hk : off = (k : Int))
    (h : reads_agree s t (fetch64_reads off)) : fetch64 (s.drop k) = fetch64 (t.drop k) := by
  have hj : ∀ j, j < 8 → byteAt s (k + j) = byteAt t (k + j) := by
    intro j hj
    have := h (off + (j : Int)) (by
      simp only [fetch64_reads, List.mem_map, List.mem_range]
      exact ⟨j, hj, rfl⟩)
    have e : (off + (j : Int)).toNat = k + j := by omega
    rw [e] at this
    exact this
  simp only [fetch64, byteAt_drop]
  rw [hj 0 (by omega), hj 1 (by omega), hj 2 (by omega), hj 3 (by omega), hj 4 (by omega),
    hj 5 (by omega), hj 6 (by omega), hj 7 (by omega)]

theorem fetch32_agree (s t : Bytes) (off : Int) (k : Nat) (hk : off = (k : Int))
    (h : reads_agree s t (fetch32_reads off)) : fetch32 (s.drop k) = fetch32 (t.drop k) := by
  have hj : ∀ j, j < 4 → byteAt s (k + j) = byteAt t (k + j) := by
    intro j hj
    have := h (off + (j : Int)) (by
      simp only [fetch32_reads, List.mem_map, List.mem_range]
      exact ⟨j, hj, rfl⟩)
    have e : (off + (j : Int)).toNat = k + j := by omega
    rw [e] at this
    exact this
  simp only [fetch32, byteAt_drop]
  rw [hj 0 (by omega), hj 1 (by omega), hj 2 (by omega), hj 3 (by omega)]

theorem weakhashlen32withseeds_agree (s t : Bytes) (off : Int) (k : Nat) (hk : off = (k : Int))
    (a b : Nat) (h : reads_agree s t (weakhashlen32withseeds_reads off)) :
    weakhashlen32withseeds (s.drop k) a b = weakhashlen32withseeds (t.drop k) a b := by
  simp only [weakhashlen32withseeds_reads, reads_agree_append] at h
  obtain ⟨⟨⟨h1, h2⟩, h3⟩, h4⟩ := h
  have e1 := fetch64_agree s t off k hk h1
  have e2 := fetch64_agree s t (off + 8) (k + 8) (by omega) h2
  have e3 := fetch64_agree s t (off + 16) (k + 16) (by omega) h3
  have e4 := fetch64_agree s t (off + 24) (k + 24) (by omega) h4
  simp only [weakhashlen32withseeds, List.drop_drop, e1, e2, e3, e4]

theorem cityhash64_body_agree (s t : Bytes) (k : Nat) (st : city_state)
    (h : reads_agree s t (cityhash64_body_reads (k : Int))) :
    cityhash64_body (s.drop k) st = cityhash64_body (t.drop k) st := by
  simp only [cityhash64_body_reads, reads_agree_append] at h
  obtain ⟨⟨⟨⟨⟨h1, h2⟩, h3⟩, h4⟩, h5⟩, h6⟩ := h
  have e1 := fetch64_agree s t _ (k + 8) (by omega) h1
  have e2 := fetch64_agree s t _ (k + 48) (by omega) h2
  have e3 := fetch64_agree s t _ (k + 40) (by omega) h3
  have e6 := fetch64_agree s t _ (k + 16) (by omega) h6
  have e4 := fun a b => weakhashlen32withseeds_agree s t _ k rfl a b h4
  have e5 := fun a b => weakhashlen32withseeds_agree s t _ (k + 32) (by omega) a b h5
  simp only [cityhash64_body, List.drop_drop, e1, e2, e3, e4, e5, e6]

theorem hashlen0to16_agree (s t : Bytes) (len : Nat)
    (h : reads_agree s t (hashlen0to16_reads len)) : hashlen0to16 s len = hashlen0to16 t len := by
  simp only [hashlen0to16_reads] at h
  simp only [hashlen0to16]
  split
  · rename_i h8
    rw [if_pos h8, reads_agree_append] at h
    have e1 := fetch64_agree s t 0 0 rfl h.1
    have e2 := fetch64_agree s t _ (len - 8) (by omega) h.2
    simp only [List.drop_zero] at e1
    rw [e1, e2]
  · rename_i h8
    rw [if_neg h8] at h
    split
    · rename_i h4
      rw [if_pos h4, reads_agree_append] at h
      have e1 := fetch32_agree s t 0 0 rfl h.1
      have e2 := fetch32_agree s t _ (len - 4) (by omega) h.2
      simp only [List.drop_zero] at e1
      rw [e1, e2]
    · rename_i h4
      rw [if_neg h4] at h
      split
      · rename_i h0
        rw [if_pos h0] at h
        have e1 := h 0 (by simp)
        have e2 := h ((len >>> 1 : Nat) : Int) (by simp)
        have e3 := h ((len : Int) - 1) (by simp)
        have e4 : ((len : Int) - 1).toNat = len - 1 := by omega
        simp only [Int.toNat_zero, Int.toNat_ofNat, e4] at e1 e2 e3
        rw [e1, e2, e3]
      · rfl

theorem hashlen17to32_agree (s t : Bytes) (len : Nat) (h16 : 16 < len)
    (h : reads_agree s t (hashlen17to32_reads len)) :
    hashlen17to32 s len = hashlen17to32 t len := by
  simp only [hashlen17to32_reads, reads_agree_append] at h
  obtain ⟨⟨⟨h1, h2⟩, h3⟩, h4⟩ := h
  have e1 := fetch64_agree s t 0 0 rfl h1
  have e2 := fetch64_agree s t 8 8 rfl h2
  have e3 := fetch64_agree s t _ (len - 8) (by omega) h3
  have e4 := fetch64_agree s t _ (len - 16) (by omega) h4
  simp only [List.drop_zero] at e1
  simp only [hashlen17to32, e1, e2, e3, e4]

theorem hashlen33to64_agree (s t : Bytes) (len : Nat) (h32 : 32 < len)
    (h : reads_agree s t (hashlen33to64_reads len)) :
    hashlen33to64 s len = hashlen33to64 t len := by
  simp only [hashlen33to64_reads, reads_agree_append] at h
  obtain ⟨⟨⟨⟨⟨⟨⟨⟨⟨h1, h2⟩, h3⟩, h4⟩, h5⟩, _⟩, h7⟩, h8⟩, h9⟩, _⟩ := h
  have e1 := fetch64_agree s t 24 24 rfl h1
  have e2 := fetch64_agree s t 0 0 rfl h2
  have e3 := fetch64_agree s t _ (len - 16) (by omega) h3
  have e4 := fetch64_agree s t 8 8 rfl h4
  have e5 := fetch64_agree s t 16 16 rfl h5
  have e7 := fetch64_agree s t _ (len - 32) (by omega) h7
  have e8 := fetch64_agree s t _ (len - 8) (by omega) h8
  have e9 := fetch64_agree s t _ (len - 24) (by omega) h9
  simp only [List.drop_zero] at e2
  simp only [hashlen33to64, e1, e2, e3, e4, e5, e7, e8, e9]

theorem foldl_body_agree (s t : Bytes) (l : List (Nat × Nat))
    (h : ∀ b, b ∈ l → reads_agree s t (cityhash64_body_reads (b.1 : Int))) (st : city_state) :
    l.foldl (fun st b => cityhash64_body (s.drop b.1) st) st
      = l.foldl (fun st b => cityhash64_body (t.drop b.1) st) st := by
  induction l generalizing st with
  | nil => simp only [List.foldl_nil]
  | cons b l ih =>
    simp only [List.foldl_cons]
    rw [cityhash64_body_agree s t b.1 st (h b (List.mem_cons_self _ _))]
    exact ih (fun c hc => h c (List.mem_cons_of_mem _ hc)) _

/-- The digest is a function of the bytes at the indices of `cityhash64_reads_fuel`: two buffers
that agree there have the same digest. -/
theorem cityhash64_fuel_agree (fuel len : Nat) (s t : Bytes)
    (h : ∀ l, cityhash64_reads_fuel fuel len = some l → reads_agree s t l) :
    cityhash64_fuel fuel s len = cityhash64_fuel fuel t len := by
  simp only [cityhash64_reads_fuel] at h
  simp only [cityhash64_fuel]
  split
  · rename_i h32
    rw [if_pos h32] at h
    split
    · rename_i h16
      rw [if_pos h16] at h
      rw [hashlen0to16_agree s t len (h _ rfl)]
    · rename_i h16
      rw [if_neg h16] at h
      rw [hashlen17to32_agree s t len (by omega) (h _ rfl)]
  · rename_i h32
    rw [if_neg h32] at h
    split
    · rename_i h64
      rw [if_pos h64] at h
      rw [hashlen33to64_agree s t len (by omega) (h _ rfl)]
    · rename_i h64
      rw [if_neg h64] at h
      have hl := cityhash64_loop_eq_blocks fuel s 0 (cityhash64_counter len)
      have hr := cityhash64_loop_eq_blocks fuel t 0 (cityhash64_counter len)
      simp only [List.drop_zero, cityhash64_counter] at hl hr h
      cases hb : cityhash64_blocks fuel 0 (sub64 len 1 &&& (2 ^ 64 - 64)) with
      | none =>
        simp only [hl, hr, hb, Option.map_none']
      | some bl =>
        rw [hb] at h
        have hag := h _ rfl
        simp only [cityhash64_head_reads, reads_agree_append] at hag
        obtain ⟨⟨⟨⟨⟨⟨⟨⟨g1, g2⟩, g3⟩, g4⟩, g5⟩, g6⟩, g7⟩, g8⟩, g9⟩ := hag
        have e1 := fetch64_agree s t _ (len - 40) (by omega) g1
        have e2 := fetch64_agree s t _ (len - 16) (by omega) g2
        have e3 := fetch64_agree s t _ (len - 56) (by omega) g3
        have e4 := fetch64_agree s t _ (len - 48) (by omega) g4
        have e5 := fetch64_agree s t _ (len - 24) (by omega) g5
        have e6 := fun a b => weakhashlen32withseeds_agree s t _ (len - 64) (by omega) a b g6
        have e7 := fun a b => weakhashlen32withseeds_agree s t _ (len - 32) (by omega) a b g7
        have e8 := fetch64_agree s t 0 0 rfl g8
        simp only [List.drop_zero] at e8
        have e9 : ∀ st, bl.foldl (fun st b => cityhash64_body (s.drop b.1) st) st
            = bl.foldl (fun st b => cityhash64_body (t.drop b.1) st) st := by
          intro st
          apply foldl_body_agree
          intro b hbm r hrm
          apply g9
          apply List.mem_flatten.2
          exact ⟨_, List.mem_map.2 ⟨b, hbm, rfl⟩, hrm⟩
        simp only [hl, hr, hb, Option.map_some', e1, e2, e3, e4, e5, e6, e7, e8, e9]


/-! ## Claims C1 to C10 -/

theorem example_map_run (n : Nat) (h : (assign_all example_init (example_calls n)).isSome = true) :
    assign_all example_init (example_calls n) = some (example_map n) := by
  simp only [example_map]
  cases hx : assign_all example_init (example_calls n) with
  | none => rw [hx] at h; cases h
  | some x => rfl

theorem example_map_reachable (n : Nat)
    (h : (assign_all example_init (example_calls n)).isSome = true) :
    Reachable (example_map n) := by
  refine (reachable_assign_all example_init (example_map n) (example_calls n)
    example_init_reachable ?_ (example_map_run n h)).1
  intro c hc
  simp only [example_calls, List.mem_map] at hc
  obtain ⟨i, _, rfl⟩ := hc
  intro k hk
  cases hk
  rfl

/-- C1: after a run of successful `hashmap_assign` calls on a reachable map that uses the
default byte equality (with any digest, the default one included), `hashmap_query` of a key
returns `COMPLETE` and yields the value passed to the most recent call whose key is byte-equal
to it; the run may double the capacity any number of times. -/
theorem query_returns_last_assigned (ht ht2 : hashmap_s) (calls : List assign_call)
    (key : Option Bytes) (v : Bytes) (hr : Reachable ht) (hc : ht.cmp_fn = none)
    (hkeys : ∀ c, c ∈ calls → key_ok ht c.2.1)
    (hrun : assign_all ht calls = some ht2)
    (hlast : last_assigned key calls = some v) :
    hashmap_query ht2 key = (stat_t.COMPLETE, some (memcpy v ht.elem_size)) :=
  (assign_all_query ht ht2 calls (reachable_inv ht hr) (reachable_keyinv ht hr hc) hc hkeys
    hrun key (last_assigned_key_ok ht key v calls hkeys hlast)).1 v hlast

/-- Witness for C1: eight assignments to the map of the tests, the seventh doubling the
capacity from 8 to 16, then a query of key 3. -/
theorem query_returns_last_assigned_witness :
    (example_map 8).capacity = 16 ∧
      hashmap_query (example_map 8) (some (int_bytes 3))
        = (stat_t.COMPLETE, some (int_bytes 30)) :=
  ⟨by rfl,
    query_returns_last_assigned example_init (example_map 8) (example_calls 8)
      (some (int_bytes 3)) (int_bytes 30) example_init_reachable rfl (by decide) (by rfl)
      (by rfl)⟩

/-- C2: starting from the empty map that a successful `_hashmap_init` returns (default
equality), `N` successful `hashmap_assign` calls with pairwise distinct keys give
`hashmap_size = N`; and on every reachable map a successful `hashmap_assign` of a key that is
already stored leaves `hashmap_size` unchanged. -/
theorem size_counts_distinct_keys :
    (∀ (alloc : Nat → Bool) (capacity key_len elem_size : Nat) (hash_fn : Option (Bytes → Nat))
        (ht0 ht : hashmap_s) (calls : List assign_call),
        capacity ≤ 2 ^ 62 → 0 < elem_size →
        _hashmap_init alloc capacity key_len elem_size hash_fn none = some ht0 →
        (∀ c, c ∈ calls → key_ok ht0 c.2.1) →
        (calls.map (fun c => c.2.1)).Nodup →
        assign_all ht0 calls = some ht →
        hashmap_size ht = calls.length) ∧
      (∀ (alloc : Nat → Bool) (ht : hashmap_s) (key : Option Bytes) (val : Bytes),
        Reachable ht → ht.cmp_fn = none → key_ok ht key → has_key ht key →
        (hashmap_assign alloc ht key val).1 = stat_t.COMPLETE →
        hashmap_size (hashmap_assign alloc ht key val).2 = hashmap_size ht) := by
  constructor
  · intro alloc capacity key_len elem_size hash_fn ht0 ht calls hcap _ hinit hkeys hnd hrun
    obtain ⟨hi, hall⟩ := hashmap_init_inv alloc capacity key_len elem_size hash_fn none ht0
      hcap hinit
    have hk := hashmap_init_keys alloc capacity key_len elem_size hash_fn none ht0 hinit
    have hc : ht0.cmp_fn = none := by
      rw [hashmap_init_eq alloc capacity key_len elem_size hash_fn none ht0 hinit]
    have hsz : ht0.size = 0 := by
      rw [hi.size, hall]
      rfl
    have := assign_all_size ht0 ht calls hi hk hc hkeys hnd
      (fun c _ hh => by
        obtain ⟨e, he, _⟩ := hh
        rw [hall] at he
        cases he) hrun
    simp only [hashmap_size]
    omega
  · intro alloc ht key val hr hc hkey hp hs
    exact (hashmap_assign_effect alloc ht key val (reachable_inv ht hr)
      (reachable_keyinv ht hr hc) hc hkey hs).2.2.1 hp

/-- Witness for C2: eight distinct keys give size 8, and assigning key 3 again keeps it. -/
theorem size_counts_distinct_keys_witness :
    hashmap_size (example_map 8) = 8 ∧
      hashmap_size
        (hashmap_assign grant_all (example_map 8) (some (int_bytes 3)) (int_bytes 7)).2 = 8 :=
  ⟨size_counts_distinct_keys.1 grant_all 8 4 4 none example_init (example_map 8)
      (example_calls 8) (by decide) (by decide) example_init_eq (by decide) (by decide)
      (by rfl),
    size_counts_distinct_keys.2 grant_all (example_map 8) (some (int_bytes 3)) (int_bytes 7)
      (example_map_reachable 8 (by rfl)) (by rfl) (by decide) (by decide) (by rfl)⟩

/-- C3, as stated, fails: after the sixth successful assignment to a fresh map of capacity 8 the
load `size / capacity` is exactly `0.75`, not below it. -/
theorem load_reaches_threshold :
    Reachable (example_map 5) ∧
      (hashmap_assign grant_all (example_map 5) (some (int_bytes 5)) (int_bytes 50)).1
        = stat_t.COMPLETE ∧
      ¬ (4 * hashmap_size
            (hashmap_assign grant_all (example_map 5) (some (int_bytes 5)) (int_bytes 50)).2
          < 3 * hashmap_capacity
            (hashmap_assign grant_all (example_map 5) (some (int_bytes 5)) (int_bytes 50)).2) :=
  ⟨example_map_reachable 5 (by rfl), by rfl, by decide⟩

/-- C3, amended: immediately after every successful `hashmap_assign` on a reachable map,
`size / capacity` is at most `0.75`, that is `4 * size ≤ 3 * capacity`. -/
theorem load_at_most_threshold (alloc : Nat → Bool) (ht : hashmap_s) (key : Option Bytes)
    (val : Bytes) (hr : Reachable ht)
    (hs : (hashmap_assign alloc ht key val).1 = stat_t.COMPLETE) :
    4 * hashmap_size (hashmap_assign alloc ht key val).2
      ≤ 3 * hashmap_capacity (hashmap_assign alloc ht key val).2 :=
  (hashmap_assign_inv alloc ht key val (reachable_inv ht hr)).load

/-- Witness for C3 amended: the sixth assignment to the map of the tests. -/
theorem load_at_most_threshold_witness :
    4 * hashmap_size
        (hashmap_assign grant_all (example_map 5) (some (int_bytes 5)) (int_bytes 50)).2
      ≤ 3 * hashmap_capacity
        (hashmap_assign grant_all (example_map 5) (some (int_bytes 5)) (int_bytes 50)).2 :=
  load_at_most_threshold grant_all (example_map 5) (some (int_bytes 5)) (int_bytes 50)
    (example_map_reachable 5 (by rfl)) (by rfl)

/-- C4, the failing input: `_hashmap_init` with requested capacity `2 ^ 63 + 1` and element
size 1 passes the guard, `roundup_pow2` wraps around to `0`, and when the zero-byte bucket array
is granted the call succeeds with capacity `0`, which is neither a power of two nor at least 8. -/
theorem init_capacity_wraps_to_zero :
    (_hashmap_init grant_all (2 ^ 63 + 1) 4 1 none none).map hashmap_capacity = some 0 := by
  rfl

/-- C5: after a successful `hashmap_remove` of a key (present pointer or `NULL`) on a reachable
map with default equality, `hashmap_query` of that key returns `ERR_INVALID_OPERATION` and
`hashmap_contains_key` returns 0. -/
theorem removed_key_is_absent (ht : hashmap_s) (key : Option Bytes) (hr : Reachable ht)
    (hc : ht.cmp_fn = none) (hkey : key_ok ht key)
    (hs : (hashmap_remove ht key).1 = stat_t.COMPLETE) :
    hashmap_query (hashmap_remove ht key).2.1 key = (stat_t.ERR_INVALID_OPERATION, none) ∧
      hashmap_contains_key (hashmap_remove ht key).2.1 key = 0 := by
  have hi := reachable_inv ht hr
  have hk := reachable_keyinv ht hr hc
  have hp := has_key_of_remove_ok ht key hi hk hc hkey hs
  obtain ⟨hpar, _, hk2, _, _⟩ := hashmap_remove_keys ht key hi hk hc hkey
  have hno := (hashmap_remove_effect ht key hi hk hc hkey hp).2.2.2.2.1
  exact hashmap_query_miss _ hk2 (by rw [hpar.2.2.2]; exact hc) key
    ((key_ok_params hpar key).2 hkey) ((not_has_key_iff _ key).1 hno)

/-- Witness for C5: key 3 is removed from the map with eight entries. -/
theorem removed_key_is_absent_witness :
    hashmap_query (hashmap_remove (example_map 8) (some (int_bytes 3))).2.1 (some (int_bytes 3))
        = (stat_t.ERR_INVALID_OPERATION, none) ∧
      hashmap_contains_key (hashmap_remove (example_map 8) (some (int_bytes 3))).2.1
        (some (int_bytes 3)) = 0 :=
  removed_key_is_absent (example_map 8) (some (int_bytes 3))
    (example_map_reachable 8 (by rfl)) (by rfl) (by decide) (by rfl)

/-- C6: `hashmap_remove` of a key that is stored in a reachable map with default equality
returns `COMPLETE`, hands out the value stored for the key (the bytes `hashmap_query` yields
for it), decreases `hashmap_size` by exactly one, leaves the capacity unchanged and leaves the
`hashmap_query` result of every other key unchanged. -/
theorem remove_present_key (ht : hashmap_s) (key : Option Bytes) (hr : Reachable ht)
    (hc : ht.cmp_fn = none) (hkey : key_ok ht key) (hp : has_key ht key) :
    (hashmap_remove ht key).1 = stat_t.COMPLETE ∧
      (hashmap_remove ht key).2.2 = (hashmap_query ht key).2 ∧
      (hashmap_query ht key).1 = stat_t.COMPLETE ∧
      hashmap_size (hashmap_remove ht key).2.1 + 1 = hashmap_size ht ∧
      hashmap_capacity (hashmap_remove ht key).2.1 = hashmap_capacity ht ∧
      (∀ key2, key2 ≠ key → key_ok ht key2 →
        hashmap_query (hashmap_remove ht key).2.1 key2 = hashmap_query ht key2) := by
  have hi := reachable_inv ht hr
  have hk := reachable_keyinv ht hr hc
  obtain ⟨h1, h2, h3, h4, _, h6⟩ := hashmap_remove_effect ht key hi hk hc hkey hp
  obtain ⟨e, he, hek⟩ := hp
  refine ⟨h1, h2, ?_, h3, h4, h6⟩
  rw [(hashmap_query_hit ht hk hc key hkey e he hek).1]

/-- Witness for C6: key 3 is removed from the map with eight entries; key 4 still answers. -/
theorem remove_present_key_witness :
    (hashmap_remove (example_map 8) (some (int_bytes 3))).2.2 = some (int_bytes 30) ∧
      hashmap_size (hashmap_remove (example_map 8) (some (int_bytes 3))).2.1 = 7 ∧
      hashmap_query (hashmap_remove (example_map 8) (some (int_bytes 3))).2.1
        (some (int_bytes 4)) = (stat_t.COMPLETE, some (int_bytes 40)) := by
  obtain ⟨_, h2, _, h4, _, h6⟩ := remove_present_key (example_map 8) (some (int_bytes 3))
    (example_map_reachable 8 (by rfl)) (by rfl) (by decide) (by decide)
  refine ⟨h2.trans (by rfl), ?_, (h6 (some (int_bytes 4)) (by decide) (by decide)).trans (by rfl)⟩
  have h8 : hashmap_size (example_map 8) = 8 := by rfl
  omega

/-- C7: on a reachable map with default equality, `hashmap_query` and `hashmap_remove` of a key
that is not stored (present pointer or `NULL`) return `ERR_INVALID_OPERATION`, and the map after
`hashmap_remove` is the map before it: size, capacity and every chain are unchanged. -/
theorem absent_key_is_rejected (ht : hashmap_s) (key : Option Bytes) (hr : Reachable ht)
    (hc : ht.cmp_fn = none) (hkey : key_ok ht key) (ha : ¬ has_key ht key) :
    hashmap_query ht key = (stat_t.ERR_INVALID_OPERATION, none) ∧
      hashmap_remove ht key = (stat_t.ERR_INVALID_OPERATION, ht, none) := by
  have hi := reachable_inv ht hr
  have hk := reachable_keyinv ht hr hc
  have hno := (not_has_key_iff ht key).1 ha
  exact ⟨(hashmap_query_miss ht hk hc key hkey hno).1,
    (hashmap_remove_keys ht key hi hk hc hkey).2.2.2.2 hno⟩

/-- Witness for C7: key 99 and the `NULL` key in the map with eight entries. -/
theorem absent_key_is_rejected_witness :
    (hashmap_query (example_map 8) (some (int_bytes 99))
        = (stat_t.ERR_INVALID_OPERATION, none) ∧
      hashmap_remove (example_map 8) (some (int_bytes 99))
        = (stat_t.ERR_INVALID_OPERATION, example_map 8, none)) ∧
    (hashmap_query (example_map 8) none = (stat_t.ERR_INVALID_OPERATION, none) ∧
      hashmap_remove (example_map 8) none
        = (stat_t.ERR_INVALID_OPERATION, example_map 8, none)) :=
  ⟨absent_key_is_rejected (example_map 8) (some (int_bytes 99))
      (example_map_reachable 8 (by rfl)) (by rfl) (by decide) (by decide),
    absent_key_is_rejected (example_map 8) none
      (example_map_reachable 8 (by rfl)) (by rfl) (by decide) (by decide)⟩

/-- The two assignments of C8 in one order: first `key1`, then `key2`. -/
theorem assign_two_new_keys (alloc1 alloc2 : Nat → Bool) (ht : hashmap_s)
    (key1 key2 : Option Bytes) (v1 v2 : Bytes) (hi : Inv ht) (hk : KeyInv ht)
    (hc : ht.cmp_fn = none) (hk1 : key_ok ht key1) (hk2 : key_ok ht key2)
    (hne : key1 ≠ key2) (hn1 : ¬ has_key ht key1) (hn2 : ¬ has_key ht key2)
    (hs1 : (hashmap_assign alloc1 ht key1 v1).1 = stat_t.COMPLETE)
    (hs2 : (hashmap_assign alloc2 (hashmap_assign alloc1 ht key1 v1).2 key2 v2).1
      = stat_t.COMPLETE) :
    hashmap_size (hashmap_assign alloc2 (hashmap_assign alloc1 ht key1 v1).2 key2 v2).2
        = hashmap_size ht + 2 ∧
      hashmap_query (hashmap_assign alloc2 (hashmap_assign alloc1 ht key1 v1).2 key2 v2).2 key1
        = (stat_t.COMPLETE, some (memcpy v1 ht.elem_size)) ∧
      hashmap_query (hashmap_assign alloc2 (hashmap_assign alloc1 ht key1 v1).2 key2 v2).2 key2
        = (stat_t.COMPLETE, some (memcpy v2 ht.elem_size)) := by
  obtain ⟨hp1, hkA, _, _⟩ := hashmap_assign_keys alloc1 ht key1 v1 hi hk hc hk1
  have hiA := hashmap_assign_inv alloc1 ht key1 v1 hi
  obtain ⟨a1, _, _, a4, a5⟩ := hashmap_assign_effect alloc1 ht key1 v1 hi hk hc hk1 hs1
  have hcA : (hashmap_assign alloc1 ht key1 v1).2.cmp_fn = none := by
    rw [hp1.2.2.2]; exact hc
  obtain ⟨b1, b2, _, b4, _⟩ := hashmap_assign_effect alloc2 _ key2 v2 hiA hkA hcA
    ((key_ok_params hp1 key2).2 hk2) hs2
  have hnA : ¬ has_key (hashmap_assign alloc1 ht key1 v1).2 key2 := by
    intro hh
    rcases (a5 key2).1 hh with heq | hold
    · exact hne heq.symm
    · exact hn2 hold
  refine ⟨?_, ?_, ?_⟩
  · simp only [hashmap_size]
    rw [b4 hnA, a4 hn1]
  · rw [b2 key1 hne ((key_ok_params hp1 key1).2 hk1), a1]
  · rw [b1, hp1.2.1]

/-- C8: the `NULL` entry never collides with an ordinary key.  On a reachable map with default
equality that stores neither, for every key `k` of `key_len` bytes, whatever bucket its digest
selects (bucket 0 included), after successful `assign(NULL, v1)` and `assign(k, v2)` in either
order the size has grown by two, `query(NULL)` yields `v1` and `query(k)` yields `v2`. -/
theorem null_key_is_independent (a1 a2 : Nat → Bool) (ht : hashmap_s) (k v1 v2 : Bytes)
    (hr : Reachable ht) (hc : ht.cmp_fn = none) (hk : k.length = ht.key_len)
    (hn1 : ¬ has_key ht none) (hn2 : ¬ has_key ht (some k)) :
    ((hashmap_assign a1 ht none v1).1 = stat_t.COMPLETE →
      (hashmap_assign a2 (hashmap_assign a1 ht none v1).2 (some k) v2).1 = stat_t.COMPLETE →
      hashmap_size (hashmap_assign a2 (hashmap_assign a1 ht none v1).2 (some k) v2).2
          = hashmap_size ht + 2 ∧
        hashmap_query (hashmap_assign a2 (hashmap_assign a1 ht none v1).2 (some k) v2).2 none
          = (stat_t.COMPLETE, some (memcpy v1 ht.elem_size)) ∧
        hashmap_query (hashmap_assign a2 (hashmap_assign a1 ht none v1).2 (some k) v2).2
          (some k) = (stat_t.COMPLETE, some (memcpy v2 ht.elem_size))) ∧
    ((hashmap_assign a1 ht (some k) v2).1 = stat_t.COMPLETE →
      (hashmap_assign a2 (hashmap_assign a1 ht (some k) v2).2 none v1).1 = stat_t.COMPLETE →
      hashmap_size (hashmap_assign a2 (hashmap_assign a1 ht (some k) v2).2 none v1).2
          = hashmap_size ht + 2 ∧
        hashmap_query (hashmap_assign a2 (hashmap_assign a1 ht (some k) v2).2 none v1).2 none
          = (stat_t.COMPLETE, some (memcpy v1 ht.elem_size)) ∧
        hashmap_query (hashmap_assign a2 (hashmap_assign a1 ht (some k) v2).2 none v1).2
          (some k) = (stat_t.COMPLETE, some (memcpy v2 ht.elem_size))) := by
  have hi := reachable_inv ht hr
  have hki := reachable_keyinv ht hr hc
  have hkn : key_ok ht none := fun _ h => nomatch h
  have hks : key_ok ht (some k) := fun k2 h => (Option.some.inj h) ▸ hk
  constructor
  · intro hs1 hs2
    exact assign_two_new_keys a1 a2 ht none (some k) v1 v2 hi hki hc hkn hks
      (fun h => nomatch h) hn1 hn2 hs1 hs2
  · intro hs1 hs2
    obtain ⟨q1, q2, q3⟩ := assign_two_new_keys a1 a2 ht (some k) none v2 v1 hi hki hc hks hkn
      (fun h => nomatch h) hn2 hn1 hs1 hs2
    exact ⟨q1, q3, q2⟩

/-- Witness for C8: key 26, whose digest selects bucket 0 of the fresh map, and the `NULL` key,
assigned in both orders. -/
theorem null_key_is_independent_witness :
    scan_index example_init (some (int_bytes 26)) = 0 ∧
      (hashmap_size
          (hashmap_assign grant_all (hashmap_assign grant_all example_init none (int_bytes 11)).2
            (some (int_bytes 26)) (int_bytes 22)).2 = 2 ∧
        hashmap_query
          (hashmap_assign grant_all (hashmap_assign grant_all example_init none (int_bytes 11)).2
            (some (int_bytes 26)) (int_bytes 22)).2 none
          = (stat_t.COMPLETE, some (int_bytes 11)) ∧
        hashmap_query
          (hashmap_assign grant_all (hashmap_assign grant_all example_init none (int_bytes 11)).2
            (some (int_bytes 26)) (int_bytes 22)).2 (some (int_bytes 26))
          = (stat_t.COMPLETE, some (int_bytes 22))) ∧
      (hashmap_size
          (hashmap_assign grant_all
            (hashmap_assign grant_all example_init (some (int_bytes 26)) (int_bytes 22)).2
            none (int_bytes 11)).2 = 2 ∧
        hashmap_query
          (hashmap_assign grant_all
            (hashmap_assign grant_all example_init (some (int_bytes 26)) (int_bytes 22)).2
            none (int_bytes 11)).2 none
          = (stat_t.COMPLETE, some (int_bytes 11)) ∧
        hashmap_query
          (hashmap_assign grant_all
            (hashmap_assign grant_all example_init (some (int_bytes 26)) (int_bytes 22)).2
            none (int_bytes 11)).2 (some (int_bytes 26))
          = (stat_t.COMPLETE, some (int_bytes 22))) :=
  ⟨by rfl,
    (null_key_is_independent grant_all grant_all example_init (int_bytes 26) (int_bytes 11)
      (int_bytes 22) example_init_reachable rfl (by rfl) (by decide) (by decide)).1
      (by rfl) (by rfl),
    (null_key_is_independent grant_all grant_all example_init (int_bytes 26) (int_bytes 11)
      (int_bytes 22) example_init_reachable rfl (by rfl) (by decide) (by decide)).2
      (by rfl) (by rfl)⟩

/-- C9, as stated, fails: a request of `2 ^ 62`, greater than the capacity 8 of the fresh map,
is rejected with `ERR_INVALID_OPERATION` although every allocation would be granted.  A request
of `2 ^ 60 + 1` passes the guard, but the capacity `2 ^ 61` it is rounded up to is handed to the
allocator as a request of `2 ^ 61 * 8 mod 2 ^ 64 = 0` bytes. -/
theorem reserve_rejects_huge_request :
    hashmap_capacity example_init < 2 ^ 62 ∧
      hashmap_reserve grant_all example_init (2 ^ 62)
        = (stat_t.ERR_INVALID_OPERATION, example_init) ∧
      roundup_pow2 (2 ^ 60 + 1) = 2 ^ 61 ∧
      u64 (roundup_pow2 (2 ^ 60 + 1) * sizeof_entry_ptr) = 0 :=
  ⟨by decide, by rfl, by rfl, by rfl⟩

/-- C9, amended: for every requested capacity greater than the current capacity and at most
`2 ^ 60`, on a reachable map with default equality, `hashmap_reserve` whose bucket array is
granted returns `COMPLETE`, sets the capacity to the least power of two that is at least the
request, and leaves the size and the `hashmap_query` result of every key unchanged; the byte
size of the new bucket array does not wrap.  A request of `2 ^ 62` or more returns
`ERR_INVALID_OPERATION` and leaves the map as it was. -/
theorem reserve_grows_to_power_of_two (alloc : Nat → Bool) (ht : hashmap_s) (capacity : Nat)
    (hr : Reachable ht) (hc : ht.cmp_fn = none)
    (hgt : hashmap_capacity ht < capacity) (hle : capacity ≤ 2 ^ 60)
    (hal : alloc (u64 (roundup_pow2 capacity * sizeof_entry_ptr)) = true) :
    (hashmap_reserve alloc ht capacity).1 = stat_t.COMPLETE ∧
      (∃ e, hashmap_capacity (hashmap_reserve alloc ht capacity).2 = 2 ^ e ∧
        capacity ≤ 2 ^ e ∧ ∀ e2, capacity ≤ 2 ^ e2 → 2 ^ e ≤ 2 ^ e2) ∧
      hashmap_capacity (hashmap_reserve alloc ht capacity).2 * sizeof_entry_ptr < 2 ^ 64 ∧
      hashmap_size (hashmap_reserve alloc ht capacity).2 = hashmap_size ht ∧
      (∀ key, key_ok ht key →
        hashmap_query (hashmap_reserve alloc ht capacity).2 key = hashmap_query ht key) ∧
      (∀ huge, 2 ^ 62 ≤ huge →
        hashmap_reserve alloc ht huge = (stat_t.ERR_INVALID_OPERATION, ht)) := by
  have hi := reachable_inv ht hr
  have hk := reachable_keyinv ht hr hc
  simp only [hashmap_capacity] at hgt
  have hlt : capacity < 2 ^ 62 := by omega
  obtain ⟨e, h3, h62, hre, hle2, hcap, hleast⟩ := hashmap_reserve_new_cap ht hi capacity hgt hlt
  have hs := hashmap_grow_granted alloc ht (roundup_pow2 capacity) hal
  have hcond : ¬ (capacity ≤ ht.capacity ∨ capacity ≥ HASHMAP_MAX_CAPACITY >>> 1) := by
    rw [max_capacity_half]
    omega
  have heq : hashmap_reserve alloc ht capacity = hashmap_grow alloc ht (roundup_pow2 capacity) := by
    simp only [hashmap_reserve, hcond, if_false]
  obtain ⟨_, _, hsz, hnew, _⟩ := hashmap_grow_inv alloc ht (roundup_pow2 capacity) e hi h3 h62
    hre (by rw [hre]; exact hcap) hs
  have h60 : 2 ^ e ≤ 2 ^ 60 := hleast 60 hle
  refine ⟨by rw [heq]; exact hs, ⟨e, ?_, hle2, hleast⟩, ?_, ?_, ?_, ?_⟩
  · simp only [hashmap_capacity]
    rw [heq, hnew, hre]
  · simp only [hashmap_capacity, sizeof_entry_ptr]
    rw [heq, hnew, hre]
    omega
  · simp only [hashmap_size]
    rw [heq, hsz]
  · intro key hkey
    exact hashmap_reserve_query alloc ht capacity hi hk hc key hkey
  · intro huge hh
    have hg : huge ≤ ht.capacity ∨ huge ≥ HASHMAP_MAX_CAPACITY >>> 1 := by
      rw [max_capacity_half]
      exact Or.inr hh
    simp only [hashmap_reserve, hg, if_true]

/-- Witness for C9 amended: `reserve(100)` on the map with eight entries gives capacity 128. -/
theorem reserve_grows_to_power_of_two_witness :
    (hashmap_reserve grant_all (example_map 8) 100).1 = stat_t.COMPLETE ∧
      hashmap_capacity (hashmap_reserve grant_all (example_map 8) 100).2 = 128 ∧
      hashmap_query (hashmap_reserve grant_all (example_map 8) 100).2 (some (int_bytes 3))
        = (stat_t.COMPLETE, some (int_bytes 30)) := by
  obtain ⟨h1, _, _, _, h4, _⟩ := reserve_grows_to_power_of_two grant_all (example_map 8) 100
    (example_map_reachable 8 (by rfl)) (by rfl) (by decide) (by norm_num) (by rfl)
  exact ⟨h1, by rfl, (h4 (some (int_bytes 3)) (by decide)).trans (by rfl)⟩

/-- C10: `hashmap_reserve(c)` with `c` at most the current capacity returns
`ERR_INVALID_OPERATION` and leaves the map (capacity, size and all chains) as it was. -/
theorem reserve_rejects_small_request (alloc : Nat → Bool) (ht : hashmap_s) (capacity : Nat)
    (h : capacity ≤ hashmap_capacity ht) :
    hashmap_reserve alloc ht capacity = (stat_t.ERR_INVALID_OPERATION, ht) := by
  simp only [hashmap_capacity] at h
  simp only [hashmap_reserve, h, true_or, if_true]

/-- Witness for C10: `reserve(16)` on the map with eight entries and capacity 16. -/
theorem reserve_rejects_small_request_witness :
    hashmap_reserve grant_all (example_map 8) 16
      = (stat_t.ERR_INVALID_OPERATION, example_map 8) :=
  reserve_rejects_small_request grant_all (example_map 8) 16 (by decide)


/-! ## Claims C11 to C20 -/

/-- C14: `cityhash64` of the empty byte sequence (`len = 0`, whatever the pointer) is
`0x9ae16a3b2f90404f`. -/
theorem cityhash64_empty (s : Bytes) : cityhash64 s 0 = 0x9ae16a3b2f90404f := by
  rfl

/-- C15: `cityhash64` does not stop at a zero byte: the 2-byte inputs `00 01` and `00 02` agree
up to and including their zero byte, differ only after it, and have different digests. -/
theorem cityhash64_reads_past_zero_byte :
    ([0, 1] : Bytes).length = ([0, 2] : Bytes).length ∧
      ([0, 1] : Bytes).take 1 = ([0, 2] : Bytes).take 1 ∧
      cityhash64 [0, 1] 2 ≠ cityhash64 [0, 2] 2 := by
  decide

/-- C18: for every map and every key (present pointer or `NULL`), `hashmap_contains_key`
returns 1 exactly when `hashmap_query` on the same key returns `COMPLETE`, and 0 otherwise. -/
theorem contains_key_agrees_with_query (ht : hashmap_s) (key : Option Bytes) :
    (hashmap_contains_key ht key = 1 ↔ (hashmap_query ht key).1 = stat_t.COMPLETE) ∧
      (hashmap_contains_key ht key = 0 ↔ (hashmap_query ht key).1 ≠ stat_t.COMPLETE) := by
  simp only [hashmap_contains_key, hashmap_query]
  cases chain_find (entry_hit ht key) (bucket ht.entries (scan_index ht key)) with
  | none => simp
  | some e => simp

/-- C19: after `hashmap_clear` on a reachable map, `hashmap_size` is 0, `hashmap_capacity` is
unchanged, every bucket chain is empty, and `hashmap_contains_key` returns 0 for every key. -/
theorem clear_empties_map (ht : hashmap_s) (hr : Reachable ht) :
    hashmap_size (hashmap_clear ht) = 0 ∧
      hashmap_capacity (hashmap_clear ht) = hashmap_capacity ht ∧
      (hashmap_clear ht).entries.length = hashmap_capacity ht ∧
      (∀ i, bucket (hashmap_clear ht).entries i = []) ∧
      (∀ key, hashmap_contains_key (hashmap_clear ht) key = 0) := by
  have hi := reachable_inv ht hr
  have hb : ∀ i, bucket (hashmap_clear ht).entries i = [] := by
    intro i
    simp only [hashmap_clear]
    rw [clear_fold_bucket]
    by_cases hlt : i < ht.capacity
    · simp [hlt]
    · simp only [hlt, if_false]
      exact bucket_of_le _ _ (by rw [hi.len]; omega)
  refine ⟨rfl, rfl, (hashmap_clear_entries ht hi.len).1, hb, ?_⟩
  intro key
  simp only [hashmap_contains_key, hb, chain_find]

/-- Witness for C19: the map with eight entries is cleared. -/
theorem clear_empties_map_witness :
    hashmap_size (hashmap_clear (example_map 8)) = 0 ∧
      hashmap_capacity (hashmap_clear (example_map 8)) = 16 ∧
      hashmap_contains_key (hashmap_clear (example_map 8)) (some (int_bytes 3)) = 0 := by
  obtain ⟨h1, h2, _, _, h5⟩ := clear_empties_map (example_map 8)
    (example_map_reachable 8 (by rfl))
  exact ⟨h1, h2.trans (by rfl), h5 _⟩

/-- C20: when the allocation of the new bucket array is refused during a growth triggered by
`hashmap_reserve` (the request passes the guard) or by `hashmap_assign` (the load is at least
`0.75` and doubling stays below the maximum), the call returns `ERR_MEMORY_ALLOCATION` and the
map (capacity, size, bucket array and every chain) is exactly as before the call. -/
theorem failed_growth_changes_nothing (alloc : Nat → Bool) (ht : hashmap_s) :
    (∀ capacity : Nat,
        ¬ (capacity ≤ ht.capacity ∨ capacity ≥ HASHMAP_MAX_CAPACITY >>> 1) →
        alloc (u64 (roundup_pow2 capacity * sizeof_entry_ptr)) = false →
        hashmap_reserve alloc ht capacity = (stat_t.ERR_MEMORY_ALLOCATION, ht)) ∧
      (∀ (key : Option Bytes) (val : Bytes),
        hashmap_load_ge_threshold ht = true →
        ¬ (u64 (ht.capacity <<< 1) ≥ HASHMAP_MAX_CAPACITY) →
        alloc (u64 (u64 (ht.capacity <<< 1) * sizeof_entry_ptr)) = false →
        hashmap_assign alloc ht key val = (stat_t.ERR_MEMORY_ALLOCATION, ht)) := by
  constructor
  · intro capacity hg hal
    simp only [hashmap_reserve, hg, if_false]
    exact hashmap_grow_refused alloc ht _ hal
  · intro key val hld hov hal
    have hg := hashmap_grow_refused alloc ht _ hal
    simp only [hashmap_assign, hld, hov, if_true, if_false, hg, ne_eq]
    simp

/-- Witness for C20: `reserve(100)` on the fresh map and the seventh assignment to the map with
six entries (load `0.75`), both with an allocator that refuses every request. -/
theorem failed_growth_changes_nothing_witness :
    hashmap_reserve refuse_all example_init 100
        = (stat_t.ERR_MEMORY_ALLOCATION, example_init) ∧
      hashmap_assign refuse_all (example_map 6) (some (int_bytes 6)) (int_bytes 60)
        = (stat_t.ERR_MEMORY_ALLOCATION, example_map 6) :=
  ⟨(failed_growth_changes_nothing refuse_all example_init).1 100
      (by rw [max_capacity_half]; decide) (by rfl),
    (failed_growth_changes_nothing refuse_all (example_map 6)).2 (some (int_bytes 6))
      (int_bytes 60) (by rfl) (by rw [max_capacity_eq]; decide) (by rfl)⟩

theorem contains_val_chain_eq (ht : hashmap_s) (val : Bytes) (c : chain_t) (n : Nat)
    (h : n + c.length < 2 ^ 64) :
    contains_val_chain ht val c n = n + c.countP (fun e => val_match ht e.elem val) := by
  induction c generalizing n with
  | nil => rfl
  | cons e c ih =>
    simp only [List.length_cons] at h
    simp only [contains_val_chain, List.countP_cons]
    cases hm : val_match ht e.elem val with
    | true =>
      have hu : u64 (n + 1) = n + 1 := by
        simp only [u64]
        omega
      simp only [if_true, hu]
      rw [ih (n + 1) (by omega)]
      omega
    | false =>
      simp only [Bool.false_eq_true, if_false]
      rw [ih n (by omega)]
      omega

theorem contains_val_fold_eq (ht : hashmap_s) (val : Bytes) (l : List chain_t) (n : Nat)
    (h : n + l.flatten.length < 2 ^ 64) :
    l.foldl (fun count c => contains_val_chain ht val c count) n
      = n + l.flatten.countP (fun e => val_match ht e.elem val) := by
  induction l generalizing n with
  | nil => rfl
  | cons c l ih =>
    simp only [List.flatten_cons, List.length_append] at h
    have hle := List.countP_le_length (fun e => val_match ht e.elem val) (l := c)
    simp only [List.foldl_cons, List.flatten_cons, List.countP_append]
    rw [contains_val_chain_eq ht val c n (by omega), ih _ (by omega)]
    omega

/-- C17: on a reachable map `hashmap_contains_val` returns the number of stored entries, keyed
and `NULL`-keyed alike, whose value equals `val` under the map's equality (the comparison
function when one is set, byte equality over `elem_size` bytes otherwise): a count. -/
theorem contains_val_counts (ht : hashmap_s) (val : Bytes) (hr : Reachable ht) :
    hashmap_contains_val ht val
      = (all_entries ht).countP (fun e => val_match ht e.elem val) := by
  have hi := reachable_inv ht hr
  obtain ⟨_, h62, _⟩ := hi.cap_bounds
  have hsz := hi.size
  have hld := hi.load
  simp only [hashmap_contains_val]
  rw [← hi.len, foldl_range_bucket (fun count c => contains_val_chain ht val c count)]
  rw [contains_val_fold_eq ht val ht.entries 0 (by simp only [all_entries] at hsz; omega)]
  simp [all_entries]

/-- Witness for C17: two keys carry the value 5 and the call returns 2. -/
theorem contains_val_counts_witness :
    hashmap_contains_val example_twins (int_bytes 5) = 2 :=
  (contains_val_counts example_twins (int_bytes 5)
    (Reachable.assign grant_all _ (some (int_bytes 2)) (int_bytes 5)
      (Reachable.assign grant_all _ (some (int_bytes 1)) (int_bytes 5) example_init_reachable
        (by decide)) (by decide))).trans (by rfl)

theorem assign_at_capacity (alloc : Nat → Bool) (ht : hashmap_s) (key : Option Bytes)
    (val : Bytes) : (assign_at alloc ht key val).2.capacity = ht.capacity := by
  simp only [assign_at]
  split
  · rfl
  · split <;> rfl

/-- The capacity after a successful `hashmap_assign`: doubled when the load test held,
unchanged otherwise. -/
theorem hashmap_assign_capacity (alloc : Nat → Bool) (ht : hashmap_s) (key : Option Bytes)
    (val : Bytes) (h : Inv ht)
    (hs : (hashmap_assign alloc ht key val).1 = stat_t.COMPLETE) :
    (hashmap_assign alloc ht key val).2.capacity
      = if hashmap_load_ge_threshold ht = true then 2 * ht.capacity else ht.capacity := by
  obtain ⟨h8, h62, m, hm⟩ := h.cap_bounds
  obtain ⟨e, h3, he62, he⟩ := h.cap
  simp only [hashmap_assign, hashmap_assign_entry_eq] at hs ⊢
  split
  · rename_i hld
    rw [if_pos hld] at hs
    split
    · rename_i hov
      rw [if_pos hov] at hs
      cases hs
    · rename_i hov
      rw [if_neg hov] at hs
      have hdbl : u64 (ht.capacity <<< 1) = 2 ^ (e + 1) := by
        rw [shl_one, he, Nat.pow_succ]
        simp only [u64]
        omega
      have he61 : e ≤ 61 := by
        by_contra hcon
        have hp := pow_le_of_le (show 63 ≤ e + 1 by omega)
        rw [hdbl, max_capacity_eq] at hov
        omega
      split
      · rename_i hne
        rw [if_pos hne] at hs
        exact absurd hs hne
      · rename_i hne
        have hg := not_not.1 hne
        obtain ⟨_, _, _, hcap, _⟩ := hashmap_grow_inv alloc ht _ (e + 1) h (by omega)
          (by omega) hdbl (by rw [hdbl, he, Nat.pow_succ]; omega) hg
        rw [assign_at_capacity, hcap, shl_one]
        simp only [u64]
        omega
  · rw [assign_at_capacity]

theorem least_capacity_step (n c : Nat) (h : least_capacity n c) :
    least_capacity (n + 1) (if 3 * c ≤ 4 * n then 2 * c else c) := by
  obtain ⟨j, hj, hlt, hmin⟩ := h
  have hpos : 0 < 2 ^ j := Nat.pow_pos (by decide)
  by_cases hld : 3 * c ≤ 4 * n
  · rw [if_pos hld]
    refine ⟨j + 1, by rw [hj, Nat.pow_succ]; omega, by omega, ?_⟩
    intro j2 h2
    simp only [Nat.add_sub_cancel] at h2
    have hjj : j + 1 ≤ j2 := by
      by_contra hcon
      have := pow_le_of_le (show j2 ≤ j by omega)
      omega
    have := pow_le_of_le hjj
    omega
  · rw [if_neg hld]
    refine ⟨j, hj, by omega, ?_⟩
    intro j2 h2
    simp only [Nat.add_sub_cancel] at h2
    exact hmin j2 (by omega)

/-- A run of successful assignments of distinct new keys keeps the capacity the least one for
the number of entries. -/
theorem assign_all_capacity (ht ht2 : hashmap_s) (calls : List assign_call) (hi : Inv ht)
    (hk : KeyInv ht) (hc : ht.cmp_fn = none) (hkeys : ∀ c, c ∈ calls → key_ok ht c.2.1)
    (hnd : (calls.map (fun c => c.2.1)).Nodup)
    (hnew : ∀ c, c ∈ calls → ¬ has_key ht c.2.1)
    (h : assign_all ht calls = some ht2) (hl : least_capacity ht.size ht.capacity)
    (hb : ht.size + calls.length ≤ 2 ^ 53) :
    least_capacity ht2.size ht2.capacity := by
  induction calls generalizing ht with
  | nil =>
    simp only [assign_all, Option.some.injEq] at h
    subst h
    exact hl
  | cons c rest ih =>
    obtain ⟨hs, h2⟩ := assign_all_cons ht ht2 c rest h
    have hkc := hkeys c (List.mem_cons_self _ _)
    obtain ⟨hp, hk1, _, _⟩ := hashmap_assign_keys c.1 ht c.2.1 c.2.2 hi hk hc hkc
    have hi1 := hashmap_assign_inv c.1 ht c.2.1 c.2.2 hi
    obtain ⟨_, _, _, e4, e5⟩ := hashmap_assign_effect c.1 ht c.2.1 c.2.2 hi hk hc hkc hs
    rw [List.map_cons, List.nodup_cons] at hnd
    apply ih _ hi1 hk1 (by rw [hp.2.2.2]; exact hc)
      (fun x hx => (key_ok_params hp x.2.1).2 (hkeys x (List.mem_cons_of_mem _ hx))) hnd.2
      (fun x hx hh => by
        rcases (e5 x.2.1).1 hh with heq | hold
        · exact hnd.1 (heq ▸ List.mem_map_of_mem (fun c => c.2.1) hx)
        · exact hnew x (List.mem_cons_of_mem _ hx) hold) h2
    · simp only [List.length_cons] at hb
      have hex := load_test_exact_of_inv ht hi (by omega)
      have hcap : (hashmap_assign c.1 ht c.2.1 c.2.2).2.capacity
          = if 3 * ht.capacity ≤ 4 * ht.size then 2 * ht.capacity else ht.capacity := by
        rw [hashmap_assign_capacity c.1 ht c.2.1 c.2.2 hi hs]
        by_cases hld : hashmap_load_ge_threshold ht = true
        · rw [if_pos hld, if_pos (hex.1 hld)]
        · rw [if_neg hld, if_neg (fun hh => hld (hex.2 hh))]
      rw [e4 (hnew c (List.mem_cons_self _ _)), hcap]
      exact least_capacity_step _ _ hl
    · simp only [List.length_cons] at hb
      rw [e4 (hnew c (List.mem_cons_self _ _))]
      omega

theorem least_capacity_100 (c : Nat) (h : least_capacity 100 c) : c = 256 := by
  obtain ⟨j, hj, hlt, hmin⟩ := h
  have h5 := hmin 5 (by norm_num)
  have hle : j ≤ 5 := by
    by_contra hcon
    have := pow_le_of_le (show 6 ≤ j by omega)
    omega
  have hge : 5 ≤ j := by
    by_contra hcon
    have := pow_le_of_le (show j ≤ 4 by omega)
    omega
  have : j = 5 := by omega
  subst this
  rw [hj]
  norm_num

theorem least_capacity_1000 (c : Nat) (h : least_capacity 1000 c) : c = 2048 := by
  obtain ⟨j, hj, hlt, hmin⟩ := h
  have h8 := hmin 8 (by norm_num)
  have hle : j ≤ 8 := by
    by_contra hcon
    have := pow_le_of_le (show 9 ≤ j by omega)
    omega
  have hge : 8 ≤ j := by
    by_contra hcon
    have := pow_le_of_le (show j ≤ 7 by omega)
    omega
  have : j = 8 := by omega
  subst this
  rw [hj]
  norm_num

/-- C13: starting from a fresh map of capacity 8 (default equality, any digest), after `N`
successful assignments of pairwise distinct keys, `N ≤ 2 ^ 53`, the size is `N` and the capacity
is the least value `8 * 2 ^ j` with `4 * (N - 1) < 3 * capacity`; in particular 100 distinct keys
give capacity 256 and 1000 distinct keys give capacity 2048.  Up to `2 ^ 53` entries the
conversion of the size to `double` in the load test is exact. -/
theorem capacity_after_distinct_assigns (alloc : Nat → Bool)
    (capacity key_len elem_size : Nat) (hash_fn : Option (Bytes → Nat)) (ht0 ht : hashmap_s)
    (calls : List assign_call) (hcap : capacity ≤ 8) (hN : calls.length ≤ 2 ^ 53)
    (hinit : _hashmap_init alloc capacity key_len elem_size hash_fn none = some ht0)
    (hkeys : ∀ c, c ∈ calls → key_ok ht0 c.2.1)
    (hnd : (calls.map (fun c => c.2.1)).Nodup)
    (hrun : assign_all ht0 calls = some ht) :
    hashmap_capacity ht0 = 8 ∧ hashmap_size ht = calls.length ∧
      least_capacity calls.length (hashmap_capacity ht) ∧
      (calls.length = 100 → hashmap_capacity ht = 256) ∧
      (calls.length = 1000 → hashmap_capacity ht = 2048) := by
  obtain ⟨hi, hall⟩ := hashmap_init_inv alloc capacity key_len elem_size hash_fn none ht0
    (by omega) hinit
  have hk := hashmap_init_keys alloc capacity key_len elem_size hash_fn none ht0 hinit
  have heq := hashmap_init_eq alloc capacity key_len elem_size hash_fn none ht0 hinit
  have hc : ht0.cmp_fn = none := by rw [heq]
  have hc8 : ht0.capacity = 8 := by
    rw [heq]
    simp only [HASHMAP_MIN_CAPACITY, hcap, if_true]
  have hsz : ht0.size = 0 := by
    rw [hi.size, hall]
    rfl
  have hnew : ∀ c, c ∈ calls → ¬ has_key ht0 c.2.1 := by
    intro c _ hh
    obtain ⟨e, he, _⟩ := hh
    rw [hall] at he
    cases he
  have hsize := assign_all_size ht0 ht calls hi hk hc hkeys hnd hnew hrun
  have hl0 : least_capacity ht0.size ht0.capacity := by
    rw [hsz, hc8]
    refine ⟨0, by norm_num, by norm_num, ?_⟩
    intro j2 _
    have : 0 < 2 ^ j2 := Nat.pow_pos (by decide)
    omega
  have hl := assign_all_capacity ht0 ht calls hi hk hc hkeys hnd hnew hrun hl0
    (by rw [hsz]; omega)
  have hsz2 : ht.size = calls.length := by omega
  rw [hsz2] at hl
  refine ⟨hc8, hsz2, hl, ?_, ?_⟩
  · intro hN
    rw [hN] at hl
    exact least_capacity_100 _ hl
  · intro hN
    rw [hN] at hl
    exact least_capacity_1000 _ hl

/-- Witness for C13: eight distinct keys on the map of the tests give size 8 and capacity 16,
the least `8 * 2 ^ j` with `4 * 7 < 3 * capacity`. -/
theorem capacity_after_distinct_assigns_witness :
    hashmap_size (example_map 8) = 8 ∧ hashmap_capacity (example_map 8) = 16 ∧
      least_capacity 8 16 := by
  obtain ⟨_, h2, h3, _, _⟩ := capacity_after_distinct_assigns grant_all 8 4 4 none
    example_init (example_map 8) (example_calls 8) (by decide) (by norm_num [example_calls])
    example_init_eq (by decide) (by decide) (example_map_run 8 (by rfl))
  exact ⟨h2.trans (by rfl), by rfl, h3⟩

/-! ### Copying -/

theorem assign_all_append (ht : hashmap_s) (a b : List assign_call) :
    assign_all ht (a ++ b) = (assign_all ht a).bind (fun d => assign_all d b) := by
  induction a generalizing ht with
  | nil => rfl
  | cons c a ih =>
    simp only [List.cons_append, assign_all]
    split
    · exact ih _
    · rfl

theorem copy_chain_eq (alloc : Nat → Bool) (chain : chain_t) (acc : Option hashmap_s) :
    copy_chain alloc chain acc = acc.bind (fun d => assign_all d (copy_calls alloc chain)) := by
  induction chain generalizing acc with
  | nil =>
    cases acc <;> rfl
  | cons e next ih =>
    cases acc with
    | none => rfl
    | some d =>
      simp only [copy_chain, copy_calls, List.map_cons, assign_all, Option.some_bind]
      by_cases hs : (hashmap_assign alloc d e.key e.elem).1 = stat_t.COMPLETE
      · simp only [hs, ne_eq, not_true_eq_false, if_false, if_true]
        rw [ih]
        rfl
      · simp only [hs, ne_eq, not_false_eq_true, if_true, if_false]

theorem copy_fold_eq (alloc : Nat → Bool) (l : List chain_t) (acc : Option hashmap_s) :
    l.foldl (fun a c => copy_chain alloc c a) acc
      = acc.bind (fun d => assign_all d (copy_calls alloc l.flatten)) := by
  induction l generalizing acc with
  | nil =>
    cases acc <;> rfl
  | cons c l ih =>
    simp only [List.foldl_cons, List.flatten_cons]
    rw [ih, copy_chain_eq]
    cases acc with
    | none => rfl
    | some d =>
      simp only [Option.some_bind, copy_calls, List.map_append]
      rw [assign_all_append]

/-- A successful `hashmap_copy` is a successful `_hashmap_init` followed by a successful run of
assignments of the entries of the source. -/
theorem hashmap_copy_ok (alloc : Nat → Bool) (src dst : hashmap_s)
    (hlen : src.entries.length = src.capacity)
    (h : hashmap_copy alloc src = (stat_t.COMPLETE, some dst)) :
    ∃ dst0,
      _hashmap_init alloc src.capacity src.key_len src.elem_size src.hash_fn src.cmp_fn
        = some dst0 ∧
      assign_all dst0 (copy_calls alloc (all_entries src)) = some dst := by
  simp only [hashmap_copy] at h
  cases hin : _hashmap_init alloc src.capacity src.key_len src.elem_size src.hash_fn
      src.cmp_fn with
  | none =>
    rw [hin] at h
    cases h
  | some dst0 =>
    rw [hin] at h
    refine ⟨dst0, rfl, ?_⟩
    have hf : (List.range src.capacity).foldl
        (fun acc i => copy_chain alloc (bucket src.entries i) acc) (some dst0)
        = assign_all dst0 (copy_calls alloc (all_entries src)) := by
      rw [← hlen, foldl_range_bucket (fun a c => copy_chain alloc c a), copy_fold_eq]
      rfl
    simp only [hf] at h
    cases hrun : assign_all dst0 (copy_calls alloc (all_entries src)) with
    | none =>
      rw [hrun] at h
      cases h
    | some d =>
      rw [hrun] at h
      simp only [Prod.mk.injEq, Option.some.injEq, true_and] at h
      rw [h]

theorem last_assigned_copy_none (alloc : Nat → Bool) (key : Option Bytes)
    (l : List hashmap_entry_s) (h : ∀ e, e ∈ l → e.key ≠ key) :
    last_assigned key (copy_calls alloc l) = none := by
  induction l with
  | nil => rfl
  | cons e l ih =>
    simp only [copy_calls, List.map_cons, last_assigned]
    have h1 := ih (fun x hx => h x (List.mem_cons_of_mem _ hx))
    simp only [copy_calls] at h1
    rw [h1]
    simp only [h e (List.mem_cons_self _ _), if_false]

theorem last_assigned_copy_some (alloc : Nat → Bool) (l : List hashmap_entry_s)
    (hn : (l.map (fun e => e.key)).Nodup) (e : hashmap_entry_s) (he : e ∈ l) :
    last_assigned e.key (copy_calls alloc l) = some e.elem := by
  induction l with
  | nil => cases he
  | cons x l ih =>
    rw [List.map_cons, List.nodup_cons] at hn
    simp only [copy_calls, List.map_cons, last_assigned]
    rcases List.mem_cons.1 he with rfl | hin
    · have h1 := last_assigned_copy_none alloc e.key l (fun y hy hk =>
        hn.1 (hk ▸ List.mem_map_of_mem (fun e => e.key) hy))
      simp only [copy_calls] at h1
      rw [h1]
      simp only [if_true]
    · have h1 := ih hn.2 hin
      simp only [copy_calls] at h1
      rw [h1]

/-- C11: after a successful `hashmap_copy` of a reachable map with default equality, the copy
has the size of the source and `hashmap_query` returns the same status and value on the copy
as on the source for every key, the `NULL` key included. -/
theorem copy_answers_like_source (alloc : Nat → Bool) (src dst : hashmap_s)
    (hr : Reachable src) (hc : src.cmp_fn = none)
    (hcopy : hashmap_copy alloc src = (stat_t.COMPLETE, some dst)) :
    hashmap_size dst = hashmap_size src ∧
      ∀ key, key_ok src key → hashmap_query dst key = hashmap_query src key := by
  have hi := reachable_inv src hr
  have hk := reachable_keyinv src hr hc
  obtain ⟨_, h62, _⟩ := hi.cap_bounds
  obtain ⟨dst0, hinit, hrun⟩ := hashmap_copy_ok alloc src dst hi.len hcopy
  obtain ⟨hi0, hall0⟩ := hashmap_init_inv alloc _ _ _ _ _ dst0 h62 hinit
  have hk0 := hashmap_init_keys alloc _ _ _ _ _ dst0 hinit
  have heq0 := hashmap_init_eq alloc _ _ _ _ _ dst0 hinit
  have hp0 : same_params dst0 src := by
    rw [heq0]
    exact ⟨rfl, rfl, rfl, rfl⟩
  have hc0 : dst0.cmp_fn = none := by rw [hp0.2.2.2]; exact hc
  have hsz0 : dst0.size = 0 := by
    rw [hi0.size, hall0]
    rfl
  have hkeys : ∀ c, c ∈ copy_calls alloc (all_entries src) → key_ok dst0 c.2.1 := by
    intro c hcm
    simp only [copy_calls, List.mem_map] at hcm
    obtain ⟨e, he, rfl⟩ := hcm
    exact (key_ok_params hp0 e.key).2 (hk.klen e he)
  have hnew : ∀ c, c ∈ copy_calls alloc (all_entries src) → ¬ has_key dst0 c.2.1 := by
    intro c _ hh
    obtain ⟨e, he, _⟩ := hh
    rw [hall0] at he
    cases he
  have hnd : ((copy_calls alloc (all_entries src)).map (fun c => c.2.1)).Nodup := by
    simp only [copy_calls, List.map_map]
    exact hk.nodup
  have hsize := assign_all_size dst0 dst _ hi0 hk0 hc0 hkeys hnd hnew hrun
  constructor
  · simp only [hashmap_size]
    rw [hsize, hsz0, hi.size]
    simp [copy_calls]
  · intro key hkey
    obtain ⟨q1, q2⟩ := assign_all_query dst0 dst _ hi0 hk0 hc0 hkeys hrun key
      ((key_ok_params hp0 key).2 hkey)
    by_cases hex : has_key src key
    · obtain ⟨e, he, hek⟩ := hex
      have hl := last_assigned_copy_some alloc (all_entries src) hk.nodup e he
      rw [hek] at hl
      rw [q1 _ hl, (hashmap_query_hit src hk hc key hkey e he hek).1, hp0.2.1]
    · have hno := (not_has_key_iff src key).1 hex
      rw [q2 (last_assigned_copy_none alloc key _ hno),
        (hashmap_query_miss src hk hc key hkey hno).1]
      refine (hashmap_query_miss dst0 hk0 hc0 key ((key_ok_params hp0 key).2 hkey) ?_).1
      intro e he
      rw [hall0] at he
      cases he

/-- Witness for C11: the copy of the map with eight entries answers like it. -/
theorem copy_answers_like_source_witness :
    hashmap_size example_copy = 8 ∧
      hashmap_query example_copy (some (int_bytes 3)) = (stat_t.COMPLETE, some (int_bytes 30)) ∧
      hashmap_query example_copy none = (stat_t.ERR_INVALID_OPERATION, none) := by
  obtain ⟨h1, h2⟩ := copy_answers_like_source grant_all (example_map 8) example_copy
    (example_map_reachable 8 (by rfl)) (by rfl) (by rfl)
  exact ⟨h1.trans (by rfl), (h2 _ (by decide)).trans (by rfl), (h2 _ (by decide)).trans (by rfl)⟩

/-- C16, the failing input: for the one-byte input `0x80`, where plain `char` is signed,
`djb2hash64` adds the sign-extended byte and returns `5381 * 33 - 128 = 177445`, while the
digest of the spec, which takes the byte as `128`, is `5381 * 33 + 128 = 177701`. -/
theorem djb2hash64_sign_extends :
    djb2hash64 [0x80] 1 = 177445 ∧ djb2_by_spec [0x80] 1 = 177701 := by
  decide

theorem djb2hash64_loop_ascii (len : Nat) (s : Bytes) (hash : Nat) (hlen : len ≤ s.length)
    (hs : ∀ b, b ∈ s.take len → b < 128) (hh : hash < 2 ^ 64) :
    djb2hash64_loop len s hash
      = (s.take len).foldl (fun hash b => (hash * 33 + b % 256) % 2 ^ 64) hash := by
  induction len generalizing s hash with
  | zero => rfl
  | succ n ih =>
    cases s with
    | nil => simp at hlen
    | cons b s =>
      have hb : b < 128 := hs b (by simp)
      simp only [djb2hash64_loop, List.take_succ_cons, List.foldl_cons, List.drop_one,
        List.tail_cons, List.getD_cons_zero]
      have hstep : u64 (u64 (u64 (hash <<< 5) + hash) + char_to_u64 b)
          = (hash * 33 + b % 256) % 2 ^ 64 := by
        have h5 : hash <<< 5 = hash * 32 := by
          rw [Nat.shiftLeft_eq]
        have hc : char_to_u64 b = b := by
          simp only [char_to_u64]
          have : b % 256 = b := by omega
          rw [this]
          simp [hb]
        rw [h5, hc]
        simp only [u64]
        omega
      rw [hstep]
      apply ih
      · simpa using hlen
      · intro x hx
        exact hs x (by simp [hx])
      · exact Nat.mod_lt _ (by norm_num)

/-- On inputs whose bytes are all below `0x80` the code and the digest of the spec agree. -/
theorem djb2hash64_eq_spec_of_ascii (s : Bytes) (len : Nat) (hlen : len ≤ s.length)
    (hs : ∀ b, b ∈ s.take len → b < 128) : djb2hash64 s len = djb2_by_spec s len :=
  djb2hash64_loop_ascii len s 5381 hlen hs (by norm_num)


/-! ## Claims C21 to C25 and C30: errors, traversal and resizing of the hashmap -/

theorem assign_at_err (alloc : Nat → Bool) (ht : hashmap_s) (key : Option Bytes) (val : Bytes)
    (h : (assign_at alloc ht key val).1 ≠ stat_t.COMPLETE) :
    assign_at alloc ht key val = (stat_t.ERR_MEMORY_ALLOCATION, ht) := by
  simp only [assign_at] at h ⊢
  split
  · rename_i c hc
    rw [hc] at h
    exact absurd rfl h
  · rename_i hc
    rw [hc] at h
    split
    · rfl
    · rename_i hg
      rw [if_neg hg] at h
      exact absurd rfl h

theorem assign_at_status (alloc : Nat → Bool) (ht : hashmap_s) (key : Option Bytes)
    (val : Bytes) : (assign_at alloc ht key val).1 ≠ stat_t.ERR_CAPACITY_OVERFLOW := by
  by_cases h : (assign_at alloc ht key val).1 = stat_t.COMPLETE
  · rw [h]
    exact fun hh => by cases hh
  · rw [assign_at_err alloc ht key val h]
    exact fun hh => by cases hh

theorem hashmap_grow_status (alloc : Nat → Bool) (ht : hashmap_s) (c : Nat) :
    (hashmap_grow alloc ht c).1 ≠ stat_t.ERR_CAPACITY_OVERFLOW := by
  by_cases h : (hashmap_grow alloc ht c).1 = stat_t.COMPLETE
  · rw [h]
    exact fun hh => by cases hh
  · rw [hashmap_grow_fail alloc ht c h]
    exact fun hh => by cases hh

/-- The outcomes of a `hashmap_assign` that reports an error: the overflow guard fired, or an
allocation was refused with the map untouched, or the bucket array was doubled and the
allocation of the entry was refused afterwards. -/
theorem hashmap_assign_err (alloc : Nat → Bool) (ht : hashmap_s) (key : Option Bytes)
    (val : Bytes) (h : (hashmap_assign alloc ht key val).1 ≠ stat_t.COMPLETE) :
    (hashmap_load_ge_threshold ht = true ∧ u64 (ht.capacity <<< 1) ≥ HASHMAP_MAX_CAPACITY ∧
        hashmap_assign alloc ht key val = (stat_t.ERR_CAPACITY_OVERFLOW, ht)) ∨
      hashmap_assign alloc ht key val = (stat_t.ERR_MEMORY_ALLOCATION, ht) ∨
      (hashmap_load_ge_threshold ht = true ∧ ¬ u64 (ht.capacity <<< 1) ≥ HASHMAP_MAX_CAPACITY ∧
        (hashmap_grow alloc ht (u64 (ht.capacity <<< 1))).1 = stat_t.COMPLETE ∧
        hashmap_assign alloc ht key val
          = (stat_t.ERR_MEMORY_ALLOCATION, (hashmap_grow alloc ht (u64 (ht.capacity <<< 1))).2)) := by
  simp only [hashmap_assign, hashmap_assign_entry_eq] at h ⊢
  by_cases hld : hashmap_load_ge_threshold ht = true
  · rw [if_pos hld] at h ⊢
    by_cases hov : u64 (ht.capacity <<< 1) ≥ HASHMAP_MAX_CAPACITY
    · rw [if_pos hov]
      exact Or.inl ⟨hld, hov, rfl⟩
    · rw [if_neg hov] at h ⊢
      by_cases hg : (hashmap_grow alloc ht (u64 (ht.capacity <<< 1))).1 ≠ stat_t.COMPLETE
      · rw [if_pos hg]
        exact Or.inr (Or.inl (hashmap_grow_fail alloc ht _ hg))
      · rw [if_neg hg] at h ⊢
        rw [assign_at_err alloc _ key val h]
        exact Or.inr (Or.inr ⟨hld, hov, not_not.1 hg, rfl⟩)
  · rw [if_neg hld] at h ⊢
    exact Or.inr (Or.inl (assign_at_err alloc ht key val h))

/-- The doubled capacity of a map that passes the overflow guard of `hashmap_assign`. -/
theorem doubled_capacity (ht : hashmap_s) (h : Inv ht)
    (hov : ¬ u64 (ht.capacity <<< 1) ≥ HASHMAP_MAX_CAPACITY) :
    ∃ e, 3 ≤ e ∧ e ≤ 62 ∧ u64 (ht.capacity <<< 1) = 2 ^ e ∧
      ht.capacity ≤ u64 (ht.capacity <<< 1) ∧ u64 (ht.capacity <<< 1) = 2 * ht.capacity := by
  obtain ⟨h8, h62, m, hm⟩ := h.cap_bounds
  obtain ⟨e, h3, he62, he⟩ := h.cap
  have hdbl : u64 (ht.capacity <<< 1) = 2 ^ (e + 1) := by
    rw [shl_one, he, Nat.pow_succ]
    simp only [u64]
    omega
  have he61 : e ≤ 61 := by
    by_contra hcon
    have hp := pow_le_of_le (show 63 ≤ e + 1 by omega)
    rw [hdbl, max_capacity_eq] at hov
    omega
  refine ⟨e + 1, by omega, by omega, hdbl, ?_, ?_⟩
  · rw [hdbl, he, Nat.pow_succ]
    omega
  · rw [hdbl, he, Nat.pow_succ]
    omega

/-- C22, as stated, fails: in a state of capacity `2 ^ 62` with `3 * 2 ^ 60 - 1` entries the
quotient `size / capacity` is below `0.75`, but `(double)size` is `3 * 2 ^ 60`, so the load
factor that the code computes is exactly `0.75`, and `hashmap_assign` returns
`ERR_CAPACITY_OVERFLOW`. -/
theorem overflow_below_exact_threshold :
    4 * hashmap_size example_near_full < 3 * hashmap_capacity example_near_full ∧
      2 * hashmap_capacity example_near_full ≥ SIZE_MAX / 2 + 1 ∧
      to_double (hashmap_size example_near_full) = 3 * 2 ^ 60 ∧
      to_double (hashmap_capacity example_near_full) = 2 ^ 62 ∧
      hashmap_load_ge_threshold example_near_full = true ∧
      hashmap_assign grant_all example_near_full (some (int_bytes 1)) (int_bytes 10)
        = (stat_t.ERR_CAPACITY_OVERFLOW, example_near_full) :=
  ⟨by decide, by decide, by decide, by decide, by decide, by rfl⟩

/-- C22, amended: for a map whose capacity is positive and below `2 ^ 63` (every reachable
map), `hashmap_assign` returns `ERR_CAPACITY_OVERFLOW` exactly when the load factor as the code
computes it is at least `0.75` (`(double)size / capacity >= 0.75` in double arithmetic, that is
`(3 * 2 ^ 52 - 1) * (double)capacity ≤ 2 ^ 54 * (double)size`) and
`2 * capacity ≥ SIZE_MAX / 2 + 1`, and then the map is left as it was.  For a capacity that is a
power of two the computed load factor is at least `0.75` whenever `size / capacity ≥ 0.75`, and
below `2 ^ 53` entries only then. -/
theorem capacity_overflow_on_computed_load (alloc : Nat → Bool) (ht : hashmap_s)
    (key : Option Bytes) (val : Bytes) (h0 : 0 < ht.capacity) (h63 : ht.capacity < 2 ^ 63) :
    ((hashmap_assign alloc ht key val).1 = stat_t.ERR_CAPACITY_OVERFLOW ↔
        ((3 * 2 ^ 52 - 1) * to_double ht.capacity ≤ 2 ^ 54 * to_double ht.size ∧
          2 * ht.capacity ≥ SIZE_MAX / 2 + 1)) ∧
      ((hashmap_assign alloc ht key val).1 = stat_t.ERR_CAPACITY_OVERFLOW →
        hashmap_assign alloc ht key val = (stat_t.ERR_CAPACITY_OVERFLOW, ht)) ∧
      (∀ E, 2 ≤ E → ht.capacity = 2 ^ E → ht.size < 2 ^ 64 →
        3 * ht.capacity ≤ 4 * ht.size →
        (3 * 2 ^ 52 - 1) * to_double ht.capacity ≤ 2 ^ 54 * to_double ht.size) ∧
      (∀ E, 2 ≤ E → ht.capacity = 2 ^ E → ht.size < 2 ^ 53 →
        ((3 * 2 ^ 52 - 1) * to_double ht.capacity ≤ 2 ^ 54 * to_double ht.size ↔
          3 * ht.capacity ≤ 4 * ht.size)) := by
  have hc0 : ht.capacity ≠ 0 := by omega
  have hmax : SIZE_MAX / 2 + 1 = 2 ^ 63 := max_capacity_eq
  have hdbl : u64 (ht.capacity <<< 1) = 2 * ht.capacity := by
    rw [shl_one]
    simp only [u64]
    omega
  have hload : hashmap_load_ge_threshold ht = true ↔
      (3 * 2 ^ 52 - 1) * to_double ht.capacity ≤ 2 ^ 54 * to_double ht.size := by
    simp only [hashmap_load_ge_threshold, hc0, if_false, decide_eq_true_eq]
  have hguard : u64 (ht.capacity <<< 1) ≥ HASHMAP_MAX_CAPACITY ↔
      2 * ht.capacity ≥ SIZE_MAX / 2 + 1 := by
    rw [hdbl, max_capacity_eq, hmax]
  have hE63 : ∀ E, ht.capacity = 2 ^ E → E ≤ 63 := by
    intro E hE
    by_contra hcon
    have := pow_le_of_le (show 63 ≤ E by omega)
    omega
  refine ⟨?_, ?_, ?_, ?_⟩
  · rw [← hload, ← hguard]
    simp only [hashmap_assign, hashmap_assign_entry_eq]
    by_cases hld : hashmap_load_ge_threshold ht = true
    · rw [if_pos hld]
      by_cases hov : u64 (ht.capacity <<< 1) ≥ HASHMAP_MAX_CAPACITY
      · rw [if_pos hov]
        exact ⟨fun _ => ⟨hld, hov⟩, fun _ => rfl⟩
      · rw [if_neg hov]
        by_cases hg : (hashmap_grow alloc ht (u64 (ht.capacity <<< 1))).1 ≠ stat_t.COMPLETE
        · rw [if_pos hg]
          have hs := hashmap_grow_status alloc ht (u64 (ht.capacity <<< 1))
          exact ⟨fun hh => absurd hh hs, fun hh => absurd hh.2 hov⟩
        · rw [if_neg hg]
          have hs := assign_at_status alloc (hashmap_grow alloc ht (u64 (ht.capacity <<< 1))).2
            key val
          exact ⟨fun hh => absurd hh hs, fun hh => absurd hh.2 hov⟩
    · rw [if_neg hld]
      have hs := assign_at_status alloc ht key val
      exact ⟨fun hh => absurd hh hs, fun hh => absurd hh.1 hld⟩
  · intro hst
    rcases hashmap_assign_err alloc ht key val (by rw [hst]; exact fun hh => by cases hh)
      with ⟨_, _, h⟩ | h | ⟨_, _, _, h⟩
    · exact h
    · rw [h] at hst
      cases hst
    · rw [h] at hst
      cases hst
  · intro E hE2 hE hs hex
    exact hload.1 (load_test_of_exact ht E hE2 (hE63 E hE) hE hs hex)
  · intro E hE2 hE hs
    rw [← hload, load_test_exact ht E hE2 (hE63 E hE) hE hs, decide_eq_true_eq]

/-- Witness for C22 amended: a state of capacity `2 ^ 62` at load `0.75`, where the call returns
`ERR_CAPACITY_OVERFLOW`. -/
theorem capacity_overflow_on_computed_load_witness :
    hashmap_assign grant_all example_full (some (int_bytes 1)) (int_bytes 10)
      = (stat_t.ERR_CAPACITY_OVERFLOW, example_full) :=
  have h := capacity_overflow_on_computed_load grant_all example_full (some (int_bytes 1))
    (int_bytes 10) (by norm_num [example_full]) (by norm_num [example_full])
  h.2.1 (h.1.2 ⟨by decide, by norm_num [example_full, SIZE_MAX]⟩)

theorem key_map_chain_eq {σ : Type} (fn : σ → Option Bytes → σ) (c : chain_t) (s : σ) :
    key_map_chain fn c s = c.foldl (fun s e => fn s e.key) s := by
  induction c generalizing s with
  | nil => rfl
  | cons e c ih => simp only [key_map_chain, List.foldl_cons, ih]

theorem val_map_chain_eq {σ : Type} (fn : σ → Bytes → σ) (c : chain_t) (s : σ) :
    val_map_chain fn c s = c.foldl (fun s e => fn s e.elem) s := by
  induction c generalizing s with
  | nil => rfl
  | cons e c ih => simp only [val_map_chain, List.foldl_cons, ih]

theorem foldl_flatten_chains {σ : Type} (f : σ → hashmap_entry_s → σ) (l : List chain_t)
    (s : σ) : l.foldl (fun s c => c.foldl f s) s = l.flatten.foldl f s := by
  induction l generalizing s with
  | nil => rfl
  | cons c l ih => simp only [List.foldl_cons, List.flatten_cons, List.foldl_append, ih]

theorem foldl_count {α : Type} (l : List α) (n : Nat) :
    l.foldl (fun k _ => k + 1) n = n + l.length := by
  induction l generalizing n with
  | nil => rfl
  | cons a l ih =>
    simp only [List.foldl_cons, List.length_cons, ih]
    omega

theorem foldl_trace {α β : Type} (g : α → β) (l : List α) (t : List β) :
    l.foldl (fun t e => t ++ [g e]) t = t ++ l.map g := by
  induction l generalizing t with
  | nil => simp
  | cons a l ih => simp only [List.foldl_cons, List.map_cons, ih, List.append_assoc,
      List.singleton_append]

/-- The traversal of `hashmap_key_map` on a map whose bucket array has `capacity` slots. -/
theorem hashmap_key_map_eq {σ : Type} (ht : hashmap_s) (hlen : ht.entries.length = ht.capacity)
    (fn : σ → Option Bytes → σ) (s : σ) :
    hashmap_key_map ht fn s = (all_entries ht).foldl (fun s e => fn s e.key) s := by
  simp only [hashmap_key_map, all_entries, ← hlen]
  rw [foldl_range_bucket (fun s c => key_map_chain fn c s) ht.entries s]
  simp only [key_map_chain_eq]
  exact foldl_flatten_chains _ _ _

/-- The traversal of `hashmap_val_map` on a map whose bucket array has `capacity` slots. -/
theorem hashmap_val_map_eq {σ : Type} (ht : hashmap_s) (hlen : ht.entries.length = ht.capacity)
    (fn : σ → Bytes → σ) (s : σ) :
    hashmap_val_map ht fn s = (all_entries ht).foldl (fun s e => fn s e.elem) s := by
  simp only [hashmap_val_map, all_entries, ← hlen]
  rw [foldl_range_bucket (fun s c => val_map_chain fn c s) ht.entries s]
  simp only [val_map_chain_eq]
  exact foldl_flatten_chains _ _ _

/-- C23: on a reachable map, `hashmap_key_map` and `hashmap_val_map` call `fn` once for every
entry, on the key and on the value, in the order of the concatenation of the chains of buckets
`0, 1, ..., capacity - 1`, each chain from head to tail; the number of calls is `hashmap_size`,
which is the total length of the chains. -/
theorem map_visits_every_entry_once (ht : hashmap_s) (hr : Reachable ht) :
    all_entries ht = ((List.range ht.capacity).map (bucket ht.entries)).flatten ∧
      (∀ (σ : Type) (fn : σ → Option Bytes → σ) (s : σ),
        hashmap_key_map ht fn s = (all_entries ht).foldl (fun s e => fn s e.key) s) ∧
      (∀ (σ : Type) (fn : σ → Bytes → σ) (s : σ),
        hashmap_val_map ht fn s = (all_entries ht).foldl (fun s e => fn s e.elem) s) ∧
      hashmap_key_map ht (fun t k => t ++ [k]) [] = (all_entries ht).map (fun e => e.key) ∧
      hashmap_val_map ht (fun t v => t ++ [v]) [] = (all_entries ht).map (fun e => e.elem) ∧
      hashmap_key_map ht (fun n _ => n + 1) 0 = hashmap_size ht ∧
      hashmap_val_map ht (fun n _ => n + 1) 0 = hashmap_size ht ∧
      hashmap_size ht = (((List.range ht.capacity).map (bucket ht.entries)).map
        List.length).sum := by
  have hi := reachable_inv ht hr
  have hall : all_entries ht = ((List.range ht.capacity).map (bucket ht.entries)).flatten := by
    rw [← hi.len, map_bucket_range]
    rfl
  refine ⟨hall, fun σ fn s => hashmap_key_map_eq ht hi.len fn s,
    fun σ fn s => hashmap_val_map_eq ht hi.len fn s, ?_, ?_, ?_, ?_, ?_⟩
  · rw [hashmap_key_map_eq ht hi.len, foldl_trace]
    rfl
  · rw [hashmap_val_map_eq ht hi.len, foldl_trace]
    rfl
  · rw [hashmap_key_map_eq ht hi.len, foldl_count, hashmap_size, hi.size]
    omega
  · rw [hashmap_val_map_eq ht hi.len, foldl_count, hashmap_size, hi.size]
    omega
  · rw [hashmap_size, hi.size, hall, List.length_flatten]

/-- Witness for C23: the map with eight entries at capacity 16; the keys are visited in the
order of the buckets their digests select. -/
theorem map_visits_every_entry_once_witness :
    hashmap_key_map (example_map 8) (fun n _ => n + 1) 0 = 8 ∧
      hashmap_val_map (example_map 8) (fun t v => t ++ [v]) []
        = (all_entries (example_map 8)).map (fun e => e.elem) := by
  obtain ⟨_, _, _, _, h5, h6, _⟩ := map_visits_every_entry_once (example_map 8)
    (example_map_reachable 8 (by rfl))
  exact ⟨h6.trans (by rfl), h5⟩

/-- C24, the failing input: `_hashmap_init` with requested capacity `2 ^ 63 + 1` and element
size 1 succeeds (the zero-byte bucket array granted) with an empty map whose capacity is `0`:
not a power of two and below the request. -/
theorem init_huge_request_capacity_zero :
    ∃ ht, _hashmap_init grant_all (2 ^ 63 + 1) 4 1 none none = some ht ∧
      hashmap_size ht = 0 ∧ hashmap_is_empty ht = true ∧ hashmap_capacity ht = 0 ∧
      ¬ (∃ k, hashmap_capacity ht = 2 ^ k) :=
  ⟨_, rfl, rfl, rfl, rfl,
    fun ⟨_, hk⟩ => absurd hk.symm (Nat.pos_iff_ne_zero.1 (Nat.pow_pos (by decide)))⟩

/-- For every request of at most `2 ^ 63`, a successful `_hashmap_init` returns an empty map
(size 0, no entries) whose capacity is 8 when the request is at most 8 and otherwise the least
power of two that is at least the request. -/
theorem init_capacity_least_power_of_two (alloc : Nat → Bool)
    (capacity key_len elem_size : Nat) (hash_fn : Option (Bytes → Nat))
    (cmp_fn : Option (Bytes → Bytes → Int)) (ht : hashmap_s) (hcap : capacity ≤ 2 ^ 63)
    (h : _hashmap_init alloc capacity key_len elem_size hash_fn cmp_fn = some ht) :
    hashmap_size ht = 0 ∧ hashmap_is_empty ht = true ∧ all_entries ht = [] ∧
      (capacity ≤ 8 → hashmap_capacity ht = 8) ∧
      (8 < capacity → ∃ k, hashmap_capacity ht = 2 ^ k ∧ capacity ≤ 2 ^ k ∧
        ∀ j, capacity ≤ 2 ^ j → 2 ^ k ≤ 2 ^ j) := by
  have heq := hashmap_init_eq alloc capacity key_len elem_size hash_fn cmp_fn ht h
  have hcapeq : ht.capacity = if capacity ≤ HASHMAP_MIN_CAPACITY then HASHMAP_MIN_CAPACITY
      else roundup_pow2 capacity := by
    rw [heq]
  have hsz : ht.size = 0 := by
    rw [heq]
  have hall : all_entries ht = [] := by
    rw [heq]
    exact flatten_replicate_nil _
  refine ⟨hsz, ?_, hall, ?_, ?_⟩
  · simp only [hashmap_is_empty, hsz]
    rfl
  · intro h8
    rw [hashmap_capacity, hcapeq, HASHMAP_MIN_CAPACITY, if_pos h8]
  · intro h8
    obtain ⟨k, hk, hlo, hhi, hrd⟩ := roundup_pow2_eq capacity (by omega) hcap
    refine ⟨k + 1, ?_, hhi, ?_⟩
    · rw [hashmap_capacity, hcapeq, HASHMAP_MIN_CAPACITY, if_neg (by omega), hrd]
    · intro j hj
      apply pow_le_of_le
      by_contra hcon
      have := pow_le_of_le (show j ≤ k by omega)
      omega

/-- When the load is at least `0.75`, the guard passes and the doubled bucket array is granted,
`hashmap_assign` is lines 449-478 run on the grown map. -/
theorem hashmap_assign_grown (alloc : Nat → Bool) (ht : hashmap_s) (key : Option Bytes)
    (val : Bytes) (hld : hashmap_load_ge_threshold ht = true)
    (hov : ¬ u64 (ht.capacity <<< 1) ≥ HASHMAP_MAX_CAPACITY)
    (hg : (hashmap_grow alloc ht (u64 (ht.capacity <<< 1))).1 = stat_t.COMPLETE) :
    hashmap_assign alloc ht key val
      = hashmap_assign_entry alloc (hashmap_grow alloc ht (u64 (ht.capacity <<< 1))).2 key
          val := by
  simp only [hashmap_assign]
  rw [if_pos hld, if_neg hov, if_neg (not_not.2 hg)]

/-- When the load is below `0.75`, `hashmap_assign` is lines 449-478 run on the map. -/
theorem hashmap_assign_plain (alloc : Nat → Bool) (ht : hashmap_s) (key : Option Bytes)
    (val : Bytes) (hld : hashmap_load_ge_threshold ht = false) :
    hashmap_assign alloc ht key val = hashmap_assign_entry alloc ht key val := by
  simp only [hashmap_assign]
  rw [if_neg (by rw [hld]; exact fun hh => by cases hh)]

/-- The scan of lines 449-478 finds a stored key and overwrites its value. -/
theorem assign_at_hit (alloc : Nat → Bool) (ht : hashmap_s) (key : Option Bytes) (val : Bytes)
    (hk : KeyInv ht) (hc : ht.cmp_fn = none) (hkey : key_ok ht key) (hp : has_key ht key) :
    (assign_at alloc ht key val).1 = stat_t.COMPLETE := by
  obtain ⟨e, he, hek⟩ := hp
  have hb := mem_scan_bucket ht hk key e he hek
  have hit := (entry_hit_iff ht hc key e hkey (hk.klen e he)).2 hek
  simp only [assign_at]
  split
  · rfl
  · rename_i hnone
    have := (chain_assign_none _ _ _ _).1 hnone e hb
    rw [hit] at this
    cases this

/-- C25, as stated, fails: on the map with five keys and the entry without a key (size 6 at
capacity 8, load `0.75`), `hashmap_assign(NULL, v)` doubles the capacity to 16 when the new
bucket array is granted, and returns `ERR_MEMORY_ALLOCATION` when it is refused. -/
theorem null_assign_doubles_capacity :
    Reachable example_null ∧ has_key example_null none ∧
      hashmap_capacity example_null = 8 ∧
      (hashmap_assign grant_all example_null none (int_bytes 9)).1 = stat_t.COMPLETE ∧
      hashmap_capacity (hashmap_assign grant_all example_null none (int_bytes 9)).2 = 16 ∧
      (hashmap_assign refuse_all example_null none (int_bytes 9)).1
        = stat_t.ERR_MEMORY_ALLOCATION :=
  ⟨Reachable.assign grant_all (example_map 5) none (int_bytes 7)
      (example_map_reachable 5 (by rfl)) (by decide),
    by decide, by rfl, by rfl, by rfl, by rfl⟩

/-- C25, amended: on a reachable map with default equality that holds an entry without a key,
`hashmap_assign(NULL, v)` never allocates an entry.  When the load is below `0.75` it returns
`COMPLETE` and keeps the capacity.  When the load is at least `0.75` it first doubles the
capacity: it returns `COMPLETE` with twice the capacity, or an error with the map untouched.
Whenever it returns `COMPLETE`, the size is unchanged, `hashmap_query(NULL)` yields `v`, the
query of every other key is unchanged and the entries with a key are those before the call. -/
theorem null_assign_overwrites (alloc : Nat → Bool) (ht : hashmap_s) (val : Bytes)
    (hr : Reachable ht) (hc : ht.cmp_fn = none) (hp : has_key ht none) :
    (hashmap_load_ge_threshold ht = false →
        (hashmap_assign alloc ht none val).1 = stat_t.COMPLETE ∧
        hashmap_capacity (hashmap_assign alloc ht none val).2 = hashmap_capacity ht) ∧
      (hashmap_load_ge_threshold ht = true →
        ((hashmap_assign alloc ht none val).1 = stat_t.COMPLETE →
          hashmap_capacity (hashmap_assign alloc ht none val).2 = 2 * hashmap_capacity ht) ∧
        ((hashmap_assign alloc ht none val).1 ≠ stat_t.COMPLETE →
          (hashmap_assign alloc ht none val).2 = ht)) ∧
      ((hashmap_assign alloc ht none val).1 = stat_t.COMPLETE →
        hashmap_size (hashmap_assign alloc ht none val).2 = hashmap_size ht ∧
        hashmap_query (hashmap_assign alloc ht none val).2 none
          = (stat_t.COMPLETE, some (memcpy val ht.elem_size)) ∧
        (∀ key2, key2 ≠ none → key_ok ht key2 →
          hashmap_query (hashmap_assign alloc ht none val).2 key2 = hashmap_query ht key2) ∧
        (∀ e, e.key ≠ none →
          (e ∈ all_entries (hashmap_assign alloc ht none val).2 ↔ e ∈ all_entries ht))) := by
  have hi := reachable_inv ht hr
  have hk := reachable_keyinv ht hr hc
  have hkey : key_ok ht none := fun _ hh => by cases hh
  obtain ⟨h8, _, _⟩ := hi.cap_bounds
  have hc0 : ht.capacity ≠ 0 := by omega
  refine ⟨?_, ?_, ?_⟩
  · intro hld
    have hs : (hashmap_assign alloc ht none val).1 = stat_t.COMPLETE := by
      rw [hashmap_assign_plain alloc ht none val hld, hashmap_assign_entry_eq]
      exact assign_at_hit alloc ht none val hk hc hkey hp
    refine ⟨hs, ?_⟩
    have hcap := hashmap_assign_capacity alloc ht none val hi hs
    rw [if_neg (by rw [hld]; exact Bool.false_ne_true)] at hcap
    exact hcap
  · intro hld
    constructor
    · intro hs
      have hcap := hashmap_assign_capacity alloc ht none val hi hs
      rw [if_pos hld] at hcap
      exact hcap
    · intro he
      rcases hashmap_assign_err alloc ht none val he with ⟨_, _, h⟩ | h | ⟨_, hov, hg, _⟩
      · rw [h]
      · rw [h]
      · exfalso
        apply he
        obtain ⟨e, h3, h62, hdbl, hle, _⟩ := doubled_capacity ht hi hov
        obtain ⟨_, hperm, _, _, _⟩ := hashmap_grow_inv alloc ht _ e hi h3 h62 hdbl hle hg
        have hk2 := hashmap_grow_keys alloc ht _ e hi h3 h62 hdbl hle hg hk
        have hpar := hashmap_grow_params alloc ht (u64 (ht.capacity <<< 1))
        rw [hashmap_assign_grown alloc ht none val hld hov hg, hashmap_assign_entry_eq]
        apply assign_at_hit alloc _ none val hk2 (hpar.2.2.2.trans hc) (fun _ hh => by cases hh)
        obtain ⟨x, hx, hxk⟩ := hp
        exact ⟨x, hperm.mem_iff.2 hx, hxk⟩
  · intro hs
    obtain ⟨hq, hoth, hsz, _, _⟩ := hashmap_assign_effect alloc ht none val hi hk hc hkey hs
    obtain ⟨_, _, hperm, _⟩ := hashmap_assign_keys alloc ht none val hi hk hc hkey
    refine ⟨hsz hp, hq, hoth, ?_⟩
    intro e hek
    rw [(hperm hs).mem_iff]
    simp only [List.mem_cons, mem_drop_key]
    constructor
    · rintro (h | h)
      · rw [h] at hek
        exact absurd rfl hek
      · exact h.1
    · intro h
      exact Or.inr ⟨h, hek⟩

/-- Witness for C25 amended: the entry without a key is overwritten at load `0.625` (capacity
kept) and at load `0.75` (capacity doubled). -/
theorem null_assign_overwrites_witness :
    ((hashmap_assign grant_all (hashmap_assign grant_all (example_map 4) none (int_bytes 7)).2
          none (int_bytes 9)).1 = stat_t.COMPLETE ∧
        hashmap_capacity
          (hashmap_assign grant_all
            (hashmap_assign grant_all (example_map 4) none (int_bytes 7)).2 none
            (int_bytes 9)).2 = 8) ∧
      hashmap_query (hashmap_assign grant_all example_null none (int_bytes 9)).2 none
        = (stat_t.COMPLETE, some (int_bytes 9)) :=
  ⟨((null_assign_overwrites grant_all
        (hashmap_assign grant_all (example_map 4) none (int_bytes 7)).2 (int_bytes 9)
        (Reachable.assign grant_all (example_map 4) none (int_bytes 7)
          (example_map_reachable 4 (by rfl)) (by decide)) (by rfl) (by decide)).1 (by rfl)),
    ((null_assign_overwrites grant_all example_null (int_bytes 9)
      (Reachable.assign grant_all (example_map 5) none (int_bytes 7)
        (example_map_reachable 5 (by rfl)) (by decide)) (by rfl) (by decide)).2.2
      (by rfl)).2.1⟩

/-- C26, the failing input: the deque `deque(int, 4)` after `push_back(1)`, `push_back(2)` and
`pop_front` holds the single element `2` at front index 1.  `deque_copy` succeeds and gives a
deque of the same size and capacity, but `deque_get(copy, 0)` yields `1`, the element that was
popped, where `deque_get(src, 0)` yields `2`: `deque_alloc` has reset the front index of the copy
to 0 while the buffer is copied byte for byte. -/
theorem deque_copy_loses_front :
    _deque_init grant_all 4 4 ≠ none ∧
      (deque_pop_front example_deque).1 = stat_t.COMPLETE ∧
      example_deque_popped.front = 1 ∧
      ∃ copy, deque_copy grant_all example_deque_popped = (stat_t.COMPLETE, some copy) ∧
        deque_size copy = deque_size example_deque_popped ∧
        deque_capacity copy = deque_capacity example_deque_popped ∧
        copy.front = 0 ∧
        deque_get example_deque_popped 0 = (stat_t.COMPLETE, some (int_bytes 2)) ∧
        deque_get copy 0 = (stat_t.COMPLETE, some (int_bytes 1)) :=
  ⟨by decide, by rfl, by rfl, _, rfl, by rfl, by rfl, by rfl, by rfl, by rfl⟩

/-- C29, the failing input: for the empty string and the pattern `"a"`, `string_kmp` returns
`str->str` (offset 0), although the pattern does not occur, while `string_find` returns
`NULL`.  For the empty string and the empty pattern the two differ in the same way. -/
theorem kmp_finds_pattern_in_empty_string :
    string_kmp grant_all (string_custom []) (ascii "a") = some (some 0) ∧
      string_find (string_custom []) (some (ascii "a")) = none ∧
      string_kmp grant_all (string_custom []) [] = some (some 0) ∧
      string_find (string_custom []) (some []) = none := by
  decide

/-- On the string of the tests both searches find `"World"` at offset 7 and `"Hello"` at offset
0, and neither finds `"cat"`. -/
theorem kmp_agrees_on_test_string :
    string_kmp grant_all (string_custom (ascii "Hello, World!")) (ascii "World")
        = some (some 7) ∧
      string_find (string_custom (ascii "Hello, World!")) (some (ascii "World")) = some 7 ∧
      string_kmp grant_all (string_custom (ascii "Hello, World!")) (ascii "Hello")
        = some (some 0) ∧
      string_find (string_custom (ascii "Hello, World!")) (some (ascii "Hello")) = some 0 ∧
      string_kmp grant_all (string_custom (ascii "Hello, World!")) (ascii "cat")
        = some none ∧
      string_find (string_custom (ascii "Hello, World!")) (some (ascii "cat")) = none := by
  decide


/-! ## Claim C27: the deque as a sequence -/

theorem grant_small_bounded : alloc_bounded grant_small := by
  intro n h
  simpa [grant_small] using h

/-- When the growth step of the pushes succeeds: there is room, or the guard passes and the
doubled buffer is granted. -/
theorem deque_grow_status (alloc : Nat → Bool) (deq : deque_s) :
    (deque_grow alloc deq).1 = stat_t.COMPLETE ↔
      (deq.size < deq.capacity ∨
        (¬ deq.capacity ≥ SIZE_MAX / deq.elem_size / DEQUE_EXP_FACTOR ∧
          alloc (u64 (u64 (deq.capacity * DEQUE_EXP_FACTOR) * deq.elem_size)) = true)) := by
  simp only [deque_grow]
  by_cases hfull : deq.size ≥ deq.capacity
  · rw [if_pos hfull]
    by_cases hov : deq.capacity ≥ SIZE_MAX / deq.elem_size / DEQUE_EXP_FACTOR
    · rw [if_pos hov]
      constructor
      · intro hh
        cases hh
      · rintro (h | h)
        · omega
        · exact absurd hov h.1
    · rw [if_neg hov]
      simp only [deque_alloc]
      by_cases hal : alloc (u64 (u64 (deq.capacity * DEQUE_EXP_FACTOR) * deq.elem_size)) = false
      · rw [if_pos hal]
        constructor
        · intro hh
          simp at hh
        · rintro (h | h)
          · omega
          · rw [hal] at h
            cases h.2
      · rw [if_neg hal]
        constructor
        · intro _
          exact Or.inr ⟨hov, by simpa using hal⟩
        · intro _
          simp
  · rw [if_neg hfull]
    constructor
    · intro _
      exact Or.inl (by omega)
    · intro _
      rfl

theorem example_ring_reach : DequeReach example_ring :=
  DequeReach.push_back _ _ _ grant_small_bounded
    (DequeReach.push_back _ _ _ grant_small_bounded
      (DequeReach.pop_front _
        (DequeReach.push_back _ _ _ grant_small_bounded
          (DequeReach.push_back _ _ _ grant_small_bounded
            (DequeReach.init grant_small 2 4 example_ring_init grant_small_bounded
              (by decide) (by rfl))))))

/-- C27: a deque created by a successful `_deque_init` with capacity at least 1 and used through
`deque_push_back`, `deque_push_front`, `deque_pop_front`, `deque_pop_back`, `deque_set` and
`deque_get` (allocators never grant `2 ^ 63` bytes or more) behaves as the sequence of its
contents from the front.  A fresh deque is empty; `deque_size` is the length; `deque_get(i)`
yields the `i`-th element; a successful push appends or prepends the `elem_size` bytes at `elem`
and a failed one changes nothing; a push succeeds when there is room and also when the ring is
full, the guard passes and the doubled buffer is granted; the pops remove and return the first or
last element; `deque_set` replaces the `i`-th element. -/
theorem deque_refines_sequence (deq : deque_s) (hr : DequeReach deq) :
    (∀ alloc capacity elem_size d, alloc_bounded alloc → 1 ≤ capacity →
        _deque_init alloc capacity elem_size = some d → deque_contents d = []) ∧
      deque_size deq = (deque_contents deq).length ∧
      (∀ i, deque_get deq i
        = if i < deque_size deq then (stat_t.COMPLETE, seq_get (deque_contents deq) i)
          else (stat_t.ERR_INDEX_OUT_OF_RANGE, none)) ∧
      (∀ alloc elem, alloc_bounded alloc →
        ((deque_push_back alloc deq elem).1 = stat_t.COMPLETE →
          deque_contents (deque_push_back alloc deq elem).2
            = seq_push_back (deque_contents deq) (memcpy elem deq.elem_size)) ∧
        ((deque_push_back alloc deq elem).1 ≠ stat_t.COMPLETE →
          (deque_push_back alloc deq elem).2 = deq) ∧
        ((deque_push_front alloc deq elem).1 = stat_t.COMPLETE →
          deque_contents (deque_push_front alloc deq elem).2
            = seq_push_front (deque_contents deq) (memcpy elem deq.elem_size)) ∧
        ((deque_push_front alloc deq elem).1 ≠ stat_t.COMPLETE →
          (deque_push_front alloc deq elem).2 = deq) ∧
        ((deq.size < deq.capacity ∨
            (¬ deq.capacity ≥ SIZE_MAX / deq.elem_size / DEQUE_EXP_FACTOR ∧
              alloc (u64 (u64 (deq.capacity * DEQUE_EXP_FACTOR) * deq.elem_size)) = true)) →
          (deque_push_back alloc deq elem).1 = stat_t.COMPLETE ∧
            (deque_push_front alloc deq elem).1 = stat_t.COMPLETE)) ∧
      ((deque_pop_front deq).2.2 = (seq_pop_front (deque_contents deq)).1 ∧
        deque_contents (deque_pop_front deq).2.1 = (seq_pop_front (deque_contents deq)).2 ∧
        ((deque_pop_front deq).1 = stat_t.COMPLETE ↔ deque_contents deq ≠ [])) ∧
      ((deque_pop_back deq).2.2 = (seq_pop_back (deque_contents deq)).1 ∧
        deque_contents (deque_pop_back deq).2.1 = (seq_pop_back (deque_contents deq)).2 ∧
        ((deque_pop_back deq).1 = stat_t.COMPLETE ↔ deque_contents deq ≠ [])) ∧
      (∀ elem i,
        deque_contents (deque_set deq elem i).2
          = seq_set (deque_contents deq) i (memcpy elem deq.elem_size) ∧
        ((deque_set deq elem i).1 = stat_t.COMPLETE ↔ i < deque_size deq)) := by
  have h := deque_reach_inv deq hr
  have hlen := deque_contents_length deq
  refine ⟨?_, hlen.symm, ?_, ?_, ?_, ?_, ?_⟩
  · intro alloc capacity elem_size d hal h1 hinit
    exact (deque_init_ok alloc capacity elem_size d hal h1 hinit).2.1
  · intro i
    exact deque_get_ok deq i h
  · intro alloc elem hal
    obtain ⟨hb1, hb2, _, hb4⟩ := deque_push_back_ok alloc deq elem hal h
    obtain ⟨hf1, hf2, _, hf4⟩ := deque_push_front_ok alloc deq elem hal h
    refine ⟨hb4, hb2, hf4, hf2, fun hroom => ?_⟩
    have hg := (deque_grow_status alloc deq).2 hroom
    exact ⟨hb1.trans hg, hf1.trans hg⟩
  · by_cases hz : deq.size = 0
    · have hnil : deque_contents deq = [] := List.length_eq_zero.1 (hlen.trans hz)
      rw [deque_pop_front_empty deq hz, hnil]
      refine ⟨rfl, rfl, ?_⟩
      constructor
      · intro hh
        cases hh
      · intro hh
        exact absurd rfl hh
    · obtain ⟨h1, _, h3, h4⟩ := deque_pop_front_ok deq h hz
      rw [h3, h4]
      refine ⟨rfl, rfl, ?_⟩
      constructor
      · intro _ hh
        cases hh
      · intro _
        exact h1
  · by_cases hz : deq.size = 0
    · have hnil : deque_contents deq = [] := List.length_eq_zero.1 (hlen.trans hz)
      rw [deque_pop_back_empty deq hz, hnil]
      refine ⟨rfl, rfl, ?_⟩
      constructor
      · intro hh
        cases hh
      · intro hh
        exact absurd rfl hh
    · obtain ⟨h1, _, h3, h4⟩ := deque_pop_back_ok deq h hz
      rw [h3, h4]
      refine ⟨?_, ?_, ?_⟩
      · simp only [seq_pop_back, List.getLast?_append, List.getLast?_singleton, Option.or_some]
      · simp only [seq_pop_back, List.dropLast_concat]
      · constructor
        · intro _ hh
          simp at hh
        · intro _
          exact h1
  · intro elem i
    by_cases hi : i < deq.size
    · obtain ⟨h1, _, h3⟩ := deque_set_ok deq elem i h hi
      refine ⟨h3, ?_⟩
      constructor
      · intro _
        exact hi
      · intro _
        exact h1
    · rw [deque_set_out_of_range deq elem i (by omega)]
      refine ⟨?_, ?_⟩
      · simp only [seq_set]
        rw [List.set_eq_of_length_le]
        rw [hlen]
        omega
      · constructor
        · intro hh
          cases hh
        · intro hh
          exact absurd hh hi

/-- Witness for C27: the deque `deque(int, 2)` after `push_back(1)`, `push_back(2)`,
`pop_front`, `push_back(3)` and `push_back(4)`; the last push doubles the capacity of the full
ring whose front index is 1.  The contents are `2, 3, 4`, and `push_front(9)` prepends. -/
theorem deque_refines_sequence_witness :
    deque_contents example_ring = [int_bytes 2, int_bytes 3, int_bytes 4] ∧
      deque_capacity example_ring = 4 ∧
      deque_get example_ring 1 = (stat_t.COMPLETE, some (int_bytes 3)) ∧
      deque_contents (deque_push_front grant_small example_ring (int_bytes 9)).2
        = [int_bytes 9, int_bytes 2, int_bytes 3, int_bytes 4] :=
  ⟨by rfl, by rfl,
    ((deque_refines_sequence example_ring example_ring_reach).2.2.1 1).trans (by rfl),
    (((deque_refines_sequence example_ring example_ring_reach).2.2.2.1 grant_small
      (int_bytes 9) grant_small_bounded).2.2.1 (by rfl)).trans (by rfl)⟩

/-- The copy of a deque whose front index is 0 has the size, the capacity and the elements of
the source. -/
theorem deque_copy_front_zero (alloc : Nat → Bool) (src copy : deque_s) (h : DequeInv src)
    (hf : src.front = 0) (hc : deque_copy alloc src = (stat_t.COMPLETE, some copy)) :
    deque_size copy = deque_size src ∧ deque_capacity copy = deque_capacity src ∧
      ∀ i, deque_get copy i = deque_get src i := by
  obtain ⟨b, hb, hblen, _⟩ := h.buf
  simp only [deque_copy] at hc
  by_cases ha : alloc sizeof_deque = false
  · rw [if_pos ha] at hc
    cases hc
  · rw [if_neg ha] at hc
    simp only [deque_alloc] at hc
    by_cases hb2 : alloc (u64 (src.capacity * src.elem_size)) = false
    · rw [if_pos hb2] at hc
      simp at hc
    · rw [if_neg hb2] at hc
      simp only [ne_eq, not_true_eq_false, if_false, Option.isSome_none, Bool.false_eq_true,
        Option.map_some', Prod.mk.injEq, Option.some.injEq, true_and, hb, Option.getD_some] at hc
      have hbuf : List.take src.capacity b
          ++ List.drop src.capacity (List.replicate src.capacity ([] : Bytes)) = b := by
        rw [← hblen, List.take_length, List.drop_eq_nil_of_le (by simp), List.append_nil]
      rw [hbuf] at hc
      subst hc
      refine ⟨rfl, rfl, fun i => ?_⟩
      simp only [deque_get, deque_shift, hb, hf, Option.getD_some]


/-! ## Claim C28: the priority queue hands out its elements in order -/

theorem int_cmp1_total_preorder : cmp_total_preorder int_cmp1 := by
  constructor
  · intro a b
    simp only [int_cmp1]
    omega
  · intro a b c
    simp only [int_cmp1]
    omega

theorem example_pushes_bounded : ∀ c, c ∈ example_pushes → alloc_bounded c.1 := by
  intro c hc
  simp only [example_pushes, List.mem_cons, List.mem_singleton, List.not_mem_nil,
    or_false] at hc
  rcases hc with h | h | h | h | h <;> (rw [h]; exact grant_small_bounded)

/-- C28: for a priority queue created by a successful `_pqueue_init` with a capacity of at least
1 (and below `SIZE_MAX / elem_size`, so that the request for `capacity + 1` elements does not
wrap) and a comparison function that is a total preorder, after any run of successful
`pqueue_push` calls (allocators never grant `2 ^ 63` bytes or more): the size is the number of
pushes; popping until the queue is empty runs to completion and hands out exactly the pushed
elements, as a multiset, in non-decreasing order of the comparison; and `pqueue_top` yields a
pushed element that is not above any other.  In every state reached by pushes and pops
`pqueue_top` of a queue that is not empty yields an element that is not above any other. -/
theorem pqueue_pops_in_order (alloc : Nat → Bool) (capacity elem_size : Nat)
    (cmp_fn : Bytes → Bytes → Int) (default_alloc : Bool) (pq0 pq : pqueue_s)
    (calls : List push_call) (hal : alloc_bounded alloc) (h1 : 1 ≤ capacity)
    (hlt : capacity < SIZE_MAX / elem_size) (hc : cmp_total_preorder cmp_fn)
    (hinit : _pqueue_init alloc capacity elem_size cmp_fn default_alloc = some pq0)
    (hals : ∀ c, c ∈ calls → alloc_bounded c.1)
    (hpush : pqueue_push_all pq0 calls = some pq) :
    pqueue_size pq = calls.length ∧
      (∃ out, pqueue_drain pq = some out ∧
        out.Perm (calls.map (fun c => memcpy c.2 elem_size)) ∧
        out.Pairwise (fun a b => cmp_fn a b ≤ 0)) ∧
      (calls ≠ [] → ∃ t, pqueue_top pq = (stat_t.COMPLETE, some t) ∧
        t ∈ calls.map (fun c => memcpy c.2 elem_size) ∧
        ∀ x, x ∈ calls.map (fun c => memcpy c.2 elem_size) → cmp_fn t x ≤ 0) ∧
      (∀ q, PQReach q → q.size ≠ 0 → ∃ t, pqueue_top q = (stat_t.COMPLETE, some t) ∧
        t ∈ pqueue_contents q ∧ ∀ x, x ∈ pqueue_contents q → q.cmp_fn t x ≤ 0) := by
  obtain ⟨hg0, hnil, hsz0, _, hes0, hcmp0⟩ :=
    pqueue_init_ok alloc capacity elem_size cmp_fn default_alloc pq0 hal h1 hlt hc hinit
  obtain ⟨hg, hes, hcmp, hsz, hperm⟩ := pqueue_push_all_ok calls pq0 pq hg0 hals hpush
  rw [hnil, List.append_nil, hes0] at hperm
  have htop : ∀ q, PQGood q → q.size ≠ 0 →
      ∃ t, pqueue_top q = (stat_t.COMPLETE, some t) ∧
        t ∈ pqueue_contents q ∧ ∀ x, x ∈ pqueue_contents q → q.cmp_fn t x ≤ 0 := by
    intro q hq hne
    obtain ⟨hm1, hm2⟩ := pqueue_root_min q hq hne
    refine ⟨pqueue_shift q 0, ?_, hm1, hm2⟩
    simp only [pqueue_top, if_neg hne, memcpy_of_le _ _ (pqueue_shift_len q hq.1 0)]
  refine ⟨?_, ?_, ?_, fun q hq hne => htop q (pq_reach_good q hq) hne⟩
  · rw [pqueue_size, hsz, hsz0, Nat.zero_add]
  · obtain ⟨out, o1, o2, o3⟩ := pqueue_drain_loop_ok pq.size pq hg (Nat.le_refl _)
    rw [hcmp, hcmp0] at o3
    exact ⟨out, o1, o2.trans hperm, o3⟩
  · intro hne
    have hsne : pq.size ≠ 0 := by
      rw [hsz, hsz0, Nat.zero_add]
      intro hh
      exact hne (List.length_eq_zero.1 hh)
    obtain ⟨t, t1, t2, t3⟩ := htop pq hg hsne
    rw [hcmp, hcmp0] at t3
    exact ⟨t, t1, hperm.subset t2, fun x hx => t3 x (hperm.symm.subset hx)⟩

/-- Witness for C28: the queue `pqueue(int, 3, int_cmp1)` of the tests after the pushes
`5, 3, 7, 1, 9` (the fourth push doubles the capacity): popping until empty hands out
`1, 3, 5, 7, 9`. -/
theorem pqueue_pops_in_order_witness :
    pqueue_size example_pq = 5 ∧
      pqueue_drain example_pq
        = some [int_bytes 1, int_bytes 3, int_bytes 5, int_bytes 7, int_bytes 9] ∧
      pqueue_capacity example_pq = 6 ∧
      ∃ out, pqueue_drain example_pq = some out ∧
        out.Perm (example_pushes.map (fun c => memcpy c.2 4)) ∧
        out.Pairwise (fun a b => int_cmp1 a b ≤ 0) :=
  ⟨(pqueue_pops_in_order grant_small 3 4 int_cmp1 true example_pq_init example_pq
      example_pushes grant_small_bounded (by decide) (by norm_num [SIZE_MAX])
      int_cmp1_total_preorder (by rfl) example_pushes_bounded (by rfl)).1,
    by rfl, by rfl,
    (pqueue_pops_in_order grant_small 3 4 int_cmp1 true example_pq_init example_pq
      example_pushes grant_small_bounded (by decide) (by norm_num [SIZE_MAX])
      int_cmp1_total_preorder (by rfl) example_pushes_bounded (by rfl)).2.1⟩


/-! ## Claims C31, C32, C34, C35 and C38: the hashmap -/

theorem hash_linked_of_linkinv (ht : hashmap_s) (h : Inv ht) (hk : LinkInv ht)
    (hd : ht.hash_fn = none) : HashLinked ht := by
  obtain ⟨h8, h62, _⟩ := h.cap_bounds
  have hm : mask ht.capacity = ht.capacity - 1 := mask_eq ht.capacity (by omega) (by omega)
  intro e k he hek
  obtain ⟨i, _, hi⟩ := (mem_flatten_iff_bucket ht.entries e).1 he
  refine ⟨?_, ?_, ?_⟩
  · rw [hk.hash e he, hek]
    simp only [key_hash, hashmap_hash, hd]
  · have := hk.place i e hi
    rw [hm] at this
    rw [this]
    exact hi
  · intro j hj
    have := hk.place j e hj
    rw [hm] at this
    exact this.symm

theorem reachable_hash_linked (ht : hashmap_s) (hr : Reachable ht) (hd : ht.hash_fn = none) :
    HashLinked ht :=
  hash_linked_of_linkinv ht (reachable_inv ht hr) (reachable_linkinv ht hr) hd

/-- C31: in every state reachable with the default digest, the cached hash of every keyed entry
is `cityhash64` of its key bytes, and the entry is linked in the chain of the bucket
`hash & (capacity - 1)` and in no other chain; the states after `hashmap_assign`,
`hashmap_remove`, `hashmap_reserve` and `hashmap_clear` have the property again, whatever
these calls report. -/
theorem cached_hash_selects_bucket (ht : hashmap_s) (hr : Reachable ht)
    (hd : ht.hash_fn = none) :
    HashLinked ht ∧
      (∀ alloc key val, key_ok ht key → HashLinked (hashmap_assign alloc ht key val).2) ∧
      (∀ key, key_ok ht key → HashLinked (hashmap_remove ht key).2.1) ∧
      (∀ alloc capacity, HashLinked (hashmap_reserve alloc ht capacity).2) ∧
      HashLinked (hashmap_clear ht) := by
  refine ⟨reachable_hash_linked ht hr hd, ?_, ?_, ?_, ?_⟩
  · intro alloc key val hkey
    apply reachable_hash_linked _ (Reachable.assign alloc ht key val hr hkey)
    rw [(hashmap_assign_params alloc ht key val).2.2.1]
    exact hd
  · intro key hkey
    apply reachable_hash_linked _ (Reachable.remove ht key hr hkey)
    rw [(hashmap_remove_params ht key).2.2.1]
    exact hd
  · intro alloc capacity
    apply reachable_hash_linked _ (Reachable.reserve alloc ht capacity hr)
    rw [(hashmap_reserve_params alloc ht capacity).2.2.1]
    exact hd
  · exact reachable_hash_linked _ (Reachable.clear ht hr) hd

/-- Witness for C31: the entry of key 3 in the map of the tests after eight assignments, the
seventh of which doubled the capacity to 16. -/
theorem cached_hash_selects_bucket_witness :
    example_entry ∈ all_entries (example_map 8) ∧
      example_entry.hash = cityhash64 (int_bytes 3) (example_map 8).key_len ∧
      example_entry ∈ bucket (example_map 8).entries
        (example_entry.hash &&& ((example_map 8).capacity - 1)) ∧
      ∀ i, example_entry ∈ bucket (example_map 8).entries i →
        i = example_entry.hash &&& ((example_map 8).capacity - 1) :=
  ⟨by decide,
    (cached_hash_selects_bucket (example_map 8) (example_map_reachable 8 (by rfl)) (by rfl)).1
      example_entry (int_bytes 3) (by decide) rfl⟩

/-- C32: in every reachable state, whatever the digest and the equality in use, at most one
entry has an absent (`NULL`) key, and such an entry is linked in the chain of bucket 0 and in no
other chain.  The reachable states are closed under `hashmap_assign`, `hashmap_remove`,
`hashmap_reserve` and the doublings of `hashmap_assign`. -/
theorem null_entry_unique_in_bucket_zero (ht : hashmap_s) (hr : Reachable ht) :
    (all_entries ht).countP (fun e => e.key.isNone) ≤ 1 ∧
      ∀ e, e ∈ all_entries ht → e.key = none →
        e ∈ bucket ht.entries 0 ∧ ∀ i, e ∈ bucket ht.entries i → i = 0 := by
  have hk := reachable_linkinv ht hr
  refine ⟨hk.null_once, ?_⟩
  intro e he hn
  refine ⟨null_entry_in_bucket_zero ht hk e he hn, ?_⟩
  intro i hi
  have := hk.place i e hi
  rw [hk.hash e he, hn] at this
  rw [← this]
  simp [key_hash]

/-- Witness for C32: the map with the keys `0, ..., 4` and the entry without a key, after one
more assignment to the `NULL` key, which doubles the capacity to 16 and relinks the entry. -/
theorem null_entry_unique_in_bucket_zero_witness :
    (hashmap_assign grant_all example_null none (int_bytes 9)).2.capacity = 16 ∧
      (all_entries (hashmap_assign grant_all example_null none (int_bytes 9)).2).countP
        (fun e => e.key.isNone) = 1 ∧
      (all_entries (hashmap_assign grant_all example_null none (int_bytes 9)).2).countP
        (fun e => e.key.isNone) ≤ 1 :=
  ⟨by rfl, by decide,
    (null_entry_unique_in_bucket_zero
      (hashmap_assign grant_all example_null none (int_bytes 9)).2
      (Reachable.assign grant_all example_null none (int_bytes 9)
        (Reachable.assign grant_all (example_map 5) none (int_bytes 7)
          (example_map_reachable 5 (by rfl)) (by decide))
        (by decide))).1⟩

theorem assign_all_inv (ht ht2 : hashmap_s) (calls : List assign_call) (hi : Inv ht)
    (h : assign_all ht calls = some ht2) : Inv ht2 := by
  induction calls generalizing ht with
  | nil =>
    simp only [assign_all, Option.some.injEq] at h
    subst h
    exact hi
  | cons c rest ih =>
    simp only [assign_all] at h
    split at h
    · exact ih _ (hashmap_assign_inv c.1 ht c.2.1 c.2.2 hi) h
    · cases h

theorem hashmap_copy_inv (alloc : Nat → Bool) (src dst : hashmap_s) (hi : Inv src)
    (h : hashmap_copy alloc src = (stat_t.COMPLETE, some dst)) : Inv dst := by
  obtain ⟨_, h62, _⟩ := hi.cap_bounds
  obtain ⟨dst0, hinit, hrun⟩ := hashmap_copy_ok alloc src dst hi.len h
  exact assign_all_inv dst0 dst _ (hashmap_init_inv alloc _ _ _ _ _ dst0 h62 hinit).1 hrun

/-- C34: the bound `4 * size ≤ 3 * capacity` holds in every state reachable from
`_hashmap_init`; the states after `hashmap_assign`, `hashmap_remove`, `hashmap_reserve` and
`hashmap_clear` and the map that a successful `hashmap_copy` returns satisfy it again; and the
bound is attained: the sixth successful assignment to the fresh map of capacity 8 gives 6
entries at capacity 8. -/
theorem load_bound_is_invariant :
    (∀ ht, Reachable ht →
      load_bounded ht ∧
        (∀ alloc key val, load_bounded (hashmap_assign alloc ht key val).2) ∧
        (∀ key, load_bounded (hashmap_remove ht key).2.1) ∧
        (∀ alloc capacity, load_bounded (hashmap_reserve alloc ht capacity).2) ∧
        load_bounded (hashmap_clear ht) ∧
        (∀ alloc dst, hashmap_copy alloc ht = (stat_t.COMPLETE, some dst) → load_bounded dst)) ∧
      Reachable (example_map 5) ∧
      (hashmap_assign grant_all (example_map 5) (some (int_bytes 5)) (int_bytes 50)).1
        = stat_t.COMPLETE ∧
      hashmap_size
        (hashmap_assign grant_all (example_map 5) (some (int_bytes 5)) (int_bytes 50)).2 = 6 ∧
      hashmap_capacity
        (hashmap_assign grant_all (example_map 5) (some (int_bytes 5)) (int_bytes 50)).2 = 8 := by
  refine ⟨?_, example_map_reachable 5 (by rfl), by rfl, by rfl, by rfl⟩
  intro ht hr
  have hi := reachable_inv ht hr
  exact ⟨hi.load, fun alloc key val => (hashmap_assign_inv alloc ht key val hi).load,
    fun key => (hashmap_remove_inv ht key hi).load,
    fun alloc capacity => (hashmap_reserve_inv alloc ht capacity hi).load,
    (hashmap_clear_inv ht hi).load,
    fun alloc dst h => (hashmap_copy_inv alloc ht dst hi h).load⟩

/-- Witness for C34: the map of the tests after eight assignments. -/
theorem load_bound_is_invariant_witness :
    hashmap_size (example_map 8) = 8 ∧ hashmap_capacity (example_map 8) = 16 ∧
      load_bounded (example_map 8) :=
  ⟨by rfl, by rfl, (load_bound_is_invariant.1 (example_map 8) (example_map_reachable 8 (by rfl))).1⟩


theorem memcmp_zero (a b : Bytes) : memcmp a b 0 = 0 := by
  simp [memcmp]

theorem cityhash64_len_zero (s : Bytes) : cityhash64 s 0 = 0x9ae16a3b2f90404f := rfl

/-- With key length 0 and the default digest and equality, every call takes a present key for
the empty key. -/
theorem entry_hit_key_len_zero (ht : hashmap_s) (hl : ht.key_len = 0) (hc : ht.cmp_fn = none)
    (k : Bytes) : entry_hit ht (some k) = entry_hit ht (some []) := by
  funext e
  simp only [entry_hit]
  cases e.key with
  | none => rfl
  | some ek => simp only [key_match, hc, hl, memcmp_zero]

theorem scan_index_key_len_zero (ht : hashmap_s) (hl : ht.key_len = 0) (hd : ht.hash_fn = none)
    (k : Bytes) : scan_index ht (some k) = scan_index ht (some []) := by
  simp only [scan_index, hashmap_hash, hd, hl, cityhash64_len_zero]

theorem assign_at_key_len_zero (alloc : Nat → Bool) (ht : hashmap_s) (hl : ht.key_len = 0)
    (hd : ht.hash_fn = none) (hc : ht.cmp_fn = none) (k val : Bytes) :
    assign_at alloc ht (some k) val = assign_at alloc ht (some []) val := by
  have hn : new_entry_for ht (some k) val = new_entry_for ht (some []) val := by
    simp only [new_entry_for, key_hash, hashmap_hash, hd, hl, Option.map_some', memcpy,
      List.take_zero, cityhash64_len_zero]
  simp only [assign_at, entry_hit_key_len_zero ht hl hc k, scan_index_key_len_zero ht hl hd k,
    hn, entry_granted]

theorem hashmap_assign_key_len_zero (alloc : Nat → Bool) (ht : hashmap_s) (hl : ht.key_len = 0)
    (hd : ht.hash_fn = none) (hc : ht.cmp_fn = none) (k val : Bytes) :
    hashmap_assign alloc ht (some k) val = hashmap_assign alloc ht (some []) val := by
  have hp := hashmap_grow_params alloc ht (u64 (ht.capacity <<< 1))
  simp only [hashmap_assign, hashmap_assign_entry_eq]
  rw [assign_at_key_len_zero alloc ht hl hd hc k val,
    assign_at_key_len_zero alloc _ (by rw [hp.1]; exact hl) (by rw [hp.2.2.1]; exact hd)
      (by rw [hp.2.2.2]; exact hc) k val]

theorem hashmap_query_key_len_zero (ht : hashmap_s) (hl : ht.key_len = 0)
    (hd : ht.hash_fn = none) (hc : ht.cmp_fn = none) (k : Bytes) :
    hashmap_query ht (some k) = hashmap_query ht (some []) := by
  simp only [hashmap_query, entry_hit_key_len_zero ht hl hc k,
    scan_index_key_len_zero ht hl hd k]


/-- C38: on the fresh map that `_hashmap_init` returns for key length 0 with the default digest
and equality, any two present keys are the same key: when `hashmap_assign(k1, v1)` succeeds, a
following `hashmap_assign(k2, v2)` succeeds as well, the size is 1 and `hashmap_query(k1)`
yields `v2`. -/
theorem zero_length_keys_coincide (a0 a1 a2 : Nat → Bool) (capacity elem_size : Nat)
    (ht0 : hashmap_s) (k1 k2 v1 v2 : Bytes) (hcap : capacity ≤ 2 ^ 62) (hes : 0 < elem_size)
    (hinit : _hashmap_init a0 capacity 0 elem_size none none = some ht0)
    (h1 : (hashmap_assign a1 ht0 (some k1) v1).1 = stat_t.COMPLETE) :
    (hashmap_assign a2 (hashmap_assign a1 ht0 (some k1) v1).2 (some k2) v2).1
        = stat_t.COMPLETE ∧
      hashmap_size (hashmap_assign a2 (hashmap_assign a1 ht0 (some k1) v1).2 (some k2) v2).2
        = 1 ∧
      hashmap_query (hashmap_assign a2 (hashmap_assign a1 ht0 (some k1) v1).2 (some k2) v2).2
          (some k1)
        = (stat_t.COMPLETE, some (memcpy v2 elem_size)) := by
  have hr0 : Reachable ht0 := Reachable.init a0 capacity 0 elem_size none none ht0 hcap hes hinit
  have heq := hashmap_init_eq a0 capacity 0 elem_size none none ht0 hinit
  have hl0 : ht0.key_len = 0 := by rw [heq]
  have hd0 : ht0.hash_fn = none := by rw [heq]
  have hc0 : ht0.cmp_fn = none := by rw [heq]
  have hz0 : ht0.elem_size = elem_size := by rw [heq]
  have hi0 := reachable_inv ht0 hr0
  have hk0 := reachable_keyinv ht0 hr0 hc0
  have hall0 := (hashmap_init_inv a0 capacity 0 elem_size none none ht0 hcap hinit).2
  have hs0 : ht0.size = 0 := by rw [hi0.size, hall0]; rfl
  have hno0 : ¬ has_key ht0 (some []) := by
    rintro ⟨e, he, _⟩
    rw [hall0] at he
    cases he
  have hkey0 : key_ok ht0 (some []) := by
    intro k hk
    cases hk
    rw [hl0]
    rfl
  rw [hashmap_assign_key_len_zero a1 ht0 hl0 hd0 hc0 k1 v1] at h1 ⊢
  obtain ⟨_, _, _, hsz1, hhas1⟩ := hashmap_assign_effect a1 ht0 (some []) v1 hi0 hk0 hc0 hkey0 h1
  have hr1 : Reachable (hashmap_assign a1 ht0 (some []) v1).2 :=
    Reachable.assign a1 ht0 (some []) v1 hr0 hkey0
  have hpa := hashmap_assign_params a1 ht0 (some []) v1
  generalize (hashmap_assign a1 ht0 (some []) v1).2 = ht1 at hsz1 hhas1 hr1 hpa ⊢
  have hl1 : ht1.key_len = 0 := by rw [hpa.1]; exact hl0
  have hd1 : ht1.hash_fn = none := by rw [hpa.2.2.1]; exact hd0
  have hc1 : ht1.cmp_fn = none := by rw [hpa.2.2.2]; exact hc0
  have hz1 : ht1.elem_size = elem_size := by rw [hpa.2.1]; exact hz0
  have hi1 := reachable_inv ht1 hr1
  have hk1 := reachable_keyinv ht1 hr1 hc1
  have hs1 : ht1.size = 1 := by rw [hsz1 hno0, hs0]
  have hh1 : has_key ht1 (some []) := (hhas1 (some [])).2 (Or.inl rfl)
  have hkey1 : key_ok ht1 (some []) := (key_ok_params hpa (some [])).2 hkey0
  obtain ⟨h8, _, _⟩ := hi1.cap_bounds
  have hld : hashmap_load_ge_threshold ht1 = false := by
    have hex := load_test_exact_of_inv ht1 hi1 (by rw [hs1]; norm_num)
    cases hb : hashmap_load_ge_threshold ht1 with
    | false => rfl
    | true =>
      have := hex.1 hb
      omega
  rw [hashmap_assign_key_len_zero a2 ht1 hl1 hd1 hc1 k2 v2]
  have hst2 : (hashmap_assign a2 ht1 (some []) v2).1 = stat_t.COMPLETE := by
    rw [hashmap_assign_plain a2 ht1 (some []) v2 hld, hashmap_assign_entry_eq]
    exact assign_at_hit a2 ht1 (some []) v2 hk1 hc1 hkey1 hh1
  obtain ⟨hq2, _, hsz2, _, _⟩ :=
    hashmap_assign_effect a2 ht1 (some []) v2 hi1 hk1 hc1 hkey1 hst2
  have hpb := hashmap_assign_params a2 ht1 (some []) v2
  refine ⟨hst2, ?_, ?_⟩
  · show (hashmap_assign a2 ht1 (some []) v2).2.size = 1
    rw [hsz2 hh1, hs1]
  · rw [hashmap_query_key_len_zero _ (by rw [hpb.1]; exact hl1) (by rw [hpb.2.2.1]; exact hd1)
      (by rw [hpb.2.2.2]; exact hc1) k1, hq2, hz1]

/-- Witness for C38: the keys `1` and `2` of four bytes each, assigned to the map
`_hashmap_init(8, 0, 4, NULL, NULL)`. -/
theorem zero_length_keys_coincide_witness :
    (hashmap_assign grant_all
        (hashmap_assign grant_all { example_init with key_len := 0 } (some (int_bytes 1))
          (int_bytes 10)).2
        (some (int_bytes 2)) (int_bytes 20)).1 = stat_t.COMPLETE ∧
      hashmap_size
        (hashmap_assign grant_all
          (hashmap_assign grant_all { example_init with key_len := 0 } (some (int_bytes 1))
            (int_bytes 10)).2
          (some (int_bytes 2)) (int_bytes 20)).2 = 1 ∧
      hashmap_query
          (hashmap_assign grant_all
            (hashmap_assign grant_all { example_init with key_len := 0 } (some (int_bytes 1))
              (int_bytes 10)).2
            (some (int_bytes 2)) (int_bytes 20)).2
          (some (int_bytes 1))
        = (stat_t.COMPLETE, some (memcpy (int_bytes 20) 4)) :=
  zero_length_keys_coincide grant_all grant_all grant_all 8 4 { example_init with key_len := 0 }
    (int_bytes 1) (int_bytes 2) (int_bytes 10) (int_bytes 20) (by norm_num) (by norm_num)
    (by rfl) (by rfl)



/-- C35, the failing input: `_hashmap_init` with requested capacity `2 ^ 61` (key length and
element size 4) passes the guard and hands the capacity `2 ^ 61` to `hashmap_alloc`, whose byte
size `2 ^ 61 * 8 = 2 ^ 64` wraps around to `0`: the call succeeds with an allocator that grants
the bucket array only when it is asked for zero bytes.  `hashmap_reserve` with the request
`2 ^ 61` on the fresh map of the tests does the same. -/
theorem bucket_array_size_wraps :
    (_hashmap_init grant_wrapped (2 ^ 61) 4 4 none none).map hashmap_capacity = some (2 ^ 61) ∧
      ¬ (2 ^ 61 * sizeof_entry_ptr < 2 ^ 64) ∧
      u64 (2 ^ 61 * sizeof_entry_ptr) = 0 ∧
      (hashmap_reserve grant_wrapped example_init (2 ^ 61)).1 = stat_t.COMPLETE ∧
      hashmap_capacity (hashmap_reserve grant_wrapped example_init (2 ^ 61)).2 = 2 ^ 61 := by
  refine ⟨by rfl, by norm_num [sizeof_entry_ptr], by norm_num [u64, sizeof_entry_ptr], by rfl,
    by rfl⟩


/-! ## Claims C33, C36 and C37: the loop of `cityhash64` and the bytes it reads -/

/-- One pass of the loop reads inside its block of 64 bytes. -/
theorem cityhash64_body_reads_block (off : Int) (r : Int) (hr : r ∈ cityhash64_body_reads off) :
    off ≤ r ∧ r < off + 64 := by
  have hmem : ∀ (o x : Int), x ∈ fetch64_reads o → o ≤ x ∧ x < o + 8 := by
    intro o x hx
    simp only [fetch64_reads, List.mem_map, List.mem_range] at hx
    obtain ⟨i, hi, rfl⟩ := hx
    omega
  simp only [cityhash64_body_reads, weakhashlen32withseeds_reads, List.mem_append] at hr
  rcases hr with ((((hr | hr) | hr) | (((hr | hr) | hr) | hr)) | (((hr | hr) | hr) | hr)) | hr <;>
    have := hmem _ _ hr <;> omega

/-- The loop started with the counter of `cityhash64(s, len)` and at least `(len - 1) / 64`
passes allowed: it makes exactly that many passes, on the blocks at `0, 64, 128, ...`. -/
theorem cityhash64_loop_run (s : Bytes) (len fuel : Nat) (st : city_state) (h : 64 < len)
    (h64 : len < 2 ^ 64) (hf : (len - 1) / 64 ≤ fuel) :
    cityhash64_blocks fuel 0 (cityhash64_counter len)
        = some ((List.range ((len - 1) / 64)).map
            (fun k => (0 + 64 * k, 64 * ((len - 1) / 64 - 1 - k)))) ∧
      cityhash64_loop fuel s (cityhash64_counter len) st
        = some ((List.range ((len - 1) / 64)).foldl
            (fun st k => cityhash64_body (s.drop (64 * k)) st) st) := by
  have hn : 0 < (len - 1) / 64 := Nat.div_pos (by omega) (by norm_num)
  have hm := Nat.div_mul_le_self (len - 1) 64
  have hb := cityhash64_blocks_eq ((len - 1) / 64) fuel 0 hn hf (by omega)
  rw [cityhash64_counter_eq len (by omega) h64]
  refine ⟨hb, ?_⟩
  have hl := cityhash64_loop_eq_blocks fuel s 0 (64 * ((len - 1) / 64)) st
  rw [List.drop_zero] at hl
  rw [hl, hb, Option.map_some', List.foldl_map]
  simp only [Nat.zero_add]

/-- With fewer than `(len - 1) / 64` passes allowed the loop does not come to its end. -/
theorem cityhash64_loop_short (s : Bytes) (len fuel : Nat) (st : city_state) (h : 64 < len)
    (h64 : len < 2 ^ 64) (hf : fuel < (len - 1) / 64) :
    cityhash64_loop fuel s (cityhash64_counter len) st = none := by
  have hm := Nat.div_mul_le_self (len - 1) 64
  have hl := cityhash64_loop_eq_blocks fuel s 0 (cityhash64_counter len) st
  rw [List.drop_zero] at hl
  rw [hl, cityhash64_counter_eq len (by omega) h64,
    cityhash64_blocks_none ((len - 1) / 64) fuel 0 hf (by omega)]
  rfl

/-- The result of `cityhash64_fuel` does not depend on the bound once the bound is at least
`(len - 1) / 64`. -/
theorem cityhash64_fuel_stable (s : Bytes) (len fuel : Nat) (h64 : len < 2 ^ 64)
    (hf : (len - 1) / 64 ≤ fuel) :
    cityhash64_fuel fuel s len = cityhash64_fuel len s len ∧
      (cityhash64_fuel len s len).isSome = true := by
  by_cases h : 64 < len
  · have hl : (len - 1) / 64 ≤ len := le_trans (Nat.div_le_self _ _) (Nat.sub_le _ _)
    have e1 := fun st => (cityhash64_loop_run s len fuel st h h64 hf).2
    have e2 := fun st => (cityhash64_loop_run s len len st h h64 hl).2
    simp only [cityhash64_counter] at e1 e2
    have h32 : ¬ len ≤ 32 := by omega
    have h64b : ¬ len ≤ 64 := by omega
    simp only [cityhash64_fuel, h32, h64b, if_false, e1, e2, Option.isSome_some, and_self]
  · have h64b : len ≤ 64 := by omega
    by_cases h32 : len ≤ 32
    · by_cases h16 : len ≤ 16
      · simp [cityhash64_fuel, h32, h16]
      · simp [cityhash64_fuel, h32, h16]
    · simp [cityhash64_fuel, h32, h64b]

/-- C33, as stated, fails: for an input of 128 bytes the counter of the loop starts at 64, the
loop makes a single pass, on the block at offset 0, and leaves 64 bytes unconsumed, which is not
fewer than 64. -/
theorem cityhash64_loop_leaves_full_block :
    cityhash64_counter 128 = 64 ∧
      cityhash64_blocks 128 0 (cityhash64_counter 128) = some [(0, 0)] ∧
      (∀ (s : Bytes) (st : city_state),
        cityhash64_loop 128 s (cityhash64_counter 128) st = some (cityhash64_body s st)) ∧
      (cityhash64_blocks 128 0 (cityhash64_counter 128)).map
          (fun l => decide (128 - 64 * l.length < 64)) = some false := by
  have hc : cityhash64_counter 128 = 64 := by decide
  have hb : cityhash64_blocks 128 0 64 = some [(0, 0)] := by decide
  refine ⟨hc, ?_, ?_, ?_⟩
  · rw [hc, hb]
  · intro s st
    have hl := cityhash64_loop_eq_blocks 128 s 0 64 st
    rw [List.drop_zero, hb] at hl
    rw [hc, hl]
    rfl
  · rw [hc, hb]
    rfl

/-- C33, amended: for every input longer than 64 bytes (with a length that fits `size_t`), the
block loop of `cityhash64` consumes consecutive 64-byte blocks from the start of the input, each
pass reading inside its block, until at most 64 bytes remain unconsumed by the loop; at least
one byte remains, and before the last pass more than 64 bytes remained. -/
theorem cityhash64_loop_consumes_blocks (s : Bytes) (len : Nat) (st : city_state)
    (h : 64 < len) (h64 : len < 2 ^ 64) :
    ∃ n, 0 < n ∧
      (cityhash64_blocks len 0 (cityhash64_counter len)).map (fun l => l.map Prod.fst)
        = some ((List.range n).map (fun k => 64 * k)) ∧
      cityhash64_loop len s (cityhash64_counter len) st
        = some ((List.range n).foldl (fun st k => cityhash64_body (s.drop (64 * k)) st) st) ∧
      (∀ k r, k < n → r ∈ cityhash64_body_reads ((64 * k : Nat) : Int) →
        ((64 * k : Nat) : Int) ≤ r ∧ r < ((64 * k + 64 : Nat) : Int)) ∧
      len - 64 * n ≤ 64 ∧ 1 ≤ len - 64 * n ∧ 64 < len - 64 * (n - 1) := by
  have hn : 0 < (len - 1) / 64 := Nat.div_pos (by omega) (by norm_num)
  have hm := Nat.div_mul_le_self (len - 1) 64
  have hlt := Nat.lt_div_mul_add (a := len - 1) (b := 64) (by norm_num)
  have hl : (len - 1) / 64 ≤ len := le_trans (Nat.div_le_self _ _) (Nat.sub_le _ _)
  obtain ⟨hb, hloop⟩ := cityhash64_loop_run s len len st h h64 hl
  refine ⟨(len - 1) / 64, hn, ?_, hloop, ?_, by omega, by omega, by omega⟩
  · rw [hb, Option.map_some', List.map_map]
    simp only [Nat.zero_add]
    rfl
  · intro k r _ hr
    have := cityhash64_body_reads_block _ r hr
    push_cast at this ⊢
    exact this

/-- Witness for C33 amended: an input of 200 bytes. -/
theorem cityhash64_loop_consumes_blocks_witness :
    ∃ n, 0 < n ∧
      (cityhash64_blocks 200 0 (cityhash64_counter 200)).map (fun l => l.map Prod.fst)
        = some ((List.range n).map (fun k => 64 * k)) ∧
      cityhash64_loop 200 (List.replicate 200 7) (cityhash64_counter 200)
          { x := 1, y := 2, z := 3, v := (4, 5), w := (6, 7) }
        = some ((List.range n).foldl
            (fun st k => cityhash64_body ((List.replicate 200 7).drop (64 * k)) st)
            { x := 1, y := 2, z := 3, v := (4, 5), w := (6, 7) }) ∧
      (∀ k r, k < n → r ∈ cityhash64_body_reads ((64 * k : Nat) : Int) →
        ((64 * k : Nat) : Int) ≤ r ∧ r < ((64 * k + 64 : Nat) : Int)) ∧
      200 - 64 * n ≤ 64 ∧ 1 ≤ 200 - 64 * n ∧ 64 < 200 - 64 * (n - 1) :=
  cityhash64_loop_consumes_blocks (List.replicate 200 7) 200
    { x := 1, y := 2, z := 3, v := (4, 5), w := (6, 7) } (by norm_num) (by norm_num)

/-- C36: for every `len` that fits `size_t`, every byte that `cityhash64(s, len)` reads, through
`fetch64`, `fetch32` or direct indexing, in the four length branches and in the block loop, lies
at an index in `[0, len)`, so inside every buffer of exactly `len` bytes; and the digest is a
function of the bytes at these indices. -/
theorem cityhash64_reads_within_buffer (len : Nat) (h64 : len < 2 ^ 64) :
    ∃ l, cityhash64_reads_fuel len len = some l ∧ cityhash64_reads len = l ∧
      (∀ r, r ∈ l → 0 ≤ r ∧ r < (len : Int)) ∧
      (∀ s : Bytes, s.length = len → ∀ r, r ∈ l → 0 ≤ r ∧ r.toNat < s.length) ∧
      (∀ s t : Bytes, (∀ r, r ∈ l → byteAt s r.toNat = byteAt t r.toNat) →
        cityhash64 s len = cityhash64 t len) := by
  have hl : (len - 1) / 64 ≤ len := le_trans (Nat.div_le_self _ _) (Nat.sub_le _ _)
  obtain ⟨l, hl1, hl2⟩ := cityhash64_reads_fuel_in_range len len h64 hl
  refine ⟨l, hl1, ?_, hl2, ?_, ?_⟩
  · simp only [cityhash64_reads, hl1, Option.getD_some]
  · intro s hs r hr
    have := hl2 r hr
    omega
  · intro s t hag
    simp only [cityhash64]
    rw [cityhash64_fuel_agree len len s t]
    intro l2 h2
    rw [hl1] at h2
    cases h2
    exact hag

/-- Witness for C36: an input of 200 bytes. -/
theorem cityhash64_reads_within_buffer_witness :
    (200 : Nat) < 2 ^ 64 ∧
      ∃ l, cityhash64_reads_fuel 200 200 = some l ∧ cityhash64_reads 200 = l ∧
        (∀ r, r ∈ l → 0 ≤ r ∧ r < ((200 : Nat) : Int)) ∧
        (∀ s : Bytes, s.length = 200 → ∀ r, r ∈ l → 0 ≤ r ∧ r.toNat < s.length) ∧
        (∀ s t : Bytes, (∀ r, r ∈ l → byteAt s r.toNat = byteAt t r.toNat) →
          cityhash64 s 200 = cityhash64 t 200) :=
  ⟨by norm_num, cityhash64_reads_within_buffer 200 (by norm_num)⟩

/-- C37: for every `len > 64` that fits `size_t`, the counter of the `do ... while` loop of
`cityhash64` is a positive multiple of 64 on entry, `64 * ((len - 1) / 64)`, and decreases by 64
to exactly 0: the loop ends after exactly `(len - 1) / 64` passes, and not before.  So
`cityhash64` returns on every input: with `len` passes allowed it has a result, the same as with
any bound of at least `(len - 1) / 64`. -/
theorem cityhash64_loop_pass_count (s : Bytes) (len : Nat) (st : city_state)
    (h64 : len < 2 ^ 64) :
    (cityhash64_fuel len s len).isSome = true ∧
      (∀ fuel, (len - 1) / 64 ≤ fuel → cityhash64_fuel fuel s len = cityhash64_fuel len s len) ∧
      (64 < len →
        0 < cityhash64_counter len ∧ cityhash64_counter len = 64 * ((len - 1) / 64) ∧
        (∀ fuel, (len - 1) / 64 ≤ fuel →
          (∃ l, cityhash64_blocks fuel 0 (cityhash64_counter len) = some l ∧
            l.length = (len - 1) / 64 ∧
            l.map Prod.snd
              = (List.range ((len - 1) / 64)).map
                  (fun k => cityhash64_counter len - 64 * (k + 1))) ∧
          (cityhash64_loop fuel s (cityhash64_counter len) st).isSome = true) ∧
        (∀ fuel, fuel < (len - 1) / 64 →
          cityhash64_blocks fuel 0 (cityhash64_counter len) = none ∧
          cityhash64_loop fuel s (cityhash64_counter len) st = none)) := by
  have hl : (len - 1) / 64 ≤ len := le_trans (Nat.div_le_self _ _) (Nat.sub_le _ _)
  refine ⟨(cityhash64_fuel_stable s len len h64 hl).2,
    fun fuel hf => (cityhash64_fuel_stable s len fuel h64 hf).1, ?_⟩
  intro h
  have hn : 0 < (len - 1) / 64 := Nat.div_pos (by omega) (by norm_num)
  have hm := Nat.div_mul_le_self (len - 1) 64
  have hc := cityhash64_counter_eq len (by omega) h64
  refine ⟨by omega, hc, ?_, ?_⟩
  · intro fuel hf
    obtain ⟨hb, hloop⟩ := cityhash64_loop_run s len fuel st h h64 hf
    refine ⟨⟨_, hb, by simp, ?_⟩, by rw [hloop]; rfl⟩
    rw [List.map_map, hc]
    apply List.map_congr_left
    intro k hk
    have := List.mem_range.1 hk
    simp only [Function.comp]
    omega
  · intro fuel hf
    refine ⟨?_, cityhash64_loop_short s len fuel st h h64 hf⟩
    rw [hc]
    exact cityhash64_blocks_none _ fuel 0 hf (by omega)

/-- Witness for C37: an input of 200 bytes, three passes. -/
theorem cityhash64_loop_pass_count_witness :
    (200 - 1) / 64 = 3 ∧ cityhash64_counter 200 = 192 ∧
      cityhash64_blocks 3 0 (cityhash64_counter 200) = some [(0, 128), (64, 64), (128, 0)] ∧
      (cityhash64_fuel 200 (List.replicate 200 7) 200).isSome = true :=
  ⟨by decide, by decide, by decide,
    (cityhash64_loop_pass_count (List.replicate 200 7) 200
      { x := 1, y := 2, z := 3, v := (4, 5), w := (6, 7) } (by norm_num)).1⟩


/-! ## Claims C39 and C40: the deque and the array -/

/-- C39, the failing input: `deque(int, 4)` after `push_back(1)`, `push_back(2)` and a
successful `deque_shrink_to_fit` has capacity 2 and `rear = 2`: `rear < capacity` and
`rear = (front + size) mod capacity` both fail.  After a `pop_front` the following `push_back(3)`
finds room (`size = 1 < capacity = 2`), does not reallocate and stores at slot `rear = 2` of a
buffer of 2 slots; it reports `COMPLETE`, and `deque_get(1)` then yields the stale `1`, not
`3`.  Besides, `_deque_init` with capacity 0 returns a deque of capacity 8 whose buffer has
no slot, and `deque_copy` of a full deque returns a copy with `rear = capacity`. -/
theorem shrink_to_fit_breaks_ring :
    (deque_shrink_to_fit grant_all example_deque).1 = stat_t.COMPLETE ∧
      example_shrunk.capacity = 2 ∧ example_shrunk.front = 0 ∧ example_shrunk.size = 2 ∧
      example_shrunk.rear = 2 ∧
      ¬ (example_shrunk.rear < example_shrunk.capacity) ∧
      example_shrunk.rear
        ≠ (example_shrunk.front + example_shrunk.size) % example_shrunk.capacity ∧
      (deque_pop_front example_shrunk).1 = stat_t.COMPLETE ∧
      deque_grow grant_all example_shrunk_popped = (stat_t.COMPLETE, example_shrunk_popped) ∧
      example_shrunk_popped.rear = 2 ∧ deque_slots example_shrunk_popped = 2 ∧
      (deque_push_back grant_all example_shrunk_popped (int_bytes 3)).1 = stat_t.COMPLETE ∧
      deque_get (deque_push_back grant_all example_shrunk_popped (int_bytes 3)).2 1
        = (stat_t.COMPLETE, some (int_bytes 1)) ∧
      (_deque_init grant_all 0 4).map (fun deq => (deq.capacity, deq.rear, deque_slots deq))
        = some (8, 0, 0) ∧
      (deque_copy grant_all
          (deque_push_back grant_all
            (deque_push_back grant_all example_ring_init (int_bytes 1)).2 (int_bytes 2)).2).2.map
          (fun deq => (deq.capacity, deq.size, deq.rear))
        = some (2, 2, 2) := by
  decide


theorem array_alloc_fields (alloc : Nat → Bool) (arr : array_s) (capacity : Nat) :
    (array_alloc alloc arr capacity).2.size = arr.size ∧
      (array_alloc alloc arr capacity).2.capacity = arr.capacity ∧
      (array_alloc alloc arr capacity).2.elem_size = arr.elem_size := by
  simp only [array_alloc]
  split
  · exact ⟨rfl, rfl, rfl⟩
  · split
    · split <;> exact ⟨rfl, rfl, rfl⟩
    · exact ⟨rfl, rfl, rfl⟩

/-- After a successful growth step of an array whose capacity is at least 1 and whose size is
at most the capacity, the size is below the capacity. -/
theorem array_grow_room (alloc : Nat → Bool) (arr : array_s) (hc : 1 ≤ arr.capacity)
    (hs : arr.size ≤ arr.capacity) (h64 : arr.capacity < 2 ^ 64)
    (hok : (array_grow alloc arr).1 = stat_t.COMPLETE) :
    (array_grow alloc arr).2.size = arr.size ∧
      arr.size < (array_grow alloc arr).2.capacity ∧
      (array_grow alloc arr).2.capacity < 2 ^ 64 := by
  obtain ⟨f1, f2, _⟩ := array_alloc_fields alloc arr (u64 (arr.capacity * ARRAY_EXP_FACTOR))
  simp only [array_grow] at hok ⊢
  split
  · rename_i hfull
    rw [if_pos hfull] at hok
    split
    · rename_i hov
      rw [if_pos hov] at hok
      cases hok
    · rename_i hov
      split
      · rename_i hne
        rw [if_neg hov, if_pos hne] at hok
        cases hok
      · have h2 : arr.capacity < SIZE_MAX / arr.elem_size / ARRAY_EXP_FACTOR := by omega
        have h3 : SIZE_MAX / arr.elem_size / ARRAY_EXP_FACTOR ≤ (2 ^ 64 - 1) / 2 := by
          simp only [ARRAY_EXP_FACTOR, SIZE_MAX]
          exact Nat.div_le_div_right (Nat.div_le_self _ _)
        have h4 : u64 (arr.capacity * ARRAY_EXP_FACTOR) = arr.capacity * 2 := by
          simp only [u64, ARRAY_EXP_FACTOR]
          omega
        refine ⟨f1, ?_, ?_⟩
        · show arr.size < u64 ((array_alloc alloc arr
            (u64 (arr.capacity * ARRAY_EXP_FACTOR))).2.capacity * ARRAY_EXP_FACTOR)
          rw [f2, h4]
          omega
        · show u64 ((array_alloc alloc arr
            (u64 (arr.capacity * ARRAY_EXP_FACTOR))).2.capacity * ARRAY_EXP_FACTOR) < 2 ^ 64
          rw [f2, h4]
          omega
  · rename_i hfull
    exact ⟨rfl, (show arr.size < arr.capacity by omega), h64⟩

/-- For an array whose capacity is at least 1 and whose size is at most the capacity, the size
is at most the capacity again after every successful `array_push_back` and `array_insert`. -/
theorem array_push_keeps_size_in_capacity (alloc : Nat → Bool) (arr : array_s) (elem : Bytes)
    (i : Nat) (hc : 1 ≤ arr.capacity) (hs : arr.size ≤ arr.capacity)
    (h64 : arr.capacity < 2 ^ 64) :
    ((array_push_back alloc arr elem).1 = stat_t.COMPLETE →
        array_size (array_push_back alloc arr elem).2
          ≤ array_capacity (array_push_back alloc arr elem).2) ∧
      ((array_insert alloc arr elem i).1 = stat_t.COMPLETE →
        array_size (array_insert alloc arr elem i).2
          ≤ array_capacity (array_insert alloc arr elem i).2) := by
  constructor
  · intro hok
    by_cases hg : (array_grow alloc arr).1 = stat_t.COMPLETE
    · obtain ⟨g1, g2, g3⟩ := array_grow_room alloc arr hc hs h64 hg
      simp only [array_push_back, array_size, array_capacity]
      rw [if_neg (not_not.2 hg)]
      show u64 ((array_grow alloc arr).2.size + 1) ≤ (array_grow alloc arr).2.capacity
      rw [g1]
      simp only [u64]
      omega
    · simp only [array_push_back] at hok
      rw [if_pos hg] at hok
      exact absurd hok hg
  · intro hok
    by_cases hi : i > arr.size
    · simp only [array_insert] at hok
      rw [if_pos hi] at hok
      cases hok
    · by_cases hg : (array_grow alloc arr).1 = stat_t.COMPLETE
      · obtain ⟨g1, g2, g3⟩ := array_grow_room alloc arr hc hs h64 hg
        simp only [array_insert, array_size, array_capacity]
        rw [if_neg hi, if_neg (not_not.2 hg)]
        split
        · show u64 ((array_grow alloc arr).2.size + 1) ≤ (array_grow alloc arr).2.capacity
          rw [g1]
          simp only [u64]
          omega
        · show u64 ((array_grow alloc arr).2.size + 1) ≤ (array_grow alloc arr).2.capacity
          rw [g1]
          simp only [u64]
          omega
      · simp only [array_insert] at hok
        rw [if_neg hi, if_pos hg] at hok
        exact absurd hok hg

/-- C40, the failing input: `_array_init` with capacity 0 and element size 4 succeeds when the
request of zero bytes is granted and returns an array of capacity 0 whose buffer has no slot.
`array_push_back` then doubles the capacity `0` to `0`, stores the element at slot 0 and
reports `COMPLETE` with size 1 at capacity 0; `array_insert` at index 0 does the same. -/
theorem push_on_zero_capacity_array_overflows :
    _array_init grant_all 0 4 false = some example_array ∧
      array_capacity example_array = 0 ∧ array_slots example_array = 0 ∧
      (array_push_back grant_all example_array (int_bytes 1)).1 = stat_t.COMPLETE ∧
      array_size (array_push_back grant_all example_array (int_bytes 1)).2 = 1 ∧
      array_capacity (array_push_back grant_all example_array (int_bytes 1)).2 = 0 ∧
      array_slots (array_push_back grant_all example_array (int_bytes 1)).2 = 0 ∧
      ¬ (array_size (array_push_back grant_all example_array (int_bytes 1)).2
          ≤ array_capacity (array_push_back grant_all example_array (int_bytes 1)).2) ∧
      (array_insert grant_all example_array (int_bytes 1) 0).1 = stat_t.COMPLETE ∧
      array_size (array_insert grant_all example_array (int_bytes 1) 0).2 = 1 ∧
      array_capacity (array_insert grant_all example_array (int_bytes 1) 0).2 = 0 ∧
      (_array_init grant_all 0 4 true).map
          (fun arr => (array_push_back grant_all arr (int_bytes 1)).1) = some stat_t.COMPLETE ∧
      (_array_init grant_all 0 4 true).map
          (fun arr => (array_size (array_push_back grant_all arr (int_bytes 1)).2,
            array_capacity (array_push_back grant_all arr (int_bytes 1)).2)) = some (1, 0) := by
  decide


end Cat
